import Mathlib

/-! ## Sticky / least-connections peer selection

A shallow embedding of `ngx_http_sticky_lc_module.c`: the per-request sticky
matcher (`ngx_http_init_sticky_peer`), the sticky peer selector
(`ngx_http_get_sticky_peer`) and the weighted least-connections algorithm
(`ngx_http_upstream_get_least_conn_peer`).

Conventions of the embedding (LP64 platform):

* `ngx_uint_t` / `uintptr_t` values are `Nat`; arithmetic the code performs on
  them is taken modulo `2 ^ 64` (`UINT_MOD`).
* `ngx_int_t` and `time_t` values are `Int`; the sums and differences the code
  stores into `current_weight` and `total` go through `to_ngx_int`, the
  conversion to a 64-bit `ngx_int_t`.
* `int` fields (`selected_peer`, `no_fallback`) are `Int`; a store of a wider
  value goes through `to_int`, the conversion to a 32-bit `int`.
* pointers to peers are indices into the pool's peer sequence; pointers to
  socket addresses and names are opaque handles (`Nat`).
* byte strings (`ngx_str_t`) are lists of byte values, `len` being the length.
* the code is read as compiled against nginx 1.11.5 or later: the `max_conns`
  tests are present and `rrp.current` is a peer pointer.
* the pool locks, the log calls and the callback registrations have no effect
  on the values computed and are left out.
-/

namespace Sticky

/-! ## Constants and machine arithmetic -/

/-- Bits per machine word, `8 * sizeof(uintptr_t)`. -/
def WORD_BITS : Nat := 64

/-- Modulus of `ngx_uint_t` arithmetic. -/
def UINT_MOD : Nat := 2 ^ 64

/-- Largest `ngx_int_t`, as in the nginx core. -/
def NGX_MAX_INT_T_VALUE : Int := 9223372036854775807

def NGX_OK : Int := 0

def NGX_ERROR : Int := -1

def NGX_BUSY : Int := -3

def NGX_DECLINED : Int := -5

def NGX_LB_ALG_RR : Nat := 1

def NGX_LB_ALG_LC : Nat := 2

/-- Conversion of an integer value to a 32-bit C `int` (two's complement wrap). -/
def to_int (v : Int) : Int := (v + 2147483648) % 4294967296 - 2147483648

/-- Conversion of an integer value to a 64-bit `ngx_int_t` (two's complement
wrap, as the compiled code computes a sum that leaves the range). -/
def to_ngx_int (v : Int) : Int :=
  (v + 9223372036854775808) % 18446744073709551616 - 9223372036854775808

/-- The product `conns * weight` as the C code computes it: the signed weight
is converted to `ngx_uint_t` and the product is taken modulo `2 ^ 64`. -/
def umul (a : Nat) (w : Int) : Nat := (((a : Int) * w) % (UINT_MOD : Int)).toNat

/-! ## Data model -/

/-- One backend peer record, `ngx_http_upstream_rr_peer_t` (fields the module uses). -/
structure Peer where
  sockaddr : Nat
  socklen : Nat
  name : Nat
  current_weight : Int
  effective_weight : Int
  weight : Int
  conns : Nat
  max_conns : Nat
  fails : Nat
  accessed : Int
  checked : Int
  max_fails : Nat
  fail_timeout : Int
  down : Bool
deriving DecidableEq, Repr, Inhabited

/-- One pool of peers, `ngx_http_upstream_rr_peers_t`.  The linked list
`peer, peer->next, ...` and the array `peer[i]` are the same sequence; the link
`next` to the backup pool is kept beside the active pool in `RrPeerData`. -/
structure RrPeers where
  single : Bool
  name : Nat
  peer : List Peer
deriving DecidableEq, Repr, Inhabited

/-- The field `number` of a pool: how many peers it holds. -/
def RrPeers.number (p : RrPeers) : Nat := p.peer.length

/-- Per-request round-robin data, `ngx_http_upstream_rr_peer_data_t`.
`peers` is the pool `rrp->peers` points to, `next` the chain
`rrp->peers->next, rrp->peers->next->next, ...` of backup pools behind it,
`current` the index of the current peer in the active pool (`none` is NULL),
`tried` the bitmap words. -/
structure RrPeerData where
  peers : RrPeers
  next : List RrPeers
  current : Option Nat
  tried : List Nat
deriving DecidableEq, Repr, Inhabited

/-- The connection target, `ngx_peer_connection_t` (fields the module writes). -/
structure PeerConnection where
  cached : Nat
  connection : Option Nat
  sockaddr : Nat
  socklen : Nat
  name : Nat
deriving DecidableEq, Repr, Inhabited

/-- One entry of the digest table, `ngx_http_sticky_peer_t`. -/
structure StickyPeer where
  rr_peer : Nat
  digest : List Nat
deriving DecidableEq, Repr, Inhabited

/-- The digest functions of `hash=`. -/
inductive HashFn where
  | md5
  | sha1
deriving DecidableEq, Repr

/-- The digest functions of `hmac=`. -/
inductive HmacFn where
  | hmac_md5
  | hmac_sha1
deriving DecidableEq, Repr

/-- The digest functions of `text=`. -/
inductive TextFn where
  | text_raw
  | text_md5
  | text_sha1
deriving DecidableEq, Repr

/-- The server group configuration, `ngx_http_sticky_srv_conf_t`.  A function
pointer is `none` when it is NULL; `peers` is `none` when the digest table was
never built. -/
structure StickySrvConf where
  cookie_name : List Nat
  cookie_domain : List Nat
  cookie_path : List Nat
  cookie_expires : Int
  cookie_secure : Nat
  cookie_httponly : Nat
  hmac_key : List Nat
  hash : Option HashFn
  hmac : Option HmacFn
  text : Option TextFn
  no_fallback : Nat
  peers : Option (List StickyPeer)
  lb_alg : Nat
deriving DecidableEq, Repr

/-- One call of the cookie writer `ngx_http_sticky_misc_set_cookie`, recorded
with all its arguments. -/
structure SetCookie where
  name : List Nat
  value : List Nat
  domain : List Nat
  path : List Nat
  expires : Int
  secure : Nat
  httponly : Nat
deriving DecidableEq, Repr

/-- What the module touches of the request: whether its memory pool can still
allocate, and the cookies written so far (oldest first). -/
structure Request where
  pool_ok : Bool
  set_cookies : List SetCookie
deriving DecidableEq, Repr

/-- The per-request sticky data `ngx_http_sticky_peer_data_t` together with the
connection target and the request it belongs to. -/
structure State where
  rrp : RrPeerData
  selected_peer : Int
  no_fallback : Int
  lb_alg : Nat
  request : Request
  pc : PeerConnection
deriving DecidableEq, Repr

/-! ## The tried bitmap -/

/-- Test of peer `i`: `tried[i / W] & (1 << i % W)` is non-zero. -/
def tried_test (tried : List Nat) (i : Nat) : Bool :=
  (tried.getD (i / WORD_BITS) 0) &&& (1 <<< (i % WORD_BITS)) != 0

/-- Mark of peer `i`: `tried[i / W] |= 1 << i % W`. -/
def tried_set (tried : List Nat) (i : Nat) : List Nat :=
  tried.set (i / WORD_BITS) ((tried.getD (i / WORD_BITS) 0) ||| (1 <<< (i % WORD_BITS)))

/-- The reset loop `for (i = 0; i < n; i++) tried[i] = 0`. -/
def tried_clear : List Nat → Nat → List Nat
  | [], _ => []
  | w :: ws, 0 => w :: ws
  | _ :: ws, n + 1 => 0 :: tried_clear ws n

/-! ## Weighted least connections -/

/-- The three `continue` tests of the least-connections scans: bit set or
down; over `max_fails` inside the fail-timeout window; at `max_conns`. -/
def lc_skip (now : Int) (tried : List Nat) (i : Nat) (peer : Peer) : Bool :=
  (tried_test tried i || peer.down)
  || (peer.max_fails != 0 && decide (peer.fails ≥ peer.max_fails)
        && decide (now - peer.checked ≤ peer.fail_timeout))
  || (peer.max_conns != 0 && decide (peer.conns ≥ peer.max_conns))

/-- The first scan (lines 491-539): walks the peers from index `i`, keeping
`best` with its index `p` and the flag `many`.  Peers are not written during
this scan, so `best` is carried by value. -/
def lc_scan (now : Int) (tried : List Nat) :
    List Peer → Nat → Option (Nat × Peer) → Bool → Option (Nat × Peer) × Bool
  | [], _, best, many => (best, many)
  | peer :: rest, i, best, many =>
    if lc_skip now tried i peer then lc_scan now tried rest (i + 1) best many
    else
      match best with
      | none => lc_scan now tried rest (i + 1) (some (i, peer)) false
      | some (p, b) =>
        if umul peer.conns b.weight < umul b.conns peer.weight then
          lc_scan now tried rest (i + 1) (some (i, peer)) false
        else if umul peer.conns b.weight = umul b.conns peer.weight then
          lc_scan now tried rest (i + 1) (some (p, b)) true
        else lc_scan now tried rest (i + 1) (some (p, b)) many

/-- The result of the tie-break scan: the peers it walked (as written back),
the final `best` with its index `p`, and `total`. -/
structure TieResult where
  peers : List Peer
  p : Nat
  best : Peer
  total : Int
deriving DecidableEq, Repr

/-- The tie-break scan (lines 576-613) over the peers from index `i` on.
`best` is the record `best` points to, kept up to date: on the iteration where
`peer` is `best` itself (`i = p`) the write to `peer` is a write to `best`.
The sums of lines 602 and 603 are 64-bit `ngx_int_t` sums; the increment of
line 606 is made below `weight` and stays in the range. -/
def lc_tie (now : Int) (tried : List Nat) : List Peer → Nat → Nat → Peer → Int → TieResult
  | [], _, p, best, total => ⟨[], p, best, total⟩
  | peer :: rest, i, p, best, total =>
    if tried_test tried i || peer.down then
      let r := lc_tie now tried rest (i + 1) p best total
      { r with peers := peer :: r.peers }
    else if umul peer.conns best.weight ≠ umul best.conns peer.weight then
      let r := lc_tie now tried rest (i + 1) p best total
      { r with peers := peer :: r.peers }
    else if peer.max_fails != 0 && decide (peer.fails ≥ peer.max_fails)
        && decide (now - peer.checked ≤ peer.fail_timeout) then
      let r := lc_tie now tried rest (i + 1) p best total
      { r with peers := peer :: r.peers }
    else if peer.max_conns != 0 && decide (peer.conns ≥ peer.max_conns) then
      let r := lc_tie now tried rest (i + 1) p best total
      { r with peers := peer :: r.peers }
    else
      let peer1 := { peer with
        current_weight := to_ngx_int (peer.current_weight + peer.effective_weight) }
      let total1 := to_ngx_int (total + peer1.effective_weight)
      let peer2 := if peer1.effective_weight < peer1.weight
        then { peer1 with effective_weight := peer1.effective_weight + 1 } else peer1
      let best1 := if i = p then peer2 else best
      let r := if peer2.current_weight > best1.current_weight
        then lc_tie now tried rest (i + 1) i peer2 total1
        else lc_tie now tried rest (i + 1) p best1 total1
      { r with peers := peer2 :: r.peers }

/-- The writes to the winner after the scans (lines 616-626):
`current_weight -= total` (a 64-bit `ngx_int_t` difference), `checked = now`
when stale, `conns++`. -/
def lc_commit (now : Int) (total : Int) (best : Peer) : Peer :=
  let b1 := { best with current_weight := to_ngx_int (best.current_weight - total) }
  let b2 := if now - b1.checked > b1.fail_timeout then { b1 with checked := now } else b1
  { b2 with conns := (b2.conns + 1) % UINT_MOD }

/-- The tie-break (lines 573-614): entered only with `many` set, it rescans
the peers from `best` on; otherwise `best` stands and `total` stays 0. -/
def lc_break_tie (now : Int) (tried : List Nat) (peer : List Peer) (p0 : Nat) (best0 : Peer)
    (many : Bool) : TieResult :=
  if many then
    let r := lc_tie now tried (peer.drop p0) p0 p0 best0 0
    { r with peers := peer.take p0 ++ r.peers }
  else ⟨peer, p0, best0, 0⟩

/-- The success exit (lines 616-638): the winner is written back, becomes the
connection target and the current peer, and its bit is set. -/
def lc_finish (now : Int) (st : State) (t : TieResult) : State :=
  let best := lc_commit now t.total t.best
  { st with
    rrp := { st.rrp with
      peers := { st.rrp.peers with peer := t.peers.set t.p best },
      current := some t.p,
      tried := tried_set st.rrp.tried t.p },
    pc := { st.pc with sockaddr := best.sockaddr, socklen := best.socklen, name := best.name } }

/-- The function `ngx_http_upstream_get_least_conn_peer`.  `rr` is the external
`ngx_http_upstream_get_round_robin_peer` and `sticky` the call
`ngx_http_get_sticky_peer(pc, rrp)` made after the switch to the backup pool. -/
def ngx_http_upstream_get_least_conn_peer_with
    (rr : RrPeerData → PeerConnection → Int × RrPeerData × PeerConnection)
    (sticky : State → Int × State) (now : Int) (st : State) : Int × State :=
  if st.rrp.peers.single then
    let r := rr st.rrp st.pc
    (r.1, { st with rrp := r.2.1, pc := r.2.2 })
  else
    let pc0 := { st.pc with cached := 0, connection := none }
    let peers := st.rrp.peers
    match lc_scan now st.rrp.tried peers.peer 0 none false with
    | (none, _) =>
      match st.rrp.next with
      | nxt :: more =>
        let n := (nxt.number + (WORD_BITS - 1)) / WORD_BITS
        let st1 := { st with
          rrp := { st.rrp with peers := nxt, next := more, tried := tried_clear st.rrp.tried n },
          pc := pc0 }
        let r := sticky st1
        if NGX_BUSY ≠ r.1 then r
        else (NGX_BUSY, { r.2 with pc := { r.2.pc with name := peers.name } })
      | [] => (NGX_BUSY, { st with pc := { pc0 with name := peers.name } })
    | (some (p0, best0), many) =>
      (NGX_OK, lc_finish now { st with pc := pc0 }
        (lc_break_tie now st.rrp.tried peers.peer p0 best0 many))

/-! ## Sticky peer selection -/

/-- What the sticky validation (lines 296-347) hands on: either an early
`return`, or the state with the locals `peer` (index and record, `none` for
NULL), `selected_peer`, `n` and `m`. -/
inductive Validated where
  | ret (rc : Int) (st : State)
  | go (st : State) (peer : Option (Nat × Peer)) (selected_peer : Int) (n m : Nat)
deriving DecidableEq, Repr

/-- Store of a peer record at index `i` of the active pool. -/
def write_peer (st : State) (i : Nat) (peer : Peer) : State :=
  { st with
    rrp := { st.rrp with peers := { st.rrp.peers with peer := st.rrp.peers.peer.set i peer } } }

/-- The eligibility rule of lines 334-345, entered with `selected_peer = -1`. -/
def sticky_eligible (now : Int) (st : State) (sp : Nat) (peer : Peer) (n m : Nat) : Validated :=
  if peer.max_fails = 0 ∨ peer.fails < peer.max_fails then
    .go st (some (sp, peer)) (n : Int) n m
  else if now - peer.accessed > peer.fail_timeout then
    let peer1 := { peer with fails := 0 }
    .go (write_peer st sp peer1) (some (sp, peer1)) (n : Int) n m
  else
    .go { st with rrp := { st.rrp with tried := st.rrp.tried.set n (st.rrp.tried.getD n 0 ||| m) } }
      (some (sp, peer)) (-1) n m

/-- The validation of the sticky candidate (lines 296-347). -/
def sticky_validate (conf : StickySrvConf) (now : Int) (st : State) : Validated :=
  if 0 ≤ st.selected_peer ∧ st.selected_peer < (st.rrp.peers.number : Int)
      ∧ st.rrp.peers.single = false then
    let sp := st.selected_peer.toNat
    let n := sp / WORD_BITS
    let m := 1 <<< (sp % WORD_BITS)
    if (st.rrp.tried.getD n 0) &&& m = 0 then
      match st.rrp.peers.peer[sp]? with
      | none => .go st none (-1) n m
      | some peer =>
        if peer.down then
          .ret NGX_BUSY { st with no_fallback := to_int conf.no_fallback }
        else if conf.no_fallback ≠ 0 then
          let st1 := { st with no_fallback := 1 }
          let stale := now - peer.accessed > peer.fail_timeout
          let peer1 := if stale then { peer with fails := 0 } else peer
          let st2 := if stale then write_peer st1 sp peer1 else st1
          if peer1.max_fails > 0 ∧ peer1.fails ≥ peer1.max_fails then .ret NGX_BUSY st2
          else sticky_eligible now st2 sp peer1 n m
        else sticky_eligible now st sp peer n m
    else .go st none (-1) n m
  else .go st none (-1) 0 0

/-- The acceptance branch (lines 350-370): the candidate becomes the current
peer and the connection target, its `conns` is incremented, its bit is set. -/
def sticky_accept (st : State) (sp : Nat) (peer : Peer) (n m : Nat) : State :=
  let peer1 := { peer with conns := (peer.conns + 1) % UINT_MOD }
  { st with
    rrp := { st.rrp with
      peers := { st.rrp.peers with peer := st.rrp.peers.peer.set sp peer1 },
      current := some sp,
      tried := st.rrp.tried.set n (st.rrp.tried.getD n 0 ||| m) },
    pc := { st.pc with cached := 0, connection := none, sockaddr := peer.sockaddr,
                       socklen := peer.socklen, name := peer.name } }

/-- The loop `do { route.len++; } while (tmp /= 10)` (at most 20 rounds for a
64-bit value). -/
def route_len : Nat → Nat → Nat
  | 0, _ => 0
  | fuel + 1, tmp => 1 + (if tmp / 10 ≠ 0 then route_len fuel (tmp / 10) else 0)

/-- The digit loop of the nginx core, `do { *--p = ui64 % 10 + 48; } while (ui64 /= 10)`. -/
def sprintf_num : Nat → Nat → List Nat → List Nat
  | 0, _, acc => acc
  | fuel + 1, ui64, acc =>
    if ui64 / 10 ≠ 0 then sprintf_num fuel (ui64 / 10) ((ui64 % 10 + 48) :: acc)
    else (ui64 % 10 + 48) :: acc

/-- The call `ngx_snprintf(buf, max, "%d", i)` of the nginx core: the argument
is read as an `int`, printed in decimal with a leading minus sign when
negative, and cut to `max` bytes. -/
def ngx_snprintf_d (max : Nat) (i : Nat) : List Nat :=
  let v := to_int i
  ((if v < 0 then [45] else []) ++ sprintf_num 20 v.natAbs []).take max

/-- The C string length of a buffer: the bytes before the first zero byte. -/
def ngx_strlen (buf : List Nat) : Nat := (buf.takeWhile (fun c => c != 0)).length

/-- The cookie value of index mode for peer `i` (lines 425-440): a zeroed
buffer of `route.len + 1` bytes, filled by `ngx_snprintf`, its length then
recomputed by `ngx_strlen`. -/
def index_route (i : Nat) : List Nat :=
  let len := route_len 20 i
  let out := ngx_snprintf_d len i
  let buf := out ++ List.replicate (len + 1 - out.length) 0
  buf.take (ngx_strlen buf)

/-- The call of the cookie writer with the configured attributes. -/
def set_cookie (conf : StickySrvConf) (value : List Nat) (st : State) : State :=
  { st with request := { st.request with
      set_cookies := st.request.set_cookies ++
        [⟨conf.cookie_name, value, conf.cookie_domain, conf.cookie_path, conf.cookie_expires,
          conf.cookie_secure, conf.cookie_httponly⟩] } }

/-- The digest `conf->peers[i].digest` the cookie writer is given (an entry
outside the table, which the C code would read out of bounds, reads as empty). -/
def digest_at (conf : StickySrvConf) (i : Nat) : List Nat :=
  match conf.peers with
  | some tbl => (tbl.getD i default).digest
  | none => []

/-- The cookie write for the peer found at index `i` (lines 414-446): the
digest of entry `i` in digest mode; in index mode the decimal string of `i`,
and nothing when the allocation of its buffer fails. -/
def route_cookie (conf : StickySrvConf) (st : State) (i : Nat) : State :=
  if conf.hash.isSome ∨ conf.hmac.isSome ∨ conf.text.isSome then
    set_cookie conf (digest_at conf i) st
  else if st.request.pool_ok then set_cookie conf (index_route i) st
  else st

/-- The search for the chosen peer (lines 408-450) over the peers from index
`i` on: the first peer with the `sockaddr` and `socklen` of the connection
target gets the cookie, and the loop ends. -/
def sticky_cookie_loop (conf : StickySrvConf) (st : State) : List Peer → Nat → State
  | [], _ => st
  | peer :: rest, i =>
    if peer.sockaddr = st.pc.sockaddr ∧ peer.socklen = st.pc.socklen then route_cookie conf st i
    else sticky_cookie_loop conf st rest (i + 1)

/-- The choice of the fallback algorithm (lines 381-397): the return code and
state of the configured algorithm, `none` for the `return NGX_BUSY` taken when
`lb_alg` names neither. -/
def fallback_select
    (rr : RrPeerData → PeerConnection → Int × RrPeerData × PeerConnection)
    (lc : State → Int × State) (conf : StickySrvConf) (st : State) : Option (Int × State) :=
  if NGX_LB_ALG_RR = conf.lb_alg then
    let st1 := { st with lb_alg := NGX_LB_ALG_RR }
    let r := rr st1.rrp st1.pc
    some (r.1, { st1 with rrp := r.2.1, pc := r.2.2 })
  else if NGX_LB_ALG_LC = conf.lb_alg then
    some (lc { st with lb_alg := NGX_LB_ALG_LC })
  else none

/-- The fallback branch (lines 372-451) followed by the common exit. -/
def sticky_fallback
    (rr : RrPeerData → PeerConnection → Int × RrPeerData × PeerConnection)
    (lc : State → Int × State) (conf : StickySrvConf) (st : State) : Int × State :=
  if st.no_fallback ≠ 0 then (NGX_BUSY, st)
  else
    match fallback_select rr lc conf st with
    | none => (NGX_BUSY, st)
    | some (ret, st2) =>
      if NGX_OK ≠ ret then (ret, st2)
      else
        (NGX_OK, { sticky_cookie_loop conf st2 st2.rrp.peers.peer 0 with selected_peer := -1 })

/-- The function `ngx_http_get_sticky_peer`, with the two fallback algorithms
passed in: `rr` is the external round-robin selection, `lc` the call of
`ngx_http_upstream_get_least_conn_peer`. -/
def ngx_http_get_sticky_peer_with
    (rr : RrPeerData → PeerConnection → Int × RrPeerData × PeerConnection)
    (lc : State → Int × State) (conf : StickySrvConf) (now : Int) (st : State) : Int × State :=
  match sticky_validate conf now st with
  | .ret rc st1 => (rc, st1)
  | .go st1 (some (sp, peer)) selected_peer n m =>
    if selected_peer ≥ 0 then
      (NGX_OK, { sticky_accept st1 sp peer n m with selected_peer := -1 })
    else sticky_fallback rr lc conf st1
  | .go st1 none _ _ _ => sticky_fallback rr lc conf st1

/-- The mutual recursion of the two functions, unrolled along the chain of
backup pools: `sticky_depth d` is `ngx_http_get_sticky_peer` for a state whose
chain `rrp.next` has at most `d` pools.  The recursive call is made only after
the active pool has been replaced by the head of the chain, so the innermost
instance (empty chain) never makes it. -/
def sticky_depth
    (rr : RrPeerData → PeerConnection → Int × RrPeerData × PeerConnection)
    (conf : StickySrvConf) (now : Int) : Nat → State → Int × State
  | 0 =>
    ngx_http_get_sticky_peer_with rr
      (ngx_http_upstream_get_least_conn_peer_with rr (fun st => (NGX_BUSY, st)) now) conf now
  | d + 1 =>
    ngx_http_get_sticky_peer_with rr
      (ngx_http_upstream_get_least_conn_peer_with rr (sticky_depth rr conf now d) now) conf now

/-- The function `ngx_http_get_sticky_peer(pc, data)`. -/
def ngx_http_get_sticky_peer
    (rr : RrPeerData → PeerConnection → Int × RrPeerData × PeerConnection)
    (conf : StickySrvConf) (now : Int) (st : State) : Int × State :=
  sticky_depth rr conf now st.rrp.next.length st

/-- The function `ngx_http_upstream_get_least_conn_peer(pc, data)`. -/
def ngx_http_upstream_get_least_conn_peer
    (rr : RrPeerData → PeerConnection → Int × RrPeerData × PeerConnection)
    (conf : StickySrvConf) (now : Int) (st : State) : Int × State :=
  ngx_http_upstream_get_least_conn_peer_with rr
    (sticky_depth rr conf now (st.rrp.next.length - 1)) now st

/-! ## The sticky matcher -/

/-- The comparison `ngx_strncmp` of the nginx core (C `strncmp`): at most `n`
bytes, stopping at a zero byte; a read past the end of a list reads the
terminating zero. -/
def ngx_strncmp : List Nat → List Nat → Nat → Int
  | _, _, 0 => 0
  | s1, s2, n + 1 =>
    if s1.headD 0 ≠ s2.headD 0 then (s1.headD 0 : Int) - (s2.headD 0 : Int)
    else if s1.headD 0 = 0 then 0
    else ngx_strncmp s1.tail s2.tail n

/-- The digit loop of `ngx_atoi`. -/
def ngx_atoi_loop : List Nat → Int → Int
  | [], value => value
  | c :: rest, value =>
    if c < 48 ∨ c > 57 then NGX_ERROR
    else if value ≥ NGX_MAX_INT_T_VALUE / 10
        ∧ (value > NGX_MAX_INT_T_VALUE / 10 ∨ (c : Int) - 48 > NGX_MAX_INT_T_VALUE % 10) then
      NGX_ERROR
    else ngx_atoi_loop rest (value * 10 + ((c : Int) - 48))

/-- The parser `ngx_atoi(line, n)` of the nginx core. -/
def ngx_atoi (line : List Nat) : Int :=
  if line.length = 0 then NGX_ERROR else ngx_atoi_loop line 0

/-- The digest search (lines 231-245) over the table entries from index `i`
on; `some i` is the early return with `selected_peer = i`. -/
def digest_search (route : List Nat) (number : Nat) : List StickyPeer → Nat → Option Nat
  | [], _ => none
  | sp :: rest, i =>
    if i < number then
      if sp.digest.length ≠ route.length ∨ route.length ≤ 0 then
        digest_search route number rest (i + 1)
      else if 0 = ngx_strncmp sp.digest route route.length then some i
      else digest_search route number rest (i + 1)
    else none

/-- What `ngx_http_init_sticky_peer` takes from its collaborators: whether the
allocation of the sticky data succeeds, the return code and the data set up
by `ngx_http_upstream_init_round_robin_peer`, and the value of the route
cookie when the request has one. -/
structure InitEnv where
  palloc_ok : Bool
  rr_rc : Int
  rrp : RrPeerData
  cookie : Option (List Nat)
deriving DecidableEq, Repr

/-- The function `ngx_http_init_sticky_peer`: the return code and, once the
sticky data is initialised, the per-request state (its `lb_alg`, which the C
code leaves unset, starts as 0). -/
def ngx_http_init_sticky_peer (conf : StickySrvConf) (env : InitEnv) (r : Request)
    (pc : PeerConnection) : Int × Option State :=
  if env.palloc_ok = false then (NGX_ERROR, none)
  else if NGX_OK ≠ env.rr_rc then (NGX_ERROR, none)
  else
    let iphp : State :=
      { rrp := env.rrp, selected_peer := -1, no_fallback := 0, lb_alg := 0, request := r, pc := pc }
    match env.cookie with
    | some route =>
      if conf.hash.isSome ∨ conf.hmac.isSome ∨ conf.text.isSome then
        match conf.peers with
        | none => (NGX_OK, some iphp)
        | some tbl =>
          match digest_search route iphp.rrp.peers.number tbl 0 with
          | some i => (NGX_OK, some { iphp with selected_peer := to_int i })
          | none => (NGX_OK, some iphp)
      else
        let n := ngx_atoi route
        if NGX_ERROR = n then (NGX_OK, some iphp)
        else if n ≥ 0 ∧ n < (iphp.rrp.peers.number : Int) then
          (NGX_OK, some { iphp with selected_peer := to_int n })
        else (NGX_OK, some iphp)
    | none => (NGX_OK, some iphp)

/-! ## The directive parser -/

/-- The value `NGX_CONF_UNSET` of the nginx core. -/
def NGX_CONF_UNSET : Int := -1

/-- The search of `strstr` over the bytes of a C string, from offset `i`: the
offset of the first occurrence of `pat`, `none` for NULL. -/
def ngx_strstr_from (pat : List Nat) : List Nat → Nat → Option Nat
  | [], i => if pat = [] then some i else none
  | c :: rest, i =>
    if pat.isPrefixOf (c :: rest) then some i else ngx_strstr_from pat rest (i + 1)

/-- The call `ngx_strstr(s, pat)` of the nginx core (C `strstr`): the C string
`s` ends at its first zero byte; the result is the offset of the first
occurrence of `pat` in it, so `some 0` is the pointer `s` itself. -/
def ngx_strstr (s pat : List Nat) : Option Nat :=
  ngx_strstr_from pat (s.takeWhile (fun c => c != 0)) 0

/-- The string `lb_alg=`. -/
def str_lb_alg : List Nat := [108, 98, 95, 97, 108, 103, 61]
/-- The string `rr`. -/
def str_rr : List Nat := [114, 114]
/-- The string `lc`. -/
def str_lc : List Nat := [108, 99]
/-- The string `name=`. -/
def str_name : List Nat := [110, 97, 109, 101, 61]
/-- The string `domain=`. -/
def str_domain : List Nat := [100, 111, 109, 97, 105, 110, 61]
/-- The string `path=`. -/
def str_path : List Nat := [112, 97, 116, 104, 61]
/-- The string `expires=`. -/
def str_expires : List Nat := [101, 120, 112, 105, 114, 101, 115, 61]
/-- The string `secure`. -/
def str_secure : List Nat := [115, 101, 99, 117, 114, 101]
/-- The string `httponly`. -/
def str_httponly : List Nat := [104, 116, 116, 112, 111, 110, 108, 121]
/-- The string `text=`. -/
def str_text : List Nat := [116, 101, 120, 116, 61]
/-- The string `raw`. -/
def str_raw : List Nat := [114, 97, 119]
/-- The string `md5`. -/
def str_md5 : List Nat := [109, 100, 53]
/-- The string `sha1`. -/
def str_sha1 : List Nat := [115, 104, 97, 49]
/-- The string `hash=`. -/
def str_hash : List Nat := [104, 97, 115, 104, 61]
/-- The string `index`. -/
def str_index : List Nat := [105, 110, 100, 101, 120]
/-- The string `hmac=`. -/
def str_hmac : List Nat := [104, 109, 97, 99, 61]
/-- The string `hmac_key=`. -/
def str_hmac_key : List Nat := [104, 109, 97, 99, 95, 107, 101, 121, 61]
/-- The string `no_fallback`. -/
def str_no_fallback : List Nat := [110, 111, 95, 102, 97, 108, 108, 98, 97, 99, 107]

/-- The local `hash` of `ngx_http_sticky_set`: `NGX_CONF_UNSET_PTR`, NULL, or
one of the digest functions. -/
inductive HashPtr where
  | unset
  | null
  | fn (f : HashFn)
deriving DecidableEq, Repr

/-- The locals of `ngx_http_sticky_set` that the argument loop writes. -/
structure StickySetLocals where
  name : List Nat
  domain : List Nat
  path : List Nat
  hmac_key : List Nat
  expires : Int
  secure : Nat
  httponly : Nat
  no_fallback : Nat
  hash : HashPtr
  hmac : Option HmacFn
  text : Option TextFn
  lb_alg : Nat
deriving DecidableEq, Repr

/-- The initial values of the locals (lines 652-665). -/
def sticky_set_init : StickySetLocals :=
  { name := [114, 111, 117, 116, 101], domain := [], path := [47], hmac_key := [],
    expires := NGX_CONF_UNSET, secure := 0, httponly := 0, no_fallback := 0,
    hash := HashPtr.unset, hmac := none, text := none, lb_alg := NGX_LB_ALG_RR }

/-- One round of the argument loop from the `name=` test on (lines 697-925);
`none` is `return NGX_CONF_ERROR`, `some` is `continue`.  `parse_time` is the
external `ngx_parse_time(&tmp, 1)`. -/
def sticky_set_arg_rest (parse_time : List Nat → Int) (L : StickySetLocals) (a : List Nat) :
    Option StickySetLocals :=
  if ngx_strstr a str_name = some 0 then
    if a.length ≤ 5 then none else some { L with name := a.drop 5 }
  else if ngx_strstr a str_domain = some 0 then
    if a.length ≤ 7 then none else some { L with domain := a.drop 7 }
  else if ngx_strstr a str_path = some 0 then
    if a.length ≤ 5 then none else some { L with path := a.drop 5 }
  else if ngx_strstr a str_expires = some 0 then
    if a.length ≤ 8 then none
    else if NGX_ERROR = parse_time (a.drop 8) ∨ parse_time (a.drop 8) < 1 then none
    else some { L with expires := parse_time (a.drop 8) }
  else if 0 = ngx_strncmp a str_secure 6 ∧ 6 = a.length then some { L with secure := 1 }
  else if 0 = ngx_strncmp a str_httponly 8 ∧ 8 = a.length then some { L with httponly := 1 }
  else if ngx_strstr a str_text = some 0 then
    if L.hmac.isSome ∨ L.hash ≠ HashPtr.unset then none
    else if a.length ≤ 5 then none
    else if 0 = ngx_strncmp (a.drop 5) str_raw 3 then some { L with text := some TextFn.text_raw }
    else if 0 = ngx_strncmp (a.drop 5) str_md5 3 then some { L with text := some TextFn.text_md5 }
    else if 0 = ngx_strncmp (a.drop 5) str_sha1 4 then
      some { L with text := some TextFn.text_sha1 }
    else none
  else if ngx_strstr a str_hash = some 0 then
    if L.hmac.isSome ∨ L.text.isSome then none
    else if a.length ≤ 5 then none
    else if 0 = ngx_strncmp (a.drop 5) str_index 5 then some { L with hash := HashPtr.null }
    else if 0 = ngx_strncmp (a.drop 5) str_md5 3 then
      some { L with hash := HashPtr.fn HashFn.md5 }
    else if 0 = ngx_strncmp (a.drop 5) str_sha1 4 then
      some { L with hash := HashPtr.fn HashFn.sha1 }
    else none
  else if ngx_strstr a str_hmac = some 0 then
    if HashPtr.unset ≠ L.hash ∨ L.text.isSome then none
    else if a.length ≤ 5 then none
    else if 0 = ngx_strncmp (a.drop 5) str_md5 3 then
      some { L with hmac := some HmacFn.hmac_md5 }
    else if 0 = ngx_strncmp (a.drop 5) str_sha1 4 then
      some { L with hmac := some HmacFn.hmac_sha1 }
    else none
  else if ngx_strstr a str_hmac_key = some 0 then
    if a.length ≤ 9 then none else some { L with hmac_key := a.drop 9 }
  else if 0 = ngx_strncmp a str_no_fallback 11 then some { L with no_fallback := 1 }
  else none

/-- One round of the argument loop (lines 669-925).  An `lb_alg=` argument
whose value begins with neither `rr` nor `lc` falls through to the later
tests. -/
def sticky_set_arg (parse_time : List Nat → Int) (L : StickySetLocals) (a : List Nat) :
    Option StickySetLocals :=
  if ngx_strstr a str_lb_alg = some 0 then
    if a.length ≤ 7 then none
    else if 0 = ngx_strncmp (a.drop 7) str_rr 2 then some { L with lb_alg := NGX_LB_ALG_RR }
    else if 0 = ngx_strncmp (a.drop 7) str_lc 2 then some { L with lb_alg := NGX_LB_ALG_LC }
    else sticky_set_arg_rest parse_time L a
  else sticky_set_arg_rest parse_time L a

/-- The argument loop `for (i = 1; i < cf->args->nelts; i++)` over the
arguments that follow the directive name. -/
def sticky_set_args (parse_time : List Nat → Int) :
    StickySetLocals → List (List Nat) → Option StickySetLocals
  | L, [] => some L
  | L, a :: rest =>
    match sticky_set_arg parse_time L a with
    | none => none
    | some L1 => sticky_set_args parse_time L1 rest

/-- The function `ngx_http_sticky_set` on the arguments that follow the
directive name: `none` is `NGX_CONF_ERROR`, `some conf` is `NGX_CONF_OK` with
the configuration saved.  `init_upstream_set` tells whether
`upstream_conf->peer.init_upstream` is already set by another module. -/
def ngx_http_sticky_set (parse_time : List Nat → Int) (init_upstream_set : Bool)
    (args : List (List Nat)) : Option StickySrvConf :=
  match sticky_set_args parse_time sticky_set_init args with
  | none => none
  | some L =>
    let hash1 := if HashPtr.unset = L.hash ∧ L.hmac = none ∧ L.text = none
      then HashPtr.fn HashFn.md5 else L.hash
    if L.hmac_key.length > 0 ∧ hash1 ≠ HashPtr.unset then none
    else if 0 = L.hmac_key.length ∧ L.hmac ≠ none then none
    else
      let hash2 := if HashPtr.unset = hash1 then HashPtr.null else hash1
      if init_upstream_set then none
      else
        some { cookie_name := L.name, cookie_domain := L.domain, cookie_path := L.path,
               cookie_expires := L.expires, cookie_secure := L.secure,
               cookie_httponly := L.httponly, hmac_key := L.hmac_key,
               hash := (match hash2 with
                 | HashPtr.fn f => some f
                 | _ => none),
               hmac := L.hmac, text := L.text, no_fallback := L.no_fallback, peers := none,
               lb_alg := L.lb_alg }

/-! ## The initialisation of the upstream group -/

/-- The per-request initialiser `us->peer.init`: the one of the round-robin
module, `ngx_http_upstream_init_round_robin_peer`, or `ngx_http_init_sticky_peer`. -/
inductive PeerInit where
  | round_robin
  | sticky
deriving DecidableEq, Repr

/-- The digest functions `conf->hash`, `conf->hmac` and `conf->text` point to,
as functions of the arguments the module passes: the address handle and its
length, and the key for `hmac`. -/
structure DigestFns where
  hash : HashFn → Nat → Nat → List Nat
  hmac : HmacFn → Nat → Nat → List Nat → List Nat
  text : TextFn → Nat → List Nat

/-- What `ngx_http_init_upstream_sticky` takes from its collaborators: the
return code of `ngx_http_upstream_init_round_robin`, the pool and the
initialiser that call leaves in `us->peer.data` and `us->peer.init`, and
whether the allocation of the digest table succeeds. -/
structure UpstreamEnv where
  rr_rc : Int
  rr_peers : RrPeers
  init : PeerInit
  palloc_ok : Bool
deriving DecidableEq, Repr

/-- The digest of one peer (lines 152-166): `hmac` first, then `text`, then
`hash` (with none of them set the loop is not reached). -/
def peer_digest (fns : DigestFns) (conf : StickySrvConf) (peer : Peer) : List Nat :=
  match conf.hmac with
  | some f => fns.hmac f peer.sockaddr peer.socklen conf.hmac_key
  | none =>
    match conf.text with
    | some f => fns.text f peer.sockaddr
    | none =>
      match conf.hash with
      | some f => fns.hash f peer.sockaddr peer.socklen
      | none => []

/-- The function `ngx_http_init_upstream_sticky`: the return code, the
per-request initialiser `us->peer.init` and the configuration it leaves. -/
def ngx_http_init_upstream_sticky (fns : DigestFns) (env : UpstreamEnv) (conf : StickySrvConf) :
    Int × PeerInit × StickySrvConf :=
  if NGX_OK ≠ env.rr_rc then (NGX_ERROR, env.init, conf)
  else if env.rr_peers.number ≤ 1 ∨ env.rr_peers.single then (NGX_OK, env.init, conf)
  else if conf.hash = none ∧ conf.hmac = none ∧ conf.text = none then
    (NGX_OK, PeerInit.sticky, { conf with peers := none })
  else if env.palloc_ok = false then (NGX_ERROR, PeerInit.sticky, { conf with peers := none })
  else
    (NGX_OK, PeerInit.sticky,
      { conf with peers := some (env.rr_peers.peer.enum.map
          (fun ip => { rr_peer := ip.1, digest := peer_digest fns conf ip.2 })) })

/-! ## The pool locks and the writes to shared records

The selection functions, traced: the calls of
`ngx_http_upstream_rr_peers_wlock` and `ngx_http_upstream_rr_peers_unlock`, the
stores to peer records and to the bitmap, and the calls out, in program
order.  A pool is named by its position in the chain of the request: the pool
that is active when the request starts is pool 0, its backup pool 1, and so on. -/

/-- What a traced store writes: a field of a peer record of the pool, or a
word of the tried bitmap while the pool is the active one.  (The module never
stores to `accessed`.) -/
inductive Field where
  | conns
  | fails
  | checked
  | current_weight
  | effective_weight
  | tried
deriving DecidableEq, Repr

/-- One traced step. -/
inductive Ev where
  | wlock (pool : Nat)
  | unlock (pool : Nat)
  | write (pool : Nat) (field : Field)
  | call
  | rr (pool : Nat)
deriving DecidableEq, Repr

/-- The stores of the tie-break scan (lines 576-613) over the peers from index
`i` on, in pool `k`: `current_weight` (line 602) and, below `weight`,
`effective_weight` (line 606) of every peer that takes part. -/
def lc_tie_events (now : Int) (tried : List Nat) (k : Nat) :
    List Peer → Nat → Nat → Peer → List Ev
  | [], _, _, _ => []
  | peer :: rest, i, p, best =>
    if tried_test tried i || peer.down then lc_tie_events now tried k rest (i + 1) p best
    else if umul peer.conns best.weight ≠ umul best.conns peer.weight then
      lc_tie_events now tried k rest (i + 1) p best
    else if peer.max_fails != 0 && decide (peer.fails ≥ peer.max_fails)
        && decide (now - peer.checked ≤ peer.fail_timeout) then
      lc_tie_events now tried k rest (i + 1) p best
    else if peer.max_conns != 0 && decide (peer.conns ≥ peer.max_conns) then
      lc_tie_events now tried k rest (i + 1) p best
    else
      let peer1 := { peer with
        current_weight := to_ngx_int (peer.current_weight + peer.effective_weight) }
      let peer2 := if peer1.effective_weight < peer1.weight
        then { peer1 with effective_weight := peer1.effective_weight + 1 } else peer1
      let best1 := if i = p then peer2 else best
      Ev.write k Field.current_weight ::
        ((if peer1.effective_weight < peer1.weight then [Ev.write k Field.effective_weight]
            else [])
          ++ (if peer2.current_weight > best1.current_weight
              then lc_tie_events now tried k rest (i + 1) i peer2
              else lc_tie_events now tried k rest (i + 1) p best1))

/-- The trace of `ngx_http_upstream_get_least_conn_peer` entered with pool `k`
active.  `sticky` is the call `ngx_http_get_sticky_peer(pc, rrp)` made after
the switch and `sticky_events` its trace.  Line 484 takes the lock of
`peers`; the backup path resets the bitmap (line 552, `rrp->peers` being the
backup pool by then), releases the lock (555), calls (557), and on Busy takes
and releases the lock again (563, 566); the path without backup releases it
(566); the success exit stores to the winner and the bitmap (616-632) and
releases it (636). -/
def ngx_http_upstream_get_least_conn_peer_events
    (sticky : State → Int × State) (sticky_events : State → List Ev) (now : Int) (k : Nat)
    (st : State) : List Ev :=
  if st.rrp.peers.single then [Ev.rr k]
  else
    let pc0 := { st.pc with cached := 0, connection := none }
    let peers := st.rrp.peers
    Ev.wlock k ::
      match lc_scan now st.rrp.tried peers.peer 0 none false with
      | (none, _) =>
        match st.rrp.next with
        | nxt :: more =>
          let n := (nxt.number + (WORD_BITS - 1)) / WORD_BITS
          let st1 := { st with
            rrp := { st.rrp with peers := nxt, next := more, tried := tried_clear st.rrp.tried n },
            pc := pc0 }
          List.replicate n (Ev.write (k + 1) Field.tried) ++ [Ev.unlock k, Ev.call]
            ++ sticky_events st1
            ++ (if NGX_BUSY ≠ (sticky st1).1 then [] else [Ev.wlock k, Ev.unlock k])
        | [] => [Ev.unlock k]
      | (some (p0, best0), many) =>
        (if many then lc_tie_events now st.rrp.tried k (peers.peer.drop p0) p0 p0 best0 else [])
          ++ [Ev.write k Field.current_weight]
          ++ (if now - (lc_break_tie now st.rrp.tried peers.peer p0 best0 many).best.checked
                > (lc_break_tie now st.rrp.tried peers.peer p0 best0 many).best.fail_timeout
              then [Ev.write k Field.checked] else [])
          ++ [Ev.write k Field.conns, Ev.write k Field.tried, Ev.unlock k]

/-- The stores of the eligibility rule of lines 334-345: `fails` (line 338) or
the bit of the candidate (line 344). -/
def sticky_eligible_events (now : Int) (k : Nat) (peer : Peer) : List Ev :=
  if peer.max_fails = 0 ∨ peer.fails < peer.max_fails then []
  else if now - peer.accessed > peer.fail_timeout then [Ev.write k Field.fails]
  else [Ev.write k Field.tried]

/-- The stores of the validation of the sticky candidate (lines 296-347):
`fails` at line 323, then those of the eligibility rule.  No lock is taken. -/
def sticky_validate_events (conf : StickySrvConf) (now : Int) (k : Nat) (st : State) :
    List Ev :=
  if 0 ≤ st.selected_peer ∧ st.selected_peer < (st.rrp.peers.number : Int)
      ∧ st.rrp.peers.single = false then
    let sp := st.selected_peer.toNat
    let n := sp / WORD_BITS
    let m := 1 <<< (sp % WORD_BITS)
    if (st.rrp.tried.getD n 0) &&& m = 0 then
      match st.rrp.peers.peer[sp]? with
      | none => []
      | some peer =>
        if peer.down then []
        else if conf.no_fallback ≠ 0 then
          let stale := now - peer.accessed > peer.fail_timeout
          let peer1 := if stale then { peer with fails := 0 } else peer
          (if stale then [Ev.write k Field.fails] else [])
            ++ (if peer1.max_fails > 0 ∧ peer1.fails ≥ peer1.max_fails then []
                else sticky_eligible_events now k peer1)
        else sticky_eligible_events now k peer
    else []
  else []

/-- The trace of the fallback branch (lines 372-451): the call of the
configured algorithm, `lc_events` being the trace of
`ngx_http_upstream_get_least_conn_peer`. -/
def sticky_fallback_events (lc_events : State → List Ev) (conf : StickySrvConf) (k : Nat)
    (st : State) : List Ev :=
  if st.no_fallback ≠ 0 then []
  else if NGX_LB_ALG_RR = conf.lb_alg then [Ev.rr k]
  else if NGX_LB_ALG_LC = conf.lb_alg then lc_events { st with lb_alg := NGX_LB_ALG_LC }
  else []

/-- The trace of `ngx_http_get_sticky_peer` entered with pool `k` active: the
validation, then the stores of the acceptance branch (`conns` at line 367, the
bit at line 368) or the fallback.  The function calls neither
`ngx_http_upstream_rr_peers_wlock` nor `ngx_http_upstream_rr_peers_unlock`. -/
def ngx_http_get_sticky_peer_events (lc_events : State → List Ev) (conf : StickySrvConf)
    (now : Int) (k : Nat) (st : State) : List Ev :=
  sticky_validate_events conf now k st ++
    match sticky_validate conf now st with
    | .ret _ _ => []
    | .go st1 (some _) selected_peer _ _ =>
      if selected_peer ≥ 0 then [Ev.write k Field.conns, Ev.write k Field.tried]
      else sticky_fallback_events lc_events conf k st1
    | .go st1 none _ _ _ => sticky_fallback_events lc_events conf k st1

/-- The traces along the unrolled recursion: `sticky_events_depth d k` is the
trace of `sticky_depth d` entered with pool `k` active. -/
def sticky_events_depth
    (rr : RrPeerData → PeerConnection → Int × RrPeerData × PeerConnection)
    (conf : StickySrvConf) (now : Int) : Nat → Nat → State → List Ev
  | 0, k =>
    ngx_http_get_sticky_peer_events
      (ngx_http_upstream_get_least_conn_peer_events (fun st => (NGX_BUSY, st)) (fun _ => [])
        now k) conf now k
  | d + 1, k =>
    ngx_http_get_sticky_peer_events
      (ngx_http_upstream_get_least_conn_peer_events (sticky_depth rr conf now d)
        (sticky_events_depth rr conf now d (k + 1)) now k) conf now k

/-- The trace of a call of `ngx_http_get_sticky_peer(pc, data)`. -/
def sticky_trace
    (rr : RrPeerData → PeerConnection → Int × RrPeerData × PeerConnection)
    (conf : StickySrvConf) (now : Int) (st : State) : List Ev :=
  sticky_events_depth rr conf now st.rrp.next.length 0 st

/-- The trace of a call of `ngx_http_upstream_get_least_conn_peer(pc, data)`. -/
def least_conn_trace
    (rr : RrPeerData → PeerConnection → Int × RrPeerData × PeerConnection)
    (conf : StickySrvConf) (now : Int) (st : State) : List Ev :=
  ngx_http_upstream_get_least_conn_peer_events
    (sticky_depth rr conf now (st.rrp.next.length - 1))
    (sticky_events_depth rr conf now (st.rrp.next.length - 1) 1) now 0 st

/-! ## Specification predicates and auxiliary definitions -/

/-- The eligibility filter in the words of the specification: bit clear, not
down, not over `max_fails` inside the fail-timeout window, not at `max_conns`. -/
def Eligible (now : Int) (tried : List Nat) (i : Nat) (q : Peer) : Prop :=
  tried_test tried i = false ∧ q.down = false
  ∧ ¬ (q.max_fails > 0 ∧ q.fails ≥ q.max_fails ∧ now - q.checked ≤ q.fail_timeout)
  ∧ ¬ (q.max_conns > 0 ∧ q.conns ≥ q.max_conns)

/-- Positive weights and cross products inside the `ngx_uint_t` range. -/
def NoOverflow (L : List Peer) : Prop :=
  (∀ q ∈ L, 0 < q.weight) ∧ ∀ a ∈ L, ∀ b ∈ L, (a.conns : Int) * b.weight < (UINT_MOD : Int)

/-- What the first scan has established after the prefix `L`: with no `best`
every peer of `L` was skipped; otherwise `best` is the eligible peer at index
`p`, no eligible peer of `L` has a smaller ratio, every eligible peer before
`p` has a strictly larger one, and `many` tells whether an eligible peer after
`p` has the same ratio. -/
def ScanInv (now : Int) (tried : List Nat) (L : List Peer) :
    Option (Nat × Peer) → Bool → Prop
  | none, _ => ∀ i q, L[i]? = some q → lc_skip now tried i q = true
  | some (p, b), many =>
    L[p]? = some b ∧ lc_skip now tried p b = false
    ∧ (∀ i q, L[i]? = some q → lc_skip now tried i q = false →
        (b.conns : Int) * q.weight ≤ (q.conns : Int) * b.weight
        ∧ (i < p → (b.conns : Int) * q.weight < (q.conns : Int) * b.weight))
    ∧ (many = true ↔ ∃ i q, p < i ∧ L[i]? = some q ∧ lc_skip now tried i q = false
        ∧ (b.conns : Int) * q.weight = (q.conns : Int) * b.weight)

/-- The value of `best` after one round of the first scan. -/
def scan_best (now : Int) (tried : List Nat) (i : Nat) (x : Peer)
    (best : Option (Nat × Peer)) : Option (Nat × Peer) :=
  if lc_skip now tried i x then best
  else match best with
    | none => some (i, x)
    | some (p, b) =>
      if umul x.conns b.weight < umul b.conns x.weight then some (i, x) else some (p, b)

/-- The value of `many` after one round of the first scan. -/
def scan_many (now : Int) (tried : List Nat) (i : Nat) (x : Peer)
    (best : Option (Nat × Peer)) (many : Bool) : Bool :=
  if lc_skip now tried i x then many
  else match best with
    | none => false
    | some (_, b) =>
      if umul x.conns b.weight < umul b.conns x.weight then false
      else if umul x.conns b.weight = umul b.conns x.weight then true
      else many

/-- The record a peer is left with by one round of the tie-break scan:
`current_weight += effective_weight` (as a 64-bit sum), then
`effective_weight++` when it is below `weight`. -/
def tie_written (q : Peer) : Peer :=
  if q.effective_weight < q.weight then
    { q with current_weight := to_ngx_int (q.current_weight + q.effective_weight),
             effective_weight := q.effective_weight + 1 }
  else { q with current_weight := to_ngx_int (q.current_weight + q.effective_weight) }

/-- The test that lets a peer take part in the tie-break scan, as the code
makes it against the current `best`. -/
def tie_part (now : Int) (tried : List Nat) (i : Nat) (best x : Peer) : Bool :=
  lc_skip now tried i x = false && decide (umul x.conns best.weight = umul best.conns x.weight)

/-- Two peers have the same `conns / weight` ratio (cross-multiplied). -/
def RatioEq (a b : Peer) : Prop := (a.conns : Int) * b.weight = (b.conns : Int) * a.weight

/-- The `current_weight` a peer reaches in the tie-break scan, as stored. -/
def tie_value (q : Peer) : Int := to_ngx_int (q.current_weight + q.effective_weight)

/-- The value lies in the range of `ngx_int_t`. -/
def InIntRange (v : Int) : Prop := -NGX_MAX_INT_T_VALUE - 1 ≤ v ∧ v ≤ NGX_MAX_INT_T_VALUE

instance (v : Int) : Decidable (InIntRange v) := by unfold InIntRange; infer_instance

/-- For every peer of the pool the sum `current_weight + effective_weight`
lies in the range of `ngx_int_t`: line 602 does not overflow. -/
def IncrementInRange (L : List Peer) : Prop :=
  ∀ q ∈ L, InIntRange (q.current_weight + q.effective_weight)

instance (L : List Peer) : Decidable (IncrementInRange L) := by
  unfold IncrementInRange; infer_instance

/-- The sum of `effective_weight` over a pool. -/
def sum_effective_weight (l : List Peer) : Int := (l.map (fun q => q.effective_weight)).sum

/-- No `effective_weight` of the pool is negative, and every `current_weight`
stays in the range of `ngx_int_t` when the sum of all `effective_weight` of the
pool is added to it or subtracted from it: lines 602, 603 and 616 do not
overflow. -/
def WeightsInRange (L : List Peer) : Prop :=
  (∀ q ∈ L, 0 ≤ q.effective_weight)
  ∧ ∀ q ∈ L, InIntRange (q.current_weight - sum_effective_weight L)
      ∧ InIntRange (q.current_weight + sum_effective_weight L)

instance (L : List Peer) : Decidable (WeightsInRange L) := by
  unfold WeightsInRange; infer_instance

/-- The modulus of 64-bit arithmetic, as an integer. -/
def INT_MOD : Int := 18446744073709551616

/-- The call of `ngx_http_upstream_get_least_conn_peer` switches to the backup
pool (lines 541-548): no peer of the active pool passes the filter, so the
first scan leaves `best` NULL, and the pool has a `next`. -/
def SwitchesToBackup (now : Int) (st : State) : Prop :=
  (∀ i q, st.rrp.peers.peer[i]? = some q → ¬ Eligible now st.rrp.tried i q) ∧ st.rrp.next ≠ []

/-- Peer `b` has a minimal `conns / weight` ratio among the peers of `E` that
pass the filter: `b.conns * q.weight <= q.conns * b.weight` for each of them. -/
def LeastRatio (now : Int) (tried : List Nat) (E : List Peer) (b : Peer) : Prop :=
  ∀ i q, E[i]? = some q → Eligible now tried i q →
    (b.conns : Int) * q.weight ≤ (q.conns : Int) * b.weight

instance (now : Int) (tried : List Nat) (i : Nat) (q : Peer) :
    Decidable (Eligible now tried i q) := by
  unfold Eligible; infer_instance

instance (L : List Peer) : Decidable (NoOverflow L) := by
  unfold NoOverflow; infer_instance

/-- A cookie value read as a non-negative base-10 integer, in the words of
the specification: the number its digits spell, and `none` for the empty value
and for a value with a byte that is not a digit. -/
def decimal_value (v : List Nat) : Option Nat :=
  if v = [] then none
  else if ∀ c ∈ v, 48 ≤ c ∧ c ≤ 57 then some (v.foldl (fun a c => a * 10 + (c - 48)) 0)
  else none

/-- Index `i` is the peer the cookie search locates: the first peer of the
pool whose `sockaddr` and `socklen` are those of the connection target. -/
def Located (peers : List Peer) (pc : PeerConnection) (i : Nat) : Prop :=
  (∃ q, peers[i]? = some q ∧ q.sockaddr = pc.sockaddr ∧ q.socklen = pc.socklen)
  ∧ ∀ j q, j < i → peers[j]? = some q → ¬ (q.sockaddr = pc.sockaddr ∧ q.socklen = pc.socklen)

/-- The request has a sticky candidate, the peer `q`: `selected_peer` is a
legal index of a pool that is not single, its bit is not yet set in the tried
bitmap, and `q` is the peer at that index. -/
def StickyCandidate (st : State) (q : Peer) : Prop :=
  0 ≤ st.selected_peer ∧ st.selected_peer < (st.rrp.peers.number : Int)
  ∧ st.rrp.peers.single = false
  ∧ tried_test st.rrp.tried st.selected_peer.toNat = false
  ∧ st.rrp.peers.peer[st.selected_peer.toNat]? = some q

/-- The state an accepted sticky candidate `q` leaves behind: `fails` reset
when the failure was forgiven, `conns` incremented, the candidate made the
current peer and the connection target, its bit set, `selected_peer` reset,
and the effective `no_fallback` raised when it is configured. -/
def accepted_state (conf : StickySrvConf) (now : Int) (st : State) (q : Peer) : State :=
  { st with
    rrp := { st.rrp with
      peers := { st.rrp.peers with
        peer := st.rrp.peers.peer.set st.selected_peer.toNat
          { q with
            fails := if now - q.accessed > q.fail_timeout
                ∧ (conf.no_fallback ≠ 0 ∨ ¬ (q.max_fails = 0 ∨ q.fails < q.max_fails))
              then 0 else q.fails,
            conns := (q.conns + 1) % UINT_MOD } },
      current := some st.selected_peer.toNat,
      tried := tried_set st.rrp.tried st.selected_peer.toNat },
    selected_peer := -1,
    no_fallback := if conf.no_fallback ≠ 0 then 1 else st.no_fallback,
    pc := { st.pc with cached := 0, connection := none, sockaddr := q.sockaddr,
                       socklen := q.socklen, name := q.name } }

instance (st : State) (q : Peer) : Decidable (StickyCandidate st q) := by
  unfold StickyCandidate; infer_instance

/-- A selection function keeps the tried bitmap monotone: it never lengthens
the chain of backup pools, and when it returns with the chain it was entered
with (it made no switch to a backup pool), every bit set at entry is still set. -/
def KeepsBits (f : State → Int × State) : Prop :=
  ∀ s, (f s).2.rrp.next.length ≤ s.rrp.next.length
    ∧ ((f s).2.rrp.next = s.rrp.next →
        ∀ j, tried_test s.rrp.tried j = true → tried_test (f s).2.rrp.tried j = true)

/-- The same contract for the external `ngx_http_upstream_get_round_robin_peer`,
which works on the round-robin data alone. -/
def RrKeepsBits (rr : RrPeerData → PeerConnection → Int × RrPeerData × PeerConnection) : Prop :=
  ∀ rrp pc, (rr rrp pc).2.1.next.length ≤ rrp.next.length
    ∧ ((rr rrp pc).2.1.next = rrp.next →
        ∀ j, tried_test rrp.tried j = true → tried_test (rr rrp pc).2.1.tried j = true)

/-- The state a rejected sticky candidate leaves for the fallback branch: the
entry state with the candidate's bit set (line 344), nothing else written. -/
def rejected_state (st : State) : State :=
  { st with rrp := { st.rrp with tried := tried_set st.rrp.tried st.selected_peer.toNat } }

/-- An argument of the `hash=` family: it begins with `hash=`. -/
def HashArg (a : List Nat) : Prop := str_hash.isPrefixOf a = true

/-- An argument of the `hmac=` family: it begins with `hmac=`. -/
def HmacArg (a : List Nat) : Prop := str_hmac.isPrefixOf a = true

/-- An argument of the `text=` family: it begins with `text=`. -/
def TextArg (a : List Nat) : Prop := str_text.isPrefixOf a = true

/-- An argument that selects index mode: it begins with `hash=index`. -/
def IndexArg (a : List Nat) : Prop := (str_hash ++ str_index).isPrefixOf a = true

/-- An argument that supplies a key: `hmac_key=` followed by at least one byte. -/
def KeyArg (a : List Nat) : Prop := str_hmac_key.isPrefixOf a = true ∧ 9 < a.length

/-- The argument list selects index mode: an argument `hash=index` is followed
by no other argument of the `hash=` family. -/
def IndexMode (args : List (List Nat)) : Prop :=
  ∃ pre a post, args = pre ++ a :: post ∧ IndexArg a ∧ ∀ b ∈ post, ¬ HashArg b

/-- At most one of the three peer-identity selections has been made: `hash`
is no longer unset, `hmac` is set, `text` is set. -/
def OneFamily (L : StickySetLocals) : Prop :=
  (L.hash ≠ HashPtr.unset → L.hmac = none ∧ L.text = none) ∧ (L.hmac.isSome → L.text = none)

instance (a : List Nat) : Decidable (HashArg a) := by unfold HashArg; infer_instance

instance (a : List Nat) : Decidable (HmacArg a) := by unfold HmacArg; infer_instance

instance (a : List Nat) : Decidable (TextArg a) := by unfold TextArg; infer_instance

instance (a : List Nat) : Decidable (IndexArg a) := by unfold IndexArg; infer_instance

instance (a : List Nat) : Decidable (KeyArg a) := by unfold KeyArg; infer_instance

/-- The request's `no_fallback` flag is tied to the configuration: it is
non-zero only if `no_fallback` is configured. -/
def FlagInv (conf : StickySrvConf) (st : State) : Prop :=
  st.no_fallback ≠ 0 → conf.no_fallback ≠ 0

/-- A selection function keeps the `no_fallback` flag: from a state whose flag
is tied to the configuration it returns such a state, and a non-zero flag stays
non-zero. -/
def KeepsFlag (conf : StickySrvConf) (f : State → Int × State) : Prop :=
  ∀ s, FlagInv conf s →
    FlagInv conf (f s).2 ∧ (s.no_fallback ≠ 0 → (f s).2.no_fallback ≠ 0)

/-- A sequence of calls of `ngx_http_get_sticky_peer` on one request: each call
is made at its own time, after the environment (other requests, the failure
accounting) has changed the round-robin data in some way. -/
def sticky_calls
    (rr : RrPeerData → PeerConnection → Int × RrPeerData × PeerConnection)
    (conf : StickySrvConf) : List (Int × (RrPeerData → RrPeerData)) → State → State
  | [], st => st
  | c :: rest, st =>
    sticky_calls rr conf rest (ngx_http_get_sticky_peer rr conf c.1 { st with rrp := c.2 st.rrp }).2

instance (a b : Peer) : Decidable (RatioEq a b) := by unfold RatioEq; infer_instance

/-- The sum of the entry `effective_weight` of the peers from index `i` on that
pass the filter and have the ratio of `best`: the peers tied with `best`. -/
def tie_total (now : Int) (tried : List Nat) (best : Peer) : List Peer → Nat → Int
  | [], _ => 0
  | x :: rest, i =>
    (if lc_skip now tried i x = false ∧ RatioEq best x then x.effective_weight else 0)
      + tie_total now tried best rest (i + 1)

/-- The sum of `current_weight` over a pool. -/
def sum_current_weight (l : List Peer) : Int := (l.map (fun q => q.current_weight)).sum

/-- The weights of a peer: `current_weight`, `effective_weight`, `weight`. -/
def wt (q : Peer) : Int × Int × Int := (q.current_weight, q.effective_weight, q.weight)

/-- The weights of all pools of a request: the active pool, then the chain of
backup pools. -/
def wpools (rrp : RrPeerData) : List (List (Int × Int × Int)) :=
  rrp.peers.peer.map wt :: rrp.next.map (fun P => P.peer.map wt)

/-- The pools of `b` are the pools of `a` without the first `d` (the pools a
call has switched away from), and each is related by `R` to what it was. -/
def ChainRel (R : List (Int × Int × Int) → List (Int × Int × Int) → Prop)
    (a b : RrPeerData) : Prop :=
  ∃ d, (wpools a).length = d + (wpools b).length
    ∧ ∀ j A B, (wpools a)[d + j]? = some A → (wpools b)[j]? = some B → R A B

/-- A selection function keeps the weights of every pool in the relation `R`. -/
def KeepsWeights (R : List (Int × Int × Int) → List (Int × Int × Int) → Prop)
    (f : State → Int × State) : Prop :=
  ∀ s, ChainRel R s.rrp (f s).2.rrp

/-- The same contract for the external `ngx_http_upstream_get_round_robin_peer`. -/
def RrKeepsWeights (R : List (Int × Int × Int) → List (Int × Int × Int) → Prop)
    (rr : RrPeerData → PeerConnection → Int × RrPeerData × PeerConnection) : Prop :=
  ∀ rrp pc, ChainRel R rrp (rr rrp pc).2.1

/-- From one state of a pool to the other, no `weight` has changed, no
`effective_weight` has decreased, and an `effective_weight` has been raised by
at most 1 and only from below `weight`. -/
def EwRel (a b : List (Int × Int × Int)) : Prop :=
  a.length = b.length
  ∧ ∀ (k : Nat) (x y : Int × Int × Int), a[k]? = some x → b[k]? = some y →
      y.2.2 = x.2.2 ∧ (y.2.1 = x.2.1 ∨ (y.2.1 = x.2.1 + 1 ∧ x.2.1 < x.2.2))

/-- Every peer of every pool of the request has `effective_weight <= weight`. -/
def WeightsBounded (rrp : RrPeerData) : Prop :=
  ∀ A ∈ wpools rrp, ∀ w ∈ A, w.2.1 ≤ w.2.2

/-- The lock discipline along a trace, from the lock `held` (`none`: no lock):
a lock is taken only while none is held, released only while it is the one
held, and nothing is held at a call out (the selection called takes the lock
of its pool itself).  The result is the lock held at the end, `none` when the
discipline is broken. -/
def lock_run : Option Nat → List Ev → Option (Option Nat)
  | held, [] => some held
  | held, Ev.wlock k :: es => if held = none then lock_run (some k) es else none
  | held, Ev.unlock k :: es => if held = some k then lock_run none es else none
  | held, Ev.write _ _ :: es => lock_run held es
  | held, Ev.call :: es => if held = none then lock_run held es else none
  | held, Ev.rr _ :: es => if held = none then lock_run held es else none

/-- Every store of the trace is made while the lock of its pool is held. -/
def writes_locked : Option Nat → List Ev → Bool
  | _, [] => true
  | _, Ev.wlock k :: es => writes_locked (some k) es
  | held, Ev.unlock k :: es => writes_locked (if held = some k then none else held) es
  | held, Ev.write k _ :: es => decide (held = some k) && writes_locked held es
  | held, Ev.call :: es => writes_locked held es
  | held, Ev.rr _ :: es => writes_locked held es

/-- How often the trace takes the lock of pool `k`. -/
def count_wlock (k : Nat) (es : List Ev) : Nat := es.count (Ev.wlock k)

/-- How often the trace releases the lock of pool `k`. -/
def count_unlock (k : Nat) (es : List Ev) : Nat := es.count (Ev.unlock k)

/-- The step is a store. -/
def Ev.isWrite : Ev → Bool
  | Ev.write _ _ => true
  | _ => false

/-! ## Example data -/

/-- A healthy peer with the given address handle, `conns` and `weight`
(`effective_weight = weight`, `current_weight = 0`). -/
def ex_peer (addr conns : Nat) (weight : Int) : Peer :=
  { sockaddr := addr, socklen := 16, name := addr, current_weight := 0,
    effective_weight := weight, weight := weight, conns := conns, max_conns := 0, fails := 0,
    accessed := 0, checked := 0, max_fails := 1, fail_timeout := 10, down := false }

/-- A round-robin collaborator that finds no peer. -/
def ex_rr : RrPeerData → PeerConnection → Int × RrPeerData × PeerConnection :=
  fun rrp pc => (NGX_BUSY, rrp, pc)

/-- The configuration `sticky lb_alg=lc hash=index`. -/
def ex_conf : StickySrvConf :=
  { cookie_name := [114, 111, 117, 116, 101], cookie_domain := [], cookie_path := [47],
    cookie_expires := -1, cookie_secure := 0, cookie_httponly := 0, hmac_key := [],
    hash := none, hmac := none, text := none, no_fallback := 0, peers := none,
    lb_alg := NGX_LB_ALG_LC }

/-- A request state over the given peers: nothing tried, no backup pool, no
sticky candidate. -/
def ex_state (peers : List Peer) : State :=
  { rrp := { peers := { single := false, name := 7, peer := peers }, next := [],
             current := none, tried := [0] },
    selected_peer := -1, no_fallback := 0, lb_alg := 0,
    request := { pool_ok := true, set_cookies := [] },
    pc := { cached := 1, connection := some 1, sockaddr := 0, socklen := 0, name := 0 } }

/-- The configuration `sticky lb_alg=lc hash=md5` with the given digest table. -/
def ex_conf_digest (tbl : List StickyPeer) : StickySrvConf :=
  { ex_conf with hash := some HashFn.md5, peers := some tbl }

/-- The collaborators of a request on the given pool: allocation and
round-robin initialisation succeed, the route cookie is as given. -/
def ex_env (peers : List Peer) (cookie : Option (List Nat)) : InitEnv :=
  { palloc_ok := true, rr_rc := NGX_OK, rrp := (ex_state peers).rrp, cookie := cookie }

/-- A fresh request. -/
def ex_request : Request := { pool_ok := true, set_cookies := [] }

/-- A connection target not yet filled in. -/
def ex_pc : PeerConnection :=
  { cached := 0, connection := none, sockaddr := 0, socklen := 0, name := 0 }

/-- The least-connections call as `ngx_http_get_sticky_peer` makes it on a
pool without backup, at time 100. -/
def ex_lc : State → Int × State :=
  ngx_http_upstream_get_least_conn_peer_with ex_rr (fun st => (NGX_BUSY, st)) 100

/-- The configuration `sticky lb_alg=lc hash=index no_fallback`. -/
def ex_conf_nf : StickySrvConf := { ex_conf with no_fallback := 1 }

/-- A peer marked down. -/
def ex_down (addr : Nat) : Peer := { ex_peer addr 0 1 with down := true }

/-- A peer that reached `max_fails = 1`, last accessed at the given time
(`fail_timeout = 10`). -/
def ex_failed (addr : Nat) (accessed : Int) : Peer :=
  { ex_peer addr 0 1 with fails := 1, accessed := accessed }

/-- A request state over the given peers whose cookie named peer 0. -/
def ex_sticky (peers : List Peer) : State := { ex_state peers with selected_peer := 0 }

/-- A request state over a primary pool and one backup pool, with the given
tried bitmap and cookie index. -/
def ex_backup (peers backup : List Peer) (tried : List Nat) (selected_peer : Int) : State :=
  { rrp := { peers := { single := false, name := 7, peer := peers },
             next := [{ single := false, name := 8, peer := backup }],
             current := none, tried := tried },
    selected_peer := selected_peer, no_fallback := 0, lb_alg := 0,
    request := { pool_ok := true, set_cookies := [] },
    pc := { cached := 1, connection := some 1, sockaddr := 0, socklen := 0, name := 0 } }

/-- A healthy peer that holds one connection and has `max_conns = 1`. -/
def ex_full (addr : Nat) : Peer := { ex_peer addr 1 1 with max_conns := 1 }

/-- A time parser that accepts nothing (no example has an `expires=`). -/
def ex_parse_time : List Nat → Int := fun _ => NGX_ERROR

/-- Digest functions that return the address handle as one byte. -/
def ex_fns : DigestFns :=
  { hash := fun _ a _ => [a], hmac := fun _ a _ _ => [a], text := fun _ a => [a] }

/-- Two peers with the same ratio, the first one step below its weight. -/
def ex_tie : State :=
  ex_state [{ ex_peer 100 0 2 with effective_weight := 1 }, ex_peer 101 0 2]

/-- Two peers of weight `2 ^ 62`, each with one connection, as two selections
leave them: `current_weight` is `-2 ^ 62` and `2 ^ 62`. -/
def ex_heavy : State :=
  ex_state [{ ex_peer 100 1 4611686018427387904 with current_weight := -4611686018427387904 },
            { ex_peer 101 1 4611686018427387904 with current_weight := 4611686018427387904 }]

/-! ## Lemmas: least connections -/

theorem umul_eq (a : Nat) (w : Int) (hw : 0 ≤ w) (h : (a : Int) * w < (UINT_MOD : Int)) :
    ((umul a w : Nat) : Int) = (a : Int) * w := by
  unfold umul
  have h0 : 0 ≤ (a : Int) * w := mul_nonneg (Int.natCast_nonneg a) hw
  rw [Int.emod_eq_of_lt h0 h]
  exact Int.toNat_of_nonneg h0

theorem getElem?_snoc {α : Type} (pre : List α) (x q : α) (i : Nat) :
    (pre ++ [x])[i]? = some q ↔ pre[i]? = some q ∨ (i = pre.length ∧ q = x) := by
  induction pre generalizing i with
  | nil =>
    cases i with
    | zero => simp [eq_comm]
    | succ j => simp
  | cons y ys ih =>
    cases i with
    | zero => simp
    | succ j => simpa using ih j

theorem lc_skip_false_iff (now : Int) (tried : List Nat) (i : Nat) (q : Peer) :
    lc_skip now tried i q = false ↔ Eligible now tried i q := by
  unfold lc_skip Eligible
  cases h1 : tried_test tried i <;> cases h2 : q.down <;>
    simp [Nat.pos_iff_ne_zero]

theorem umul_lt_iff (a b : Peer) (ha : 0 < a.weight) (hb : 0 < b.weight)
    (h1 : (a.conns : Int) * b.weight < (UINT_MOD : Int))
    (h2 : (b.conns : Int) * a.weight < (UINT_MOD : Int)) :
    umul a.conns b.weight < umul b.conns a.weight ↔
      (a.conns : Int) * b.weight < (b.conns : Int) * a.weight := by
  rw [← umul_eq a.conns b.weight hb.le h1, ← umul_eq b.conns a.weight ha.le h2]
  exact Int.ofNat_lt.symm

theorem umul_eq_iff (a b : Peer) (ha : 0 < a.weight) (hb : 0 < b.weight)
    (h1 : (a.conns : Int) * b.weight < (UINT_MOD : Int))
    (h2 : (b.conns : Int) * a.weight < (UINT_MOD : Int)) :
    umul a.conns b.weight = umul b.conns a.weight ↔
      (a.conns : Int) * b.weight = (b.conns : Int) * a.weight := by
  rw [← umul_eq a.conns b.weight hb.le h1, ← umul_eq b.conns a.weight ha.le h2]
  exact Int.ofNat_inj.symm

/-- Transitivity of the ratio order for positive weights (strict then weak). -/
theorem ratio_lt_of_lt_of_le {ca cb cq wa wb wq : Int} (hwa : 0 < wa) (hwb : 0 < wb)
    (hwq : 0 < wq) (h1 : ca * wb < cb * wa) (h2 : cb * wq ≤ cq * wb) : ca * wq < cq * wa := by
  have e1 : ca * wb * wq < cb * wa * wq := mul_lt_mul_of_pos_right h1 hwq
  have e2 : cb * wq * wa ≤ cq * wb * wa := mul_le_mul_of_nonneg_right h2 hwa.le
  have e3 : (ca * wq) * wb < (cq * wa) * wb := by nlinarith
  exact lt_of_mul_lt_mul_right e3 hwb.le

/-- Transitivity of the ratio order for positive weights (weak). -/
theorem ratio_le_trans {ca cb cq wa wb wq : Int} (hwa : 0 < wa) (hwb : 0 < wb)
    (hwq : 0 < wq) (h1 : ca * wb ≤ cb * wa) (h2 : cb * wq ≤ cq * wb) : ca * wq ≤ cq * wa := by
  have e1 : ca * wb * wq ≤ cb * wa * wq := mul_le_mul_of_nonneg_right h1 hwq.le
  have e2 : cb * wq * wa ≤ cq * wb * wa := mul_le_mul_of_nonneg_right h2 hwa.le
  have e3 : (ca * wq) * wb ≤ (cq * wa) * wb := by nlinarith
  exact le_of_mul_le_mul_right e3 hwb

theorem getElem?_lt_length {α : Type} {L : List α} {i : Nat} {q : α} (h : L[i]? = some q) :
    i < L.length := by
  by_contra hc
  rw [List.getElem?_eq_none (Nat.le_of_not_lt hc)] at h
  cases h

theorem mem_of_getElem?_some {α : Type} {L : List α} {i : Nat} {q : α} (h : L[i]? = some q) :
    q ∈ L := by
  rw [List.getElem?_eq_some] at h
  obtain ⟨hi, rfl⟩ := h
  exact List.getElem_mem hi

theorem scanInv_step (now : Int) (tried : List Nat) (pre : List Peer) (x : Peer)
    (best : Option (Nat × Peer)) (many : Bool)
    (hwf : NoOverflow (pre ++ [x])) (hinv : ScanInv now tried pre best many) :
    ScanInv now tried (pre ++ [x]) (scan_best now tried pre.length x best)
      (scan_many now tried pre.length x best many) := by
  unfold scan_best scan_many
  have hxmem : x ∈ pre ++ [x] := by simp
  by_cases hs : lc_skip now tried pre.length x = true
  · -- the peer is skipped
    simp only [hs, if_true]
    cases best with
    | none =>
      intro i q hq
      rcases (getElem?_snoc pre x q i).1 hq with h | ⟨rfl, rfl⟩
      · exact hinv i q h
      · exact hs
    | some pb =>
      obtain ⟨p, b⟩ := pb
      obtain ⟨h1, h2, h3, h4⟩ := hinv
      refine ⟨(getElem?_snoc pre x b p).2 (Or.inl h1), h2, ?_, ?_⟩
      · intro i q hq he
        rcases (getElem?_snoc pre x q i).1 hq with h | ⟨rfl, rfl⟩
        · exact h3 i q h he
        · rw [hs] at he; cases he
      · rw [h4]
        constructor
        · rintro ⟨i, q, hpi, hq, he, ht⟩
          exact ⟨i, q, hpi, (getElem?_snoc pre x q i).2 (Or.inl hq), he, ht⟩
        · rintro ⟨i, q, hpi, hq, he, ht⟩
          rcases (getElem?_snoc pre x q i).1 hq with h | ⟨rfl, rfl⟩
          · exact ⟨i, q, hpi, h, he, ht⟩
          · rw [hs] at he; cases he
  · have hs' : lc_skip now tried pre.length x = false := by simpa using hs
    simp only [hs', Bool.false_eq_true, if_false]
    cases best with
    | none =>
      refine ⟨(getElem?_snoc pre x x pre.length).2 (Or.inr ⟨rfl, rfl⟩), hs', ?_, ?_⟩
      · intro i q hq he
        rcases (getElem?_snoc pre x q i).1 hq with h | ⟨rfl, rfl⟩
        · rw [hinv i q h] at he; cases he
        · exact ⟨le_refl _, fun h => absurd h (lt_irrefl _)⟩
      · constructor
        · intro h; cases h
        · rintro ⟨i, q, hpi, hq, _, _⟩
          have := getElem?_lt_length hq
          simp at this
          omega
    | some pb =>
      obtain ⟨p, b⟩ := pb
      obtain ⟨h1, h2, h3, h4⟩ := hinv
      have hp : p < pre.length := getElem?_lt_length h1
      have hbmem : b ∈ pre ++ [x] := List.mem_append_left _ (mem_of_getElem?_some h1)
      have hwx := hwf.1 x hxmem
      have hwb := hwf.1 b hbmem
      have hlt := umul_lt_iff x b hwx hwb (hwf.2 x hxmem b hbmem) (hwf.2 b hbmem x hxmem)
      have heq := umul_eq_iff x b hwx hwb (hwf.2 x hxmem b hbmem) (hwf.2 b hbmem x hxmem)
      by_cases hc : umul x.conns b.weight < umul b.conns x.weight
      · -- strictly better: new best
        simp only [hc, if_true]
        have hc' := hlt.1 hc
        refine ⟨(getElem?_snoc pre x x pre.length).2 (Or.inr ⟨rfl, rfl⟩), hs', ?_, ?_⟩
        · intro i q hq he
          rcases (getElem?_snoc pre x q i).1 hq with h | ⟨rfl, rfl⟩
          · have hqmem : q ∈ pre ++ [x] := List.mem_append_left _ (mem_of_getElem?_some h)
            have hwq := hwf.1 q hqmem
            have := ratio_lt_of_lt_of_le hwx hwb hwq hc' (h3 i q h he).1
            exact ⟨this.le, fun _ => this⟩
          · exact ⟨le_refl _, fun h => absurd h (lt_irrefl _)⟩
        · constructor
          · intro h; cases h
          · rintro ⟨i, q, hpi, hq, _, _⟩
            have := getElem?_lt_length hq
            simp at this
            omega
      · simp only [hc, if_false]
        have hc' : ¬ ((x.conns : Int) * b.weight < (b.conns : Int) * x.weight) :=
          fun h => hc (hlt.2 h)
        refine ⟨(getElem?_snoc pre x b p).2 (Or.inl h1), h2, ?_, ?_⟩
        · intro i q hq he
          rcases (getElem?_snoc pre x q i).1 hq with h | ⟨rfl, rfl⟩
          · exact h3 i q h he
          · exact ⟨not_lt.1 hc', fun h => absurd h (by omega)⟩
        · by_cases ht : umul x.conns b.weight = umul b.conns x.weight
          · simp only [ht, if_true, true_iff]
            exact ⟨pre.length, x, hp, (getElem?_snoc pre x x pre.length).2 (Or.inr ⟨rfl, rfl⟩),
              hs', (heq.1 ht).symm⟩
          · simp only [ht, if_false]
            rw [h4]
            constructor
            · rintro ⟨i, q, hpi, hq, he, hq2⟩
              exact ⟨i, q, hpi, (getElem?_snoc pre x q i).2 (Or.inl hq), he, hq2⟩
            · rintro ⟨i, q, hpi, hq, he, hq2⟩
              rcases (getElem?_snoc pre x q i).1 hq with h | ⟨rfl, rfl⟩
              · exact ⟨i, q, hpi, h, he, hq2⟩
              · exact absurd (heq.2 hq2.symm) ht

theorem lc_scan_cons (now : Int) (tried : List Nat) (x : Peer) (rest : List Peer) (i : Nat)
    (best : Option (Nat × Peer)) (many : Bool) :
    lc_scan now tried (x :: rest) i best many =
      lc_scan now tried rest (i + 1) (scan_best now tried i x best)
        (scan_many now tried i x best many) := by
  unfold scan_best scan_many
  by_cases hs : lc_skip now tried i x = true
  · simp [lc_scan, hs]
  · have hs' : lc_skip now tried i x = false := by simpa using hs
    cases best with
    | none => simp [lc_scan, hs']
    | some pb =>
      obtain ⟨p, b⟩ := pb
      by_cases hc : umul x.conns b.weight < umul b.conns x.weight
      · simp [lc_scan, hs', hc]
      · by_cases ht : umul x.conns b.weight = umul b.conns x.weight
        · simp [lc_scan, hs', hc, ht]
        · simp [lc_scan, hs', hc, ht]

/-- The first scan establishes its invariant over the whole pool. -/
theorem lc_scan_inv (now : Int) (tried : List Nat) :
    ∀ (l pre : List Peer) (best : Option (Nat × Peer)) (many : Bool),
      NoOverflow (pre ++ l) → ScanInv now tried pre best many →
      ScanInv now tried (pre ++ l) (lc_scan now tried l pre.length best many).1
        (lc_scan now tried l pre.length best many).2 := by
  intro l
  induction l with
  | nil =>
    intro pre best many _ hinv
    simpa [lc_scan] using hinv
  | cons x rest ih =>
    intro pre best many hwf hinv
    rw [lc_scan_cons]
    have hwf1 : NoOverflow (pre ++ [x]) := by
      refine ⟨fun q hq => hwf.1 q ?_, fun a ha b hb => hwf.2 a ?_ b ?_⟩ <;>
        (simp only [List.mem_append, List.mem_singleton, List.mem_cons] at *; tauto)
    have hstep := scanInv_step now tried pre x best many hwf1 hinv
    have hwf2 : NoOverflow ((pre ++ [x]) ++ rest) := by simpa using hwf
    have := ih (pre ++ [x]) _ _ hwf2 hstep
    simpa using this

/-- The first scan over a whole pool, from its start. -/
theorem lc_scan_inv_start (now : Int) (tried : List Nat) (E : List Peer) (hwf : NoOverflow E) :
    ScanInv now tried E (lc_scan now tried E 0 none false).1
      (lc_scan now tried E 0 none false).2 := by
  have h := lc_scan_inv now tried E [] none false (by simpa using hwf)
    (by intro i q hq; simp at hq)
  simpa using h

theorem lc_skip_false_split (now : Int) (tried : List Nat) (i : Nat) (x : Peer) :
    lc_skip now tried i x = false ↔
      (tried_test tried i || x.down) = false
      ∧ (x.max_fails != 0 && decide (x.fails ≥ x.max_fails)
          && decide (now - x.checked ≤ x.fail_timeout)) = false
      ∧ (x.max_conns != 0 && decide (x.conns ≥ x.max_conns)) = false := by
  unfold lc_skip
  simp only [Bool.or_eq_false_iff, and_assoc]

theorem to_ngx_int_of_range (v : Int) (h : InIntRange v) : to_ngx_int v = v := by
  unfold InIntRange NGX_MAX_INT_T_VALUE at h
  unfold to_ngx_int
  omega

theorem to_ngx_int_range (v : Int) : InIntRange (to_ngx_int v) := by
  unfold InIntRange NGX_MAX_INT_T_VALUE to_ngx_int
  omega

theorem to_ngx_int_add_left (a b : Int) : to_ngx_int (to_ngx_int a + b) = to_ngx_int (a + b) := by
  unfold to_ngx_int
  omega

theorem lc_tie_cons_skip (now : Int) (tried : List Nat) (x : Peer) (rest : List Peer)
    (i p : Nat) (best : Peer) (total : Int) (h : tie_part now tried i best x = false) :
    lc_tie now tried (x :: rest) i p best total =
      { lc_tie now tried rest (i + 1) p best total with
        peers := x :: (lc_tie now tried rest (i + 1) p best total).peers } := by
  unfold tie_part at h
  rw [Bool.and_eq_false_iff] at h
  by_cases h1 : (tried_test tried i || x.down) = true
  · rw [lc_tie, if_pos h1]
  · by_cases h2 : umul x.conns best.weight ≠ umul best.conns x.weight
    · rw [lc_tie, if_neg h1, if_pos h2]
    · by_cases h3 : (x.max_fails != 0 && decide (x.fails ≥ x.max_fails)
          && decide (now - x.checked ≤ x.fail_timeout)) = true
      · rw [lc_tie, if_neg h1, if_neg h2, if_pos h3]
      · by_cases h4 : (x.max_conns != 0 && decide (x.conns ≥ x.max_conns)) = true
        · rw [lc_tie, if_neg h1, if_neg h2, if_neg h3, if_pos h4]
        · exfalso
          rcases h with h | h
          · have := (lc_skip_false_split now tried i x).2
              ⟨by simpa using h1, by simpa using h3, by simpa using h4⟩
            simp [this] at h
          · have h2' : umul x.conns best.weight = umul best.conns x.weight := not_not.1 h2
            simp [h2'] at h

theorem lc_tie_cons_take (now : Int) (tried : List Nat) (x : Peer) (rest : List Peer)
    (i p : Nat) (best : Peer) (total : Int) (h : tie_part now tried i best x = true) :
    lc_tie now tried (x :: rest) i p best total =
      { (if (tie_written x).current_weight > (if i = p then tie_written x else best).current_weight
          then lc_tie now tried rest (i + 1) i (tie_written x) (to_ngx_int (total + x.effective_weight))
          else lc_tie now tried rest (i + 1) p (if i = p then tie_written x else best)
            (to_ngx_int (total + x.effective_weight))) with
        peers := tie_written x ::
          (if (tie_written x).current_weight > (if i = p then tie_written x else best).current_weight
            then lc_tie now tried rest (i + 1) i (tie_written x) (to_ngx_int (total + x.effective_weight))
            else lc_tie now tried rest (i + 1) p (if i = p then tie_written x else best)
              (to_ngx_int (total + x.effective_weight))).peers } := by
  unfold tie_part at h
  rw [Bool.and_eq_true] at h
  obtain ⟨hs, ht⟩ := h
  have hs' := (lc_skip_false_split now tried i x).1 (by simpa using hs)
  obtain ⟨h1, h3, h4⟩ := hs'
  have ht' : umul x.conns best.weight = umul best.conns x.weight := by simpa using ht
  have hw : tie_written x =
      (if x.effective_weight < x.weight then
        { x with current_weight := to_ngx_int (x.current_weight + x.effective_weight),
                 effective_weight := x.effective_weight + 1 }
       else { x with current_weight := to_ngx_int (x.current_weight + x.effective_weight) }) := rfl
  have n1 : ¬ (tried_test tried i || x.down) = true := by simp [h1]
  have n2 : ¬ umul x.conns best.weight ≠ umul best.conns x.weight := not_not.2 ht'
  have n3 : ¬ (x.max_fails != 0 && decide (x.fails ≥ x.max_fails)
          && decide (now - x.checked ≤ x.fail_timeout)) = true := by
    rw [h3]; exact Bool.false_ne_true
  have n4 : ¬ (x.max_conns != 0 && decide (x.conns ≥ x.max_conns)) = true := by
    rw [h4]; exact Bool.false_ne_true
  rw [lc_tie, if_neg n1, if_neg n2, if_neg n3, if_neg n4, hw]

theorem tie_written_current_weight (q : Peer) :
    (tie_written q).current_weight = tie_value q := by
  unfold tie_written tie_value; split <;> rfl

theorem tie_written_conns (q : Peer) : (tie_written q).conns = q.conns := by
  unfold tie_written; split <;> rfl

theorem tie_written_weight (q : Peer) : (tie_written q).weight = q.weight := by
  unfold tie_written; split <;> rfl

theorem tie_written_sockaddr (q : Peer) : (tie_written q).sockaddr = q.sockaddr := by
  unfold tie_written; split <;> rfl

theorem ratioEq_trans {a b c : Peer} (ha : 0 < a.weight) (hb : 0 < b.weight) (hc : 0 < c.weight)
    (h1 : RatioEq a b) (h2 : RatioEq b c) : RatioEq a c := by
  unfold RatioEq at *
  apply le_antisymm
  · exact ratio_le_trans ha hb hc h1.le h2.le
  · exact ratio_le_trans hc hb ha h2.symm.le h1.symm.le

theorem ratioEq_symm {a b : Peer} (h : RatioEq a b) : RatioEq b a := by
  unfold RatioEq at *; exact h.symm

theorem tie_part_iff (now : Int) (tried : List Nat) (i : Nat) (best x : Peer)
    (hb : 0 < best.weight) (hx : 0 < x.weight)
    (h1 : (x.conns : Int) * best.weight < (UINT_MOD : Int))
    (h2 : (best.conns : Int) * x.weight < (UINT_MOD : Int)) :
    tie_part now tried i best x = true ↔ lc_skip now tried i x = false ∧ RatioEq best x := by
  unfold tie_part RatioEq
  rw [Bool.and_eq_true, decide_eq_true_iff, decide_eq_true_iff, umul_eq_iff x best hx hb h1 h2]
  exact ⟨fun h => ⟨h.1, h.2.symm⟩, fun h => ⟨h.1, h.2.symm⟩⟩

/-- The tie-break scan from a position behind `best`: either `best` stays and
no later participant exceeds it, or the winner is the first later participant
with the largest value, which is strictly above the old `best`. -/
theorem lc_tie_spec (now : Int) (tried : List Nat) :
    ∀ (l : List Peer) (i p : Nat) (best : Peer) (total : Int),
      p < i → NoOverflow (best :: l) →
      ((lc_tie now tried l i p best total).p = p
        ∧ (lc_tie now tried l i p best total).best = best
        ∧ ∀ k q, l[k]? = some q → lc_skip now tried (i + k) q = false → RatioEq best q →
            tie_value q ≤ best.current_weight)
      ∨ ∃ k q, l[k]? = some q ∧ lc_skip now tried (i + k) q = false ∧ RatioEq best q
        ∧ (lc_tie now tried l i p best total).p = i + k
        ∧ (lc_tie now tried l i p best total).best = tie_written q
        ∧ best.current_weight < tie_value q
        ∧ ∀ k' q', l[k']? = some q' → lc_skip now tried (i + k') q' = false → RatioEq best q' →
            tie_value q' ≤ tie_value q ∧ (k' < k → tie_value q' < tie_value q) := by
  intro l
  induction l with
  | nil =>
    intro i p best total _ _
    left
    refine ⟨rfl, rfl, ?_⟩
    intro k q hq
    simp at hq
  | cons x rest ih =>
    intro i p best total hpi hwf
    have hbm : best ∈ best :: x :: rest := by simp
    have hxm : x ∈ best :: x :: rest := by simp
    have hwb := hwf.1 best hbm
    have hwx := hwf.1 x hxm
    have hpart := tie_part_iff now tried i best x hwb hwx (hwf.2 x hxm best hbm)
      (hwf.2 best hbm x hxm)
    have hwf_rest : NoOverflow (best :: rest) := by
      refine ⟨fun q hq => hwf.1 q ?_, fun a ha b hb => hwf.2 a ?_ b ?_⟩ <;>
        (simp only [List.mem_cons] at *; tauto)
    by_cases hp : tie_part now tried i best x = true
    · -- the peer takes part
      obtain ⟨hsx, hrx⟩ := hpart.1 hp
      rw [lc_tie_cons_take now tried x rest i p best total hp]
      have hne : ¬ i = p := by omega
      simp only [hne, if_false]
      have hwf_x : NoOverflow (tie_written x :: rest) := by
        refine ⟨?_, ?_⟩
        · intro q hq
          rcases List.mem_cons.1 hq with rfl | hq
          · rw [tie_written_weight]; exact hwx
          · exact hwf.1 q (by simp [hq])
        · intro a ha b hb
          rcases List.mem_cons.1 ha with rfl | ha <;> rcases List.mem_cons.1 hb with rfl | hb
          · rw [tie_written_conns, tie_written_weight]; exact hwf.2 x hxm x hxm
          · rw [tie_written_conns]; exact hwf.2 x hxm b (by simp [hb])
          · rw [tie_written_weight]; exact hwf.2 a (by simp [ha]) x hxm
          · exact hwf.2 a (by simp [ha]) b (by simp [hb])
      have hconv : ∀ q, q ∈ rest → (RatioEq best q ↔ RatioEq (tie_written x) q) := by
        intro q hq
        have hwq := hwf.1 q (by simp [hq])
        have hxq : RatioEq x q ↔ RatioEq (tie_written x) q := by
          unfold RatioEq; rw [tie_written_conns, tie_written_weight]
        rw [← hxq]
        exact ⟨fun h => ratioEq_trans hwx hwb hwq (ratioEq_symm hrx) h,
          fun h => ratioEq_trans hwb hwx hwq hrx h⟩
      by_cases hgt : (tie_written x).current_weight > best.current_weight
      · simp only [hgt, if_true]
        have hgt' : best.current_weight < tie_value x := by
          rw [← tie_written_current_weight]; exact hgt
        right
        rcases ih (i + 1) i (tie_written x) (to_ngx_int (total + x.effective_weight)) (by omega) hwf_x with
          ⟨e1, e2, e3⟩ | ⟨k, q, hq, hsq, hrq, e1, e2, e3, e4⟩
        · refine ⟨0, x, by simp, by simpa using hsx, hrx, by simpa using e1, e2, hgt', ?_⟩
          intro k' q' hq' hs' hr'
          cases k' with
          | zero =>
            simp at hq'; subst hq'
            exact ⟨le_refl _, fun h => absurd h (lt_irrefl _)⟩
          | succ j =>
            simp at hq'
            have := e3 j q' hq' (by rw [show i + 1 + j = i + (j + 1) by omega]; exact hs')
              ((hconv q' (mem_of_getElem?_some hq')).1 hr')
            rw [tie_written_current_weight] at this
            exact ⟨this, fun h => absurd h (by omega)⟩
        · rw [tie_written_current_weight] at e3
          refine ⟨k + 1, q, by simpa using hq,
            by rw [show i + (k + 1) = i + 1 + k by omega]; exact hsq,
            (hconv q (mem_of_getElem?_some hq)).2 hrq,
            by rw [e1]; omega, e2, lt_trans hgt' e3, ?_⟩
          intro k' q' hq' hs' hr'
          cases k' with
          | zero =>
            simp at hq'; subst hq'
            exact ⟨e3.le, fun _ => e3⟩
          | succ j =>
            simp at hq'
            have := e4 j q' hq' (by rw [show i + 1 + j = i + (j + 1) by omega]; exact hs')
              ((hconv q' (mem_of_getElem?_some hq')).1 hr')
            exact ⟨this.1, fun h => this.2 (by omega)⟩
      · simp only [hgt, if_false]
        have hle : tie_value x ≤ best.current_weight := by
          rw [← tie_written_current_weight]; exact not_lt.1 hgt
        rcases ih (i + 1) p best (to_ngx_int (total + x.effective_weight)) (by omega) hwf_rest with
          ⟨e1, e2, e3⟩ | ⟨k, q, hq, hsq, hrq, e1, e2, e3, e4⟩
        · left
          refine ⟨e1, e2, ?_⟩
          intro k' q' hq' hs' hr'
          cases k' with
          | zero =>
            simp at hq'; subst hq'
            exact hle
          | succ j =>
            simp at hq'
            exact e3 j q' hq' (by rw [show i + 1 + j = i + (j + 1) by omega]; exact hs') hr'
        · right
          refine ⟨k + 1, q, by simpa using hq,
            by rw [show i + (k + 1) = i + 1 + k by omega]; exact hsq, hrq,
            by rw [e1]; omega, e2, e3, ?_⟩
          intro k' q' hq' hs' hr'
          cases k' with
          | zero =>
            simp at hq'; subst hq'
            exact ⟨(lt_of_le_of_lt hle e3).le, fun _ => lt_of_le_of_lt hle e3⟩
          | succ j =>
            simp at hq'
            have := e4 j q' hq' (by rw [show i + 1 + j = i + (j + 1) by omega]; exact hs') hr'
            exact ⟨this.1, fun h => this.2 (by omega)⟩
    · -- the peer is passed over
      have hp' : tie_part now tried i best x = false := by simpa using hp
      rw [lc_tie_cons_skip now tried x rest i p best total hp']
      have hnot : ¬ (lc_skip now tried i x = false ∧ RatioEq best x) := fun h => hp (hpart.2 h)
      rcases ih (i + 1) p best total (by omega) hwf_rest with
        ⟨e1, e2, e3⟩ | ⟨k, q, hq, hsq, hrq, e1, e2, e3, e4⟩
      · left
        refine ⟨e1, e2, ?_⟩
        intro k' q' hq' hs' hr'
        cases k' with
        | zero =>
          simp at hq'; subst hq'
          exact absurd ⟨by simpa using hs', hr'⟩ hnot
        | succ j =>
          simp at hq'
          exact e3 j q' hq' (by rw [show i + 1 + j = i + (j + 1) by omega]; exact hs') hr'
      · right
        refine ⟨k + 1, q, by simpa using hq,
          by rw [show i + (k + 1) = i + 1 + k by omega]; exact hsq, hrq,
          by show (lc_tie now tried rest (i + 1) p best total).p = _; rw [e1]; omega, e2, e3, ?_⟩
        intro k' q' hq' hs' hr'
        cases k' with
        | zero =>
          simp at hq'; subst hq'
          exact absurd ⟨by simpa using hs', hr'⟩ hnot
        | succ j =>
          simp at hq'
          have := e4 j q' hq' (by rw [show i + 1 + j = i + (j + 1) by omega]; exact hs') hr'
          exact ⟨this.1, fun h => this.2 (by omega)⟩

theorem noOverflow_sub {L M : List Peer} (h : NoOverflow L) (hsub : ∀ q ∈ M, q ∈ L) :
    NoOverflow M :=
  ⟨fun q hq => h.1 q (hsub q hq), fun a ha b hb => h.2 a (hsub a ha) b (hsub b hb)⟩

theorem tie_part_self (now : Int) (tried : List Nat) (i : Nat) (b : Peer)
    (hs : lc_skip now tried i b = false) : tie_part now tried i b b = true := by
  unfold tie_part
  simp [hs]

/-- The whole tie-break scan, started at the `best` of the first scan: the
winner is a participant at or behind `p0`, the first one with the largest
`current_weight + effective_weight`. -/
theorem lc_tie_first (now : Int) (tried : List Nat) (E : List Peer) (p0 : Nat) (best0 : Peer)
    (total : Int) (hE : E[p0]? = some best0) (hs : lc_skip now tried p0 best0 = false)
    (hwf : NoOverflow E) :
    ∃ w bw, (lc_tie now tried (E.drop p0) p0 p0 best0 total).p = w
      ∧ (lc_tie now tried (E.drop p0) p0 p0 best0 total).best = tie_written bw
      ∧ E[w]? = some bw ∧ p0 ≤ w ∧ lc_skip now tried w bw = false ∧ RatioEq best0 bw
      ∧ ∀ j q, p0 ≤ j → E[j]? = some q → lc_skip now tried j q = false → RatioEq best0 q →
          tie_value q ≤ tie_value bw ∧ (j < w → tie_value q < tie_value bw) := by
  have hlt : p0 < E.length := getElem?_lt_length hE
  have hget : E[p0] = best0 := by
    rw [List.getElem?_eq_getElem hlt] at hE
    exact Option.some.inj hE
  have hdrop : E.drop p0 = best0 :: E.drop (p0 + 1) := by
    rw [List.drop_eq_getElem_cons hlt, hget]
  have hbm : best0 ∈ E := mem_of_getElem?_some hE
  have hrest : ∀ q ∈ E.drop (p0 + 1), q ∈ E := fun q hq => List.mem_of_mem_drop hq
  have hwb := hwf.1 best0 hbm
  have hwf1 : NoOverflow (tie_written best0 :: E.drop (p0 + 1)) := by
    refine ⟨?_, ?_⟩
    · intro q hq
      rcases List.mem_cons.1 hq with rfl | hq
      · rw [tie_written_weight]; exact hwb
      · exact hwf.1 q (hrest q hq)
    · intro a ha b hb
      rcases List.mem_cons.1 ha with rfl | ha <;> rcases List.mem_cons.1 hb with rfl | hb
      · rw [tie_written_conns, tie_written_weight]; exact hwf.2 best0 hbm best0 hbm
      · rw [tie_written_conns]; exact hwf.2 best0 hbm b (hrest b hb)
      · rw [tie_written_weight]; exact hwf.2 a (hrest a ha) best0 hbm
      · exact hwf.2 a (hrest a ha) b (hrest b hb)
  have hconv : ∀ q, RatioEq (tie_written best0) q ↔ RatioEq best0 q := by
    intro q; unfold RatioEq; rw [tie_written_conns, tie_written_weight]
  rw [hdrop, lc_tie_cons_take now tried best0 _ p0 p0 best0 total (tie_part_self now tried p0 best0 hs)]
  simp only [if_true, gt_iff_lt, lt_irrefl, if_false]
  rcases lc_tie_spec now tried (E.drop (p0 + 1)) (p0 + 1) p0 (tie_written best0)
      (to_ngx_int (total + best0.effective_weight)) (by omega) hwf1 with
    ⟨e1, e2, e3⟩ | ⟨k, q, hq, hsq, hrq, e1, e2, e3, e4⟩
  · refine ⟨p0, best0, e1, e2, hE, le_refl _, hs, rfl, ?_⟩
    intro j q hj hq hsq hrq
    rcases Nat.eq_or_lt_of_le hj with rfl | hlt'
    · rw [hE] at hq
      cases hq
      exact ⟨le_refl _, fun h => absurd h (lt_irrefl _)⟩
    · have hq' : (E.drop (p0 + 1))[j - (p0 + 1)]? = some q := by
        rw [List.getElem?_drop, show p0 + 1 + (j - (p0 + 1)) = j by omega]; exact hq
      have := e3 (j - (p0 + 1)) q hq'
        (by rw [show p0 + 1 + (j - (p0 + 1)) = j by omega]; exact hsq) ((hconv q).2 hrq)
      rw [tie_written_current_weight] at this
      exact ⟨this, fun h => absurd h (by omega)⟩
  · rw [tie_written_current_weight] at e3
    have hqE : E[p0 + 1 + k]? = some q := by rw [← List.getElem?_drop]; exact hq
    refine ⟨p0 + 1 + k, q, e1, e2, hqE, by omega, hsq, (hconv q).1 hrq, ?_⟩
    intro j q' hj hq' hsq' hrq'
    rcases Nat.eq_or_lt_of_le hj with rfl | hlt'
    · rw [hE] at hq'
      cases hq'
      exact ⟨e3.le, fun _ => e3⟩
    · have hq2 : (E.drop (p0 + 1))[j - (p0 + 1)]? = some q' := by
        rw [List.getElem?_drop, show p0 + 1 + (j - (p0 + 1)) = j by omega]; exact hq'
      have := e4 (j - (p0 + 1)) q' hq2
        (by rw [show p0 + 1 + (j - (p0 + 1)) = j by omega]; exact hsq') ((hconv q').2 hrq')
      exact ⟨this.1, fun h => this.2 (by omega)⟩

theorem lc_commit_sockaddr (now total : Int) (b : Peer) :
    (lc_commit now total b).sockaddr = b.sockaddr
    ∧ (lc_commit now total b).socklen = b.socklen
    ∧ (lc_commit now total b).name = b.name := by
  unfold lc_commit
  simp only
  split <;> exact ⟨rfl, rfl, rfl⟩

theorem tie_written_ids (q : Peer) :
    (tie_written q).sockaddr = q.sockaddr ∧ (tie_written q).socklen = q.socklen
    ∧ (tie_written q).name = q.name := by
  unfold tie_written; split <;> exact ⟨rfl, rfl, rfl⟩

theorem lc_with_found
    (rr : RrPeerData → PeerConnection → Int × RrPeerData × PeerConnection)
    (sticky : State → Int × State) (now : Int) (st : State) (p0 : Nat) (best0 : Peer)
    (many : Bool) (hs : st.rrp.peers.single = false)
    (hscan : lc_scan now st.rrp.tried st.rrp.peers.peer 0 none false = (some (p0, best0), many)) :
    ngx_http_upstream_get_least_conn_peer_with rr sticky now st =
      (NGX_OK, lc_finish now { st with pc := { st.pc with cached := 0, connection := none } }
        (lc_break_tie now st.rrp.tried st.rrp.peers.peer p0 best0 many)) := by
  unfold ngx_http_upstream_get_least_conn_peer_with
  simp only [hs, Bool.false_eq_true, if_false, hscan]

theorem lc_with_none_no_backup
    (rr : RrPeerData → PeerConnection → Int × RrPeerData × PeerConnection)
    (sticky : State → Int × State) (now : Int) (st : State) (many : Bool)
    (hs : st.rrp.peers.single = false) (hnext : st.rrp.next = [])
    (hscan : lc_scan now st.rrp.tried st.rrp.peers.peer 0 none false = (none, many)) :
    ngx_http_upstream_get_least_conn_peer_with rr sticky now st =
      (NGX_BUSY, { st with pc := { st.pc with cached := 0, connection := none,
                                               name := st.rrp.peers.name } }) := by
  unfold ngx_http_upstream_get_least_conn_peer_with
  simp only [hs, Bool.false_eq_true, if_false, hscan, hnext]

/-- The success path of the least-connections selection: once the first scan
has found `best0` at `p0`, the call returns OK with a winner `w` that passed the
filter and has the ratio of `best0`; without a tie it is `p0`, with a tie it is
the first participant with the largest `current_weight + effective_weight`. -/
theorem lc_winner
    (rr : RrPeerData → PeerConnection → Int × RrPeerData × PeerConnection)
    (sticky : State → Int × State) (now : Int) (st : State) (p0 : Nat) (best0 : Peer)
    (many : Bool) (hs : st.rrp.peers.single = false) (hwf : NoOverflow st.rrp.peers.peer)
    (hscan : lc_scan now st.rrp.tried st.rrp.peers.peer 0 none false = (some (p0, best0), many))
    (hE : st.rrp.peers.peer[p0]? = some best0)
    (hskip : lc_skip now st.rrp.tried p0 best0 = false) :
    ∃ w bw,
      (ngx_http_upstream_get_least_conn_peer_with rr sticky now st).1 = NGX_OK
      ∧ (ngx_http_upstream_get_least_conn_peer_with rr sticky now st).2.rrp.current = some w
      ∧ (ngx_http_upstream_get_least_conn_peer_with rr sticky now st).2.rrp.next = st.rrp.next
      ∧ (ngx_http_upstream_get_least_conn_peer_with rr sticky now st).2.pc.sockaddr = bw.sockaddr
      ∧ (ngx_http_upstream_get_least_conn_peer_with rr sticky now st).2.pc.socklen = bw.socklen
      ∧ (ngx_http_upstream_get_least_conn_peer_with rr sticky now st).2.pc.name = bw.name
      ∧ st.rrp.peers.peer[w]? = some bw ∧ p0 ≤ w
      ∧ lc_skip now st.rrp.tried w bw = false ∧ RatioEq best0 bw
      ∧ (many = false → w = p0)
      ∧ (many = true → ∀ j q, p0 ≤ j → st.rrp.peers.peer[j]? = some q →
          lc_skip now st.rrp.tried j q = false → RatioEq best0 q →
          tie_value q ≤ tie_value bw ∧ (j < w → tie_value q < tie_value bw)) := by
  rw [lc_with_found rr sticky now st p0 best0 many hs hscan]
  cases many with
  | false =>
    refine ⟨p0, best0, rfl, rfl, rfl, ?_, ?_, ?_, hE, le_refl _, hskip, rfl, fun _ => rfl, ?_⟩
    · exact (lc_commit_sockaddr now _ best0).1
    · exact (lc_commit_sockaddr now _ best0).2.1
    · exact (lc_commit_sockaddr now _ best0).2.2
    · intro h; cases h
  | true =>
    obtain ⟨w, bw, e1, e2, e3, e4, e5, e6, e7⟩ :=
      lc_tie_first now st.rrp.tried st.rrp.peers.peer p0 best0 0 hE hskip hwf
    have hp : (lc_break_tie now st.rrp.tried st.rrp.peers.peer p0 best0 true).p = w := by
      unfold lc_break_tie; simpa using e1
    have hb : (lc_break_tie now st.rrp.tried st.rrp.peers.peer p0 best0 true).best
        = tie_written bw := by
      unfold lc_break_tie; simpa using e2
    refine ⟨w, bw, rfl, ?_, rfl, ?_, ?_, ?_, e3, e4, e5, e6, ?_, fun _ => e7⟩
    · show some _ = some w
      rw [hp]
    · show (lc_commit now _ _).sockaddr = _
      rw [(lc_commit_sockaddr now _ _).1, hb, (tie_written_ids bw).1]
    · show (lc_commit now _ _).socklen = _
      rw [(lc_commit_sockaddr now _ _).2.1, hb, (tie_written_ids bw).2.1]
    · show (lc_commit now _ _).name = _
      rw [(lc_commit_sockaddr now _ _).2.2, hb, (tie_written_ids bw).2.2]
    · intro h; cases h

theorem least_conn_peer_eq
    (rr : RrPeerData → PeerConnection → Int × RrPeerData × PeerConnection)
    (conf : StickySrvConf) (now : Int) (st : State) :
    ngx_http_upstream_get_least_conn_peer rr conf now st =
      ngx_http_upstream_get_least_conn_peer_with rr
        (sticky_depth rr conf now (st.rrp.next.length - 1)) now st := rfl

/-- With a `best` found by the first scan, that peer has a minimal ratio. -/
theorem scanInv_leastRatio (now : Int) (tried : List Nat) (E : List Peer) (p0 : Nat)
    (best0 : Peer) (many : Bool) (hinv : ScanInv now tried E (some (p0, best0)) many) :
    LeastRatio now tried E best0 := by
  intro i q hq he
  exact (hinv.2.2.1 i q hq ((lc_skip_false_iff now tried i q).2 he)).1

/-- A peer with the ratio of a least-ratio peer is a least-ratio peer. -/
theorem leastRatio_of_ratioEq (now : Int) (tried : List Nat) (E : List Peer) (a b : Peer)
    (hwf : NoOverflow E) (ha : a ∈ E) (hb : b ∈ E) (hab : RatioEq a b)
    (hmin : LeastRatio now tried E a) : LeastRatio now tried E b := by
  intro i q hq he
  have hqm := mem_of_getElem?_some hq
  exact ratio_le_trans (hwf.1 b hb) (hwf.1 a ha) (hwf.1 q hqm) (ratioEq_symm hab).le
    (hmin i q hq he)

/-- C1: on a non-single pool with positive weights and cross products that do
not overflow, a call of `ngx_http_upstream_get_least_conn_peer` that returns OK
without switching to the backup pool returns (as current peer and connection
target) a peer `b` that passed the eligibility filter at entry and whose
`conns / weight` ratio is minimal among the peers that passed it. -/
theorem least_conn_returns_eligible_least_ratio
    (rr : RrPeerData → PeerConnection → Int × RrPeerData × PeerConnection)
    (conf : StickySrvConf) (now : Int) (st : State)
    (hsingle : st.rrp.peers.single = false)
    (hwf : NoOverflow st.rrp.peers.peer)
    (hok : (ngx_http_upstream_get_least_conn_peer rr conf now st).1 = NGX_OK)
    (hstay : ¬ SwitchesToBackup now st) :
    ∃ p b,
      (ngx_http_upstream_get_least_conn_peer rr conf now st).2.rrp.current = some p
      ∧ st.rrp.peers.peer[p]? = some b
      ∧ (ngx_http_upstream_get_least_conn_peer rr conf now st).2.pc.sockaddr = b.sockaddr
      ∧ (ngx_http_upstream_get_least_conn_peer rr conf now st).2.pc.socklen = b.socklen
      ∧ (ngx_http_upstream_get_least_conn_peer rr conf now st).2.pc.name = b.name
      ∧ Eligible now st.rrp.tried p b
      ∧ LeastRatio now st.rrp.tried st.rrp.peers.peer b := by
  have hinv := lc_scan_inv_start now st.rrp.tried st.rrp.peers.peer hwf
  rw [least_conn_peer_eq] at hok ⊢
  rcases hscan : lc_scan now st.rrp.tried st.rrp.peers.peer 0 none false with ⟨best, many⟩
  rw [hscan] at hinv
  cases best with
  | none =>
    exfalso
    have hnone : ∀ i q, st.rrp.peers.peer[i]? = some q → ¬ Eligible now st.rrp.tried i q := by
      intro i q hq he
      have h1 := hinv i q hq
      rw [(lc_skip_false_iff now st.rrp.tried i q).2 he] at h1
      cases h1
    by_cases hnext : st.rrp.next = []
    · rw [lc_with_none_no_backup rr _ now st many hsingle hnext hscan] at hok
      have hne : NGX_BUSY ≠ NGX_OK := by decide
      exact hne hok
    · exact hstay ⟨hnone, hnext⟩
  | some pb =>
    obtain ⟨p0, best0⟩ := pb
    have hinv' : ScanInv now st.rrp.tried st.rrp.peers.peer (some (p0, best0)) many := hinv
    obtain ⟨w, bw, _, h2, _, h4, h5, h6, h7, _, h9, h10, _, _⟩ :=
      lc_winner rr (sticky_depth rr conf now (st.rrp.next.length - 1)) now st p0 best0 many
        hsingle hwf hscan hinv'.1 hinv'.2.1
    refine ⟨w, bw, h2, h7, h4, h5, h6, (lc_skip_false_iff _ _ _ _).1 h9, ?_⟩
    exact leastRatio_of_ratioEq now st.rrp.tried st.rrp.peers.peer best0 bw hwf
      (mem_of_getElem?_some hinv'.1) (mem_of_getElem?_some h7) h10
      (scanInv_leastRatio now st.rrp.tried st.rrp.peers.peer p0 best0 many hinv')

/-- Witness of C1: peers with ratios 3/1 and 2/2, the second is returned. -/
theorem least_conn_returns_eligible_least_ratio_witness :
    (ex_state [ex_peer 100 3 1, ex_peer 101 2 2]).rrp.peers.single = false
    ∧ NoOverflow (ex_state [ex_peer 100 3 1, ex_peer 101 2 2]).rrp.peers.peer
    ∧ (ngx_http_upstream_get_least_conn_peer ex_rr ex_conf 100
        (ex_state [ex_peer 100 3 1, ex_peer 101 2 2])).1 = NGX_OK
    ∧ ¬ SwitchesToBackup 100 (ex_state [ex_peer 100 3 1, ex_peer 101 2 2])
    ∧ (ngx_http_upstream_get_least_conn_peer ex_rr ex_conf 100
        (ex_state [ex_peer 100 3 1, ex_peer 101 2 2])).2.rrp.current = some 1
    ∧ ∃ p b,
      (ngx_http_upstream_get_least_conn_peer ex_rr ex_conf 100
        (ex_state [ex_peer 100 3 1, ex_peer 101 2 2])).2.rrp.current = some p
      ∧ (ex_state [ex_peer 100 3 1, ex_peer 101 2 2]).rrp.peers.peer[p]? = some b
      ∧ (ngx_http_upstream_get_least_conn_peer ex_rr ex_conf 100
        (ex_state [ex_peer 100 3 1, ex_peer 101 2 2])).2.pc.sockaddr = b.sockaddr
      ∧ (ngx_http_upstream_get_least_conn_peer ex_rr ex_conf 100
        (ex_state [ex_peer 100 3 1, ex_peer 101 2 2])).2.pc.socklen = b.socklen
      ∧ (ngx_http_upstream_get_least_conn_peer ex_rr ex_conf 100
        (ex_state [ex_peer 100 3 1, ex_peer 101 2 2])).2.pc.name = b.name
      ∧ Eligible 100 (ex_state [ex_peer 100 3 1, ex_peer 101 2 2]).rrp.tried p b
      ∧ LeastRatio 100 (ex_state [ex_peer 100 3 1, ex_peer 101 2 2]).rrp.tried
          (ex_state [ex_peer 100 3 1, ex_peer 101 2 2]).rrp.peers.peer b :=
  ⟨by decide, by decide, by decide, fun h => h.2 rfl, by decide,
    least_conn_returns_eligible_least_ratio ex_rr ex_conf 100
      (ex_state [ex_peer 100 3 1, ex_peer 101 2 2]) (by decide) (by decide) (by decide)
      (fun h => h.2 rfl)⟩

theorem to_int_of_lt (k : Nat) (h : k < 2147483648) : to_int (k : Int) = (k : Int) := by
  unfold to_int
  omega

/-- On a value without a zero byte and a digest of the same length,
`ngx_strncmp` is zero exactly when the two are equal byte for byte. -/
theorem ngx_strncmp_eq_zero_iff :
    ∀ (v d : List Nat), d.length = v.length → (∀ c ∈ v, c ≠ 0) →
      (0 = ngx_strncmp d v v.length ↔ d = v) := by
  intro v
  induction v with
  | nil =>
    intro d hlen _
    have : d = [] := List.length_eq_zero.1 hlen
    subst this
    simp [ngx_strncmp]
  | cons c cs ih =>
    intro d hlen hnz
    cases d with
    | nil => simp at hlen
    | cons e es =>
      have hc : c ≠ 0 := hnz c (by simp)
      have hlen' : es.length = cs.length := by simpa using hlen
      have ih' := ih es hlen' (fun x hx => hnz x (by simp [hx]))
      by_cases hec : e = c
      · subst hec
        simp only [List.length_cons, ngx_strncmp, List.headD_cons, ne_eq, not_true_eq_false,
          if_false, hc, List.tail_cons, List.cons.injEq, true_and]
        exact ih'
      · simp only [List.length_cons, ngx_strncmp, List.headD_cons, ne_eq, hec, not_false_eq_true,
          if_true, List.cons.injEq, false_and, iff_false]
        omega

/-- The digest search returns the lowest index below `number` whose digest is
the (non-empty, zero-free) value, and nothing when there is none. -/
theorem digest_search_spec (v : List Nat) (number : Nat) (hv : v ≠ []) (hnz : ∀ c ∈ v, c ≠ 0) :
    ∀ (tbl : List StickyPeer) (i0 : Nat),
      (∀ k, digest_search v number tbl i0 = some k →
        ∃ j sp, k = i0 + j ∧ k < number ∧ tbl[j]? = some sp ∧ sp.digest = v
          ∧ ∀ j' sq, j' < j → tbl[j']? = some sq → sq.digest ≠ v)
      ∧ (digest_search v number tbl i0 = none →
        ∀ j sp, i0 + j < number → tbl[j]? = some sp → sp.digest ≠ v) := by
  have hlen : ¬ v.length ≤ 0 := by
    intro h
    exact hv (List.length_eq_zero.1 (Nat.le_zero.1 h))
  intro tbl
  induction tbl with
  | nil =>
    intro i0
    exact ⟨fun k hk => (by simp [digest_search] at hk), fun _ j sp _ hj => (by simp at hj)⟩
  | cons sp rest ih =>
    intro i0
    by_cases hi : i0 < number
    · by_cases hl : sp.digest.length = v.length
      · have hcmp := ngx_strncmp_eq_zero_iff v sp.digest hl hnz
        by_cases hm : 0 = ngx_strncmp sp.digest v v.length
        · have hd := hcmp.1 hm
          have hval : digest_search v number (sp :: rest) i0 = some i0 := by
            simp only [digest_search, hi, if_true, hl, ne_eq, not_true_eq_false, hlen, or_self,
              if_false, hm]
          rw [hval]
          refine ⟨fun k hk => ?_, fun h => (by cases h)⟩
          cases hk
          exact ⟨0, sp, rfl, hi, by simp, hd, fun j' _ h => absurd h (Nat.not_lt_zero _)⟩
        · have hd : sp.digest ≠ v := fun h => hm (hcmp.2 h)
          have hval : digest_search v number (sp :: rest) i0
              = digest_search v number rest (i0 + 1) := by
            simp only [digest_search, hi, if_true, hl, ne_eq, not_true_eq_false, hlen, or_self,
              if_false, hm]
          rw [hval]
          obtain ⟨ih1, ih2⟩ := ih (i0 + 1)
          refine ⟨fun k hk => ?_, fun h j sq hj hq => ?_⟩
          · obtain ⟨j, sq, e1, e2, e3, e4, e5⟩ := ih1 k hk
            refine ⟨j + 1, sq, by omega, e2, by simpa using e3, e4, ?_⟩
            intro j' sq' hj' hq'
            cases j' with
            | zero => simp at hq'; subst hq'; exact hd
            | succ n => exact e5 n sq' (by omega) (by simpa using hq')
          · cases j with
            | zero => simp at hq; subst hq; exact hd
            | succ n => exact ih2 h n sq (by omega) (by simpa using hq)
      · have hd : sp.digest ≠ v := fun h => hl (by rw [h])
        have hval : digest_search v number (sp :: rest) i0
            = digest_search v number rest (i0 + 1) := by
          simp only [digest_search, hi, if_true, ne_eq, hl, not_false_eq_true, true_or]
        rw [hval]
        obtain ⟨ih1, ih2⟩ := ih (i0 + 1)
        refine ⟨fun k hk => ?_, fun h j sq hj hq => ?_⟩
        · obtain ⟨j, sq, e1, e2, e3, e4, e5⟩ := ih1 k hk
          refine ⟨j + 1, sq, by omega, e2, by simpa using e3, e4, ?_⟩
          intro j' sq' hj' hq'
          cases j' with
          | zero => simp at hq'; subst hq'; exact hd
          | succ n => exact e5 n sq' (by omega) (by simpa using hq')
        · cases j with
          | zero => simp at hq; subst hq; exact hd
          | succ n => exact ih2 h n sq (by omega) (by simpa using hq)
    · have hval : digest_search v number (sp :: rest) i0 = none := by
        simp only [digest_search, hi, if_false]
      rw [hval]
      exact ⟨fun k hk => (by cases hk), fun _ j sq hj _ => (by omega)⟩

/-- The empty cookie value matches no digest. -/
theorem digest_search_nil (number : Nat) :
    ∀ (tbl : List StickyPeer) (i0 : Nat), digest_search [] number tbl i0 = none := by
  intro tbl
  induction tbl with
  | nil => intro i0; rfl
  | cons sp rest ih =>
    intro i0
    by_cases hi : i0 < number
    · simp only [digest_search, hi, if_true, List.length_nil, le_refl, or_true]
      exact ih (i0 + 1)
    · simp only [digest_search, hi, if_false]

theorem init_sticky_digest_eq (conf : StickySrvConf) (env : InitEnv) (r : Request)
    (pc : PeerConnection) (tbl : List StickyPeer) (v : List Nat)
    (hmode : conf.hash.isSome ∨ conf.hmac.isSome ∨ conf.text.isSome)
    (htbl : conf.peers = some tbl) (hpalloc : env.palloc_ok = true) (hrr : env.rr_rc = NGX_OK)
    (hcookie : env.cookie = some v) :
    ngx_http_init_sticky_peer conf env r pc =
      (NGX_OK, some
        { rrp := env.rrp,
          selected_peer :=
            match digest_search v env.rrp.peers.number tbl 0 with
            | some i => to_int i
            | none => -1,
          no_fallback := 0, lb_alg := 0, request := r, pc := pc }) := by
  unfold ngx_http_init_sticky_peer
  have h1 : ¬ (env.palloc_ok = false) := by simp [hpalloc]
  have h2 : ¬ (NGX_OK ≠ env.rr_rc) := by simp [hrr]
  rw [if_neg h1, if_neg h2]
  simp only [hcookie, if_pos hmode, htbl]
  cases digest_search v env.rrp.peers.number tbl 0 <;> rfl

/-- C3 (amended): in digest mode with the digest table built, for every
non-empty cookie value without a zero byte (and a peer count within the range
of `int`) `ngx_http_init_sticky_peer` returns OK and sets `selected_peer` to
the lowest index `i < number` whose digest equals the value byte for byte
(same length included), and leaves it at -1 when there is none; for the empty
cookie value it leaves `selected_peer = -1`. -/
theorem init_sticky_digest_match (conf : StickySrvConf) (env : InitEnv) (r : Request)
    (pc : PeerConnection) (tbl : List StickyPeer) (v : List Nat)
    (hmode : conf.hash.isSome ∨ conf.hmac.isSome ∨ conf.text.isSome)
    (htbl : conf.peers = some tbl) (hpalloc : env.palloc_ok = true) (hrr : env.rr_rc = NGX_OK)
    (hcookie : env.cookie = some v) (hnz : ∀ c ∈ v, c ≠ 0)
    (hnum : env.rrp.peers.number ≤ 2147483648) :
    ∃ st, ngx_http_init_sticky_peer conf env r pc = (NGX_OK, some st)
      ∧ (v = [] → st.selected_peer = -1)
      ∧ (v ≠ [] →
          (∃ (i : Nat) (sp : StickyPeer), st.selected_peer = (i : Int) ∧ i < env.rrp.peers.number
              ∧ tbl[i]? = some sp ∧ sp.digest = v
              ∧ ∀ j sq, j < i → tbl[j]? = some sq → sq.digest ≠ v)
          ∨ (st.selected_peer = -1
              ∧ ∀ i sp, i < env.rrp.peers.number → tbl[i]? = some sp → sp.digest ≠ v)) := by
  rw [init_sticky_digest_eq conf env r pc tbl v hmode htbl hpalloc hrr hcookie]
  refine ⟨_, rfl, ?_, ?_⟩
  · intro hv
    subst hv
    simp only [digest_search_nil]
  · intro hv
    obtain ⟨h1, h2⟩ := digest_search_spec v env.rrp.peers.number hv hnz tbl 0
    cases hs : digest_search v env.rrp.peers.number tbl 0 with
    | none =>
      right
      refine ⟨rfl, ?_⟩
      intro i sp hi hq
      exact h2 hs i sp (by omega) hq
    | some k =>
      left
      obtain ⟨j, sp, e1, e2, e3, e4, e5⟩ := h1 k hs
      have hkj : k = j := by omega
      subst hkj
      exact ⟨k, sp, to_int_of_lt k (by omega), e2, e3, e4, e5⟩

/-- Witness of C3 (amended): the cookie `cd` against the digests `ab`, `cd`. -/
theorem init_sticky_digest_match_witness :
    ((ex_conf_digest [⟨0, [97, 98]⟩, ⟨1, [99, 100]⟩]).hash.isSome
      ∨ (ex_conf_digest [⟨0, [97, 98]⟩, ⟨1, [99, 100]⟩]).hmac.isSome
      ∨ (ex_conf_digest [⟨0, [97, 98]⟩, ⟨1, [99, 100]⟩]).text.isSome)
    ∧ (ngx_http_init_sticky_peer (ex_conf_digest [⟨0, [97, 98]⟩, ⟨1, [99, 100]⟩])
        (ex_env [ex_peer 100 0 1, ex_peer 101 0 1] (some [99, 100])) ex_request ex_pc).2.map
          (fun st => st.selected_peer) = some 1
    ∧ ∃ st, ngx_http_init_sticky_peer (ex_conf_digest [⟨0, [97, 98]⟩, ⟨1, [99, 100]⟩])
        (ex_env [ex_peer 100 0 1, ex_peer 101 0 1] (some [99, 100])) ex_request ex_pc
          = (NGX_OK, some st)
      ∧ (([99, 100] : List Nat) = [] → st.selected_peer = -1)
      ∧ (([99, 100] : List Nat) ≠ [] →
          (∃ (i : Nat) (sp : StickyPeer), st.selected_peer = (i : Int)
              ∧ i < (ex_env [ex_peer 100 0 1, ex_peer 101 0 1] (some [99, 100])).rrp.peers.number
              ∧ ([⟨0, [97, 98]⟩, ⟨1, [99, 100]⟩] : List StickyPeer)[i]? = some sp
              ∧ sp.digest = [99, 100]
              ∧ ∀ j sq, j < i → ([⟨0, [97, 98]⟩, ⟨1, [99, 100]⟩] : List StickyPeer)[j]? = some sq →
                  sq.digest ≠ [99, 100])
          ∨ (st.selected_peer = -1
              ∧ ∀ i sp,
                i < (ex_env [ex_peer 100 0 1, ex_peer 101 0 1] (some [99, 100])).rrp.peers.number →
                ([⟨0, [97, 98]⟩, ⟨1, [99, 100]⟩] : List StickyPeer)[i]? = some sp →
                sp.digest ≠ [99, 100])) :=
  ⟨by decide, by decide,
    init_sticky_digest_match (ex_conf_digest [⟨0, [97, 98]⟩, ⟨1, [99, 100]⟩])
      (ex_env [ex_peer 100 0 1, ex_peer 101 0 1] (some [99, 100])) ex_request ex_pc
      [⟨0, [97, 98]⟩, ⟨1, [99, 100]⟩] [99, 100] (by decide) rfl rfl rfl rfl (by decide)
      (by decide)⟩

/-- Counterexample to C3 as stated: (1) with an empty digest at index 0 and the
empty cookie value, entry 0 has the length and the bytes of the value, yet
`selected_peer` stays -1 (the scan skips every entry when the value is empty);
(2) with the digest `a\\0b` at index 0 and the cookie value `a\\0c`, no digest
equals the value, yet `selected_peer` becomes 0 (`ngx_strncmp` stops at the
zero byte). -/
theorem init_sticky_digest_match_counterexample :
    (([⟨0, []⟩, ⟨1, [97]⟩] : List StickyPeer)[0]?.map (fun sp => sp.digest) = some []
      ∧ (ngx_http_init_sticky_peer (ex_conf_digest [⟨0, []⟩, ⟨1, [97]⟩])
          (ex_env [ex_peer 100 0 1, ex_peer 101 0 1] (some [])) ex_request ex_pc).2.map
            (fun st => st.selected_peer) = some (-1))
    ∧ ((∀ sp ∈ ([⟨0, [97, 0, 98]⟩, ⟨1, [99]⟩] : List StickyPeer), sp.digest ≠ [97, 0, 99])
      ∧ (ngx_http_init_sticky_peer (ex_conf_digest [⟨0, [97, 0, 98]⟩, ⟨1, [99]⟩])
          (ex_env [ex_peer 100 0 1, ex_peer 101 0 1] (some [97, 0, 99])) ex_request ex_pc).2.map
            (fun st => st.selected_peer) = some 0) := by
  decide

theorem digits_foldl_ge (v : List Nat) :
    ∀ a : Nat, a ≤ v.foldl (fun a c => a * 10 + (c - 48)) a := by
  induction v with
  | nil => intro a; exact le_refl _
  | cons c cs ih =>
    intro a
    simp only [List.foldl_cons]
    exact le_trans (by omega) (ih (a * 10 + (c - 48)))

/-- A byte that is not a digit makes `ngx_atoi` fail. -/
theorem ngx_atoi_loop_nondigit (v : List Nat) :
    ∀ a : Int, (∃ c ∈ v, c < 48 ∨ c > 57) → ngx_atoi_loop v a = NGX_ERROR := by
  induction v with
  | nil => intro a h; obtain ⟨c, hc, _⟩ := h; cases hc
  | cons c cs ih =>
    intro a h
    by_cases hc : c < 48 ∨ c > 57
    · simp only [ngx_atoi_loop, hc, if_true]
    · have hrest : ∃ d ∈ cs, d < 48 ∨ d > 57 := by
        obtain ⟨d, hd, hdd⟩ := h
        rcases List.mem_cons.1 hd with rfl | hd
        · exact absurd hdd hc
        · exact ⟨d, hd, hdd⟩
      simp only [ngx_atoi_loop, hc, if_false]
      split
      · rfl
      · exact ih _ hrest

/-- On digits `ngx_atoi` computes the number they spell, and fails when it
exceeds the largest `ngx_int_t`. -/
theorem ngx_atoi_loop_digits (v : List Nat) :
    ∀ a : Nat, (∀ c ∈ v, 48 ≤ c ∧ c ≤ 57) → (a : Int) ≤ NGX_MAX_INT_T_VALUE →
      ngx_atoi_loop v (a : Int) =
        if ((v.foldl (fun a c => a * 10 + (c - 48)) a : Nat) : Int) ≤ NGX_MAX_INT_T_VALUE
        then ((v.foldl (fun a c => a * 10 + (c - 48)) a : Nat) : Int) else NGX_ERROR := by
  induction v with
  | nil =>
    intro a _ ha
    simp only [ngx_atoi_loop, List.foldl_nil, ha, if_true]
  | cons c cs ih =>
    intro a hd ha
    have hc := hd c (by simp)
    have hcs : ∀ d ∈ cs, 48 ≤ d ∧ d ≤ 57 := fun d h => hd d (by simp [h])
    have hnd : ¬ (c < 48 ∨ c > 57) := by omega
    simp only [ngx_atoi_loop, hnd, if_false, List.foldl_cons]
    have hge := digits_foldl_ge cs (a * 10 + (c - 48))
    unfold NGX_MAX_INT_T_VALUE at ha ⊢
    by_cases hov : (a : Int) ≥ 9223372036854775807 / 10
        ∧ ((a : Int) > 9223372036854775807 / 10 ∨ (c : Int) - 48 > 9223372036854775807 % 10)
    · rw [if_pos hov]
      have hbig : ¬ ((cs.foldl (fun a c => a * 10 + (c - 48)) (a * 10 + (c - 48)) : Nat) : Int)
          ≤ 9223372036854775807 := by
        omega
      rw [if_neg hbig]
    · rw [if_neg hov]
      have hcast : (a : Int) * 10 + ((c : Int) - 48) = ((a * 10 + (c - 48) : Nat) : Int) := by
        omega
      rw [hcast]
      have := ih (a * 10 + (c - 48)) hcs (by unfold NGX_MAX_INT_T_VALUE; omega)
      unfold NGX_MAX_INT_T_VALUE at this
      exact this

/-- The parser `ngx_atoi` against the reading of the specification. -/
theorem ngx_atoi_eq (v : List Nat) :
    ngx_atoi v =
      match decimal_value v with
      | some n => if (n : Int) ≤ NGX_MAX_INT_T_VALUE then (n : Int) else NGX_ERROR
      | none => NGX_ERROR := by
  unfold ngx_atoi decimal_value
  by_cases hv : v = []
  · subst hv; simp
  · have hlen : ¬ v.length = 0 := fun h => hv (List.length_eq_zero.1 h)
    rw [if_neg hlen, if_neg hv]
    by_cases hd : ∀ c ∈ v, 48 ≤ c ∧ c ≤ 57
    · rw [if_pos hd]
      have := ngx_atoi_loop_digits v 0 hd (by unfold NGX_MAX_INT_T_VALUE; omega)
      simpa using this
    · rw [if_neg hd]
      apply ngx_atoi_loop_nondigit
      by_contra hcon
      apply hd
      intro c hc
      by_contra hcc
      exact hcon ⟨c, hc, by omega⟩

theorem init_sticky_index_eq (conf : StickySrvConf) (env : InitEnv) (r : Request)
    (pc : PeerConnection) (v : List Nat)
    (hmode : conf.hash = none ∧ conf.hmac = none ∧ conf.text = none)
    (hpalloc : env.palloc_ok = true) (hrr : env.rr_rc = NGX_OK)
    (hcookie : env.cookie = some v) :
    ngx_http_init_sticky_peer conf env r pc =
      (NGX_OK, some
        { rrp := env.rrp,
          selected_peer :=
            if NGX_ERROR = ngx_atoi v then -1
            else if ngx_atoi v ≥ 0 ∧ ngx_atoi v < (env.rrp.peers.number : Int)
              then to_int (ngx_atoi v) else -1,
          no_fallback := 0, lb_alg := 0, request := r, pc := pc }) := by
  unfold ngx_http_init_sticky_peer
  have h1 : ¬ (env.palloc_ok = false) := by simp [hpalloc]
  have h2 : ¬ (NGX_OK ≠ env.rr_rc) := by simp [hrr]
  have h3 : ¬ (conf.hash.isSome ∨ conf.hmac.isSome ∨ conf.text.isSome) := by
    simp [hmode.1, hmode.2.1, hmode.2.2]
  rw [if_neg h1, if_neg h2]
  simp only [hcookie, if_neg h3]
  by_cases he : NGX_ERROR = ngx_atoi v
  · rw [if_pos he, if_pos he]
  · rw [if_neg he, if_neg he]
    by_cases hr : ngx_atoi v ≥ 0 ∧ ngx_atoi v < (env.rrp.peers.number : Int)
    · rw [if_pos hr, if_pos hr]
    · rw [if_neg hr, if_neg hr]

/-- C4: in index mode (no hash, hmac or text function configured), for every
cookie value `v` and every peer count `N` within the range of `int`,
`ngx_http_init_sticky_peer` returns OK with `selected_peer = n` exactly when
`v` reads as a non-negative base-10 integer `n` with `n < N`, and with
`selected_peer = -1` for every other value. -/
theorem init_sticky_index_match (conf : StickySrvConf) (env : InitEnv) (r : Request)
    (pc : PeerConnection) (v : List Nat)
    (hmode : conf.hash = none ∧ conf.hmac = none ∧ conf.text = none)
    (hpalloc : env.palloc_ok = true) (hrr : env.rr_rc = NGX_OK)
    (hcookie : env.cookie = some v) (hnum : env.rrp.peers.number ≤ 2147483648) :
    ∃ st, ngx_http_init_sticky_peer conf env r pc = (NGX_OK, some st)
      ∧ (∀ n : Nat, st.selected_peer = (n : Int) ↔
          decimal_value v = some n ∧ n < env.rrp.peers.number)
      ∧ ((¬ ∃ n : Nat, decimal_value v = some n ∧ n < env.rrp.peers.number) →
          st.selected_peer = -1) := by
  rw [init_sticky_index_eq conf env r pc v hmode hpalloc hrr hcookie]
  refine ⟨_, rfl, ?_⟩
  simp only
  rw [ngx_atoi_eq]
  cases hdv : decimal_value v with
  | none =>
    simp only [NGX_ERROR, if_true]
    exact ⟨fun n => ⟨fun h => (by omega), fun h => (by cases h.1)⟩, fun _ => trivial⟩
  | some m =>
    simp only
    by_cases hm : (m : Int) ≤ NGX_MAX_INT_T_VALUE
    · rw [if_pos hm]
      have he : ¬ (NGX_ERROR = (m : Int)) := by unfold NGX_ERROR; omega
      rw [if_neg he]
      by_cases hr : (m : Int) ≥ 0 ∧ (m : Int) < (env.rrp.peers.number : Int)
      · rw [if_pos hr, to_int_of_lt m (by omega)]
        refine ⟨fun n => ⟨fun h => ?_, fun h => ?_⟩, fun h => ?_⟩
        · have : m = n := by omega
          subst this
          exact ⟨rfl, by omega⟩
        · have := Option.some.inj h.1
          omega
        · exact absurd ⟨m, rfl, by omega⟩ h
      · rw [if_neg hr]
        refine ⟨fun n => ⟨fun h => by omega, fun h => ?_⟩, fun _ => rfl⟩
        have := Option.some.inj h.1
        omega
    · rw [if_neg hm]
      simp only [NGX_ERROR, if_true]
      refine ⟨fun n => ⟨fun h => by omega, fun h => ?_⟩, fun _ => trivial⟩
      have := Option.some.inj h.1
      unfold NGX_MAX_INT_T_VALUE at hm
      omega

/-- Witness of C4, the examples of the specification with five peers: the
cookie `2` gives 2, the cookies `5` and `abc` give none. -/
theorem init_sticky_index_match_witness :
    (ex_conf.hash = none ∧ ex_conf.hmac = none ∧ ex_conf.text = none)
    ∧ (ex_env (List.replicate 5 (ex_peer 100 0 1)) (some [50])).rrp.peers.number = 5
    ∧ (ngx_http_init_sticky_peer ex_conf (ex_env (List.replicate 5 (ex_peer 100 0 1)) (some [50]))
        ex_request ex_pc).2.map (fun st => st.selected_peer) = some 2
    ∧ (ngx_http_init_sticky_peer ex_conf (ex_env (List.replicate 5 (ex_peer 100 0 1)) (some [53]))
        ex_request ex_pc).2.map (fun st => st.selected_peer) = some (-1)
    ∧ (ngx_http_init_sticky_peer ex_conf
        (ex_env (List.replicate 5 (ex_peer 100 0 1)) (some [97, 98, 99]))
        ex_request ex_pc).2.map (fun st => st.selected_peer) = some (-1)
    ∧ ∃ st, ngx_http_init_sticky_peer ex_conf
        (ex_env (List.replicate 5 (ex_peer 100 0 1)) (some [50])) ex_request ex_pc
          = (NGX_OK, some st)
      ∧ (∀ n : Nat, st.selected_peer = (n : Int) ↔
          decimal_value [50] = some n
          ∧ n < (ex_env (List.replicate 5 (ex_peer 100 0 1)) (some [50])).rrp.peers.number)
      ∧ ((¬ ∃ n : Nat, decimal_value [50] = some n
            ∧ n < (ex_env (List.replicate 5 (ex_peer 100 0 1)) (some [50])).rrp.peers.number) →
          st.selected_peer = -1) :=
  ⟨by decide, by decide, by decide, by decide, by decide,
    init_sticky_index_match ex_conf (ex_env (List.replicate 5 (ex_peer 100 0 1)) (some [50]))
      ex_request ex_pc [50] (by decide) rfl rfl rfl (by decide)⟩

/-! ## Lemmas: the cookie written by the fallback path -/

theorem sprintf_num_length : ∀ (f u : Nat) (acc : List Nat),
    (sprintf_num f u acc).length = route_len f u + acc.length := by
  intro f
  induction f with
  | zero => intro u acc; simp [sprintf_num, route_len]
  | succ f ih =>
    intro u acc
    by_cases h : u / 10 ≠ 0
    · simp only [sprintf_num, route_len, h, if_true, ne_eq, not_false_eq_true]
      rw [ih]
      simp only [List.length_cons]
      omega
    · simp only [sprintf_num, route_len, h, if_false, List.length_cons]
      omega

theorem route_len_pos (f u : Nat) : 1 ≤ route_len (f + 1) u := by
  rw [route_len]
  omega

theorem sprintf_num_value : ∀ (f u : Nat) (acc : List Nat), u < 10 ^ f →
    (sprintf_num f u acc).foldl (fun a c => a * 10 + (c - 48)) 0
      = acc.foldl (fun a c => a * 10 + (c - 48)) u := by
  intro f
  induction f with
  | zero =>
    intro u acc hu
    have : u = 0 := by simpa using hu
    subst this
    rfl
  | succ f ih =>
    intro u acc hu
    by_cases h : u / 10 ≠ 0
    · simp only [sprintf_num, h, if_true, ne_eq, not_false_eq_true]
      rw [ih (u / 10) _ (by rw [pow_succ] at hu; omega)]
      simp only [List.foldl_cons]
      congr 1
      omega
    · simp only [sprintf_num, h, if_false, List.foldl_cons]
      congr 1
      omega

theorem sprintf_num_digits : ∀ (f u : Nat) (acc : List Nat),
    (∀ c ∈ acc, 48 ≤ c ∧ c ≤ 57) → ∀ c ∈ sprintf_num f u acc, 48 ≤ c ∧ c ≤ 57 := by
  intro f
  induction f with
  | zero => intro u acc hacc c hc; exact hacc c (by simpa [sprintf_num] using hc)
  | succ f ih =>
    intro u acc hacc c hc
    have hcons : ∀ d ∈ (u % 10 + 48) :: acc, 48 ≤ d ∧ d ≤ 57 := by
      intro d hd
      rcases List.mem_cons.1 hd with rfl | hd
      · omega
      · exact hacc d hd
    by_cases h : u / 10 ≠ 0
    · simp only [sprintf_num, h, if_true, ne_eq, not_false_eq_true] at hc
      exact ih _ _ hcons c hc
    · simp only [sprintf_num, h, if_false] at hc
      exact hcons c hc

theorem takeWhile_append_zero (l : List Nat) (h : ∀ c ∈ l, c ≠ 0) :
    (l ++ [0]).takeWhile (fun c => c != 0) = l := by
  induction l with
  | nil => simp [List.takeWhile]
  | cons x xs ih =>
    have hx : x ≠ 0 := h x (by simp)
    simp only [List.cons_append, List.takeWhile_cons, bne_iff_ne, ne_eq, hx, not_false_eq_true,
      if_true]
    rw [ih (fun c hc => h c (by simp [hc]))]

/-- The cookie value of index mode is the digit string printed by the core
for `i`, as long as `i` is within the non-negative range of `int`. -/
theorem index_route_eq (i : Nat) (hi : i < 2147483648) : index_route i = sprintf_num 20 i [] := by
  unfold index_route ngx_snprintf_d ngx_strlen
  have hto : to_int (i : Int) = (i : Int) := to_int_of_lt i hi
  have hlen : (sprintf_num 20 i []).length = route_len 20 i := by
    rw [sprintf_num_length]; rfl
  have hnz : ∀ c ∈ sprintf_num 20 i [], c ≠ 0 := by
    intro c hc
    have := sprintf_num_digits 20 i [] (by intro d hd; cases hd) c hc
    omega
  simp only [hto, Int.natAbs_ofNat]
  have hneg : ¬ ((i : Int) < 0) := by omega
  rw [if_neg hneg, List.nil_append, ← hlen, List.take_length]
  have h1 : (sprintf_num 20 i []).length + 1 - (sprintf_num 20 i []).length = 1 := by omega
  rw [h1]
  have h2 : List.replicate 1 (0 : Nat) = [0] := rfl
  rw [h2, takeWhile_append_zero _ hnz, List.take_left']
  rfl

/-- The cookie value of index mode reads back as `i`. -/
theorem decimal_value_index_route (i : Nat) (hi : i < 2147483648) :
    decimal_value (index_route i) = some i := by
  rw [index_route_eq i hi]
  have hlen : (sprintf_num 20 i []).length = route_len 20 i := by
    rw [sprintf_num_length]; rfl
  have hne : sprintf_num 20 i [] ≠ [] := by
    intro h
    rw [h] at hlen
    have h20 : 1 ≤ route_len 20 i := route_len_pos 19 i
    simp only [List.length_nil] at hlen
    omega
  have hd := sprintf_num_digits 20 i [] (by intro d hd; cases hd)
  unfold decimal_value
  rw [if_neg hne, if_pos hd, sprintf_num_value 20 i [] (by omega)]
  rfl

/-- The do/while loop counts the decimal digits. -/
theorem route_len_digits : ∀ (f k u : Nat), 1 ≤ k → k ≤ f → 10 ^ (k - 1) ≤ u → u < 10 ^ k →
    route_len f u = k := by
  intro f
  induction f with
  | zero => intro k u h1 h2; omega
  | succ f ih =>
    intro k u h1 h2 h3 h4
    by_cases hk : k = 1
    · subst hk
      have : u / 10 = 0 := by simp at h4; omega
      simp [route_len, this]
    · have hk2 : k - 1 = (k - 2) + 1 := by omega
      have hk3 : k = (k - 1) + 1 := by omega
      rw [hk2, pow_succ] at h3
      rw [hk3, pow_succ] at h4
      have hne : u / 10 ≠ 0 := by
        have : 1 ≤ 10 ^ (k - 2) := Nat.one_le_pow _ _ (by omega)
        omega
      simp only [route_len, hne, if_true, ne_eq, not_false_eq_true]
      have := ih (k - 1) (u / 10) (by omega) (by omega)
        (by rw [show k - 1 - 1 = k - 2 by omega]; omega) (by omega)
      omega

theorem sticky_cookie_loop_located (conf : StickySrvConf) (st : State) :
    ∀ (l : List Peer) (i0 k : Nat),
      (∃ q, l[k]? = some q ∧ q.sockaddr = st.pc.sockaddr ∧ q.socklen = st.pc.socklen) →
      (∀ j q, j < k → l[j]? = some q →
        ¬ (q.sockaddr = st.pc.sockaddr ∧ q.socklen = st.pc.socklen)) →
      sticky_cookie_loop conf st l i0 = route_cookie conf st (i0 + k) := by
  intro l
  induction l with
  | nil =>
    intro i0 k h _
    obtain ⟨q, hq, _⟩ := h
    simp at hq
  | cons x rest ih =>
    intro i0 k h hfirst
    cases k with
    | zero =>
      obtain ⟨q, hq, hm⟩ := h
      simp at hq
      subst hq
      simp only [sticky_cookie_loop, hm, and_self, if_true, Nat.add_zero]
    | succ n =>
      have hx : ¬ (x.sockaddr = st.pc.sockaddr ∧ x.socklen = st.pc.socklen) :=
        hfirst 0 x (by omega) (by simp)
      simp only [sticky_cookie_loop, hx, if_false]
      rw [ih (i0 + 1) n (by simpa using h)
        (fun j q hj hq => hfirst (j + 1) q (by omega) (by simpa using hq))]
      congr 1
      omega

/-- The fallback branch on an OK return of the algorithm: the located peer
gets its cookie and `selected_peer` is reset. -/
theorem sticky_fallback_ok
    (rr : RrPeerData → PeerConnection → Int × RrPeerData × PeerConnection)
    (lc : State → Int × State) (conf : StickySrvConf) (st st2 : State) (i : Nat)
    (hnf : st.no_fallback = 0)
    (hsel : fallback_select rr lc conf st = some (NGX_OK, st2))
    (hloc : Located st2.rrp.peers.peer st2.pc i) :
    sticky_fallback rr lc conf st = (NGX_OK, { route_cookie conf st2 i with selected_peer := -1 }) := by
  unfold sticky_fallback
  have h0 : ¬ (st.no_fallback ≠ 0) := by simp [hnf]
  rw [if_neg h0, hsel]
  simp only [ne_eq, not_true_eq_false, if_false]
  rw [sticky_cookie_loop_located conf st2 st2.rrp.peers.peer 0 i hloc.1 hloc.2]
  simp

/-- In index mode a cookie value that reads as `n < number` selects `n`. -/
theorem init_sticky_index_selected (conf : StickySrvConf) (env : InitEnv) (r : Request)
    (pc : PeerConnection) (v : List Nat) (n : Nat)
    (hmode : conf.hash = none ∧ conf.hmac = none ∧ conf.text = none)
    (hpalloc : env.palloc_ok = true) (hrr : env.rr_rc = NGX_OK)
    (hcookie : env.cookie = some v) (hnum : env.rrp.peers.number ≤ 2147483648)
    (hv : decimal_value v = some n) (hn : n < env.rrp.peers.number) :
    ∃ st, ngx_http_init_sticky_peer conf env r pc = (NGX_OK, some st)
      ∧ st.selected_peer = (n : Int) := by
  rw [init_sticky_index_eq conf env r pc v hmode hpalloc hrr hcookie]
  refine ⟨_, rfl, ?_⟩
  simp only
  rw [ngx_atoi_eq, hv]
  simp only
  have hm : (n : Int) ≤ NGX_MAX_INT_T_VALUE := by unfold NGX_MAX_INT_T_VALUE; omega
  rw [if_pos hm]
  have he : ¬ (NGX_ERROR = (n : Int)) := by unfold NGX_ERROR; omega
  have hr : (n : Int) ≥ 0 ∧ (n : Int) < (env.rrp.peers.number : Int) := by omega
  rw [if_neg he, if_pos hr, to_int_of_lt n (by omega)]

/-- In digest mode a non-empty, zero-free cookie value equal to digest `i` and
to no digest of a lower index selects `i`. -/
theorem init_sticky_digest_selected (conf : StickySrvConf) (env : InitEnv) (r : Request)
    (pc : PeerConnection) (tbl : List StickyPeer) (v : List Nat) (i : Nat) (sp : StickyPeer)
    (hmode : conf.hash.isSome ∨ conf.hmac.isSome ∨ conf.text.isSome)
    (htbl : conf.peers = some tbl) (hpalloc : env.palloc_ok = true) (hrr : env.rr_rc = NGX_OK)
    (hcookie : env.cookie = some v) (hnum : env.rrp.peers.number ≤ 2147483648)
    (hv : v ≠ []) (hnz : ∀ c ∈ v, c ≠ 0) (hi : i < env.rrp.peers.number)
    (hsp : tbl[i]? = some sp) (hd : sp.digest = v)
    (hlow : ∀ j sq, j < i → tbl[j]? = some sq → sq.digest ≠ v) :
    ∃ st, ngx_http_init_sticky_peer conf env r pc = (NGX_OK, some st)
      ∧ st.selected_peer = (i : Int) := by
  rw [init_sticky_digest_eq conf env r pc tbl v hmode htbl hpalloc hrr hcookie]
  refine ⟨_, rfl, ?_⟩
  obtain ⟨h1, h2⟩ := digest_search_spec v env.rrp.peers.number hv hnz tbl 0
  cases hs : digest_search v env.rrp.peers.number tbl 0 with
  | none => exact absurd hd (h2 hs i sp (by omega) hsp)
  | some k =>
    obtain ⟨j, sq, e1, e2, e3, e4, e5⟩ := h1 k hs
    have hkj : k = j := by omega
    subst hkj
    have hki : k = i := by
      by_contra hne
      rcases Nat.lt_or_gt_of_ne hne with h | h
      · exact hlow k sq h e3 e4
      · exact e5 i sp h hsp hd
    subst hki
    exact to_int_of_lt k (by omega)

theorem index_route_length (i : Nat) (hi : i < 2147483648) :
    (index_route i).length = route_len 20 i
    ∧ (i = 0 → (index_route i).length = 1)
    ∧ ∀ k, 1 ≤ k → 10 ^ (k - 1) ≤ i → i < 10 ^ k → (index_route i).length = k := by
  have hlen : (index_route i).length = route_len 20 i := by
    rw [index_route_eq i hi, sprintf_num_length]; rfl
  refine ⟨hlen, ?_, ?_⟩
  · intro h0
    subst h0
    rw [hlen]
    rfl
  · intro k h1 h2 h3
    rw [hlen]
    have hk : k ≤ 20 := by
      by_contra hc
      have : 10 ^ 10 ≤ 10 ^ (k - 1) := Nat.pow_le_pow_right (by omega) (by omega)
      have h10 : (10 : Nat) ^ 10 = 10000000000 := by norm_num
      omega
    exact route_len_digits 20 k i h1 hk h2 h3

/-- C5 (amended): when the fallback path of `ngx_http_get_sticky_peer` gets OK
from the configured algorithm and locates the chosen peer at index `i` of a
pool within the range of `int`, it writes one cookie whose value makes
`ngx_http_init_sticky_peer`, on a later request of the same configuration and
pool, set `selected_peer = i`: in index mode (the request pool can allocate)
the value is the decimal string of `i`, as long as the digit count of the
do/while loop; in digest mode it is the digest of entry `i`, and the round trip
holds when that digest is non-empty, has no zero byte and is not the digest of
a lower index. -/
theorem fallback_cookie_round_trip
    (rr : RrPeerData → PeerConnection → Int × RrPeerData × PeerConnection)
    (lc : State → Int × State) (conf : StickySrvConf) (st st2 : State) (i : Nat)
    (env : InitEnv) (r : Request) (pc : PeerConnection)
    (hnf : st.no_fallback = 0)
    (hsel : fallback_select rr lc conf st = some (NGX_OK, st2))
    (hloc : Located st2.rrp.peers.peer st2.pc i)
    (hnum : st2.rrp.peers.number ≤ 2147483648)
    (hmode : (conf.hash = none ∧ conf.hmac = none ∧ conf.text = none
        ∧ st2.request.pool_ok = true)
      ∨ ((conf.hash.isSome ∨ conf.hmac.isSome ∨ conf.text.isSome)
        ∧ ∃ tbl sp, conf.peers = some tbl ∧ tbl[i]? = some sp ∧ sp.digest ≠ []
          ∧ (∀ c ∈ sp.digest, c ≠ 0)
          ∧ ∀ j sq, j < i → tbl[j]? = some sq → sq.digest ≠ sp.digest))
    (henv : env.palloc_ok = true ∧ env.rr_rc = NGX_OK
      ∧ env.rrp.peers.number = st2.rrp.peers.number) :
    ∃ value,
      sticky_fallback rr lc conf st
        = (NGX_OK, { set_cookie conf value st2 with selected_peer := -1 })
      ∧ ((conf.hash = none ∧ conf.hmac = none ∧ conf.text = none) →
          value = index_route i ∧ value.length = route_len 20 i
          ∧ (i = 0 → value.length = 1)
          ∧ ∀ k, 1 ≤ k → 10 ^ (k - 1) ≤ i → i < 10 ^ k → value.length = k)
      ∧ ((conf.hash.isSome ∨ conf.hmac.isSome ∨ conf.text.isSome) →
          value = digest_at conf i)
      ∧ ∃ st3, ngx_http_init_sticky_peer conf { env with cookie := some value } r pc
            = (NGX_OK, some st3)
          ∧ st3.selected_peer = (i : Int) := by
  have hfb := sticky_fallback_ok rr lc conf st st2 i hnf hsel hloc
  have hi : i < st2.rrp.peers.number := by
    obtain ⟨q, hq, _⟩ := hloc.1
    exact getElem?_lt_length hq
  have hi31 : i < 2147483648 := by omega
  rcases hmode with ⟨h1, h2, h3, hpool⟩ | ⟨hdig, tbl, sp, htbl, hsp, hne, hnz, hlow⟩
  · have hnd : ¬ (conf.hash.isSome ∨ conf.hmac.isSome ∨ conf.text.isSome) := by
      simp [h1, h2, h3]
    have hrc : route_cookie conf st2 i = set_cookie conf (index_route i) st2 := by
      unfold route_cookie
      rw [if_neg hnd, if_pos hpool]
    refine ⟨index_route i, by rw [hfb, hrc], fun _ => ?_, fun h => absurd h hnd, ?_⟩
    · obtain ⟨l1, l2, l3⟩ := index_route_length i hi31
      exact ⟨rfl, l1, l2, l3⟩
    · exact init_sticky_index_selected conf { env with cookie := some (index_route i) } r pc
        (index_route i) i ⟨h1, h2, h3⟩ henv.1 henv.2.1 rfl
        (by show env.rrp.peers.number ≤ _; omega) (decimal_value_index_route i hi31)
        (by show i < env.rrp.peers.number; omega)
  · have hda : digest_at conf i = sp.digest := by
      unfold digest_at
      rw [htbl]
      simp only [List.getD_eq_getElem?_getD, hsp, Option.getD_some]
    have hrc : route_cookie conf st2 i = set_cookie conf (digest_at conf i) st2 := by
      unfold route_cookie
      rw [if_pos hdig]
    refine ⟨digest_at conf i, by rw [hfb, hrc], fun h => ?_, fun _ => rfl, ?_⟩
    · exfalso
      simp [h.1, h.2.1, h.2.2] at hdig
    · rw [hda]
      exact init_sticky_digest_selected conf { env with cookie := some sp.digest } r pc tbl
        sp.digest i sp hdig htbl henv.1 henv.2.1 rfl
        (by show env.rrp.peers.number ≤ _; omega) hne hnz
        (by show i < env.rrp.peers.number; omega) hsp rfl hlow

/-- Witness of C5 (amended): index mode, two peers; least connections picks
index 1, the cookie written is `1`, and a later request with that cookie gets
`selected_peer = 1`. -/
theorem fallback_cookie_round_trip_witness :
    (ngx_http_get_sticky_peer ex_rr ex_conf 100
        (ex_state [ex_peer 100 5 1, ex_peer 101 0 1])).2.request.set_cookies.map
          (fun c => c.value) = [[49]]
    ∧ (ngx_http_init_sticky_peer ex_conf
        (ex_env [ex_peer 100 5 1, ex_peer 101 0 1] (some [49])) ex_request ex_pc).2.map
          (fun st => st.selected_peer) = some 1
    ∧ ∃ value,
      sticky_fallback ex_rr ex_lc ex_conf (ex_state [ex_peer 100 5 1, ex_peer 101 0 1])
        = (NGX_OK, { set_cookie ex_conf value
            (ex_lc { ex_state [ex_peer 100 5 1, ex_peer 101 0 1] with
              lb_alg := NGX_LB_ALG_LC }).2 with selected_peer := -1 })
      ∧ ((ex_conf.hash = none ∧ ex_conf.hmac = none ∧ ex_conf.text = none) →
          value = index_route 1 ∧ value.length = route_len 20 1
          ∧ (1 = 0 → value.length = 1)
          ∧ ∀ k, 1 ≤ k → 10 ^ (k - 1) ≤ 1 → 1 < 10 ^ k → value.length = k)
      ∧ ((ex_conf.hash.isSome ∨ ex_conf.hmac.isSome ∨ ex_conf.text.isSome) →
          value = digest_at ex_conf 1)
      ∧ ∃ st3, ngx_http_init_sticky_peer ex_conf
            { ex_env [ex_peer 100 5 1, ex_peer 101 0 1] none with cookie := some value }
            ex_request ex_pc = (NGX_OK, some st3)
          ∧ st3.selected_peer = ((1 : Nat) : Int) :=
  ⟨by decide, by decide,
    fallback_cookie_round_trip ex_rr ex_lc ex_conf (ex_state [ex_peer 100 5 1, ex_peer 101 0 1])
      (ex_lc { ex_state [ex_peer 100 5 1, ex_peer 101 0 1] with lb_alg := NGX_LB_ALG_LC }).2 1
      (ex_env [ex_peer 100 5 1, ex_peer 101 0 1] none) ex_request ex_pc rfl (by decide)
      ⟨⟨{ ex_peer 101 1 1 with checked := 100 }, by decide, by decide, by decide⟩, by
        intro j q hj hq
        have hj0 : j = 0 := by omega
        subst hj0
        have hq' : q = ex_peer 100 5 1 := by
          have : (ex_lc { ex_state [ex_peer 100 5 1, ex_peer 101 0 1] with
            lb_alg := NGX_LB_ALG_LC }).2.rrp.peers.peer[0]? = some (ex_peer 100 5 1) := by decide
          rw [this] at hq
          exact (Option.some.inj hq).symm
        subst hq'
        decide⟩
      (by decide) (Or.inl (by decide)) (by decide)⟩

/-- Counterexample to C5 as stated: in digest mode with the same digest `a` for
both peers, the fallback path selects index 1 and writes the cookie `a`, which
on a later request resolves to index 0. -/
theorem fallback_cookie_round_trip_counterexample :
    (ngx_http_get_sticky_peer ex_rr (ex_conf_digest [⟨0, [97]⟩, ⟨1, [97]⟩]) 100
        (ex_state [ex_peer 100 5 1, ex_peer 101 0 1])).1 = NGX_OK
    ∧ (ngx_http_get_sticky_peer ex_rr (ex_conf_digest [⟨0, [97]⟩, ⟨1, [97]⟩]) 100
        (ex_state [ex_peer 100 5 1, ex_peer 101 0 1])).2.rrp.current = some 1
    ∧ (ngx_http_get_sticky_peer ex_rr (ex_conf_digest [⟨0, [97]⟩, ⟨1, [97]⟩]) 100
        (ex_state [ex_peer 100 5 1, ex_peer 101 0 1])).2.request.set_cookies.map
          (fun c => c.value) = [[97]]
    ∧ (ngx_http_init_sticky_peer (ex_conf_digest [⟨0, [97]⟩, ⟨1, [97]⟩])
        (ex_env [ex_peer 100 5 1, ex_peer 101 0 1] (some [97])) ex_request ex_pc).2.map
          (fun st => st.selected_peer) = some 0 := by
  decide

/-! ## Lemmas: the tried bitmap -/

theorem and_shift_ne_zero (x k : Nat) : (x &&& (1 <<< k) != 0) = x.testBit k := by
  rw [Nat.one_shiftLeft]
  cases hb : x.testBit k with
  | true =>
    have : (x &&& 2 ^ k).testBit k = true := by
      rw [Nat.testBit_and, hb, Nat.testBit_two_pow_self]; rfl
    have hne : x &&& 2 ^ k ≠ 0 := by
      intro h0
      rw [h0] at this
      simp at this
    simpa using hne
  | false =>
    have : x &&& 2 ^ k = 0 := by
      apply Nat.eq_of_testBit_eq
      intro i
      rw [Nat.testBit_and, Nat.testBit_two_pow]
      by_cases hki : k = i
      · subst hki; simp [hb]
      · simp [hki]
    simp [this]

theorem tried_test_eq (tried : List Nat) (i : Nat) :
    tried_test tried i = (tried.getD (i / WORD_BITS) 0).testBit (i % WORD_BITS) := by
  unfold tried_test
  exact and_shift_ne_zero _ _

/-- Setting the bit of peer `i` sets it, when the bitmap has its word. -/
theorem tried_set_test_self (tried : List Nat) (i : Nat) (h : i / WORD_BITS < tried.length) :
    tried_test (tried_set tried i) i = true := by
  rw [tried_test_eq]
  unfold tried_set
  simp only [List.getD_eq_getElem?_getD, List.getElem?_set_self h, Option.getD_some,
    Nat.testBit_or, Nat.one_shiftLeft, Nat.testBit_two_pow_self, Bool.or_true]

/-- Setting the bit of peer `i` leaves the bit of every other peer as it was. -/
theorem tried_set_test_other (tried : List Nat) (i j : Nat) (hij : j ≠ i) :
    tried_test (tried_set tried i) j = tried_test tried j := by
  rw [tried_test_eq, tried_test_eq]
  unfold tried_set
  by_cases hw : i / WORD_BITS = j / WORD_BITS
  · by_cases hlen : i / WORD_BITS < tried.length
    · have hbit : i % WORD_BITS ≠ j % WORD_BITS := by
        intro hb
        apply hij
        have h1 := Nat.div_add_mod i WORD_BITS
        have h2 := Nat.div_add_mod j WORD_BITS
        rw [hw, hb] at h1
        omega
      rw [← hw]
      simp only [List.getD_eq_getElem?_getD, List.getElem?_set_self hlen, Option.getD_some,
        Nat.testBit_or, Nat.one_shiftLeft, Nat.testBit_two_pow_of_ne hbit, Bool.or_false]
    · rw [List.set_eq_of_length_le (Nat.le_of_not_lt hlen)]
  · simp only [List.getD_eq_getElem?_getD, List.getElem?_set_ne hw]

theorem tried_test_false_iff (tried : List Nat) (i : Nat) :
    tried_test tried i = false ↔
      (tried.getD (i / WORD_BITS) 0) &&& (1 <<< (i % WORD_BITS)) = 0 := by
  unfold tried_test
  simp

/-! ## Lemmas: validation of the sticky candidate -/

/-- The validation of a candidate, with the outer tests resolved. -/
theorem sticky_validate_candidate (conf : StickySrvConf) (now : Int) (st : State) (q : Peer)
    (hc : StickyCandidate st q) :
    sticky_validate conf now st =
      if q.down then
        Validated.ret NGX_BUSY { st with no_fallback := to_int conf.no_fallback }
      else if conf.no_fallback ≠ 0 then
        if (if now - q.accessed > q.fail_timeout then { q with fails := 0 } else q).max_fails > 0
            ∧ (if now - q.accessed > q.fail_timeout then { q with fails := 0 } else q).fails
              ≥ (if now - q.accessed > q.fail_timeout then { q with fails := 0 } else q).max_fails
        then Validated.ret NGX_BUSY
          (if now - q.accessed > q.fail_timeout
            then write_peer { st with no_fallback := 1 } st.selected_peer.toNat
              (if now - q.accessed > q.fail_timeout then { q with fails := 0 } else q)
            else { st with no_fallback := 1 })
        else sticky_eligible now
          (if now - q.accessed > q.fail_timeout
            then write_peer { st with no_fallback := 1 } st.selected_peer.toNat
              (if now - q.accessed > q.fail_timeout then { q with fails := 0 } else q)
            else { st with no_fallback := 1 })
          st.selected_peer.toNat
          (if now - q.accessed > q.fail_timeout then { q with fails := 0 } else q)
          (st.selected_peer.toNat / WORD_BITS) (1 <<< (st.selected_peer.toNat % WORD_BITS))
      else sticky_eligible now st st.selected_peer.toNat q
        (st.selected_peer.toNat / WORD_BITS) (1 <<< (st.selected_peer.toNat % WORD_BITS)) := by
  obtain ⟨h1, h2, h3, h4, h5⟩ := hc
  unfold sticky_validate
  rw [if_pos ⟨h1, h2, h3⟩]
  simp only
  rw [if_pos ((tried_test_false_iff _ _).1 h4), h5]

/-- A down candidate: the call returns Busy at once, whatever `no_fallback` is
configured to, and only copies that setting into the request. -/
theorem get_sticky_down
    (rr : RrPeerData → PeerConnection → Int × RrPeerData × PeerConnection)
    (lc : State → Int × State) (conf : StickySrvConf) (now : Int) (st : State) (q : Peer)
    (hc : StickyCandidate st q) (hd : q.down = true) :
    ngx_http_get_sticky_peer_with rr lc conf now st =
      (NGX_BUSY, { st with no_fallback := to_int conf.no_fallback }) := by
  unfold ngx_http_get_sticky_peer_with
  rw [sticky_validate_candidate conf now st q hc, if_pos hd]

/-- A candidate over `max_fails` inside its fail-timeout window, with
`no_fallback` configured: hard Busy. -/
theorem get_sticky_hard_busy
    (rr : RrPeerData → PeerConnection → Int × RrPeerData × PeerConnection)
    (lc : State → Int × State) (conf : StickySrvConf) (now : Int) (st : State) (q : Peer)
    (hc : StickyCandidate st q) (hd : q.down = false) (hnf : conf.no_fallback ≠ 0)
    (hb : q.max_fails > 0 ∧ q.fails ≥ q.max_fails ∧ now - q.accessed ≤ q.fail_timeout) :
    ngx_http_get_sticky_peer_with rr lc conf now st = (NGX_BUSY, { st with no_fallback := 1 }) := by
  unfold ngx_http_get_sticky_peer_with
  have hd' : ¬ (q.down = true) := by simp [hd]
  have hstale : ¬ (now - q.accessed > q.fail_timeout) := by omega
  rw [sticky_validate_candidate conf now st q hc, if_neg hd', if_pos hnf]
  simp only [if_neg hstale]
  rw [if_pos ⟨hb.1, hb.2.1⟩]

/-- An accepted candidate: OK, with the state `accepted_state`. -/
theorem get_sticky_accept
    (rr : RrPeerData → PeerConnection → Int × RrPeerData × PeerConnection)
    (lc : State → Int × State) (conf : StickySrvConf) (now : Int) (st : State) (q : Peer)
    (hc : StickyCandidate st q) (hd : q.down = false)
    (hacc : q.max_fails = 0 ∨ q.fails < q.max_fails ∨ now - q.accessed > q.fail_timeout) :
    ngx_http_get_sticky_peer_with rr lc conf now st = (NGX_OK, accepted_state conf now st q) := by
  unfold ngx_http_get_sticky_peer_with
  have hd' : ¬ (q.down = true) := by simp [hd]
  have hn : ((st.selected_peer.toNat / WORD_BITS : Nat) : Int) ≥ 0 := Int.natCast_nonneg _
  rw [sticky_validate_candidate conf now st q hc, if_neg hd']
  by_cases hnf : conf.no_fallback ≠ 0
  · rw [if_pos hnf]
    by_cases hstale : now - q.accessed > q.fail_timeout
    · simp only [if_pos hstale]
      have hnb : ¬ (q.max_fails > 0 ∧ 0 ≥ q.max_fails) := by omega
      rw [if_neg hnb]
      unfold sticky_eligible
      have he : q.max_fails = 0 ∨ 0 < q.max_fails := by omega
      rw [if_pos he]
      simp only [if_pos hn]
      unfold accepted_state sticky_accept write_peer tried_set
      simp [hnf, hstale, List.set_set]
    · simp only [if_neg hstale]
      have hel : q.max_fails = 0 ∨ q.fails < q.max_fails := by
        rcases hacc with h | h | h
        · exact Or.inl h
        · exact Or.inr h
        · exact absurd h hstale
      have hnb : ¬ (q.max_fails > 0 ∧ q.fails ≥ q.max_fails) := by omega
      rw [if_neg hnb]
      unfold sticky_eligible
      rw [if_pos hel]
      simp only [if_pos hn]
      unfold accepted_state sticky_accept tried_set
      simp [hnf, hstale]
  · rw [if_neg hnf]
    unfold sticky_eligible
    by_cases hel : q.max_fails = 0 ∨ q.fails < q.max_fails
    · rw [if_pos hel]
      simp only [if_pos hn]
      unfold accepted_state sticky_accept tried_set
      have hnf0 : conf.no_fallback = 0 := by simpa using hnf
      simp [hnf0, hel]
    · rw [if_neg hel]
      have hstale : now - q.accessed > q.fail_timeout := by
        rcases hacc with h | h | h
        · exact absurd (Or.inl h) hel
        · exact absurd (Or.inr h) hel
        · exact h
      rw [if_pos hstale]
      simp only [if_pos hn]
      unfold accepted_state sticky_accept write_peer tried_set
      have hnf0 : conf.no_fallback = 0 := by simpa using hnf
      have hel' : ¬ q.max_fails = 0 ∧ ¬ q.fails < q.max_fails := by
        constructor
        · intro h; exact hel (Or.inl h)
        · intro h; exact hel (Or.inr h)
      simp [hnf0, hstale, hel', List.set_set]

/-! ## Theorems: the sticky candidate -/

theorem get_sticky_peer_eq
    (rr : RrPeerData → PeerConnection → Int × RrPeerData × PeerConnection)
    (conf : StickySrvConf) (now : Int) (st : State) :
    ∃ lc, ngx_http_get_sticky_peer rr conf now st
      = ngx_http_get_sticky_peer_with rr lc conf now st := by
  unfold ngx_http_get_sticky_peer
  cases st.rrp.next.length with
  | zero => exact ⟨_, rfl⟩
  | succ d => exact ⟨_, rfl⟩

/-- C6 (the code at the failing input): `no_fallback` is not configured, the
cookie names peer 0, which is down, and peer 1 is healthy.  The call returns
Busy and leaves the state as it was, although the configured fallback
algorithm, run on the same state, returns OK with peer 1. -/
theorem down_candidate_busy_without_no_fallback :
    ex_conf.no_fallback = 0
    ∧ StickyCandidate (ex_sticky [ex_down 100, ex_peer 101 0 1]) (ex_down 100)
    ∧ ngx_http_get_sticky_peer ex_rr ex_conf 100 (ex_sticky [ex_down 100, ex_peer 101 0 1])
        = (NGX_BUSY, ex_sticky [ex_down 100, ex_peer 101 0 1])
    ∧ (ngx_http_upstream_get_least_conn_peer ex_rr ex_conf 100
        (ex_sticky [ex_down 100, ex_peer 101 0 1])).1 = NGX_OK
    ∧ (ngx_http_upstream_get_least_conn_peer ex_rr ex_conf 100
        (ex_sticky [ex_down 100, ex_peer 101 0 1])).2.rrp.current = some 1 := by
  decide

/-- C7: with `no_fallback` configured and a sticky candidate that is down,
`ngx_http_get_sticky_peer` returns Busy and changes nothing but the effective
`no_fallback`, which it sets; neither fallback algorithm is invoked (the result
is the same whatever they are); and the state it leaves has the same down
candidate, so every later call on the request returns Busy in the same way. -/
theorem down_candidate_no_fallback_busy
    (rr : RrPeerData → PeerConnection → Int × RrPeerData × PeerConnection)
    (conf : StickySrvConf) (now : Int) (st : State) (q : Peer)
    (hc : StickyCandidate st q) (hd : q.down = true) (hnf : conf.no_fallback = 1) :
    ngx_http_get_sticky_peer rr conf now st = (NGX_BUSY, { st with no_fallback := 1 })
    ∧ (∀ rr2 lc2, ngx_http_get_sticky_peer_with rr2 lc2 conf now st
        = (NGX_BUSY, { st with no_fallback := 1 }))
    ∧ StickyCandidate { st with no_fallback := 1 } q
    ∧ ∀ rr2 now2, ngx_http_get_sticky_peer rr2 conf now2 { st with no_fallback := 1 }
        = (NGX_BUSY, { st with no_fallback := 1 }) := by
  have hto : to_int (conf.no_fallback : Int) = 1 := by rw [hnf]; decide
  have hc' : StickyCandidate { st with no_fallback := 1 } q := hc
  refine ⟨?_, ?_, hc', ?_⟩
  · obtain ⟨lc, hlc⟩ := get_sticky_peer_eq rr conf now st
    rw [hlc, get_sticky_down rr lc conf now st q hc hd, hto]
  · intro rr2 lc2
    rw [get_sticky_down rr2 lc2 conf now st q hc hd, hto]
  · intro rr2 now2
    obtain ⟨lc, hlc⟩ := get_sticky_peer_eq rr2 conf now2 { st with no_fallback := 1 }
    rw [hlc, get_sticky_down rr2 lc conf now2 _ q hc' hd, hto]

/-- Witness of C7: the cookie names peer 0, which is down. -/
theorem down_candidate_no_fallback_busy_witness :
    StickyCandidate (ex_sticky [ex_down 100, ex_peer 101 0 1]) (ex_down 100)
    ∧ (ex_down 100).down = true ∧ ex_conf_nf.no_fallback = 1
    ∧ (ngx_http_get_sticky_peer ex_rr ex_conf_nf 100 (ex_sticky [ex_down 100, ex_peer 101 0 1])
        = (NGX_BUSY, { ex_sticky [ex_down 100, ex_peer 101 0 1] with no_fallback := 1 })
      ∧ (∀ rr2 lc2, ngx_http_get_sticky_peer_with rr2 lc2 ex_conf_nf 100
          (ex_sticky [ex_down 100, ex_peer 101 0 1])
          = (NGX_BUSY, { ex_sticky [ex_down 100, ex_peer 101 0 1] with no_fallback := 1 }))
      ∧ StickyCandidate { ex_sticky [ex_down 100, ex_peer 101 0 1] with no_fallback := 1 }
          (ex_down 100)
      ∧ ∀ rr2 now2, ngx_http_get_sticky_peer rr2 ex_conf_nf now2
          { ex_sticky [ex_down 100, ex_peer 101 0 1] with no_fallback := 1 }
          = (NGX_BUSY, { ex_sticky [ex_down 100, ex_peer 101 0 1] with no_fallback := 1 })) :=
  ⟨by decide, by decide, by decide,
    down_candidate_no_fallback_busy ex_rr ex_conf_nf 100
      (ex_sticky [ex_down 100, ex_peer 101 0 1]) (ex_down 100) (by decide) (by decide)
      (by decide)⟩

/-- C8: with `no_fallback` configured and a sticky candidate that is neither
down nor tried, `ngx_http_get_sticky_peer` returns Busy exactly when
`max_fails > 0`, `fails >= max_fails` and `now - accessed <= fail_timeout`; in
that case it sets the effective `no_fallback` to 1 and changes nothing else
(no bit set, no fallback algorithm run); in every other case the candidate is
accepted: OK is returned with the candidate as current peer and connection
target, the effective `no_fallback` again being 1. -/
theorem no_fallback_candidate_busy_iff
    (rr : RrPeerData → PeerConnection → Int × RrPeerData × PeerConnection)
    (conf : StickySrvConf) (now : Int) (st : State) (q : Peer)
    (hc : StickyCandidate st q) (hd : q.down = false) (hnf : conf.no_fallback ≠ 0) :
    ((ngx_http_get_sticky_peer rr conf now st).1 = NGX_BUSY ↔
        (q.max_fails > 0 ∧ q.fails ≥ q.max_fails ∧ now - q.accessed ≤ q.fail_timeout))
    ∧ ((q.max_fails > 0 ∧ q.fails ≥ q.max_fails ∧ now - q.accessed ≤ q.fail_timeout) →
        ngx_http_get_sticky_peer rr conf now st = (NGX_BUSY, { st with no_fallback := 1 })
        ∧ ∀ rr2 lc2, ngx_http_get_sticky_peer_with rr2 lc2 conf now st
            = (NGX_BUSY, { st with no_fallback := 1 }))
    ∧ (¬ (q.max_fails > 0 ∧ q.fails ≥ q.max_fails ∧ now - q.accessed ≤ q.fail_timeout) →
        (ngx_http_get_sticky_peer rr conf now st).1 = NGX_OK
        ∧ (ngx_http_get_sticky_peer rr conf now st).2.rrp.current = some st.selected_peer.toNat
        ∧ (ngx_http_get_sticky_peer rr conf now st).2.pc.sockaddr = q.sockaddr
        ∧ (ngx_http_get_sticky_peer rr conf now st).2.pc.socklen = q.socklen
        ∧ (ngx_http_get_sticky_peer rr conf now st).2.pc.name = q.name
        ∧ (ngx_http_get_sticky_peer rr conf now st).2.no_fallback = 1) := by
  obtain ⟨lc, hlc⟩ := get_sticky_peer_eq rr conf now st
  have hbusy : (q.max_fails > 0 ∧ q.fails ≥ q.max_fails ∧ now - q.accessed ≤ q.fail_timeout) →
      ngx_http_get_sticky_peer rr conf now st = (NGX_BUSY, { st with no_fallback := 1 }) := by
    intro hb
    rw [hlc, get_sticky_hard_busy rr lc conf now st q hc hd hnf hb]
  have hok : ¬ (q.max_fails > 0 ∧ q.fails ≥ q.max_fails ∧ now - q.accessed ≤ q.fail_timeout) →
      ngx_http_get_sticky_peer rr conf now st = (NGX_OK, accepted_state conf now st q) := by
    intro hb
    rw [hlc, get_sticky_accept rr lc conf now st q hc hd (by omega)]
  refine ⟨⟨fun h => ?_, fun h => ?_⟩, fun h => ⟨hbusy h, fun rr2 lc2 => ?_⟩, fun h => ?_⟩
  · by_contra hb
    rw [hok hb] at h
    have hne : NGX_OK ≠ NGX_BUSY := by decide
    exact hne h
  · rw [hbusy h]
  · exact get_sticky_hard_busy rr2 lc2 conf now st q hc hd hnf h
  · rw [hok h]
    refine ⟨rfl, rfl, rfl, rfl, rfl, ?_⟩
    show (if conf.no_fallback ≠ 0 then (1 : Int) else st.no_fallback) = 1
    rw [if_pos hnf]

/-- Witness of C8: the candidate reached `max_fails` five seconds ago
(`fail_timeout = 10`): hard Busy. -/
theorem no_fallback_candidate_busy_iff_witness :
    StickyCandidate (ex_sticky [ex_failed 100 95, ex_peer 101 0 1]) (ex_failed 100 95)
    ∧ (ex_failed 100 95).down = false ∧ ex_conf_nf.no_fallback ≠ 0
    ∧ ngx_http_get_sticky_peer ex_rr ex_conf_nf 100 (ex_sticky [ex_failed 100 95, ex_peer 101 0 1])
        = (NGX_BUSY, { ex_sticky [ex_failed 100 95, ex_peer 101 0 1] with no_fallback := 1 })
    ∧ (((ngx_http_get_sticky_peer ex_rr ex_conf_nf 100
          (ex_sticky [ex_failed 100 95, ex_peer 101 0 1])).1 = NGX_BUSY ↔
        ((ex_failed 100 95).max_fails > 0 ∧ (ex_failed 100 95).fails ≥ (ex_failed 100 95).max_fails
          ∧ 100 - (ex_failed 100 95).accessed ≤ (ex_failed 100 95).fail_timeout))
      ∧ (((ex_failed 100 95).max_fails > 0
            ∧ (ex_failed 100 95).fails ≥ (ex_failed 100 95).max_fails
            ∧ 100 - (ex_failed 100 95).accessed ≤ (ex_failed 100 95).fail_timeout) →
          ngx_http_get_sticky_peer ex_rr ex_conf_nf 100
              (ex_sticky [ex_failed 100 95, ex_peer 101 0 1])
            = (NGX_BUSY, { ex_sticky [ex_failed 100 95, ex_peer 101 0 1] with no_fallback := 1 })
          ∧ ∀ rr2 lc2, ngx_http_get_sticky_peer_with rr2 lc2 ex_conf_nf 100
              (ex_sticky [ex_failed 100 95, ex_peer 101 0 1])
            = (NGX_BUSY, { ex_sticky [ex_failed 100 95, ex_peer 101 0 1] with no_fallback := 1 }))
      ∧ (¬ ((ex_failed 100 95).max_fails > 0
            ∧ (ex_failed 100 95).fails ≥ (ex_failed 100 95).max_fails
            ∧ 100 - (ex_failed 100 95).accessed ≤ (ex_failed 100 95).fail_timeout) →
          (ngx_http_get_sticky_peer ex_rr ex_conf_nf 100
            (ex_sticky [ex_failed 100 95, ex_peer 101 0 1])).1 = NGX_OK
          ∧ (ngx_http_get_sticky_peer ex_rr ex_conf_nf 100
            (ex_sticky [ex_failed 100 95, ex_peer 101 0 1])).2.rrp.current
              = some (ex_sticky [ex_failed 100 95, ex_peer 101 0 1]).selected_peer.toNat
          ∧ (ngx_http_get_sticky_peer ex_rr ex_conf_nf 100
            (ex_sticky [ex_failed 100 95, ex_peer 101 0 1])).2.pc.sockaddr
              = (ex_failed 100 95).sockaddr
          ∧ (ngx_http_get_sticky_peer ex_rr ex_conf_nf 100
            (ex_sticky [ex_failed 100 95, ex_peer 101 0 1])).2.pc.socklen
              = (ex_failed 100 95).socklen
          ∧ (ngx_http_get_sticky_peer ex_rr ex_conf_nf 100
            (ex_sticky [ex_failed 100 95, ex_peer 101 0 1])).2.pc.name = (ex_failed 100 95).name
          ∧ (ngx_http_get_sticky_peer ex_rr ex_conf_nf 100
            (ex_sticky [ex_failed 100 95, ex_peer 101 0 1])).2.no_fallback = 1)) :=
  ⟨by decide, by decide, by decide, by decide,
    no_fallback_candidate_busy_iff ex_rr ex_conf_nf 100
      (ex_sticky [ex_failed 100 95, ex_peer 101 0 1]) (ex_failed 100 95) (by decide) (by decide)
      (by decide)⟩

/-- C9: fail-timeout forgiveness.  A sticky candidate that is neither down nor
tried, with `max_fails > 0`, `fails >= max_fails` and
`now - accessed > fail_timeout`, is accepted whether or not `no_fallback` is
configured: OK is returned with the candidate as current peer and connection
target, and its record has `fails = 0` (and `conns` incremented). -/
theorem fail_timeout_forgiveness
    (rr : RrPeerData → PeerConnection → Int × RrPeerData × PeerConnection)
    (conf : StickySrvConf) (now : Int) (st : State) (q : Peer)
    (hc : StickyCandidate st q) (hd : q.down = false)
    (hmf : q.max_fails > 0) (hf : q.fails ≥ q.max_fails)
    (hstale : now - q.accessed > q.fail_timeout) :
    (ngx_http_get_sticky_peer rr conf now st).1 = NGX_OK
    ∧ (ngx_http_get_sticky_peer rr conf now st).2.rrp.current = some st.selected_peer.toNat
    ∧ (ngx_http_get_sticky_peer rr conf now st).2.pc.sockaddr = q.sockaddr
    ∧ (ngx_http_get_sticky_peer rr conf now st).2.pc.socklen = q.socklen
    ∧ (ngx_http_get_sticky_peer rr conf now st).2.pc.name = q.name
    ∧ (ngx_http_get_sticky_peer rr conf now st).2.rrp.peers.peer[st.selected_peer.toNat]?
        = some { q with fails := 0, conns := (q.conns + 1) % UINT_MOD } := by
  obtain ⟨lc, hlc⟩ := get_sticky_peer_eq rr conf now st
  rw [hlc, get_sticky_accept rr lc conf now st q hc hd (Or.inr (Or.inr hstale))]
  refine ⟨rfl, rfl, rfl, rfl, rfl, ?_⟩
  have hlt : st.selected_peer.toNat < st.rrp.peers.peer.length := getElem?_lt_length hc.2.2.2.2
  have hforg : now - q.accessed > q.fail_timeout
      ∧ (conf.no_fallback ≠ 0 ∨ ¬ (q.max_fails = 0 ∨ q.fails < q.max_fails)) :=
    ⟨hstale, Or.inr (by omega)⟩
  show (st.rrp.peers.peer.set _ _)[st.selected_peer.toNat]? = _
  rw [List.getElem?_set_self hlt, if_pos hforg]

/-- Witness of C9: the candidate reached `max_fails` a hundred seconds ago
(`fail_timeout = 10`), `no_fallback` not configured. -/
theorem fail_timeout_forgiveness_witness :
    StickyCandidate (ex_sticky [ex_failed 100 0, ex_peer 101 0 1]) (ex_failed 100 0)
    ∧ (ex_failed 100 0).down = false
    ∧ (ex_failed 100 0).max_fails > 0 ∧ (ex_failed 100 0).fails ≥ (ex_failed 100 0).max_fails
    ∧ 100 - (ex_failed 100 0).accessed > (ex_failed 100 0).fail_timeout
    ∧ ((ngx_http_get_sticky_peer ex_rr ex_conf 100
          (ex_sticky [ex_failed 100 0, ex_peer 101 0 1])).1 = NGX_OK
      ∧ (ngx_http_get_sticky_peer ex_rr ex_conf 100
          (ex_sticky [ex_failed 100 0, ex_peer 101 0 1])).2.rrp.current
            = some (ex_sticky [ex_failed 100 0, ex_peer 101 0 1]).selected_peer.toNat
      ∧ (ngx_http_get_sticky_peer ex_rr ex_conf 100
          (ex_sticky [ex_failed 100 0, ex_peer 101 0 1])).2.pc.sockaddr
            = (ex_failed 100 0).sockaddr
      ∧ (ngx_http_get_sticky_peer ex_rr ex_conf 100
          (ex_sticky [ex_failed 100 0, ex_peer 101 0 1])).2.pc.socklen
            = (ex_failed 100 0).socklen
      ∧ (ngx_http_get_sticky_peer ex_rr ex_conf 100
          (ex_sticky [ex_failed 100 0, ex_peer 101 0 1])).2.pc.name = (ex_failed 100 0).name
      ∧ (ngx_http_get_sticky_peer ex_rr ex_conf 100
          (ex_sticky [ex_failed 100 0, ex_peer 101 0 1])).2.rrp.peers.peer[
            (ex_sticky [ex_failed 100 0, ex_peer 101 0 1]).selected_peer.toNat]?
            = some { ex_failed 100 0 with
                fails := 0, conns := ((ex_failed 100 0).conns + 1) % UINT_MOD }) :=
  ⟨by decide, by decide, by decide, by decide, by decide,
    fail_timeout_forgiveness ex_rr ex_conf 100 (ex_sticky [ex_failed 100 0, ex_peer 101 0 1])
      (ex_failed 100 0) (by decide) (by decide) (by decide) (by decide) (by decide)⟩

/-- C10: whenever the sticky candidate at index `i` is accepted (not down, not
tried, and `max_fails = 0` or `fails < max_fails` or the failure is forgiven),
`ngx_http_get_sticky_peer` returns OK; the connection target holds the
address, address length and name of peer `i`; the record of peer `i` has `conns`
incremented by one (modulo `2 ^ 64`, so by exactly one unless the counter is at
its maximum) and is otherwise the old one up to `fails`; bit `i` is set; peer
`i` is the current selection; `selected_peer` is -1; no other peer and no other
bit changes; and no fallback algorithm takes part: the result is the same
whatever the algorithms are, and the algorithm tag, the request and the pool
chain are as before.  The bitmap is assumed to cover the pool. -/
theorem sticky_accept_frame
    (rr : RrPeerData → PeerConnection → Int × RrPeerData × PeerConnection)
    (conf : StickySrvConf) (now : Int) (st : State) (q : Peer)
    (hc : StickyCandidate st q) (hd : q.down = false)
    (hacc : q.max_fails = 0 ∨ q.fails < q.max_fails ∨ now - q.accessed > q.fail_timeout)
    (hbits : st.rrp.peers.number ≤ WORD_BITS * st.rrp.tried.length) :
    (ngx_http_get_sticky_peer rr conf now st).1 = NGX_OK
    ∧ (ngx_http_get_sticky_peer rr conf now st).2.pc.sockaddr = q.sockaddr
    ∧ (ngx_http_get_sticky_peer rr conf now st).2.pc.socklen = q.socklen
    ∧ (ngx_http_get_sticky_peer rr conf now st).2.pc.name = q.name
    ∧ (∃ q1, (ngx_http_get_sticky_peer rr conf now st).2.rrp.peers.peer[st.selected_peer.toNat]?
          = some q1
        ∧ q1.conns = (q.conns + 1) % UINT_MOD
        ∧ (q.conns + 1 < UINT_MOD → q1.conns = q.conns + 1)
        ∧ q1 = { q with conns := q1.conns, fails := q1.fails })
    ∧ tried_test (ngx_http_get_sticky_peer rr conf now st).2.rrp.tried st.selected_peer.toNat
        = true
    ∧ (ngx_http_get_sticky_peer rr conf now st).2.rrp.current = some st.selected_peer.toNat
    ∧ (ngx_http_get_sticky_peer rr conf now st).2.selected_peer = -1
    ∧ (∀ j, j ≠ st.selected_peer.toNat →
        (ngx_http_get_sticky_peer rr conf now st).2.rrp.peers.peer[j]? = st.rrp.peers.peer[j]?)
    ∧ (∀ j, j ≠ st.selected_peer.toNat →
        tried_test (ngx_http_get_sticky_peer rr conf now st).2.rrp.tried j
          = tried_test st.rrp.tried j)
    ∧ (ngx_http_get_sticky_peer rr conf now st).2.lb_alg = st.lb_alg
    ∧ (ngx_http_get_sticky_peer rr conf now st).2.request = st.request
    ∧ (ngx_http_get_sticky_peer rr conf now st).2.rrp.next = st.rrp.next
    ∧ (ngx_http_get_sticky_peer rr conf now st).2.rrp.peers.single = st.rrp.peers.single
    ∧ (∀ rr2 lc2, ngx_http_get_sticky_peer_with rr2 lc2 conf now st
        = ngx_http_get_sticky_peer rr conf now st) := by
  obtain ⟨lc, hlc⟩ := get_sticky_peer_eq rr conf now st
  have hres : ngx_http_get_sticky_peer rr conf now st = (NGX_OK, accepted_state conf now st q) := by
    rw [hlc, get_sticky_accept rr lc conf now st q hc hd hacc]
  have hlt : st.selected_peer.toNat < st.rrp.peers.peer.length := getElem?_lt_length hc.2.2.2.2
  have hword : st.selected_peer.toNat / WORD_BITS < st.rrp.tried.length := by
    apply Nat.div_lt_of_lt_mul
    unfold RrPeers.number at hbits
    omega
  rw [hres]
  refine ⟨rfl, rfl, rfl, rfl, ?_, ?_, rfl, rfl, ?_, ?_, rfl, rfl, rfl, rfl, ?_⟩
  · refine ⟨_, List.getElem?_set_self hlt, rfl, ?_, rfl⟩
    intro hno
    exact Nat.mod_eq_of_lt hno
  · exact tried_set_test_self st.rrp.tried st.selected_peer.toNat hword
  · intro j hj
    show (st.rrp.peers.peer.set _ _)[j]? = _
    rw [List.getElem?_set_ne (Ne.symm hj)]
  · intro j hj
    exact tried_set_test_other st.rrp.tried st.selected_peer.toNat j hj
  · intro rr2 lc2
    exact get_sticky_accept rr2 lc2 conf now st q hc hd hacc

/-- Witness of C10: the cookie names the healthy peer 0. -/
theorem sticky_accept_frame_witness :
    StickyCandidate (ex_sticky [ex_peer 100 4 1, ex_peer 101 0 1]) (ex_peer 100 4 1)
    ∧ (ex_peer 100 4 1).down = false
    ∧ ((ex_peer 100 4 1).max_fails = 0 ∨ (ex_peer 100 4 1).fails < (ex_peer 100 4 1).max_fails
        ∨ 100 - (ex_peer 100 4 1).accessed > (ex_peer 100 4 1).fail_timeout)
    ∧ (ex_sticky [ex_peer 100 4 1, ex_peer 101 0 1]).rrp.peers.number
        ≤ WORD_BITS * (ex_sticky [ex_peer 100 4 1, ex_peer 101 0 1]).rrp.tried.length
    ∧ (ngx_http_get_sticky_peer ex_rr ex_conf 100
        (ex_sticky [ex_peer 100 4 1, ex_peer 101 0 1])).2.rrp.peers.peer.map (fun p => p.conns)
          = [5, 0]
    ∧ (ngx_http_get_sticky_peer ex_rr ex_conf 100
        (ex_sticky [ex_peer 100 4 1, ex_peer 101 0 1])).2.rrp.tried = [1]
    ∧ (ngx_http_get_sticky_peer ex_rr ex_conf 100
        (ex_sticky [ex_peer 100 4 1, ex_peer 101 0 1])).1 = NGX_OK
    ∧ (ngx_http_get_sticky_peer ex_rr ex_conf 100
        (ex_sticky [ex_peer 100 4 1, ex_peer 101 0 1])).2.pc.sockaddr = (ex_peer 100 4 1).sockaddr
    ∧ (ngx_http_get_sticky_peer ex_rr ex_conf 100
        (ex_sticky [ex_peer 100 4 1, ex_peer 101 0 1])).2.pc.socklen = (ex_peer 100 4 1).socklen
    ∧ (ngx_http_get_sticky_peer ex_rr ex_conf 100
        (ex_sticky [ex_peer 100 4 1, ex_peer 101 0 1])).2.pc.name = (ex_peer 100 4 1).name :=
  ⟨by decide, by decide, by decide, by decide, by decide, by decide,
    (sticky_accept_frame ex_rr ex_conf 100 (ex_sticky [ex_peer 100 4 1, ex_peer 101 0 1])
      (ex_peer 100 4 1) (by decide) (by decide) (by decide) (by decide)).1,
    (sticky_accept_frame ex_rr ex_conf 100 (ex_sticky [ex_peer 100 4 1, ex_peer 101 0 1])
      (ex_peer 100 4 1) (by decide) (by decide) (by decide) (by decide)).2.1,
    (sticky_accept_frame ex_rr ex_conf 100 (ex_sticky [ex_peer 100 4 1, ex_peer 101 0 1])
      (ex_peer 100 4 1) (by decide) (by decide) (by decide) (by decide)).2.2.1,
    (sticky_accept_frame ex_rr ex_conf 100 (ex_sticky [ex_peer 100 4 1, ex_peer 101 0 1])
      (ex_peer 100 4 1) (by decide) (by decide) (by decide) (by decide)).2.2.2.1⟩

/-! ## Lemmas: least connections, without conditions on the weights -/

/-- The first scan ends without `best` exactly when it started without one and
skipped every peer. -/
theorem lc_scan_none_iff (now : Int) (tried : List Nat) :
    ∀ (l : List Peer) (i : Nat) (best : Option (Nat × Peer)) (many : Bool),
      (lc_scan now tried l i best many).1 = none ↔
        best = none ∧ ∀ k q, l[k]? = some q → lc_skip now tried (i + k) q = true := by
  intro l
  induction l with
  | nil =>
    intro i best many
    simp [lc_scan]
  | cons x rest ih =>
    intro i best many
    rw [lc_scan_cons, ih]
    unfold scan_best
    by_cases hs : lc_skip now tried i x = true
    · rw [if_pos hs]
      constructor
      · rintro ⟨hb, hall⟩
        refine ⟨hb, ?_⟩
        intro k q hq
        cases k with
        | zero => simp at hq; subst hq; exact hs
        | succ n =>
          have := hall n q (by simpa using hq)
          rw [show i + (n + 1) = i + 1 + n by omega]; exact this
      · rintro ⟨hb, hall⟩
        refine ⟨hb, ?_⟩
        intro k q hq
        have := hall (k + 1) q (by simpa using hq)
        rw [show i + 1 + k = i + (k + 1) by omega]; exact this
    · rw [if_neg hs]
      constructor
      · rintro ⟨hb, _⟩
        exfalso
        cases best with
        | none => simp at hb
        | some pb =>
          obtain ⟨p, b⟩ := pb
          simp only at hb
          split at hb <;> cases hb
      · rintro ⟨_, hall⟩
        exact absurd (hall 0 x (by simp)) (by simpa using hs)

/-- A `best` the first scan ends with is the one it started with or a peer of
the list that passed the filter, at its index. -/
theorem lc_scan_some (now : Int) (tried : List Nat) :
    ∀ (l : List Peer) (i : Nat) (best : Option (Nat × Peer)) (many : Bool) (p : Nat) (b : Peer),
      (lc_scan now tried l i best many).1 = some (p, b) →
        best = some (p, b)
        ∨ ∃ k, l[k]? = some b ∧ p = i + k ∧ lc_skip now tried (i + k) b = false := by
  intro l
  induction l with
  | nil =>
    intro i best many p b h
    left
    simpa [lc_scan] using h
  | cons x rest ih =>
    intro i best many p b h
    rw [lc_scan_cons] at h
    rcases ih (i + 1) _ _ p b h with h1 | ⟨k, hk, hp, hsk⟩
    · unfold scan_best at h1
      by_cases hs : lc_skip now tried i x = true
      · rw [if_pos hs] at h1
        exact Or.inl h1
      · rw [if_neg hs] at h1
        have hs' : lc_skip now tried i x = false := by simpa using hs
        cases best with
        | none =>
          simp only at h1
          cases h1
          exact Or.inr ⟨0, by simp, rfl, hs'⟩
        | some pb =>
          obtain ⟨p1, b1⟩ := pb
          simp only at h1
          split at h1
          · cases h1
            exact Or.inr ⟨0, by simp, rfl, hs'⟩
          · exact Or.inl h1
    · right
      exact ⟨k + 1, by simpa using hk, by omega,
        by rw [show i + (k + 1) = i + 1 + k by omega]; exact hsk⟩

/-- The `best` of a whole first scan is a peer of the pool that passed the
filter, at its index. -/
theorem lc_scan_found (now : Int) (tried : List Nat) (E : List Peer) (p0 : Nat) (best0 : Peer)
    (many : Bool) (h : lc_scan now tried E 0 none false = (some (p0, best0), many)) :
    E[p0]? = some best0 ∧ lc_skip now tried p0 best0 = false := by
  have h1 : (lc_scan now tried E 0 none false).1 = some (p0, best0) := by rw [h]
  rcases lc_scan_some now tried E 0 none false p0 best0 h1 with h2 | ⟨k, hk, hp, hsk⟩
  · cases h2
  · have : p0 = k := by omega
    subst this
    exact ⟨hk, by simpa using hsk⟩

theorem tie_part_skip_false (now : Int) (tried : List Nat) (i : Nat) (best x : Peer)
    (h : tie_part now tried i best x = true) : lc_skip now tried i x = false := by
  unfold tie_part at h
  rw [Bool.and_eq_true] at h
  simpa using h.1

/-- What the tie-break scan does to the peers it walks, whatever the weights:
each peer is left as it was or as `tie_written` leaves it (the latter only if it
passed the filter), and the final `best` is the initial one or the written
record of a walked peer that passed the filter, at its index. -/
theorem lc_tie_frame (now : Int) (tried : List Nat) :
    ∀ (l : List Peer) (i p : Nat) (best : Peer) (total : Int),
      (lc_tie now tried l i p best total).peers.length = l.length
      ∧ (∀ k q, l[k]? = some q →
          (lc_tie now tried l i p best total).peers[k]? = some q
          ∨ ((lc_tie now tried l i p best total).peers[k]? = some (tie_written q)
              ∧ lc_skip now tried (i + k) q = false))
      ∧ (((lc_tie now tried l i p best total).p = p
            ∧ (lc_tie now tried l i p best total).best = best)
          ∨ ∃ k q, l[k]? = some q ∧ (lc_tie now tried l i p best total).p = i + k
              ∧ (lc_tie now tried l i p best total).best = tie_written q
              ∧ lc_skip now tried (i + k) q = false) := by
  intro l
  induction l with
  | nil =>
    intro i p best total
    refine ⟨rfl, ?_, Or.inl ⟨rfl, rfl⟩⟩
    intro k q hq
    simp at hq
  | cons x rest ih =>
    intro i p best total
    by_cases hp : tie_part now tried i best x = true
    · have hsx := tie_part_skip_false now tried i best x hp
      rw [lc_tie_cons_take now tried x rest i p best total hp]
      by_cases hgt : (tie_written x).current_weight
          > (if i = p then tie_written x else best).current_weight
      · simp only [hgt, if_true]
        obtain ⟨e1, e2, e3⟩ := ih (i + 1) i (tie_written x) (to_ngx_int (total + x.effective_weight))
        refine ⟨by simp [e1], ?_, ?_⟩
        · intro k q hq
          cases k with
          | zero =>
            simp at hq; subst hq
            exact Or.inr ⟨by simp, by simpa using hsx⟩
          | succ n =>
            have := e2 n q (by simpa using hq)
            simpa [show i + (n + 1) = i + 1 + n by omega] using this
        · right
          rcases e3 with ⟨h1, h2⟩ | ⟨k, q, hq, h1, h2, h3⟩
          · exact ⟨0, x, by simp, by simpa using h1, h2, by simpa using hsx⟩
          · exact ⟨k + 1, q, by simpa using hq, by rw [h1]; omega, h2,
              by rw [show i + (k + 1) = i + 1 + k by omega]; exact h3⟩
      · simp only [hgt, if_false]
        obtain ⟨e1, e2, e3⟩ := ih (i + 1) p (if i = p then tie_written x else best)
          (to_ngx_int (total + x.effective_weight))
        refine ⟨by simp [e1], ?_, ?_⟩
        · intro k q hq
          cases k with
          | zero =>
            simp at hq; subst hq
            exact Or.inr ⟨by simp, by simpa using hsx⟩
          | succ n =>
            have := e2 n q (by simpa using hq)
            simpa [show i + (n + 1) = i + 1 + n by omega] using this
        · rcases e3 with ⟨h1, h2⟩ | ⟨k, q, hq, h1, h2, h3⟩
          · by_cases hip : i = p
            · right
              rw [if_pos hip] at h1 h2 ⊢
              exact ⟨0, x, by simp, by rw [h1]; omega, h2, by simpa using hsx⟩
            · left
              rw [if_neg hip] at h1 h2 ⊢
              exact ⟨h1, h2⟩
          · right
            exact ⟨k + 1, q, by simpa using hq, by rw [h1]; omega, h2,
              by rw [show i + (k + 1) = i + 1 + k by omega]; exact h3⟩
    · have hp' : tie_part now tried i best x = false := by simpa using hp
      rw [lc_tie_cons_skip now tried x rest i p best total hp']
      obtain ⟨e1, e2, e3⟩ := ih (i + 1) p best total
      refine ⟨by simp [e1], ?_, ?_⟩
      · intro k q hq
        cases k with
        | zero =>
          simp at hq; subst hq
          exact Or.inl (by simp)
        | succ n =>
          have := e2 n q (by simpa using hq)
          simpa [show i + (n + 1) = i + 1 + n by omega] using this
      · rcases e3 with ⟨h1, h2⟩ | ⟨k, q, hq, h1, h2, h3⟩
        · exact Or.inl ⟨h1, h2⟩
        · right
          exact ⟨k + 1, q, by simpa using hq, by show _ = _; rw [h1]; omega, h2,
            by rw [show i + (k + 1) = i + 1 + k by omega]; exact h3⟩

/-- The fields the tie-break scan leaves alone. -/
theorem tie_written_kept (q : Peer) :
    (tie_written q).fails = q.fails ∧ (tie_written q).weight = q.weight
    ∧ (tie_written q).down = q.down ∧ (tie_written q).accessed = q.accessed
    ∧ (tie_written q).conns = q.conns ∧ (tie_written q).checked = q.checked
    ∧ (tie_written q).fail_timeout = q.fail_timeout
    ∧ (tie_written q).max_conns = q.max_conns ∧ (tie_written q).max_fails = q.max_fails := by
  unfold tie_written
  split <;> exact ⟨rfl, rfl, rfl, rfl, rfl, rfl, rfl, rfl, rfl⟩

/-- The fields the commit of the winner writes, and those it leaves alone. -/
theorem lc_commit_kept (now total : Int) (b : Peer) :
    (lc_commit now total b).fails = b.fails ∧ (lc_commit now total b).weight = b.weight
    ∧ (lc_commit now total b).down = b.down ∧ (lc_commit now total b).accessed = b.accessed
    ∧ (lc_commit now total b).conns = (b.conns + 1) % UINT_MOD
    ∧ (lc_commit now total b).checked
        = (if now - b.checked > b.fail_timeout then now else b.checked)
    ∧ (lc_commit now total b).max_conns = b.max_conns := by
  unfold lc_commit
  simp only
  split <;> exact ⟨rfl, rfl, rfl, rfl, rfl, rfl, rfl⟩

/-- What the tie-break does to the pool, whatever the weights: the pool keeps
its length, each peer is left as it was or as `tie_written` leaves it, and the
final `best` is such a record of a peer that passed the filter. -/
theorem lc_break_tie_frame (now : Int) (tried : List Nat) (E : List Peer) (p0 : Nat)
    (best0 : Peer) (many : Bool) (hE : E[p0]? = some best0)
    (hskip : lc_skip now tried p0 best0 = false) :
    (lc_break_tie now tried E p0 best0 many).peers.length = E.length
    ∧ (∀ k q, E[k]? = some q →
        (lc_break_tie now tried E p0 best0 many).peers[k]? = some q
        ∨ ((lc_break_tie now tried E p0 best0 many).peers[k]? = some (tie_written q)
            ∧ lc_skip now tried k q = false))
    ∧ ∃ q, E[(lc_break_tie now tried E p0 best0 many).p]? = some q
        ∧ lc_skip now tried (lc_break_tie now tried E p0 best0 many).p q = false
        ∧ ((lc_break_tie now tried E p0 best0 many).best = q
           ∨ (lc_break_tie now tried E p0 best0 many).best = tie_written q) := by
  have hp0 : p0 < E.length := getElem?_lt_length hE
  cases many with
  | false =>
    refine ⟨rfl, fun k q hq => Or.inl hq, best0, hE, hskip, Or.inl rfl⟩
  | true =>
    obtain ⟨e1, e2, e3⟩ := lc_tie_frame now tried (E.drop p0) p0 p0 best0 0
    have hlt : (List.take p0 E).length = p0 := by
      rw [List.length_take]; omega
    have hpe : (lc_break_tie now tried E p0 best0 true).peers
        = List.take p0 E ++ (lc_tie now tried (E.drop p0) p0 p0 best0 0).peers := rfl
    have hpp : (lc_break_tie now tried E p0 best0 true).p
        = (lc_tie now tried (E.drop p0) p0 p0 best0 0).p := rfl
    have hpb : (lc_break_tie now tried E p0 best0 true).best
        = (lc_tie now tried (E.drop p0) p0 p0 best0 0).best := rfl
    rw [hpe, hpp, hpb]
    refine ⟨?_, ?_, ?_⟩
    · rw [List.length_append, hlt, e1, List.length_drop]; omega
    · intro k q hq
      by_cases hk : k < p0
      · left
        rw [List.getElem?_append_left (by rw [hlt]; exact hk), List.getElem?_take_of_lt hk]
        exact hq
      · have hk' : p0 ≤ k := Nat.le_of_not_lt hk
        rw [List.getElem?_append_right (by rw [hlt]; exact hk'), hlt]
        have hd : (E.drop p0)[k - p0]? = some q := by
          rw [List.getElem?_drop, show p0 + (k - p0) = k by omega]; exact hq
        have := e2 (k - p0) q hd
        rw [show p0 + (k - p0) = k by omega] at this
        exact this
    · rcases e3 with ⟨h1, h2⟩ | ⟨k, q, hq, h1, h2, h3⟩
      · rw [h1, h2]
        exact ⟨best0, hE, hskip, Or.inl rfl⟩
      · rw [h1, h2]
        refine ⟨q, ?_, h3, Or.inr rfl⟩
        rw [← List.getElem?_drop]; exact hq

/-- The success exit of the least-connections selection, whatever the weights:
once the first scan has found a peer, the call returns OK with a winner `p`
that passed the filter; the chain of backup pools, the flags of the request and
its cookies are as before, the bit of `p` is the one change of the bitmap, and
each peer keeps `fails`, `weight`, `down`, `accessed` and `max_conns`, with
`conns` and `checked` written for the winner only. -/
theorem lc_found_frame
    (rr : RrPeerData → PeerConnection → Int × RrPeerData × PeerConnection)
    (sticky : State → Int × State) (now : Int) (st : State) (p0 : Nat) (best0 : Peer)
    (many : Bool) (hs : st.rrp.peers.single = false)
    (hscan : lc_scan now st.rrp.tried st.rrp.peers.peer 0 none false = (some (p0, best0), many)) :
    ∃ p w,
      (ngx_http_upstream_get_least_conn_peer_with rr sticky now st).1 = NGX_OK
      ∧ (ngx_http_upstream_get_least_conn_peer_with rr sticky now st).2.rrp.current = some p
      ∧ (ngx_http_upstream_get_least_conn_peer_with rr sticky now st).2.rrp.next = st.rrp.next
      ∧ (ngx_http_upstream_get_least_conn_peer_with rr sticky now st).2.rrp.tried
          = tried_set st.rrp.tried p
      ∧ st.rrp.peers.peer[p]? = some w
      ∧ lc_skip now st.rrp.tried p w = false
      ∧ (ngx_http_upstream_get_least_conn_peer_with rr sticky now st).2.rrp.peers.peer.length
          = st.rrp.peers.peer.length
      ∧ (∀ k q, st.rrp.peers.peer[k]? = some q →
          ∃ q1, (ngx_http_upstream_get_least_conn_peer_with rr sticky now st).2.rrp.peers.peer[k]?
              = some q1
            ∧ q1.fails = q.fails ∧ q1.weight = q.weight ∧ q1.down = q.down
            ∧ q1.accessed = q.accessed ∧ q1.max_conns = q.max_conns
            ∧ q1.conns = (if k = p then (q.conns + 1) % UINT_MOD else q.conns)
            ∧ q1.checked
                = (if k = p ∧ now - q.checked > q.fail_timeout then now else q.checked))
      ∧ (ngx_http_upstream_get_least_conn_peer_with rr sticky now st).2.pc.sockaddr = w.sockaddr
      ∧ (ngx_http_upstream_get_least_conn_peer_with rr sticky now st).2.pc.socklen = w.socklen
      ∧ (ngx_http_upstream_get_least_conn_peer_with rr sticky now st).2.pc.name = w.name
      ∧ (ngx_http_upstream_get_least_conn_peer_with rr sticky now st).2.selected_peer
          = st.selected_peer
      ∧ (ngx_http_upstream_get_least_conn_peer_with rr sticky now st).2.no_fallback
          = st.no_fallback
      ∧ (ngx_http_upstream_get_least_conn_peer_with rr sticky now st).2.request = st.request
      ∧ (ngx_http_upstream_get_least_conn_peer_with rr sticky now st).2.rrp.peers.single = false
      := by
  rw [lc_with_found rr sticky now st p0 best0 many hs hscan]
  obtain ⟨hE, hskip⟩ := lc_scan_found now st.rrp.tried st.rrp.peers.peer p0 best0 many hscan
  obtain ⟨e1, e2, w, hw, hws, hb⟩ :=
    lc_break_tie_frame now st.rrp.tried st.rrp.peers.peer p0 best0 many hE hskip
  generalize lc_break_tie now st.rrp.tried st.rrp.peers.peer p0 best0 many = t at e1 e2 hw hws hb
  have hpl : t.p < t.peers.length := by rw [e1]; exact getElem?_lt_length hw
  have hbk : t.best.fails = w.fails ∧ t.best.weight = w.weight ∧ t.best.down = w.down
      ∧ t.best.accessed = w.accessed ∧ t.best.conns = w.conns ∧ t.best.checked = w.checked
      ∧ t.best.fail_timeout = w.fail_timeout ∧ t.best.max_conns = w.max_conns
      ∧ t.best.sockaddr = w.sockaddr ∧ t.best.socklen = w.socklen ∧ t.best.name = w.name := by
    rcases hb with hb | hb
    · rw [hb]; exact ⟨rfl, rfl, rfl, rfl, rfl, rfl, rfl, rfl, rfl, rfl, rfl⟩
    · rw [hb]
      obtain ⟨k1, k2, k3, k4, k5, k6, k7, k8, _⟩ := tie_written_kept w
      obtain ⟨i1, i2, i3⟩ := tie_written_ids w
      exact ⟨k1, k2, k3, k4, k5, k6, k7, k8, i1, i2, i3⟩
  obtain ⟨b1, b2, b3, b4, b5, b6, b7, b8, b9, b10, b11⟩ := hbk
  obtain ⟨c1, c2, c3, c4, c5, c6, c7⟩ := lc_commit_kept now t.total t.best
  obtain ⟨d1, d2, d3⟩ := lc_commit_sockaddr now t.total t.best
  refine ⟨t.p, w, rfl, rfl, rfl, rfl, hw, hws, ?_, ?_, ?_, ?_, ?_, rfl, rfl, rfl, hs⟩
  · show (t.peers.set t.p _).length = _
    rw [List.length_set, e1]
  · intro k q hq
    show ∃ q1, (t.peers.set t.p (lc_commit now t.total t.best))[k]? = some q1 ∧ _
    by_cases hk : k = t.p
    · subst hk
      have hqw : q = w := by rw [hw] at hq; exact (Option.some.inj hq).symm
      subst hqw
      refine ⟨lc_commit now t.total t.best, List.getElem?_set_self hpl, ?_, ?_, ?_, ?_, ?_, ?_, ?_⟩
      · rw [c1, b1]
      · rw [c2, b2]
      · rw [c3, b3]
      · rw [c4, b4]
      · rw [c7, b8]
      · rw [c5, b5, if_pos rfl]
      · rw [c6, b6, b7]
        by_cases hst : now - q.checked > q.fail_timeout
        · rw [if_pos hst, if_pos ⟨rfl, hst⟩]
        · rw [if_neg hst, if_neg (fun h => hst h.2)]
    · rw [List.getElem?_set_ne (fun h => hk h.symm)]
      have hn : ¬ (k = t.p ∧ now - q.checked > q.fail_timeout) := fun h => hk h.1
      rcases e2 k q hq with h | ⟨h, _⟩
      · exact ⟨q, h, rfl, rfl, rfl, rfl, rfl, by rw [if_neg hk], by rw [if_neg hn]⟩
      · obtain ⟨k1, k2, k3, k4, k5, k6, _, k8, _⟩ := tie_written_kept q
        exact ⟨tie_written q, h, k1, k2, k3, k4, k8, by rw [if_neg hk]; exact k5,
          by rw [if_neg hn]; exact k6⟩
  · show (lc_commit now t.total t.best).sockaddr = _
    rw [d1, b9]
  · show (lc_commit now t.total t.best).socklen = _
    rw [d2, b10]
  · show (lc_commit now t.total t.best).name = _
    rw [d3, b11]

/-! ## Theorems: the frame of the least-connections selection -/

/-- C16: on a non-single pool without a backup pool,
`ngx_http_upstream_get_least_conn_peer` returns Busy if and only if no peer
passes the eligibility filter, and a Busy return leaves the pool (every record
of every peer), the tried bitmap, the current peer, the empty chain and the
request as they were. -/
theorem least_conn_busy_iff_none_eligible
    (rr : RrPeerData → PeerConnection → Int × RrPeerData × PeerConnection)
    (conf : StickySrvConf) (now : Int) (st : State)
    (hs : st.rrp.peers.single = false) (hnext : st.rrp.next = []) :
    ((ngx_http_upstream_get_least_conn_peer rr conf now st).1 = NGX_BUSY ↔
        ∀ i q, st.rrp.peers.peer[i]? = some q → ¬ Eligible now st.rrp.tried i q)
    ∧ ((ngx_http_upstream_get_least_conn_peer rr conf now st).1 = NGX_BUSY →
        (ngx_http_upstream_get_least_conn_peer rr conf now st).2.rrp = st.rrp
        ∧ (ngx_http_upstream_get_least_conn_peer rr conf now st).2.selected_peer
            = st.selected_peer
        ∧ (ngx_http_upstream_get_least_conn_peer rr conf now st).2.no_fallback = st.no_fallback
        ∧ (ngx_http_upstream_get_least_conn_peer rr conf now st).2.request = st.request) := by
  rw [least_conn_peer_eq]
  generalize sticky_depth rr conf now (st.rrp.next.length - 1) = sticky
  have hne : NGX_OK ≠ NGX_BUSY := by decide
  rcases hscan : lc_scan now st.rrp.tried st.rrp.peers.peer 0 none false with ⟨o, many⟩
  cases o with
  | none =>
    rw [lc_with_none_no_backup rr sticky now st many hs hnext hscan]
    have hall := ((lc_scan_none_iff now st.rrp.tried st.rrp.peers.peer 0 none false).1
      (by rw [hscan])).2
    refine ⟨⟨fun _ i q hq he => ?_, fun _ => rfl⟩, fun _ => ⟨rfl, rfl, rfl, rfl⟩⟩
    have h1 := hall i q hq
    rw [Nat.zero_add] at h1
    rw [(lc_skip_false_iff now st.rrp.tried i q).2 he] at h1
    exact Bool.false_ne_true h1
  | some pb =>
    obtain ⟨p0, best0⟩ := pb
    rw [lc_with_found rr sticky now st p0 best0 many hs hscan]
    obtain ⟨hE, hskip⟩ := lc_scan_found now st.rrp.tried st.rrp.peers.peer p0 best0 many hscan
    refine ⟨⟨fun h => absurd h hne, fun h => ?_⟩, fun h => absurd h hne⟩
    exact absurd ((lc_skip_false_iff now st.rrp.tried p0 best0).1 hskip) (h p0 best0 hE)

/-- C16 at a pool of two peers that are both down: Busy, nothing changed. -/
theorem least_conn_busy_iff_none_eligible_witness :
    ((ngx_http_upstream_get_least_conn_peer ex_rr ex_conf 100
          (ex_state [ex_down 100, ex_down 101])).1 = NGX_BUSY ↔
        ∀ i q, (ex_state [ex_down 100, ex_down 101]).rrp.peers.peer[i]? = some q →
          ¬ Eligible 100 (ex_state [ex_down 100, ex_down 101]).rrp.tried i q)
    ∧ ((ngx_http_upstream_get_least_conn_peer ex_rr ex_conf 100
          (ex_state [ex_down 100, ex_down 101])).1 = NGX_BUSY →
        (ngx_http_upstream_get_least_conn_peer ex_rr ex_conf 100
          (ex_state [ex_down 100, ex_down 101])).2.rrp = (ex_state [ex_down 100, ex_down 101]).rrp
        ∧ (ngx_http_upstream_get_least_conn_peer ex_rr ex_conf 100
          (ex_state [ex_down 100, ex_down 101])).2.selected_peer
            = (ex_state [ex_down 100, ex_down 101]).selected_peer
        ∧ (ngx_http_upstream_get_least_conn_peer ex_rr ex_conf 100
          (ex_state [ex_down 100, ex_down 101])).2.no_fallback
            = (ex_state [ex_down 100, ex_down 101]).no_fallback
        ∧ (ngx_http_upstream_get_least_conn_peer ex_rr ex_conf 100
          (ex_state [ex_down 100, ex_down 101])).2.request
            = (ex_state [ex_down 100, ex_down 101]).request) :=
  least_conn_busy_iff_none_eligible ex_rr ex_conf 100 (ex_state [ex_down 100, ex_down 101])
    rfl rfl

/-- C15 (counterexample to the claim as stated): both primary peers were tried
(bits 0 and 1 set) and a healthy backup pool exists.  The call returns OK with
the winner at index 0 of the backup pool, whose bit was set at entry, and bit 1
has changed from set to clear. -/
theorem least_conn_ok_frame_counterexample :
    (ngx_http_upstream_get_least_conn_peer ex_rr ex_conf 100
        (ex_backup [ex_peer 100 0 1, ex_peer 101 0 1] [ex_peer 200 0 1, ex_peer 201 0 1]
          [3] (-1))).1 = NGX_OK
    ∧ (ngx_http_upstream_get_least_conn_peer ex_rr ex_conf 100
        (ex_backup [ex_peer 100 0 1, ex_peer 101 0 1] [ex_peer 200 0 1, ex_peer 201 0 1]
          [3] (-1))).2.rrp.current = some 0
    ∧ tried_test [3] 0 = true ∧ tried_test [3] 1 = true
    ∧ tried_test (ngx_http_upstream_get_least_conn_peer ex_rr ex_conf 100
        (ex_backup [ex_peer 100 0 1, ex_peer 101 0 1] [ex_peer 200 0 1, ex_peer 201 0 1]
          [3] (-1))).2.rrp.tried 1 = false := by
  decide

/-- C15 (amended): on every OK return of
`ngx_http_upstream_get_least_conn_peer` on a non-single pool that is made
without switching to the backup pool, with the winner at index `p`: the
winner's `conns` is incremented by one (as an `ngx_uint_t`) and every other
peer's `conns` is unchanged; bit `p` of the tried bitmap is set, it was clear at
entry, and no other bit changes; the winner's `checked` becomes `now` if
`now - checked > fail_timeout` and no `checked` changes otherwise; the
connection target holds the winner's `sockaddr`, `socklen` and `name`; and
`fails`, `weight`, `down` and `accessed` of every peer are unchanged. -/
theorem least_conn_ok_frame
    (rr : RrPeerData → PeerConnection → Int × RrPeerData × PeerConnection)
    (conf : StickySrvConf) (now : Int) (st : State)
    (hs : st.rrp.peers.single = false)
    (hbits : st.rrp.peers.number ≤ WORD_BITS * st.rrp.tried.length)
    (hsw : ¬ SwitchesToBackup now st)
    (hok : (ngx_http_upstream_get_least_conn_peer rr conf now st).1 = NGX_OK) :
    ∃ p w,
      (ngx_http_upstream_get_least_conn_peer rr conf now st).2.rrp.current = some p
      ∧ st.rrp.peers.peer[p]? = some w
      ∧ (ngx_http_upstream_get_least_conn_peer rr conf now st).2.rrp.peers.peer.length
          = st.rrp.peers.peer.length
      ∧ (∀ k q, st.rrp.peers.peer[k]? = some q →
          ∃ q1, (ngx_http_upstream_get_least_conn_peer rr conf now st).2.rrp.peers.peer[k]?
              = some q1
            ∧ q1.conns = (if k = p then (q.conns + 1) % UINT_MOD else q.conns)
            ∧ q1.checked
                = (if k = p ∧ now - q.checked > q.fail_timeout then now else q.checked)
            ∧ q1.fails = q.fails ∧ q1.weight = q.weight ∧ q1.down = q.down
            ∧ q1.accessed = q.accessed)
      ∧ tried_test (ngx_http_upstream_get_least_conn_peer rr conf now st).2.rrp.tried p = true
      ∧ tried_test st.rrp.tried p = false
      ∧ (∀ j, j ≠ p →
          tried_test (ngx_http_upstream_get_least_conn_peer rr conf now st).2.rrp.tried j
            = tried_test st.rrp.tried j)
      ∧ (ngx_http_upstream_get_least_conn_peer rr conf now st).2.pc.sockaddr = w.sockaddr
      ∧ (ngx_http_upstream_get_least_conn_peer rr conf now st).2.pc.socklen = w.socklen
      ∧ (ngx_http_upstream_get_least_conn_peer rr conf now st).2.pc.name = w.name := by
  rw [least_conn_peer_eq] at hok ⊢
  generalize sticky_depth rr conf now (st.rrp.next.length - 1) = sticky at hok ⊢
  rcases hscan : lc_scan now st.rrp.tried st.rrp.peers.peer 0 none false with ⟨o, many⟩
  cases o with
  | none =>
    exfalso
    have hall := ((lc_scan_none_iff now st.rrp.tried st.rrp.peers.peer 0 none false).1
      (by rw [hscan])).2
    have hnone : ∀ i q, st.rrp.peers.peer[i]? = some q → ¬ Eligible now st.rrp.tried i q := by
      intro i q hq he
      have h1 := hall i q hq
      rw [Nat.zero_add, (lc_skip_false_iff now st.rrp.tried i q).2 he] at h1
      exact Bool.false_ne_true h1
    have hnext : st.rrp.next = [] := by
      by_contra hne
      exact hsw ⟨hnone, hne⟩
    rw [lc_with_none_no_backup rr sticky now st many hs hnext hscan] at hok
    have hne : NGX_BUSY ≠ NGX_OK := by decide
    exact hne hok
  | some pb =>
    obtain ⟨p0, best0⟩ := pb
    obtain ⟨p, w, _, f2, _, f4, f5, f6, f7, f8, f9, f10, f11, _⟩ :=
      lc_found_frame rr sticky now st p0 best0 many hs hscan
    have hclear : tried_test st.rrp.tried p = false := by
      have := (lc_skip_false_iff now st.rrp.tried p w).1 f6
      exact this.1
    have hp : p / WORD_BITS < st.rrp.tried.length := by
      have hlt : p < st.rrp.peers.number := getElem?_lt_length f5
      have hW : 0 < WORD_BITS := by decide
      exact (Nat.div_lt_iff_lt_mul hW).2 (by rw [Nat.mul_comm]; omega)
    refine ⟨p, w, f2, f5, f7, ?_, ?_, hclear, ?_, f9, f10, f11⟩
    · intro k q hq
      obtain ⟨q1, g0, g1, g2, g3, g4, _, g6, g7⟩ := f8 k q hq
      exact ⟨q1, g0, g6, g7, g1, g2, g3, g4⟩
    · rw [f4]; exact tried_set_test_self st.rrp.tried p hp
    · intro j hj
      rw [f4]; exact tried_set_test_other st.rrp.tried p j hj

/-- C15 at a pool of two healthy peers: peer 0 wins, its `conns` goes from 0
to 1 and its bit is set. -/
theorem least_conn_ok_frame_witness :
    ∃ p w,
      (ngx_http_upstream_get_least_conn_peer ex_rr ex_conf 100
          (ex_state [ex_peer 100 0 1, ex_peer 101 1 1])).2.rrp.current = some p
      ∧ (ex_state [ex_peer 100 0 1, ex_peer 101 1 1]).rrp.peers.peer[p]? = some w
      ∧ (ngx_http_upstream_get_least_conn_peer ex_rr ex_conf 100
          (ex_state [ex_peer 100 0 1, ex_peer 101 1 1])).2.rrp.peers.peer.length
          = (ex_state [ex_peer 100 0 1, ex_peer 101 1 1]).rrp.peers.peer.length
      ∧ (∀ k q, (ex_state [ex_peer 100 0 1, ex_peer 101 1 1]).rrp.peers.peer[k]? = some q →
          ∃ q1, (ngx_http_upstream_get_least_conn_peer ex_rr ex_conf 100
              (ex_state [ex_peer 100 0 1, ex_peer 101 1 1])).2.rrp.peers.peer[k]? = some q1
            ∧ q1.conns = (if k = p then (q.conns + 1) % UINT_MOD else q.conns)
            ∧ q1.checked
                = (if k = p ∧ 100 - q.checked > q.fail_timeout then 100 else q.checked)
            ∧ q1.fails = q.fails ∧ q1.weight = q.weight ∧ q1.down = q.down
            ∧ q1.accessed = q.accessed)
      ∧ tried_test (ngx_http_upstream_get_least_conn_peer ex_rr ex_conf 100
          (ex_state [ex_peer 100 0 1, ex_peer 101 1 1])).2.rrp.tried p = true
      ∧ tried_test (ex_state [ex_peer 100 0 1, ex_peer 101 1 1]).rrp.tried p = false
      ∧ (∀ j, j ≠ p →
          tried_test (ngx_http_upstream_get_least_conn_peer ex_rr ex_conf 100
            (ex_state [ex_peer 100 0 1, ex_peer 101 1 1])).2.rrp.tried j
            = tried_test (ex_state [ex_peer 100 0 1, ex_peer 101 1 1]).rrp.tried j)
      ∧ (ngx_http_upstream_get_least_conn_peer ex_rr ex_conf 100
          (ex_state [ex_peer 100 0 1, ex_peer 101 1 1])).2.pc.sockaddr = w.sockaddr
      ∧ (ngx_http_upstream_get_least_conn_peer ex_rr ex_conf 100
          (ex_state [ex_peer 100 0 1, ex_peer 101 1 1])).2.pc.socklen = w.socklen
      ∧ (ngx_http_upstream_get_least_conn_peer ex_rr ex_conf 100
          (ex_state [ex_peer 100 0 1, ex_peer 101 1 1])).2.pc.name = w.name :=
  least_conn_ok_frame ex_rr ex_conf 100 (ex_state [ex_peer 100 0 1, ex_peer 101 1 1])
    rfl (by decide) (fun h => h.2 rfl) (by decide)

/-! ## Lemmas: monotonicity of the tried bitmap -/

/-- An or-store into a word of the bitmap clears no bit. -/
theorem tried_or_mono (tried : List Nat) (n m j : Nat) (h : tried_test tried j = true) :
    tried_test (tried.set n (tried.getD n 0 ||| m)) j = true := by
  rw [tried_test_eq] at h ⊢
  by_cases hn : n = j / WORD_BITS
  · by_cases hlen : n < tried.length
    · rw [← hn] at h ⊢
      simp only [List.getD_eq_getElem?_getD, List.getElem?_set_self hlen, Option.getD_some,
        Nat.testBit_or] at h ⊢
      rw [h]; rfl
    · rw [List.set_eq_of_length_le (Nat.le_of_not_lt hlen)]; exact h
  · simp only [List.getD_eq_getElem?_getD, List.getElem?_set_ne hn] at h ⊢
    exact h

theorem tried_set_mono (tried : List Nat) (i j : Nat) (h : tried_test tried j = true) :
    tried_test (tried_set tried i) j = true :=
  tried_or_mono tried (i / WORD_BITS) (1 <<< (i % WORD_BITS)) j h

/-- The cookie writer changes the request only. -/
theorem route_cookie_rrp (conf : StickySrvConf) (st : State) (i : Nat) :
    (route_cookie conf st i).rrp = st.rrp := by
  unfold route_cookie set_cookie
  split
  · rfl
  · split <;> rfl

theorem sticky_cookie_loop_rrp (conf : StickySrvConf) (st : State) :
    ∀ (l : List Peer) (i : Nat), (sticky_cookie_loop conf st l i).rrp = st.rrp := by
  intro l
  induction l with
  | nil => intro i; rfl
  | cons x rest ih =>
    intro i
    unfold sticky_cookie_loop
    split
    · exact route_cookie_rrp conf st i
    · exact ih (i + 1)

/-- The eligibility rule keeps the chain and clears no bit. -/
theorem sticky_eligible_frame (now : Int) (st : State) (sp : Nat) (peer : Peer) (n m : Nat)
    (st1 : State) (pr : Option (Nat × Peer)) (sel : Int) (n1 m1 : Nat)
    (h : sticky_eligible now st sp peer n m = Validated.go st1 pr sel n1 m1) :
    st1.rrp.next = st.rrp.next
    ∧ (∀ j, tried_test st.rrp.tried j = true → tried_test st1.rrp.tried j = true) := by
  unfold sticky_eligible at h
  split at h
  · cases h; exact ⟨rfl, fun j hj => hj⟩
  · split at h
    · cases h; exact ⟨rfl, fun j hj => hj⟩
    · cases h; exact ⟨rfl, fun j hj => tried_or_mono st.rrp.tried n m j hj⟩

theorem sticky_eligible_not_ret (now : Int) (st : State) (sp : Nat) (peer : Peer) (n m : Nat)
    (rc : Int) (st1 : State) : sticky_eligible now st sp peer n m ≠ Validated.ret rc st1 := by
  unfold sticky_eligible
  intro h
  split at h
  · cases h
  · split at h <;> cases h

/-- The validation of the sticky candidate keeps the chain and clears no bit,
whichever way it ends. -/
theorem sticky_validate_frame (conf : StickySrvConf) (now : Int) (st : State) :
    (∀ rc st1, sticky_validate conf now st = Validated.ret rc st1 →
      st1.rrp.next = st.rrp.next ∧ st1.rrp.tried = st.rrp.tried)
    ∧ (∀ st1 pr sel n m, sticky_validate conf now st = Validated.go st1 pr sel n m →
      st1.rrp.next = st.rrp.next
      ∧ (∀ j, tried_test st.rrp.tried j = true → tried_test st1.rrp.tried j = true)) := by
  unfold sticky_validate
  simp only
  split
  · split
    · split
      · exact ⟨fun rc st1 h => (by cases h), fun st1 pr sel n m h =>
          (by cases h; exact ⟨rfl, fun j hj => hj⟩)⟩
      · rename_i peer hpeer
        by_cases hd : peer.down = true
        · rw [if_pos hd]
          exact ⟨fun rc st1 h => (by cases h; exact ⟨rfl, rfl⟩),
            fun st1 pr sel n m h => (by cases h)⟩
        · rw [if_neg hd]
          by_cases hnf : conf.no_fallback ≠ 0
          · rw [if_pos hnf]
            by_cases hst : now - peer.accessed > peer.fail_timeout
            · simp only [hst, if_true]
              split
              · exact ⟨fun rc st1 h => (by cases h; exact ⟨rfl, rfl⟩),
                  fun st1 pr sel n m h => (by cases h)⟩
              · exact ⟨fun rc st1 h => absurd h (sticky_eligible_not_ret _ _ _ _ _ _ _ _),
                  fun st1 pr sel n m h =>
                    (by have t := sticky_eligible_frame _ _ _ _ _ _ _ _ _ _ _ h; exact t)⟩
            · simp only [hst, if_false]
              split
              · exact ⟨fun rc st1 h => (by cases h; exact ⟨rfl, rfl⟩),
                  fun st1 pr sel n m h => (by cases h)⟩
              · exact ⟨fun rc st1 h => absurd h (sticky_eligible_not_ret _ _ _ _ _ _ _ _),
                  fun st1 pr sel n m h =>
                    (by have t := sticky_eligible_frame _ _ _ _ _ _ _ _ _ _ _ h; exact t)⟩
          · rw [if_neg hnf]
            exact ⟨fun rc st1 h => absurd h (sticky_eligible_not_ret _ _ _ _ _ _ _ _),
              fun st1 pr sel n m h =>
                    (by have t := sticky_eligible_frame _ _ _ _ _ _ _ _ _ _ _ h; exact t)⟩
    · exact ⟨fun rc st1 h => (by cases h), fun st1 pr sel n m h =>
        (by cases h; exact ⟨rfl, fun j hj => hj⟩)⟩
  · exact ⟨fun rc st1 h => (by cases h), fun st1 pr sel n m h =>
      (by cases h; exact ⟨rfl, fun j hj => hj⟩)⟩

/-- The switch to the backup pool (lines 541-571): the round-robin data that
the call leaves and its return code are those of the sticky selection run on
the backup pool with the bitmap reset. -/
theorem lc_with_switch
    (rr : RrPeerData → PeerConnection → Int × RrPeerData × PeerConnection)
    (sticky : State → Int × State) (now : Int) (st : State) (many : Bool)
    (nxt : RrPeers) (more : List RrPeers)
    (hs : st.rrp.peers.single = false) (hnext : st.rrp.next = nxt :: more)
    (hscan : lc_scan now st.rrp.tried st.rrp.peers.peer 0 none false = (none, many)) :
    (ngx_http_upstream_get_least_conn_peer_with rr sticky now st).2.rrp
      = (sticky { st with
          rrp := { st.rrp with
            peers := nxt
            next := more
            tried := tried_clear st.rrp.tried ((nxt.number + (WORD_BITS - 1)) / WORD_BITS) },
          pc := { st.pc with cached := 0, connection := none } }).2.rrp
    ∧ (ngx_http_upstream_get_least_conn_peer_with rr sticky now st).1
      = (sticky { st with
          rrp := { st.rrp with
            peers := nxt
            next := more
            tried := tried_clear st.rrp.tried ((nxt.number + (WORD_BITS - 1)) / WORD_BITS) },
          pc := { st.pc with cached := 0, connection := none } }).1 := by
  unfold ngx_http_upstream_get_least_conn_peer_with
  simp only [hs, Bool.false_eq_true, if_false, hscan, hnext]
  split
  · exact ⟨rfl, rfl⟩
  · rename_i h
    have h1 : NGX_BUSY = _ := not_not.1 h
    exact ⟨rfl, h1⟩

theorem keepsBits_busy : KeepsBits (fun st => (NGX_BUSY, st)) :=
  fun _ => ⟨le_refl _, fun _ _ hj => hj⟩

/-- The least-connections selection keeps the bitmap monotone when the
selections it calls do. -/
theorem keepsBits_lc
    (rr : RrPeerData → PeerConnection → Int × RrPeerData × PeerConnection)
    (sticky : State → Int × State) (now : Int)
    (hrr : RrKeepsBits rr) (hst : KeepsBits sticky) :
    KeepsBits (ngx_http_upstream_get_least_conn_peer_with rr sticky now) := by
  intro s
  by_cases hs : s.rrp.peers.single = true
  · have he : ngx_http_upstream_get_least_conn_peer_with rr sticky now s
        = ((rr s.rrp s.pc).1, { s with rrp := (rr s.rrp s.pc).2.1, pc := (rr s.rrp s.pc).2.2 }) := by
      unfold ngx_http_upstream_get_least_conn_peer_with
      simp only [hs, if_true]
    rw [he]
    exact hrr s.rrp s.pc
  · have hs' : s.rrp.peers.single = false := by simpa using hs
    rcases hscan : lc_scan now s.rrp.tried s.rrp.peers.peer 0 none false with ⟨o, many⟩
    cases o with
    | none =>
      cases hnext : s.rrp.next with
      | nil =>
        rw [lc_with_none_no_backup rr sticky now s many hs' hnext hscan]
        exact ⟨by simp [hnext], fun _ _ hj => hj⟩
      | cons nxt more =>
        obtain ⟨h1, _⟩ := lc_with_switch rr sticky now s many nxt more hs' hnext hscan
        have h2 := (hst { s with
          rrp := { s.rrp with
            peers := nxt
            next := more
            tried := tried_clear s.rrp.tried ((nxt.number + (WORD_BITS - 1)) / WORD_BITS) },
          pc := { s.pc with cached := 0, connection := none } }).1
        rw [← h1] at h2
        have h3 : (ngx_http_upstream_get_least_conn_peer_with rr sticky now s).2.rrp.next.length
            ≤ more.length := h2
        refine ⟨by rw [List.length_cons]; omega, fun heq => ?_⟩
        rw [heq, List.length_cons] at h3
        omega
    | some pb =>
      obtain ⟨p0, best0⟩ := pb
      obtain ⟨p, w, _, _, f3, f4, _⟩ := lc_found_frame rr sticky now s p0 best0 many hs' hscan
      refine ⟨by rw [f3], fun _ j hj => ?_⟩
      rw [f4]
      exact tried_set_mono s.rrp.tried p j hj

/-- The fallback branch keeps the bitmap monotone when the two algorithms do. -/
theorem keepsBits_fallback
    (rr : RrPeerData → PeerConnection → Int × RrPeerData × PeerConnection)
    (lc : State → Int × State) (conf : StickySrvConf)
    (hrr : RrKeepsBits rr) (hlc : KeepsBits lc) :
    KeepsBits (sticky_fallback rr lc conf) := by
  intro s
  unfold sticky_fallback
  split
  · exact ⟨le_refl _, fun _ _ hj => hj⟩
  · split
    · exact ⟨le_refl _, fun _ _ hj => hj⟩
    · rename_i ret st2 hsel
      have key : st2.rrp.next.length ≤ s.rrp.next.length
          ∧ (st2.rrp.next = s.rrp.next →
              ∀ j, tried_test s.rrp.tried j = true → tried_test st2.rrp.tried j = true) := by
        unfold fallback_select at hsel
        split at hsel
        · cases hsel
          exact hrr s.rrp s.pc
        · split at hsel
          · have h1 := hlc { s with lb_alg := NGX_LB_ALG_LC }
            rw [Option.some.injEq] at hsel
            rw [hsel] at h1
            exact h1
          · cases hsel
      split
      · exact key
      · show (sticky_cookie_loop conf st2 st2.rrp.peers.peer 0).rrp.next.length ≤ _ ∧ (
          (sticky_cookie_loop conf st2 st2.rrp.peers.peer 0).rrp.next = _ →
            ∀ j, _ → tried_test (sticky_cookie_loop conf st2 st2.rrp.peers.peer 0).rrp.tried j
              = true)
        rw [sticky_cookie_loop_rrp]
        exact key

/-- The sticky selection keeps the bitmap monotone when the two fallback
algorithms do. -/
theorem keepsBits_sticky
    (rr : RrPeerData → PeerConnection → Int × RrPeerData × PeerConnection)
    (lc : State → Int × State) (conf : StickySrvConf) (now : Int)
    (hrr : RrKeepsBits rr) (hlc : KeepsBits lc) :
    KeepsBits (ngx_http_get_sticky_peer_with rr lc conf now) := by
  intro s
  obtain ⟨hret, hgo⟩ := sticky_validate_frame conf now s
  have hfb : ∀ st1 : State, st1.rrp.next = s.rrp.next →
      (∀ j, tried_test s.rrp.tried j = true → tried_test st1.rrp.tried j = true) →
      (sticky_fallback rr lc conf st1).2.rrp.next.length ≤ s.rrp.next.length
      ∧ ((sticky_fallback rr lc conf st1).2.rrp.next = s.rrp.next →
          ∀ j, tried_test s.rrp.tried j = true →
            tried_test (sticky_fallback rr lc conf st1).2.rrp.tried j = true) := by
    intro st1 g1 g2
    obtain ⟨k1, k2⟩ := keepsBits_fallback rr lc conf hrr hlc st1
    rw [g1] at k1 k2
    exact ⟨k1, fun heq j hj => k2 heq j (g2 j hj)⟩
  unfold ngx_http_get_sticky_peer_with
  cases hv : sticky_validate conf now s with
  | ret rc st1 =>
    obtain ⟨g1, g2⟩ := hret rc st1 hv
    simp only
    exact ⟨by rw [g1], fun _ j hj => by rw [g2]; exact hj⟩
  | go st1 pr sel n m =>
    obtain ⟨g1, g2⟩ := hgo st1 pr sel n m hv
    cases pr with
    | none => exact hfb st1 g1 g2
    | some x =>
      obtain ⟨sp, peer⟩ := x
      simp only
      split
      · refine ⟨?_, fun _ j hj => ?_⟩
        · show st1.rrp.next.length ≤ _
          rw [g1]
        · show tried_test (st1.rrp.tried.set n (st1.rrp.tried.getD n 0 ||| m)) j = true
          exact tried_or_mono st1.rrp.tried n m j (g2 j hj)
      · exact hfb st1 g1 g2

/-- Every instance of the unrolled recursion keeps the bitmap monotone. -/
theorem keepsBits_depth
    (rr : RrPeerData → PeerConnection → Int × RrPeerData × PeerConnection)
    (conf : StickySrvConf) (now : Int) (hrr : RrKeepsBits rr) :
    ∀ d, KeepsBits (sticky_depth rr conf now d) := by
  intro d
  induction d with
  | zero =>
    exact keepsBits_sticky rr _ conf now hrr (keepsBits_lc rr _ now hrr keepsBits_busy)
  | succ d ih =>
    exact keepsBits_sticky rr _ conf now hrr (keepsBits_lc rr _ now hrr ih)

/-! ## Theorems: the tried bitmap across a selection -/

/-- C14: bitmap monotonicity.  For every call of `ngx_http_get_sticky_peer` or
`ngx_http_upstream_get_least_conn_peer` that does not switch to a backup pool
(it returns with the chain of backup pools it was entered with), every bit of
the tried bitmap that is set at entry is still set at exit; the external
round-robin selection is taken to do the same. -/
theorem tried_bitmap_monotone
    (rr : RrPeerData → PeerConnection → Int × RrPeerData × PeerConnection)
    (conf : StickySrvConf) (now : Int) (st : State) (hrr : RrKeepsBits rr) :
    ((ngx_http_get_sticky_peer rr conf now st).2.rrp.next = st.rrp.next →
        ∀ j, tried_test st.rrp.tried j = true →
          tried_test (ngx_http_get_sticky_peer rr conf now st).2.rrp.tried j = true)
    ∧ ((ngx_http_upstream_get_least_conn_peer rr conf now st).2.rrp.next = st.rrp.next →
        ∀ j, tried_test st.rrp.tried j = true →
          tried_test (ngx_http_upstream_get_least_conn_peer rr conf now st).2.rrp.tried j
            = true) :=
  ⟨(keepsBits_depth rr conf now hrr st.rrp.next.length st).2,
   (keepsBits_lc rr _ now hrr (keepsBits_depth rr conf now hrr (st.rrp.next.length - 1)) st).2⟩

/-- C14 at a pool with a backup whose peer 0 was tried and peer 1 is healthy:
both calls pick peer 1 without a switch, and bit 0 stays set. -/
theorem tried_bitmap_monotone_witness :
    RrKeepsBits ex_rr
    ∧ ((ngx_http_get_sticky_peer ex_rr ex_conf 100
          (ex_backup [ex_peer 100 0 1, ex_peer 101 0 1] [ex_peer 200 0 1] [1] (-1))).2.rrp.next
          = (ex_backup [ex_peer 100 0 1, ex_peer 101 0 1] [ex_peer 200 0 1] [1] (-1)).rrp.next →
        ∀ j, tried_test
            (ex_backup [ex_peer 100 0 1, ex_peer 101 0 1] [ex_peer 200 0 1] [1] (-1)).rrp.tried j
            = true →
          tried_test (ngx_http_get_sticky_peer ex_rr ex_conf 100
            (ex_backup [ex_peer 100 0 1, ex_peer 101 0 1] [ex_peer 200 0 1] [1] (-1))).2.rrp.tried j
            = true)
    ∧ ((ngx_http_upstream_get_least_conn_peer ex_rr ex_conf 100
          (ex_backup [ex_peer 100 0 1, ex_peer 101 0 1] [ex_peer 200 0 1] [1] (-1))).2.rrp.next
          = (ex_backup [ex_peer 100 0 1, ex_peer 101 0 1] [ex_peer 200 0 1] [1] (-1)).rrp.next →
        ∀ j, tried_test
            (ex_backup [ex_peer 100 0 1, ex_peer 101 0 1] [ex_peer 200 0 1] [1] (-1)).rrp.tried j
            = true →
          tried_test (ngx_http_upstream_get_least_conn_peer ex_rr ex_conf 100
            (ex_backup [ex_peer 100 0 1, ex_peer 101 0 1] [ex_peer 200 0 1] [1] (-1))).2.rrp.tried j
            = true) :=
  ⟨fun _ _ => ⟨le_refl _, fun _ _ h => h⟩,
   tried_bitmap_monotone ex_rr ex_conf 100
     (ex_backup [ex_peer 100 0 1, ex_peer 101 0 1] [ex_peer 200 0 1] [1] (-1))
     (fun _ _ => ⟨le_refl _, fun _ _ h => h⟩)⟩

/-! ## Lemmas: the fallback of a rejected candidate -/

/-- On a pool without a backup the least-connections selection never makes
the recursive call. -/
theorem lc_with_nil_congr
    (rr : RrPeerData → PeerConnection → Int × RrPeerData × PeerConnection)
    (f g : State → Int × State) (now : Int) (s : State) (h : s.rrp.next = []) :
    ngx_http_upstream_get_least_conn_peer_with rr f now s
      = ngx_http_upstream_get_least_conn_peer_with rr g now s := by
  unfold ngx_http_upstream_get_least_conn_peer_with
  simp only [h]

theorem sticky_fallback_congr
    (rr : RrPeerData → PeerConnection → Int × RrPeerData × PeerConnection)
    (lc lc1 : State → Int × State) (conf : StickySrvConf) (st : State)
    (h : lc { st with lb_alg := NGX_LB_ALG_LC } = lc1 { st with lb_alg := NGX_LB_ALG_LC }) :
    sticky_fallback rr lc conf st = sticky_fallback rr lc1 conf st := by
  unfold sticky_fallback fallback_select
  simp only [h]

/-- The sticky selection uses its least-connections argument only on states
with the chain of backup pools it was entered with. -/
theorem sticky_with_congr
    (rr : RrPeerData → PeerConnection → Int × RrPeerData × PeerConnection)
    (lc lc1 : State → Int × State) (conf : StickySrvConf) (now : Int) (st : State)
    (h : ∀ s : State, s.rrp.next = st.rrp.next → lc s = lc1 s) :
    ngx_http_get_sticky_peer_with rr lc conf now st
      = ngx_http_get_sticky_peer_with rr lc1 conf now st := by
  obtain ⟨_, hgo⟩ := sticky_validate_frame conf now st
  unfold ngx_http_get_sticky_peer_with
  cases hv : sticky_validate conf now st with
  | ret rc st1 => rfl
  | go st1 pr sel n m =>
    obtain ⟨g1, _⟩ := hgo st1 pr sel n m hv
    have hfb : sticky_fallback rr lc conf st1 = sticky_fallback rr lc1 conf st1 :=
      sticky_fallback_congr rr lc lc1 conf st1 (h _ g1)
    cases pr with
    | none => exact hfb
    | some x =>
      simp only
      rw [hfb]

/-- The function `ngx_http_get_sticky_peer` in terms of the function it calls
for least connections. -/
theorem get_sticky_peer_unfold
    (rr : RrPeerData → PeerConnection → Int × RrPeerData × PeerConnection)
    (conf : StickySrvConf) (now : Int) (st : State) :
    ngx_http_get_sticky_peer rr conf now st
      = ngx_http_get_sticky_peer_with rr (ngx_http_upstream_get_least_conn_peer rr conf now)
          conf now st := by
  unfold ngx_http_get_sticky_peer
  cases hlen : st.rrp.next.length with
  | zero =>
    show ngx_http_get_sticky_peer_with rr _ conf now st = _
    apply sticky_with_congr
    intro s hs
    have hnil : s.rrp.next = [] := by
      rw [hs]; exact List.length_eq_zero.1 hlen
    rw [least_conn_peer_eq]
    exact lc_with_nil_congr rr _ _ now s hnil
  | succ d =>
    show ngx_http_get_sticky_peer_with rr _ conf now st = _
    apply sticky_with_congr
    intro s hs
    rw [least_conn_peer_eq, hs, hlen]
    rfl

/-- An OK return of the least-connections selection that is made without a
switch to the backup pool comes from a peer the first scan found. -/
theorem lc_ok_scan
    (rr : RrPeerData → PeerConnection → Int × RrPeerData × PeerConnection)
    (sticky : State → Int × State) (now : Int) (st : State)
    (hs : st.rrp.peers.single = false) (hsw : ¬ SwitchesToBackup now st)
    (hok : (ngx_http_upstream_get_least_conn_peer_with rr sticky now st).1 = NGX_OK) :
    ∃ p0 best0 many,
      lc_scan now st.rrp.tried st.rrp.peers.peer 0 none false = (some (p0, best0), many) := by
  rcases hscan : lc_scan now st.rrp.tried st.rrp.peers.peer 0 none false with ⟨o, many⟩
  cases o with
  | none =>
    exfalso
    have hall := ((lc_scan_none_iff now st.rrp.tried st.rrp.peers.peer 0 none false).1
      (by rw [hscan])).2
    have hnone : ∀ i q, st.rrp.peers.peer[i]? = some q → ¬ Eligible now st.rrp.tried i q := by
      intro i q hq he
      have h1 := hall i q hq
      rw [Nat.zero_add, (lc_skip_false_iff now st.rrp.tried i q).2 he] at h1
      exact Bool.false_ne_true h1
    have hnext : st.rrp.next = [] := by
      by_contra hne
      exact hsw ⟨hnone, hne⟩
    rw [lc_with_none_no_backup rr sticky now st many hs hnext hscan] at hok
    have hne : NGX_BUSY ≠ NGX_OK := by decide
    exact hne hok
  | some pb => exact ⟨pb.1, pb.2, many, rfl⟩

/-- A candidate that is not down and is over `max_fails` inside its
fail-timeout window, with `no_fallback` not configured: its bit is set and the
call goes on with the fallback branch. -/
theorem get_sticky_reject
    (rr : RrPeerData → PeerConnection → Int × RrPeerData × PeerConnection)
    (lc : State → Int × State) (conf : StickySrvConf) (now : Int) (st : State) (q : Peer)
    (hc : StickyCandidate st q) (hd : q.down = false) (hnf : conf.no_fallback = 0)
    (hfail : q.max_fails > 0 ∧ q.fails ≥ q.max_fails ∧ now - q.accessed ≤ q.fail_timeout) :
    ngx_http_get_sticky_peer_with rr lc conf now st
      = sticky_fallback rr lc conf
          { st with rrp := { st.rrp with
              tried := tried_set st.rrp.tried st.selected_peer.toNat } } := by
  unfold ngx_http_get_sticky_peer_with
  have hd1 : ¬ (q.down = true) := by simp [hd]
  have hnf1 : ¬ (conf.no_fallback ≠ 0) := by simp [hnf]
  have h1 : ¬ (q.max_fails = 0 ∨ q.fails < q.max_fails) := by omega
  have h2 : ¬ (now - q.accessed > q.fail_timeout) := by omega
  have h3 : ¬ ((-1 : Int) ≥ 0) := by decide
  rw [sticky_validate_candidate conf now st q hc, if_neg hd1, if_neg hnf1]
  unfold sticky_eligible
  rw [if_neg h1, if_neg h2]
  simp only
  rw [if_neg h3]
  rfl

/-- The fallback branch with least connections configured and fallback
allowed: the return code and the round-robin data are those of the
least-connections call. -/
theorem sticky_fallback_lc
    (rr : RrPeerData → PeerConnection → Int × RrPeerData × PeerConnection)
    (lc : State → Int × State) (conf : StickySrvConf) (st : State)
    (hnf : st.no_fallback = 0) (hlc : conf.lb_alg = NGX_LB_ALG_LC) :
    (sticky_fallback rr lc conf st).1 = (lc { st with lb_alg := NGX_LB_ALG_LC }).1
    ∧ (sticky_fallback rr lc conf st).2.rrp = (lc { st with lb_alg := NGX_LB_ALG_LC }).2.rrp := by
  unfold sticky_fallback
  have h0 : ¬ (st.no_fallback ≠ 0) := by simp [hnf]
  have hsel : fallback_select rr lc conf st = some (lc { st with lb_alg := NGX_LB_ALG_LC }) := by
    unfold fallback_select
    rw [hlc, if_neg (by decide), if_pos rfl]
  rw [if_neg h0, hsel]
  simp only
  split
  · exact ⟨rfl, rfl⟩
  · rename_i h
    have h1 : NGX_OK = _ := not_not.1 h
    refine ⟨h1, ?_⟩
    show (sticky_cookie_loop conf _ _ 0).rrp = _
    rw [sticky_cookie_loop_rrp]

/-! ## Theorems: the rejected candidate -/

/-- C11: with `no_fallback` not configured, a sticky candidate that is not
down and not yet tried but has `max_fails > 0`, `fails >= max_fails` and
`now - accessed <= fail_timeout` gets its bit set in the tried bitmap, nothing
else is written (its `conns` and `fails` are unchanged), and the same call goes
on with the fallback branch on that state; with least connections configured
the call returns what the least-connections call returns, and an OK return
made without a switch to the backup pool has a current peer other than the
candidate, whose bit is still set and whose `conns` and `fails` are as at
entry. -/
theorem rejected_candidate_falls_through
    (rr : RrPeerData → PeerConnection → Int × RrPeerData × PeerConnection)
    (conf : StickySrvConf) (now : Int) (st : State) (q : Peer)
    (hc : StickyCandidate st q) (hd : q.down = false)
    (hnf : conf.no_fallback = 0) (hnf1 : st.no_fallback = 0)
    (hfail : q.max_fails > 0 ∧ q.fails ≥ q.max_fails ∧ now - q.accessed ≤ q.fail_timeout)
    (hbits : st.rrp.peers.number ≤ WORD_BITS * st.rrp.tried.length) :
    ngx_http_get_sticky_peer rr conf now st
      = sticky_fallback rr (ngx_http_upstream_get_least_conn_peer rr conf now) conf
          (rejected_state st)
    ∧ tried_test (rejected_state st).rrp.tried st.selected_peer.toNat = true
    ∧ (rejected_state st).rrp.peers.peer[st.selected_peer.toNat]? = some q
    ∧ (conf.lb_alg = NGX_LB_ALG_LC →
        (ngx_http_get_sticky_peer rr conf now st).1
          = (ngx_http_upstream_get_least_conn_peer rr conf now
              { rejected_state st with lb_alg := NGX_LB_ALG_LC }).1
        ∧ (¬ SwitchesToBackup now (rejected_state st) →
            (ngx_http_get_sticky_peer rr conf now st).1 = NGX_OK →
            ∃ w, (ngx_http_get_sticky_peer rr conf now st).2.rrp.current = some w
              ∧ w ≠ st.selected_peer.toNat
              ∧ tried_test (ngx_http_get_sticky_peer rr conf now st).2.rrp.tried
                  st.selected_peer.toNat = true
              ∧ ∃ q1, (ngx_http_get_sticky_peer rr conf now st).2.rrp.peers.peer[
                    st.selected_peer.toNat]? = some q1
                  ∧ q1.conns = q.conns ∧ q1.fails = q.fails)) := by
  have e0 : ngx_http_get_sticky_peer rr conf now st
      = sticky_fallback rr (ngx_http_upstream_get_least_conn_peer rr conf now) conf
          (rejected_state st) := by
    rw [get_sticky_peer_unfold]
    exact get_sticky_reject rr _ conf now st q hc hd hnf hfail
  obtain ⟨c1, c2, c3, c4, c5⟩ := hc
  have hp : st.selected_peer.toNat / WORD_BITS < st.rrp.tried.length := by
    have hlt : st.selected_peer.toNat < st.rrp.peers.number := by omega
    have hW : 0 < WORD_BITS := by decide
    exact (Nat.div_lt_iff_lt_mul hW).2 (by rw [Nat.mul_comm]; omega)
  have hbit : tried_test (rejected_state st).rrp.tried st.selected_peer.toNat = true :=
    tried_set_test_self st.rrp.tried _ hp
  refine ⟨e0, hbit, c5, fun hlc => ?_⟩
  obtain ⟨r1, r2⟩ := sticky_fallback_lc rr (ngx_http_upstream_get_least_conn_peer rr conf now)
    conf (rejected_state st) hnf1 hlc
  rw [e0]
  refine ⟨r1, fun hsw hok => ?_⟩
  rw [r1] at hok
  rw [r2]
  rw [least_conn_peer_eq] at hok ⊢
  generalize sticky_depth rr conf now _ = sticky at hok ⊢
  obtain ⟨p0, best0, many, hscan⟩ :=
    lc_ok_scan rr sticky now { rejected_state st with lb_alg := NGX_LB_ALG_LC } c3 hsw hok
  obtain ⟨p, w, _, f2, _, f4, f5, f6, _, f8, _⟩ :=
    lc_found_frame rr sticky now { rejected_state st with lb_alg := NGX_LB_ALG_LC }
      p0 best0 many c3 hscan
  have hpc : tried_test (rejected_state st).rrp.tried p = false :=
    ((lc_skip_false_iff now _ p w).1 f6).1
  have hne : p ≠ st.selected_peer.toNat := by
    intro h
    rw [h, hbit] at hpc
    exact Bool.noConfusion hpc
  obtain ⟨q1, g0, g1, _, _, _, _, g6, _⟩ := f8 st.selected_peer.toNat q c5
  refine ⟨p, f2, hne, ?_, q1, g0, ?_, g1⟩
  · rw [f4]
    exact tried_set_mono _ p _ hbit
  · rw [g6, if_neg (fun h => hne h.symm)]

/-- C11 at a pool of two peers: the cookie names peer 0, which failed five
seconds ago; its bit is set and least connections returns peer 1. -/
theorem rejected_candidate_falls_through_witness :
    ngx_http_get_sticky_peer ex_rr ex_conf 100 (ex_sticky [ex_failed 100 95, ex_peer 101 0 1])
      = sticky_fallback ex_rr (ngx_http_upstream_get_least_conn_peer ex_rr ex_conf 100) ex_conf
          (rejected_state (ex_sticky [ex_failed 100 95, ex_peer 101 0 1]))
    ∧ tried_test (rejected_state (ex_sticky [ex_failed 100 95, ex_peer 101 0 1])).rrp.tried
        (ex_sticky [ex_failed 100 95, ex_peer 101 0 1]).selected_peer.toNat = true
    ∧ (rejected_state (ex_sticky [ex_failed 100 95, ex_peer 101 0 1])).rrp.peers.peer[
        (ex_sticky [ex_failed 100 95, ex_peer 101 0 1]).selected_peer.toNat]?
        = some (ex_failed 100 95)
    ∧ (ex_conf.lb_alg = NGX_LB_ALG_LC →
        (ngx_http_get_sticky_peer ex_rr ex_conf 100
            (ex_sticky [ex_failed 100 95, ex_peer 101 0 1])).1
          = (ngx_http_upstream_get_least_conn_peer ex_rr ex_conf 100
              { rejected_state (ex_sticky [ex_failed 100 95, ex_peer 101 0 1]) with
                lb_alg := NGX_LB_ALG_LC }).1
        ∧ (¬ SwitchesToBackup 100
              (rejected_state (ex_sticky [ex_failed 100 95, ex_peer 101 0 1])) →
            (ngx_http_get_sticky_peer ex_rr ex_conf 100
              (ex_sticky [ex_failed 100 95, ex_peer 101 0 1])).1 = NGX_OK →
            ∃ w, (ngx_http_get_sticky_peer ex_rr ex_conf 100
                (ex_sticky [ex_failed 100 95, ex_peer 101 0 1])).2.rrp.current = some w
              ∧ w ≠ (ex_sticky [ex_failed 100 95, ex_peer 101 0 1]).selected_peer.toNat
              ∧ tried_test (ngx_http_get_sticky_peer ex_rr ex_conf 100
                  (ex_sticky [ex_failed 100 95, ex_peer 101 0 1])).2.rrp.tried
                  (ex_sticky [ex_failed 100 95, ex_peer 101 0 1]).selected_peer.toNat = true
              ∧ ∃ q1, (ngx_http_get_sticky_peer ex_rr ex_conf 100
                    (ex_sticky [ex_failed 100 95, ex_peer 101 0 1])).2.rrp.peers.peer[
                    (ex_sticky [ex_failed 100 95, ex_peer 101 0 1]).selected_peer.toNat]?
                    = some q1
                  ∧ q1.conns = (ex_failed 100 95).conns ∧ q1.fails = (ex_failed 100 95).fails)) :=
  rejected_candidate_falls_through ex_rr ex_conf 100
    (ex_sticky [ex_failed 100 95, ex_peer 101 0 1]) (ex_failed 100 95)
    (by decide) rfl rfl rfl (by decide) (by decide)

/-! ## Theorems: the connection limit and the backup pool -/

/-- C12 (the code at the failing input): peer 0 has `max_conns = 1` and holds
one connection, peer 1 is idle, and the cookie names peer 0.  The
least-connections filter skips peer 0 and the least-connections call selects
peer 1; `ngx_http_get_sticky_peer` returns OK with peer 0 and raises its
`conns` to 2, above `max_conns`. -/
theorem sticky_accepts_peer_at_max_conns :
    lc_skip 100 [0] 0 (ex_full 100) = true
    ∧ (ngx_http_upstream_get_least_conn_peer ex_rr ex_conf 100
        (ex_state [ex_full 100, ex_peer 101 0 1])).2.rrp.current = some 1
    ∧ (ngx_http_get_sticky_peer ex_rr ex_conf 100
        (ex_sticky [ex_full 100, ex_peer 101 0 1])).1 = NGX_OK
    ∧ (ngx_http_get_sticky_peer ex_rr ex_conf 100
        (ex_sticky [ex_full 100, ex_peer 101 0 1])).2.rrp.current = some 0
    ∧ (ngx_http_get_sticky_peer ex_rr ex_conf 100
        (ex_sticky [ex_full 100, ex_peer 101 0 1])).2.rrp.peers.peer
        = [{ ex_full 100 with conns := 2 }, ex_peer 101 0 1] := by
  decide

/-- C13 (the code at the failing input): `no_fallback` is not configured and
least connections is the fallback.  The cookie names peer 0; in the primary
pool peer 0 failed five seconds ago and peer 1 is down, in the backup pool
peer 0 is down and peer 1 is healthy.  The call switches to the backup pool
with the bitmap reset, where peer 1 passes the filter, and returns Busy. -/
theorem backup_switch_busy_with_eligible_backup_peer :
    (ngx_http_get_sticky_peer ex_rr ex_conf 100
        (ex_backup [ex_failed 100 95, ex_down 101] [ex_down 200, ex_peer 201 0 1] [0] 0)).1
      = NGX_BUSY
    ∧ (ngx_http_get_sticky_peer ex_rr ex_conf 100
        (ex_backup [ex_failed 100 95, ex_down 101] [ex_down 200, ex_peer 201 0 1] [0] 0)).2.rrp.peers.peer
      = [ex_down 200, ex_peer 201 0 1]
    ∧ (ngx_http_get_sticky_peer ex_rr ex_conf 100
        (ex_backup [ex_failed 100 95, ex_down 101] [ex_down 200, ex_peer 201 0 1] [0] 0)).2.rrp.tried
      = [0]
    ∧ Eligible 100 [0] 1 (ex_peer 201 0 1)
    ∧ (ngx_http_upstream_get_least_conn_peer ex_rr ex_conf 100
        (ex_backup [ex_down 100, ex_down 101] [ex_down 200, ex_peer 201 0 1] [0] 0)).1
      = NGX_BUSY := by
  decide

/-! ## Lemmas: cookies that select no peer -/

/-- The digest search finds nothing when no entry below `number` passes the
comparison the code makes: equal length, not empty, `ngx_strncmp` zero. -/
theorem digest_search_none_of_no_match (v : List Nat) (number : Nat) :
    ∀ (tbl : List StickyPeer) (i0 : Nat),
      (∀ j sp, i0 + j < number → tbl[j]? = some sp →
        ¬ (sp.digest.length = v.length ∧ 0 < v.length
            ∧ 0 = ngx_strncmp sp.digest v v.length)) →
      digest_search v number tbl i0 = none := by
  intro tbl
  induction tbl with
  | nil => intro i0 _; rfl
  | cons sp rest ih =>
    intro i0 h
    have hrest : digest_search v number rest (i0 + 1) = none := by
      apply ih
      intro j sq hj hsq
      exact h (j + 1) sq (by omega) (by simpa using hsq)
    by_cases hi : i0 < number
    · simp only [digest_search, hi, if_true]
      by_cases hcond : sp.digest.length ≠ v.length ∨ v.length ≤ 0
      · rw [if_pos hcond]; exact hrest
      · rw [if_neg hcond]
        have hm := h 0 sp (by omega) (by simp)
        have hz : ¬ (0 = ngx_strncmp sp.digest v v.length) := by
          intro hz
          apply hm
          refine ⟨?_, ?_, hz⟩
          · by_contra hne; exact hcond (Or.inl hne)
          · by_contra hle; exact hcond (Or.inr (by omega))
        rw [if_neg hz]; exact hrest
    · simp only [digest_search, hi, if_false]

/-- The same for a value without a zero byte none of whose candidates is equal
to it byte for byte. -/
theorem digest_search_none_of_ne (v : List Nat) (number : Nat) (hnz : ∀ c ∈ v, c ≠ 0)
    (tbl : List StickyPeer)
    (h : ∀ j sp, j < number → tbl[j]? = some sp → sp.digest ≠ v) :
    digest_search v number tbl 0 = none := by
  apply digest_search_none_of_no_match
  intro j sp hj hsp hm
  obtain ⟨h1, _, h3⟩ := hm
  exact h j sp (by omega) hsp ((ngx_strncmp_eq_zero_iff v sp.digest h1 hnz).1 h3)

/-- A value that does not spell an index below `number` leaves the index
branch without a selected peer. -/
theorem ngx_atoi_out_of_range (v : List Nat) (number : Nat)
    (h : ¬ ∃ n, decimal_value v = some n ∧ n < number) :
    NGX_ERROR = ngx_atoi v ∨ ¬ (ngx_atoi v ≥ 0 ∧ ngx_atoi v < (number : Int)) := by
  rw [ngx_atoi_eq]
  cases hd : decimal_value v with
  | none => exact Or.inl rfl
  | some n =>
    simp only
    by_cases hle : (n : Int) ≤ NGX_MAX_INT_T_VALUE
    · rw [if_pos hle]
      right
      intro hr
      exact h ⟨n, hd, by omega⟩
    · rw [if_neg hle]
      exact Or.inl rfl

/-! ## Theorems: cookies that select no peer -/

/-- C17: whenever the allocation and the round-robin initialisation succeed,
`ngx_http_init_sticky_peer` returns OK with `no_fallback = 0`, whatever the
cookie; and when the cookie is absent, or a digest mode is configured but the
digest table was never built, or no digest below `number` matches the value
(as the code compares: equal length, not empty, `ngx_strncmp` zero; for a value
without a zero byte: none is equal to it), or the value does not spell an
index below `number`, the result is exactly the one of the same request without
a cookie, with `selected_peer = -1`. -/
theorem init_sticky_never_fails (conf : StickySrvConf) (env : InitEnv) (r : Request)
    (pc : PeerConnection) (hpalloc : env.palloc_ok = true) (hrr : env.rr_rc = NGX_OK) :
    (∃ st, ngx_http_init_sticky_peer conf env r pc = (NGX_OK, some st) ∧ st.no_fallback = 0)
    ∧ ((env.cookie = none
        ∨ ((conf.hash.isSome ∨ conf.hmac.isSome ∨ conf.text.isSome) ∧ conf.peers = none)
        ∨ (∃ v tbl, env.cookie = some v
            ∧ (conf.hash.isSome ∨ conf.hmac.isSome ∨ conf.text.isSome)
            ∧ conf.peers = some tbl
            ∧ ((∀ j sp, j < env.rrp.peers.number → tbl[j]? = some sp →
                  ¬ (sp.digest.length = v.length ∧ 0 < v.length
                      ∧ 0 = ngx_strncmp sp.digest v v.length))
                ∨ ((∀ c ∈ v, c ≠ 0)
                    ∧ ∀ j sp, j < env.rrp.peers.number → tbl[j]? = some sp → sp.digest ≠ v)))
        ∨ (∃ v, env.cookie = some v
            ∧ (conf.hash = none ∧ conf.hmac = none ∧ conf.text = none)
            ∧ ¬ ∃ n, decimal_value v = some n ∧ n < env.rrp.peers.number)) →
      ngx_http_init_sticky_peer conf env r pc
        = ngx_http_init_sticky_peer conf { env with cookie := none } r pc
      ∧ ngx_http_init_sticky_peer conf env r pc
        = (NGX_OK, some { rrp := env.rrp, selected_peer := -1, no_fallback := 0, lb_alg := 0,
                          request := r, pc := pc })) := by
  have h1 : ¬ (env.palloc_ok = false) := by simp [hpalloc]
  have h2 : ¬ (NGX_OK ≠ env.rr_rc) := by simp [hrr]
  have hnone : ngx_http_init_sticky_peer conf { env with cookie := none } r pc
      = (NGX_OK, some { rrp := env.rrp, selected_peer := -1, no_fallback := 0, lb_alg := 0,
                        request := r, pc := pc }) := by
    unfold ngx_http_init_sticky_peer
    simp only [if_neg h1, if_neg h2]
  constructor
  · unfold ngx_http_init_sticky_peer
    rw [if_neg h1, if_neg h2]
    simp only
    split
    · split
      · split
        · exact ⟨_, rfl, rfl⟩
        · split
          · exact ⟨_, rfl, rfl⟩
          · exact ⟨_, rfl, rfl⟩
      · split
        · exact ⟨_, rfl, rfl⟩
        · split
          · exact ⟨_, rfl, rfl⟩
          · exact ⟨_, rfl, rfl⟩
    · exact ⟨_, rfl, rfl⟩
  · intro hcase
    rw [hnone]
    refine ⟨?_, ?_⟩ <;>
    · rcases hcase with hc | ⟨hmode, hp⟩ | ⟨v, tbl, hc, hmode, hp, hm⟩ | ⟨v, hc, hmode, hv⟩
      · unfold ngx_http_init_sticky_peer
        simp only [if_neg h1, if_neg h2, hc]
      · unfold ngx_http_init_sticky_peer
        rw [if_neg h1, if_neg h2]
        simp only
        cases hc : env.cookie with
        | none => rfl
        | some v => simp only [if_pos hmode, hp]
      · rw [init_sticky_digest_eq conf env r pc tbl v hmode hp hpalloc hrr hc]
        have hs : digest_search v env.rrp.peers.number tbl 0 = none := by
          rcases hm with hm | ⟨hnz, hne⟩
          · exact digest_search_none_of_no_match v _ tbl 0
              (fun j sp hj hsp => hm j sp (by omega) hsp)
          · exact digest_search_none_of_ne v _ hnz tbl hne
        rw [hs]
      · rw [init_sticky_index_eq conf env r pc v hmode hpalloc hrr hc]
        rcases ngx_atoi_out_of_range v env.rrp.peers.number hv with he | hr
        · rw [if_pos he]
        · by_cases he : NGX_ERROR = ngx_atoi v
          · rw [if_pos he]
          · rw [if_neg he, if_neg hr]

/-- C17 at a pool of two peers: in index mode the cookie `7` (out of range)
leaves the state of a request without a cookie. -/
theorem init_sticky_never_fails_witness :
    (∃ st, ngx_http_init_sticky_peer ex_conf
        (ex_env [ex_peer 100 0 1, ex_peer 101 0 1] (some [55])) ex_request ex_pc
          = (NGX_OK, some st) ∧ st.no_fallback = 0)
    ∧ ngx_http_init_sticky_peer ex_conf
        (ex_env [ex_peer 100 0 1, ex_peer 101 0 1] (some [55])) ex_request ex_pc
        = ngx_http_init_sticky_peer ex_conf
            { ex_env [ex_peer 100 0 1, ex_peer 101 0 1] (some [55]) with cookie := none }
            ex_request ex_pc
    ∧ ngx_http_init_sticky_peer ex_conf
        (ex_env [ex_peer 100 0 1, ex_peer 101 0 1] (some [55])) ex_request ex_pc
        = (NGX_OK, some { rrp := (ex_env [ex_peer 100 0 1, ex_peer 101 0 1] (some [55])).rrp,
                          selected_peer := -1, no_fallback := 0, lb_alg := 0,
                          request := ex_request, pc := ex_pc }) :=
  ⟨(init_sticky_never_fails ex_conf (ex_env [ex_peer 100 0 1, ex_peer 101 0 1] (some [55]))
      ex_request ex_pc rfl rfl).1,
   (init_sticky_never_fails ex_conf (ex_env [ex_peer 100 0 1, ex_peer 101 0 1] (some [55]))
      ex_request ex_pc rfl rfl).2
      (Or.inr (Or.inr (Or.inr ⟨[55], rfl, ⟨rfl, rfl, rfl⟩, by decide⟩)))⟩

/-! ## Lemmas: the directive parser -/

theorem ngx_strstr_from_ge (pat : List Nat) :
    ∀ (l : List Nat) (i j : Nat), ngx_strstr_from pat l i = some j → i ≤ j := by
  intro l
  induction l with
  | nil =>
    intro i j h
    unfold ngx_strstr_from at h
    split at h
    · cases h; exact le_refl _
    · cases h
  | cons c rest ih =>
    intro i j h
    unfold ngx_strstr_from at h
    split at h
    · cases h; exact le_refl _
    · have := ih (i + 1) j h
      omega

theorem ngx_strstr_from_self (pat : List Nat) (l : List Nat) (i : Nat) :
    ngx_strstr_from pat l i = some i ↔ pat.isPrefixOf l = true := by
  cases l with
  | nil =>
    unfold ngx_strstr_from
    cases pat with
    | nil => simp
    | cons p ps => simp [List.isPrefixOf]
  | cons c rest =>
    unfold ngx_strstr_from
    by_cases hp : pat.isPrefixOf (c :: rest) = true
    · rw [if_pos hp]; simp [hp]
    · rw [if_neg hp]
      constructor
      · intro h
        have := ngx_strstr_from_ge pat rest (i + 1) i h
        omega
      · intro h
        exact absurd h hp

/-- A pattern without a zero byte begins a C string exactly when it begins
the bytes in front of the first zero. -/
theorem isPrefixOf_takeWhile :
    ∀ (pat s : List Nat), (∀ c ∈ pat, c ≠ 0) →
      pat.isPrefixOf (s.takeWhile (fun c => c != 0)) = pat.isPrefixOf s := by
  intro pat
  induction pat with
  | nil => intro s _; simp [List.isPrefixOf]
  | cons p ps ih =>
    intro s hp
    have hp0 : p ≠ 0 := hp p (List.mem_cons_self _ _)
    have hps : ∀ c ∈ ps, c ≠ 0 := fun c hc => hp c (List.mem_cons_of_mem _ hc)
    cases s with
    | nil => simp [List.isPrefixOf]
    | cons x xs =>
      by_cases hx : x = 0
      · subst hx
        simp [List.takeWhile, List.isPrefixOf, hp0]
      · have hx1 : (x != 0) = true := by simpa using hx
        rw [List.takeWhile_cons, hx1]
        simp only [if_true, List.isPrefixOf]
        rw [ih xs hps]

/-- The test `ngx_strstr(s, pat) == s` for a pattern without a zero byte: the
bytes of `s` begin with `pat`. -/
theorem ngx_strstr_zero_iff (s pat : List Nat) (hpat : ∀ c ∈ pat, c ≠ 0) :
    ngx_strstr s pat = some 0 ↔ pat.isPrefixOf s = true := by
  unfold ngx_strstr
  rw [ngx_strstr_from_self, isPrefixOf_takeWhile pat s hpat]

/-- The test `0 == ngx_strncmp(s, pat, sizeof(pat) - 1)` for a pattern without
a zero byte: the bytes of `s` begin with `pat`. -/
theorem ngx_strncmp_zero_iff :
    ∀ (pat s : List Nat), (∀ c ∈ pat, c ≠ 0) →
      (0 = ngx_strncmp s pat pat.length ↔ pat.isPrefixOf s = true) := by
  intro pat
  induction pat with
  | nil => intro s _; simp [ngx_strncmp, List.isPrefixOf]
  | cons p ps ih =>
    intro s hp
    have hp0 : p ≠ 0 := hp p (List.mem_cons_self _ _)
    have hps : ∀ c ∈ ps, c ≠ 0 := fun c hc => hp c (List.mem_cons_of_mem _ hc)
    cases s with
    | nil =>
      simp only [List.length_cons, ngx_strncmp, List.headD_nil, List.headD_cons,
        List.isPrefixOf]
      have h0 : (0 : Nat) ≠ p := fun h => hp0 h.symm
      rw [if_pos h0]
      constructor
      · intro h; exfalso; omega
      · intro h; cases h
    | cons x xs =>
      simp only [List.length_cons, ngx_strncmp, List.headD_cons, List.tail_cons,
        List.isPrefixOf, Bool.and_eq_true, beq_iff_eq]
      by_cases hx : x = p
      · subst hx
        simp only [ne_eq, not_true_eq_false, if_false, if_neg hp0, true_and]
        exact ih xs hps
      · rw [if_pos hx]
        constructor
        · intro h; exfalso; omega
        · intro h; exact absurd h.1 (fun e => hx e.symm)

/-- Two patterns that begin the same string: one begins the other. -/
theorem isPrefixOf_compat (p q a : List Nat) (hp : p.isPrefixOf a = true)
    (hq : q.isPrefixOf a = true) : p.isPrefixOf q = true ∨ q.isPrefixOf p = true := by
  rw [List.isPrefixOf_iff_prefix] at hp hq ⊢
  rw [List.isPrefixOf_iff_prefix]
  exact List.prefix_or_prefix_of_prefix hp hq

/-- A string that begins with `p` does not begin with a pattern `q` that
neither begins `p` nor is begun by it. -/
theorem not_isPrefixOf_of (p q a : List Nat) (hp : p.isPrefixOf a = true)
    (hpq : p.isPrefixOf q = false) (hqp : q.isPrefixOf p = false) :
    ¬ (q.isPrefixOf a = true) := by
  intro hq
  rcases isPrefixOf_compat p q a hp hq with h | h
  · rw [hpq] at h; exact Bool.false_ne_true h
  · rw [hqp] at h; exact Bool.false_ne_true h

/-- An argument outside the three peer-identity families, when accepted by
the tests from `name=` on, leaves `hash`, `hmac` and `text` as they were;
`hmac_key` changes only by an argument `hmac_key=` with a value, which sets it
to that value. -/
theorem sticky_set_arg_rest_other (parse_time : List Nat → Int) (L L1 : StickySetLocals)
    (a : List Nat) (hh : ¬ HashArg a) (hm : ¬ HmacArg a) (ht : ¬ TextArg a)
    (h : sticky_set_arg_rest parse_time L a = some L1) :
    L1.hash = L.hash ∧ L1.hmac = L.hmac ∧ L1.text = L.text
    ∧ (L1.hmac_key = L.hmac_key ∨ (KeyArg a ∧ L1.hmac_key = a.drop 9)) := by
  have nh : ¬ (ngx_strstr a str_hash = some 0) := by
    rw [ngx_strstr_zero_iff a str_hash (by decide)]; exact hh
  have nm : ¬ (ngx_strstr a str_hmac = some 0) := by
    rw [ngx_strstr_zero_iff a str_hmac (by decide)]; exact hm
  have nt : ¬ (ngx_strstr a str_text = some 0) := by
    rw [ngx_strstr_zero_iff a str_text (by decide)]; exact ht
  unfold sticky_set_arg_rest at h
  simp only [nh, nm, nt, if_false, ngx_strstr_zero_iff a str_hmac_key (by decide)] at h
  unfold KeyArg
  repeat' split at h
  all_goals first
    | (cases h; exact ⟨rfl, rfl, rfl, Or.inl rfl⟩)
    | (cases h; exact ⟨rfl, rfl, rfl, Or.inr ⟨⟨by assumption, by omega⟩, rfl⟩⟩)
    | cases h

/-- The same for the whole round of the argument loop. -/
theorem sticky_set_arg_other (parse_time : List Nat → Int) (L L1 : StickySetLocals)
    (a : List Nat) (hh : ¬ HashArg a) (hm : ¬ HmacArg a) (ht : ¬ TextArg a)
    (h : sticky_set_arg parse_time L a = some L1) :
    L1.hash = L.hash ∧ L1.hmac = L.hmac ∧ L1.text = L.text
    ∧ (L1.hmac_key = L.hmac_key ∨ (KeyArg a ∧ L1.hmac_key = a.drop 9)) := by
  unfold sticky_set_arg at h
  split at h
  · split at h
    · cases h
    · split at h
      · cases h; exact ⟨rfl, rfl, rfl, Or.inl rfl⟩
      · split at h
        · cases h; exact ⟨rfl, rfl, rfl, Or.inl rfl⟩
        · exact sticky_set_arg_rest_other parse_time L L1 a hh hm ht h
  · exact sticky_set_arg_rest_other parse_time L L1 a hh hm ht h

theorem strstr_ne_of (p q a : List Nat) (hq0 : ∀ c ∈ q, c ≠ 0) (hp : p.isPrefixOf a = true)
    (hpq : p.isPrefixOf q = false) (hqp : q.isPrefixOf p = false) :
    ¬ (ngx_strstr a q = some 0) := by
  rw [ngx_strstr_zero_iff a q hq0]
  exact not_isPrefixOf_of p q a hp hpq hqp

theorem strncmp_ne_of (p q a : List Nat) (hq0 : ∀ c ∈ q, c ≠ 0) (hp : p.isPrefixOf a = true)
    (hpq : p.isPrefixOf q = false) (hqp : q.isPrefixOf p = false) :
    ¬ (0 = ngx_strncmp a q q.length) := by
  rw [ngx_strncmp_zero_iff q a hq0]
  exact not_isPrefixOf_of p q a hp hpq hqp

/-- An argument of the `hash=` family reaches the `hash=` test. -/
theorem sticky_set_arg_hash (parse_time : List Nat → Int) (L : StickySetLocals) (a : List Nat)
    (h : HashArg a) :
    sticky_set_arg parse_time L a =
      if L.hmac.isSome ∨ L.text.isSome then none
      else if a.length ≤ 5 then none
      else if 0 = ngx_strncmp (a.drop 5) str_index 5 then some { L with hash := HashPtr.null }
      else if 0 = ngx_strncmp (a.drop 5) str_md5 3 then
        some { L with hash := HashPtr.fn HashFn.md5 }
      else if 0 = ngx_strncmp (a.drop 5) str_sha1 4 then
        some { L with hash := HashPtr.fn HashFn.sha1 }
      else none := by
  have n1 := strstr_ne_of str_hash str_lb_alg a (by decide) h (by decide) (by decide)
  have n2 := strstr_ne_of str_hash str_name a (by decide) h (by decide) (by decide)
  have n3 := strstr_ne_of str_hash str_domain a (by decide) h (by decide) (by decide)
  have n4 := strstr_ne_of str_hash str_path a (by decide) h (by decide) (by decide)
  have n5 := strstr_ne_of str_hash str_expires a (by decide) h (by decide) (by decide)
  have n6 : ¬ (0 = ngx_strncmp a str_secure 6 ∧ 6 = a.length) := fun hc =>
    strncmp_ne_of str_hash str_secure a (by decide) h (by decide) (by decide) hc.1
  have n7 : ¬ (0 = ngx_strncmp a str_httponly 8 ∧ 8 = a.length) := fun hc =>
    strncmp_ne_of str_hash str_httponly a (by decide) h (by decide) (by decide) hc.1
  have n8 := strstr_ne_of str_hash str_text a (by decide) h (by decide) (by decide)
  have p1 : ngx_strstr a str_hash = some 0 := (ngx_strstr_zero_iff a str_hash (by decide)).2 h
  unfold sticky_set_arg sticky_set_arg_rest
  rw [if_neg n1, if_neg n2, if_neg n3, if_neg n4, if_neg n5, if_neg n6, if_neg n7, if_neg n8,
    if_pos p1]

/-- An argument of the `hmac=` family reaches the `hmac=` test. -/
theorem sticky_set_arg_hmac (parse_time : List Nat → Int) (L : StickySetLocals) (a : List Nat)
    (h : HmacArg a) :
    sticky_set_arg parse_time L a =
      if HashPtr.unset ≠ L.hash ∨ L.text.isSome then none
      else if a.length ≤ 5 then none
      else if 0 = ngx_strncmp (a.drop 5) str_md5 3 then
        some { L with hmac := some HmacFn.hmac_md5 }
      else if 0 = ngx_strncmp (a.drop 5) str_sha1 4 then
        some { L with hmac := some HmacFn.hmac_sha1 }
      else none := by
  have n1 := strstr_ne_of str_hmac str_lb_alg a (by decide) h (by decide) (by decide)
  have n2 := strstr_ne_of str_hmac str_name a (by decide) h (by decide) (by decide)
  have n3 := strstr_ne_of str_hmac str_domain a (by decide) h (by decide) (by decide)
  have n4 := strstr_ne_of str_hmac str_path a (by decide) h (by decide) (by decide)
  have n5 := strstr_ne_of str_hmac str_expires a (by decide) h (by decide) (by decide)
  have n6 : ¬ (0 = ngx_strncmp a str_secure 6 ∧ 6 = a.length) := fun hc =>
    strncmp_ne_of str_hmac str_secure a (by decide) h (by decide) (by decide) hc.1
  have n7 : ¬ (0 = ngx_strncmp a str_httponly 8 ∧ 8 = a.length) := fun hc =>
    strncmp_ne_of str_hmac str_httponly a (by decide) h (by decide) (by decide) hc.1
  have n8 := strstr_ne_of str_hmac str_text a (by decide) h (by decide) (by decide)
  have n9 := strstr_ne_of str_hmac str_hash a (by decide) h (by decide) (by decide)
  have p1 : ngx_strstr a str_hmac = some 0 := (ngx_strstr_zero_iff a str_hmac (by decide)).2 h
  unfold sticky_set_arg sticky_set_arg_rest
  rw [if_neg n1, if_neg n2, if_neg n3, if_neg n4, if_neg n5, if_neg n6, if_neg n7, if_neg n8,
    if_neg n9, if_pos p1]

/-- An argument of the `text=` family reaches the `text=` test. -/
theorem sticky_set_arg_text (parse_time : List Nat → Int) (L : StickySetLocals) (a : List Nat)
    (h : TextArg a) :
    sticky_set_arg parse_time L a =
      if L.hmac.isSome ∨ L.hash ≠ HashPtr.unset then none
      else if a.length ≤ 5 then none
      else if 0 = ngx_strncmp (a.drop 5) str_raw 3 then
        some { L with text := some TextFn.text_raw }
      else if 0 = ngx_strncmp (a.drop 5) str_md5 3 then
        some { L with text := some TextFn.text_md5 }
      else if 0 = ngx_strncmp (a.drop 5) str_sha1 4 then
        some { L with text := some TextFn.text_sha1 }
      else none := by
  have n1 := strstr_ne_of str_text str_lb_alg a (by decide) h (by decide) (by decide)
  have n2 := strstr_ne_of str_text str_name a (by decide) h (by decide) (by decide)
  have n3 := strstr_ne_of str_text str_domain a (by decide) h (by decide) (by decide)
  have n4 := strstr_ne_of str_text str_path a (by decide) h (by decide) (by decide)
  have n5 := strstr_ne_of str_text str_expires a (by decide) h (by decide) (by decide)
  have n6 : ¬ (0 = ngx_strncmp a str_secure 6 ∧ 6 = a.length) := fun hc =>
    strncmp_ne_of str_text str_secure a (by decide) h (by decide) (by decide) hc.1
  have n7 : ¬ (0 = ngx_strncmp a str_httponly 8 ∧ 8 = a.length) := fun hc =>
    strncmp_ne_of str_text str_httponly a (by decide) h (by decide) (by decide) hc.1
  have p1 : ngx_strstr a str_text = some 0 := (ngx_strstr_zero_iff a str_text (by decide)).2 h
  unfold sticky_set_arg sticky_set_arg_rest
  rw [if_neg n1, if_neg n2, if_neg n3, if_neg n4, if_neg n5, if_neg n6, if_neg n7, if_pos p1]

theorem hashArg_excl (a : List Nat) (h : HashArg a) : ¬ HmacArg a ∧ ¬ TextArg a :=
  ⟨not_isPrefixOf_of str_hash str_hmac a h (by decide) (by decide),
   not_isPrefixOf_of str_hash str_text a h (by decide) (by decide)⟩

theorem hmacArg_excl (a : List Nat) (h : HmacArg a) : ¬ HashArg a ∧ ¬ TextArg a :=
  ⟨not_isPrefixOf_of str_hmac str_hash a h (by decide) (by decide),
   not_isPrefixOf_of str_hmac str_text a h (by decide) (by decide)⟩

/-- Among the arguments of the `hash=` family, `hash=index` is told by the
bytes after `hash=`. -/
theorem indexArg_iff (a : List Nat) (h : HashArg a) :
    IndexArg a ↔ 0 = ngx_strncmp (a.drop 5) str_index 5 := by
  have h5 : 0 = ngx_strncmp (a.drop 5) str_index 5 ↔ str_index.isPrefixOf (a.drop 5) = true :=
    ngx_strncmp_zero_iff str_index (a.drop 5) (by decide)
  rw [h5]
  unfold HashArg at h
  rw [List.isPrefixOf_iff_prefix] at h
  obtain ⟨rest, rfl⟩ := h
  unfold IndexArg
  simp [str_hash, str_index, List.isPrefixOf]

theorem indexArg_hashArg (a : List Nat) (h : IndexArg a) : HashArg a := by
  unfold IndexArg at h
  unfold HashArg
  rw [List.isPrefixOf_iff_prefix] at h ⊢
  exact (List.prefix_append str_hash str_index).trans h

/-- What one accepted argument does to the peer-identity locals and to
`hmac_key`, by the family of the argument. -/
theorem sticky_set_arg_cases (parse_time : List Nat → Int) (L L1 : StickySetLocals)
    (a : List Nat) (h : sticky_set_arg parse_time L a = some L1) :
    (HashArg a ∧ L.hmac = none ∧ L.text = none ∧ L1.hmac = none ∧ L1.text = none
      ∧ L1.hash ≠ HashPtr.unset ∧ (L1.hash = HashPtr.null ↔ IndexArg a)
      ∧ L1.hmac_key = L.hmac_key)
    ∨ (HmacArg a ∧ L.hash = HashPtr.unset ∧ L.text = none ∧ L1.hash = HashPtr.unset
      ∧ L1.text = none ∧ L1.hmac.isSome ∧ L1.hmac_key = L.hmac_key)
    ∨ (TextArg a ∧ L.hash = HashPtr.unset ∧ L.hmac = none ∧ L1.hash = HashPtr.unset
      ∧ L1.hmac = none ∧ L1.text.isSome ∧ L1.hmac_key = L.hmac_key)
    ∨ (¬ HashArg a ∧ ¬ HmacArg a ∧ ¬ TextArg a ∧ L1.hash = L.hash ∧ L1.hmac = L.hmac
      ∧ L1.text = L.text ∧ (L1.hmac_key = L.hmac_key ∨ (KeyArg a ∧ L1.hmac_key = a.drop 9))) := by
  by_cases hh : HashArg a
  · left
    have hix := indexArg_iff a hh
    rw [sticky_set_arg_hash parse_time L a hh] at h
    split at h
    · cases h
    · rename_i hc
      have hc1 : L.hmac = none := by
        cases hm : L.hmac with
        | none => rfl
        | some f => exact absurd (Or.inl (by rw [hm]; rfl)) hc
      have hc2 : L.text = none := by
        cases ht : L.text with
        | none => rfl
        | some f => exact absurd (Or.inr (by rw [ht]; rfl)) hc
      split at h
      · cases h
      · split at h
        · rename_i hi
          cases h
          exact ⟨hh, hc1, hc2, hc1, hc2, (fun e => (by cases e)), ⟨fun _ => hix.2 hi, fun _ => rfl⟩,
            rfl⟩
        · rename_i hi
          have hni : ¬ IndexArg a := fun e => hi (hix.1 e)
          split at h
          · cases h
            exact ⟨hh, hc1, hc2, hc1, hc2, (fun e => (by cases e)),
              ⟨(fun e => (by cases e)), fun e => absurd e hni⟩, rfl⟩
          · split at h
            · cases h
              exact ⟨hh, hc1, hc2, hc1, hc2, (fun e => (by cases e)),
                ⟨(fun e => (by cases e)), fun e => absurd e hni⟩, rfl⟩
            · cases h
  · by_cases hm : HmacArg a
    · right; left
      rw [sticky_set_arg_hmac parse_time L a hm] at h
      split at h
      · cases h
      · rename_i hc
        have hc1 : L.hash = HashPtr.unset := by
          by_contra hne
          exact hc (Or.inl (fun e => hne e.symm))
        have hc2 : L.text = none := by
          cases ht : L.text with
          | none => rfl
          | some f => exact absurd (Or.inr (by rw [ht]; rfl)) hc
        split at h
        · cases h
        · split at h
          · cases h; exact ⟨hm, hc1, hc2, hc1, hc2, rfl, rfl⟩
          · split at h
            · cases h; exact ⟨hm, hc1, hc2, hc1, hc2, rfl, rfl⟩
            · cases h
    · by_cases ht : TextArg a
      · right; right; left
        rw [sticky_set_arg_text parse_time L a ht] at h
        split at h
        · cases h
        · rename_i hc
          have hc1 : L.hash = HashPtr.unset := by
            by_contra hne
            exact hc (Or.inr hne)
          have hc2 : L.hmac = none := by
            cases hm1 : L.hmac with
            | none => rfl
            | some f => exact absurd (Or.inl (by rw [hm1]; rfl)) hc
          split at h
          · cases h
          · split at h
            · cases h; exact ⟨ht, hc1, hc2, hc1, hc2, rfl, rfl⟩
            · split at h
              · cases h; exact ⟨ht, hc1, hc2, hc1, hc2, rfl, rfl⟩
              · split at h
                · cases h; exact ⟨ht, hc1, hc2, hc1, hc2, rfl, rfl⟩
                · cases h
      · right; right; right
        exact ⟨hh, hm, ht, sticky_set_arg_other parse_time L L1 a hh hm ht h⟩

theorem indexMode_nil : ¬ IndexMode [] := by
  rintro ⟨pre, a, post, h, _⟩
  cases pre <;> cases h

theorem indexMode_cons (a : List Nat) (rest : List (List Nat)) :
    IndexMode (a :: rest) ↔ IndexMode rest ∨ (IndexArg a ∧ ∀ b ∈ rest, ¬ HashArg b) := by
  constructor
  · rintro ⟨pre, x, post, h, hx, hpost⟩
    cases pre with
    | nil =>
      simp only [List.nil_append, List.cons.injEq] at h
      obtain ⟨rfl, rfl⟩ := h
      exact Or.inr ⟨hx, hpost⟩
    | cons y pre1 =>
      simp only [List.cons_append, List.cons.injEq] at h
      obtain ⟨_, h2⟩ := h
      exact Or.inl ⟨pre1, x, post, h2, hx, hpost⟩
  · rintro (⟨pre, x, post, h, hx, hpost⟩ | ⟨ha, hrest⟩)
    · exact ⟨a :: pre, x, post, by rw [h]; rfl, hx, hpost⟩
    · exact ⟨[], a, rest, rfl, ha, hrest⟩

/-- What the argument loop has established when it ends without an error,
started from locals `L`: the peer-identity selections stay exclusive, each
family seen has left its selection, `hash` is NULL exactly when the last
`hash=` argument is `hash=index`, and a key comes from a key argument. -/
theorem sticky_set_args_inv (parse_time : List Nat → Int) :
    ∀ (args : List (List Nat)) (L L1 : StickySetLocals),
      sticky_set_args parse_time L args = some L1 →
      (OneFamily L → OneFamily L1)
      ∧ ((L.hash ≠ HashPtr.unset ∨ ∃ a ∈ args, HashArg a) → L1.hash ≠ HashPtr.unset)
      ∧ ((L.hmac.isSome ∨ ∃ a ∈ args, HmacArg a) → L1.hmac.isSome)
      ∧ ((L.text.isSome ∨ ∃ a ∈ args, TextArg a) → L1.text.isSome)
      ∧ (L1.hash = HashPtr.null ↔
          IndexMode args ∨ (L.hash = HashPtr.null ∧ ∀ a ∈ args, ¬ HashArg a))
      ∧ (L1.hmac_key ≠ [] → L.hmac_key ≠ [] ∨ ∃ a ∈ args, KeyArg a) := by
  intro args
  induction args with
  | nil =>
    intro L L1 h
    simp only [sticky_set_args, Option.some.injEq] at h
    subst h
    refine ⟨fun h => h, ?_, ?_, ?_, ?_, fun h => Or.inl h⟩
    · rintro (h | ⟨a, ha, _⟩)
      · exact h
      · cases ha
    · rintro (h | ⟨a, ha, _⟩)
      · exact h
      · cases ha
    · rintro (h | ⟨a, ha, _⟩)
      · exact h
      · cases ha
    · constructor
      · intro h; exact Or.inr ⟨h, fun a ha => by cases ha⟩
      · rintro (h | ⟨h, _⟩)
        · exact absurd h indexMode_nil
        · exact h
  | cons a rest ih =>
    intro L L2 h
    unfold sticky_set_args at h
    cases hstep : sticky_set_arg parse_time L a with
    | none => rw [hstep] at h; cases h
    | some L1 =>
      rw [hstep] at h
      simp only at h
      obtain ⟨i1, i2, i3, i4, i5, i6⟩ := ih L1 L2 h
      have hcases := sticky_set_arg_cases parse_time L L1 a hstep
      have hnull : L1.hash = HashPtr.null ↔ IndexArg a ∨ (L.hash = HashPtr.null ∧ ¬ HashArg a) := by
        rcases hcases with ⟨c0, _, _, _, _, _, c6, _⟩ | ⟨c0, c1, _, c3, _⟩ | ⟨c0, c1, _, c3, _⟩
            | ⟨c0, c1, c2, c3, _⟩
        · rw [c6]
          exact ⟨fun e => Or.inl e, fun e => e.elim (fun e => e) (fun e => absurd c0 e.2)⟩
        · have hnh := (hmacArg_excl a c0).1
          rw [c3, c1]
          constructor
          · intro e; cases e
          · rintro (e | ⟨e, _⟩)
            · exact absurd (indexArg_hashArg a e) hnh
            · cases e
        · have hnh : ¬ HashArg a := fun e => (hashArg_excl a e).2 c0
          rw [c3, c1]
          constructor
          · intro e; cases e
          · rintro (e | ⟨e, _⟩)
            · exact absurd (indexArg_hashArg a e) hnh
            · cases e
        · rw [c3]
          constructor
          · intro e; exact Or.inr ⟨e, c0⟩
          · rintro (e | ⟨e, _⟩)
            · exact absurd (indexArg_hashArg a e) c0
            · exact e
      refine ⟨?_, ?_, ?_, ?_, ?_, ?_⟩
      · intro hone
        apply i1
        rcases hcases with ⟨_, _, _, c3, c4, _⟩ | ⟨_, _, _, c3, c4, _⟩ | ⟨_, _, _, c3, c4, _⟩
            | ⟨_, _, _, c3, c4, c5, _⟩
        · exact ⟨fun _ => ⟨c3, c4⟩, fun _ => c4⟩
        · exact ⟨fun e => absurd c3 e, fun _ => c4⟩
        · exact ⟨fun e => absurd c3 e, fun e => by rw [c4] at e; cases e⟩
        · unfold OneFamily
          rw [c3, c4, c5]
          exact hone
      · intro hpre
        apply i2
        rcases hpre with e | ⟨b, hb, hbh⟩
        · left
          rcases hcases with ⟨_, _, _, _, _, c5, _⟩ | ⟨_, c1, _⟩ | ⟨_, c1, _⟩ | ⟨_, _, _, c3, _⟩
          · exact c5
          · exact absurd c1 e
          · exact absurd c1 e
          · rw [c3]; exact e
        · rcases List.mem_cons.1 hb with rfl | hb1
          · left
            rcases hcases with ⟨_, _, _, _, _, c5, _⟩ | ⟨c0, _⟩ | ⟨c0, _⟩ | ⟨c0, _⟩
            · exact c5
            · exact absurd hbh (hmacArg_excl b c0).1
            · exact absurd c0 (hashArg_excl b hbh).2
            · exact absurd hbh c0
          · exact Or.inr ⟨b, hb1, hbh⟩
      · intro hpre
        apply i3
        rcases hpre with e | ⟨b, hb, hbh⟩
        · left
          rcases hcases with ⟨_, c1, _⟩ | ⟨_, _, _, _, _, c5, _⟩ | ⟨_, _, c2, _⟩
              | ⟨_, _, _, _, c4, _⟩
          · rw [c1] at e; cases e
          · exact c5
          · rw [c2] at e; cases e
          · rw [c4]; exact e
        · rcases List.mem_cons.1 hb with rfl | hb1
          · left
            rcases hcases with ⟨c0, _⟩ | ⟨_, _, _, _, _, c5, _⟩ | ⟨c0, _⟩ | ⟨_, c0, _⟩
            · exact absurd hbh (hashArg_excl b c0).1
            · exact c5
            · exact absurd c0 (hmacArg_excl b hbh).2
            · exact absurd hbh c0
          · exact Or.inr ⟨b, hb1, hbh⟩
      · intro hpre
        apply i4
        rcases hpre with e | ⟨b, hb, hbh⟩
        · left
          rcases hcases with ⟨_, _, c2, _⟩ | ⟨_, _, c2, _⟩ | ⟨_, _, _, _, _, c5, _⟩
              | ⟨_, _, _, _, _, c5, _⟩
          · rw [c2] at e; cases e
          · rw [c2] at e; cases e
          · exact c5
          · rw [c5]; exact e
        · rcases List.mem_cons.1 hb with rfl | hb1
          · left
            rcases hcases with ⟨c0, _⟩ | ⟨c0, _⟩ | ⟨_, _, _, _, _, c5, _⟩ | ⟨_, _, c0, _⟩
            · exact absurd hbh (hashArg_excl b c0).2
            · exact absurd hbh (hmacArg_excl b c0).2
            · exact c5
            · exact absurd hbh c0
          · exact Or.inr ⟨b, hb1, hbh⟩
      · rw [i5, indexMode_cons, hnull]
        constructor
        · rintro (e | ⟨e1 | ⟨e1, e2⟩, e3⟩)
          · exact Or.inl (Or.inl e)
          · exact Or.inl (Or.inr ⟨e1, e3⟩)
          · refine Or.inr ⟨e1, fun b hb => ?_⟩
            rcases List.mem_cons.1 hb with rfl | hb1
            · exact e2
            · exact e3 b hb1
        · rintro ((e | ⟨e1, e3⟩) | ⟨e1, e2⟩)
          · exact Or.inl e
          · exact Or.inr ⟨Or.inl e1, e3⟩
          · exact Or.inr ⟨Or.inr ⟨e1, e2 a (List.mem_cons_self _ _)⟩,
              fun b hb => e2 b (List.mem_cons_of_mem _ hb)⟩
      · intro hk
        rcases i6 hk with e | ⟨b, hb, hbk⟩
        · rcases hcases with ⟨_, _, _, _, _, _, _, c7⟩ | ⟨_, _, _, _, _, _, c6⟩
              | ⟨_, _, _, _, _, _, c6⟩ | ⟨_, _, _, _, _, _, c6 | ⟨c6, _⟩⟩
          · rw [c7] at e; exact Or.inl e
          · rw [c6] at e; exact Or.inl e
          · rw [c6] at e; exact Or.inl e
          · rw [c6] at e; exact Or.inl e
          · exact Or.inr ⟨a, List.mem_cons_self _ _, c6⟩
        · exact Or.inr ⟨b, List.mem_cons_of_mem _ hb, hbk⟩

/-- What a successful `ngx_http_sticky_set` saves, in terms of the locals the
argument loop ended with. -/
theorem sticky_set_some (parse_time : List Nat → Int) (init_upstream_set : Bool)
    (args : List (List Nat)) (conf : StickySrvConf)
    (h : ngx_http_sticky_set parse_time init_upstream_set args = some conf) :
    ∃ L, sticky_set_args parse_time sticky_set_init args = some L
      ∧ conf.hmac = L.hmac ∧ conf.text = L.text ∧ conf.hmac_key = L.hmac_key
      ∧ (conf.hash = none ↔
          L.hash = HashPtr.null ∨ (L.hash = HashPtr.unset ∧ ¬ (L.hmac = none ∧ L.text = none)))
      ∧ ¬ (0 = L.hmac_key.length ∧ L.hmac ≠ none) := by
  unfold ngx_http_sticky_set at h
  cases hfold : sticky_set_args parse_time sticky_set_init args with
  | none => rw [hfold] at h; cases h
  | some L =>
    rw [hfold] at h
    simp only at h
    by_cases h1 : L.hmac_key.length > 0
        ∧ (if HashPtr.unset = L.hash ∧ L.hmac = none ∧ L.text = none
            then HashPtr.fn HashFn.md5 else L.hash) ≠ HashPtr.unset
    · rw [if_pos h1] at h; cases h
    · rw [if_neg h1] at h
      by_cases h2 : 0 = L.hmac_key.length ∧ L.hmac ≠ none
      · rw [if_pos h2] at h; cases h
      · rw [if_neg h2] at h
        by_cases h3 : init_upstream_set = true
        · rw [if_pos h3] at h; cases h
        · rw [if_neg h3] at h
          cases h
          refine ⟨L, rfl, rfl, rfl, rfl, ?_, h2⟩
          cases hL : L.hash with
          | unset =>
            by_cases hb : L.hmac = none ∧ L.text = none
            · simp [hb]
            · simp [hb]
          | null => simp
          | fn f => simp

theorem oneFamily_init : OneFamily sticky_set_init :=
  ⟨fun h => absurd rfl h, fun h => by cases h⟩

/-! ## Theorems: the directive parser -/

/-- C18: for every argument list that holds arguments of two different
families among `hash=`, `hmac=` and `text=` (at any two positions, `hash=index`
included), `ngx_http_sticky_set` returns the configuration error; and on every
successful parse at most one of the `hash`, `hmac` and `text` functions is set
in the saved configuration, all three being unset exactly when the argument
list selects index mode (its last `hash=` argument is `hash=index`). -/
theorem sticky_set_one_identity_family (parse_time : List Nat → Int) (init_upstream_set : Bool)
    (args : List (List Nat)) :
    ((∃ a ∈ args, ∃ b ∈ args,
        (HashArg a ∧ HmacArg b) ∨ (HashArg a ∧ TextArg b) ∨ (HmacArg a ∧ TextArg b)) →
      ngx_http_sticky_set parse_time init_upstream_set args = none)
    ∧ (∀ conf, ngx_http_sticky_set parse_time init_upstream_set args = some conf →
        (conf.hash.isSome → conf.hmac = none ∧ conf.text = none)
        ∧ (conf.hmac.isSome → conf.hash = none ∧ conf.text = none)
        ∧ (conf.text.isSome → conf.hash = none ∧ conf.hmac = none)
        ∧ ((conf.hash = none ∧ conf.hmac = none ∧ conf.text = none) ↔ IndexMode args)) := by
  have key : ∀ conf, ngx_http_sticky_set parse_time init_upstream_set args = some conf →
      ∃ L, sticky_set_args parse_time sticky_set_init args = some L
        ∧ OneFamily L ∧ conf.hmac = L.hmac ∧ conf.text = L.text
        ∧ (conf.hash = none ↔
            L.hash = HashPtr.null ∨ (L.hash = HashPtr.unset ∧ ¬ (L.hmac = none ∧ L.text = none)))
        := by
    intro conf h
    obtain ⟨L, hL, k1, k2, _, k4, _⟩ := sticky_set_some parse_time init_upstream_set args conf h
    exact ⟨L, hL, (sticky_set_args_inv parse_time args sticky_set_init L hL).1 oneFamily_init,
      k1, k2, k4⟩
  constructor
  · rintro ⟨a, ha, b, hb, hab⟩
    cases hres : ngx_http_sticky_set parse_time init_upstream_set args with
    | none => rfl
    | some conf =>
      exfalso
      obtain ⟨L, hL, hone, _⟩ := key conf hres
      obtain ⟨_, i2, i3, i4, _⟩ := sticky_set_args_inv parse_time args sticky_set_init L hL
      rcases hab with ⟨h1, h2⟩ | ⟨h1, h2⟩ | ⟨h1, h2⟩
      · have e1 := i2 (Or.inr ⟨a, ha, h1⟩)
        have e2 := i3 (Or.inr ⟨b, hb, h2⟩)
        rw [(hone.1 e1).1] at e2
        cases e2
      · have e1 := i2 (Or.inr ⟨a, ha, h1⟩)
        have e2 := i4 (Or.inr ⟨b, hb, h2⟩)
        rw [(hone.1 e1).2] at e2
        cases e2
      · have e1 := i3 (Or.inr ⟨a, ha, h1⟩)
        have e2 := i4 (Or.inr ⟨b, hb, h2⟩)
        rw [hone.2 e1] at e2
        cases e2
  · intro conf hres
    obtain ⟨L, hL, hone, k1, k2, k4⟩ := key conf hres
    obtain ⟨_, _, _, _, i5, _⟩ := sticky_set_args_inv parse_time args sticky_set_init L hL
    have hset : L.hash ≠ HashPtr.unset → L.hmac = none ∧ L.text = none := hone.1
    refine ⟨?_, ?_, ?_, ?_⟩
    · intro hs
      rw [k1, k2]
      by_cases hu : L.hash = HashPtr.unset
      · by_contra hb
        have : conf.hash = none := k4.2 (Or.inr ⟨hu, hb⟩)
        rw [this] at hs
        cases hs
      · exact hset hu
    · intro hs
      rw [k1] at hs
      have hu : L.hash = HashPtr.unset := by
        by_contra hu
        rw [(hset hu).1] at hs
        cases hs
      have ht : L.text = none := hone.2 hs
      refine ⟨k4.2 (Or.inr ⟨hu, fun hb => ?_⟩), by rw [k2]; exact ht⟩
      rw [hb.1] at hs
      cases hs
    · intro hs
      rw [k2] at hs
      have hu : L.hash = HashPtr.unset := by
        by_contra hu
        rw [(hset hu).2] at hs
        cases hs
      have hm : L.hmac = none := by
        cases hm : L.hmac with
        | none => rfl
        | some f =>
          have := hone.2 (by rw [hm]; rfl)
          rw [this] at hs
          cases hs
      refine ⟨k4.2 (Or.inr ⟨hu, fun hb => ?_⟩), by rw [k1]; exact hm⟩
      rw [hb.2] at hs
      cases hs
    · constructor
      · rintro ⟨e1, e2, e3⟩
        rw [k1] at e2
        rw [k2] at e3
        rcases k4.1 e1 with hn | ⟨_, hb⟩
        · rcases i5.1 hn with hi | ⟨hi, _⟩
          · exact hi
          · cases hi
        · exact absurd ⟨e2, e3⟩ hb
      · intro hi
        have hn : L.hash = HashPtr.null := i5.2 (Or.inl hi)
        have hne : L.hash ≠ HashPtr.unset := by rw [hn]; intro e; cases e
        exact ⟨k4.2 (Or.inl hn), by rw [k1]; exact (hset hne).1, by rw [k2]; exact (hset hne).2⟩

/-- C18 at the directives `sticky hash=index hmac=sha1` (an error) and
`sticky hash=index` (index mode). -/
theorem sticky_set_one_identity_family_witness :
    ngx_http_sticky_set ex_parse_time false [str_hash ++ str_index, str_hmac ++ str_sha1] = none
    ∧ (∀ conf, ngx_http_sticky_set ex_parse_time false [str_hash ++ str_index] = some conf →
        (conf.hash.isSome → conf.hmac = none ∧ conf.text = none)
        ∧ (conf.hmac.isSome → conf.hash = none ∧ conf.text = none)
        ∧ (conf.text.isSome → conf.hash = none ∧ conf.hmac = none)
        ∧ ((conf.hash = none ∧ conf.hmac = none ∧ conf.text = none)
            ↔ IndexMode [str_hash ++ str_index])) :=
  ⟨(sticky_set_one_identity_family ex_parse_time false
      [str_hash ++ str_index, str_hmac ++ str_sha1]).1
      ⟨str_hash ++ str_index, List.mem_cons_self _ _, str_hmac ++ str_sha1,
        List.mem_cons_of_mem _ (List.mem_cons_self _ _), Or.inl ⟨by decide, by decide⟩⟩,
   (sticky_set_one_identity_family ex_parse_time false [str_hash ++ str_index]).2⟩

/-- C19: for every argument list with an argument of the `hmac=` family and
no argument `hmac_key=` with a non-empty value, `ngx_http_sticky_set` returns
the configuration error; and on every successful parse, `hmac` being set
implies a non-empty `hmac_key` in the saved configuration. -/
theorem sticky_set_hmac_needs_key (parse_time : List Nat → Int) (init_upstream_set : Bool)
    (args : List (List Nat)) :
    ((∃ a ∈ args, HmacArg a) → (∀ a ∈ args, ¬ KeyArg a) →
      ngx_http_sticky_set parse_time init_upstream_set args = none)
    ∧ (∀ conf, ngx_http_sticky_set parse_time init_upstream_set args = some conf →
        conf.hmac.isSome → conf.hmac_key ≠ []) := by
  constructor
  · intro hm hk
    cases hres : ngx_http_sticky_set parse_time init_upstream_set args with
    | none => rfl
    | some conf =>
      exfalso
      obtain ⟨L, hL, _, _, _, _, k5⟩ := sticky_set_some parse_time init_upstream_set args conf hres
      obtain ⟨_, _, i3, _, _, i6⟩ := sticky_set_args_inv parse_time args sticky_set_init L hL
      have e1 := i3 (Or.inr hm)
      have e2 : L.hmac_key = [] := by
        by_contra hne
        rcases i6 hne with e | ⟨a, ha, hak⟩
        · exact e rfl
        · exact hk a ha hak
      apply k5
      refine ⟨by rw [e2]; rfl, fun e => ?_⟩
      rw [e] at e1
      cases e1
  · intro conf hres hs hkey
    obtain ⟨L, _, k1, _, k3, _, k5⟩ := sticky_set_some parse_time init_upstream_set args conf hres
    apply k5
    rw [k3] at hkey
    rw [k1] at hs
    refine ⟨by rw [hkey]; rfl, fun e => ?_⟩
    rw [e] at hs
    cases hs

/-- C19 at the directives `sticky hmac=sha1` (an error) and
`sticky hmac=sha1 hmac_key=k`. -/
theorem sticky_set_hmac_needs_key_witness :
    ngx_http_sticky_set ex_parse_time false [str_hmac ++ str_sha1] = none
    ∧ (∀ conf, ngx_http_sticky_set ex_parse_time false
          [str_hmac ++ str_sha1, str_hmac_key ++ [107]] = some conf →
        conf.hmac.isSome → conf.hmac_key ≠ []) :=
  ⟨(sticky_set_hmac_needs_key ex_parse_time false [str_hmac ++ str_sha1]).1
      ⟨str_hmac ++ str_sha1, List.mem_cons_self _ _, by decide⟩ (by decide),
   (sticky_set_hmac_needs_key ex_parse_time false
      [str_hmac ++ str_sha1, str_hmac_key ++ [107]]).2⟩

/-- C20 (the code at the failing inputs): the directives
`sticky no_fallbackXYZ`, `sticky lb_alg=lcx` and `sticky hash=md5x` are
accepted, as `no_fallback`, `lb_alg=lc` and `hash=md5`; the sibling flag with a
trailing byte, `sticky securex`, is the configuration error. -/
theorem sticky_set_accepts_trailing_bytes :
    ngx_http_sticky_set ex_parse_time false [str_no_fallback ++ [88, 89, 90]]
      = some { cookie_name := [114, 111, 117, 116, 101], cookie_domain := [],
               cookie_path := [47], cookie_expires := -1, cookie_secure := 0,
               cookie_httponly := 0, hmac_key := [], hash := some HashFn.md5, hmac := none,
               text := none, no_fallback := 1, peers := none, lb_alg := NGX_LB_ALG_RR }
    ∧ ngx_http_sticky_set ex_parse_time false [str_lb_alg ++ str_lc ++ [120]]
      = some { cookie_name := [114, 111, 117, 116, 101], cookie_domain := [],
               cookie_path := [47], cookie_expires := -1, cookie_secure := 0,
               cookie_httponly := 0, hmac_key := [], hash := some HashFn.md5, hmac := none,
               text := none, no_fallback := 0, peers := none, lb_alg := NGX_LB_ALG_LC }
    ∧ ngx_http_sticky_set ex_parse_time false [str_hash ++ str_md5 ++ [120]]
      = ngx_http_sticky_set ex_parse_time false [str_hash ++ str_md5]
    ∧ (ngx_http_sticky_set ex_parse_time false [str_hash ++ str_md5]).isSome = true
    ∧ ngx_http_sticky_set ex_parse_time false [str_secure ++ [120]] = none := by
  decide

/-! ## Lemmas: addressing of the tried bitmap -/

/-- The reset loop leaves every word below `n` zero (a word the list does not
have reads as zero). -/
theorem tried_clear_getD :
    ∀ (tried : List Nat) (n k : Nat), k < n → (tried_clear tried n).getD k 0 = 0 := by
  intro tried
  induction tried with
  | nil => intro n k _; simp [tried_clear]
  | cons w ws ih =>
    intro n k hk
    cases n with
    | zero => omega
    | succ n =>
      cases k with
      | zero => simp [tried_clear]
      | succ k =>
        simp only [tried_clear, List.getD_cons_succ]
        exact ih n k (by omega)

theorem tried_clear_length :
    ∀ (tried : List Nat) (n : Nat), (tried_clear tried n).length = tried.length := by
  intro tried
  induction tried with
  | nil => intro n; simp [tried_clear]
  | cons w ws ih =>
    intro n
    cases n with
    | zero => simp [tried_clear]
    | succ n => simp [tried_clear, ih n]

/-- The reset loop leaves the words from `n` on as they were. -/
theorem tried_clear_getD_ge :
    ∀ (tried : List Nat) (n k : Nat), n ≤ k → (tried_clear tried n).getD k 0 = tried.getD k 0 := by
  intro tried
  induction tried with
  | nil => intro n k _; simp [tried_clear]
  | cons w ws ih =>
    intro n k hk
    cases n with
    | zero => simp [tried_clear]
    | succ n =>
      cases k with
      | zero => omega
      | succ k =>
        simp only [tried_clear, List.getD_cons_succ]
        exact ih n k (by omega)

theorem word_index_lt (number i : Nat) (h : i < number) :
    i / WORD_BITS < (number + (WORD_BITS - 1)) / WORD_BITS := by
  unfold WORD_BITS
  omega

theorem mask_testBit (i k : Nat) :
    (1 <<< (i % WORD_BITS)).testBit k = decide (i % WORD_BITS = k) := by
  rw [Nat.one_shiftLeft, Nat.testBit_two_pow]

theorem mask_injective (a b : Nat) (h : (1 : Nat) <<< a = 1 <<< b) : a = b := by
  rw [Nat.one_shiftLeft, Nat.one_shiftLeft] at h
  exact Nat.pow_right_injective (le_refl 2) h

/-! ## Theorems: addressing of the tried bitmap -/

/-- C30: with `W = WORD_BITS`, for every peer index `i < number` the word
index `i / W` is below the bitmap length `(number + W - 1) / W`; distinct
indices give distinct (word, mask) pairs, the mask `1 << (i mod W)` being a
single bit of a machine word; the test of peer `i` reads that one bit; setting
the bit of peer `i` sets it, keeps the length of the bitmap and changes the bit
of no other peer; and the reset loop of the backup switch clears the bit of
every peer of the backup pool and keeps the length of the bitmap. -/
theorem tried_bitmap_addressing (number i j : Nat) (tried : List Nat) :
    (i < number → i / WORD_BITS < (number + (WORD_BITS - 1)) / WORD_BITS)
    ∧ (i ≠ j →
        (i / WORD_BITS, 1 <<< (i % WORD_BITS)) ≠ (j / WORD_BITS, 1 <<< (j % WORD_BITS)))
    ∧ (∀ k, (1 <<< (i % WORD_BITS)).testBit k = decide (i % WORD_BITS = k))
    ∧ 1 <<< (i % WORD_BITS) < UINT_MOD
    ∧ tried_test tried i = (tried.getD (i / WORD_BITS) 0).testBit (i % WORD_BITS)
    ∧ (i / WORD_BITS < tried.length → tried_test (tried_set tried i) i = true)
    ∧ (tried_set tried i).length = tried.length
    ∧ (j ≠ i → tried_test (tried_set tried i) j = tried_test tried j)
    ∧ (i < number →
        tried_test (tried_clear tried ((number + (WORD_BITS - 1)) / WORD_BITS)) i = false)
    ∧ (tried_clear tried ((number + (WORD_BITS - 1)) / WORD_BITS)).length = tried.length := by
  refine ⟨word_index_lt number i, ?_, mask_testBit i, ?_, tried_test_eq tried i,
    tried_set_test_self tried i, ?_, tried_set_test_other tried i j, ?_,
    tried_clear_length tried _⟩
  · intro hij heq
    apply hij
    have h1 : i / WORD_BITS = j / WORD_BITS := congrArg Prod.fst heq
    have h2 : i % WORD_BITS = j % WORD_BITS := mask_injective _ _ (congrArg Prod.snd heq)
    have e1 := Nat.div_add_mod i WORD_BITS
    have e2 := Nat.div_add_mod j WORD_BITS
    rw [h1, h2] at e1
    omega
  · rw [Nat.one_shiftLeft]
    have hlt : i % WORD_BITS < 64 := Nat.mod_lt _ (by decide)
    show 2 ^ (i % WORD_BITS) < 2 ^ 64
    exact Nat.pow_lt_pow_right (by decide) hlt
  · unfold tried_set
    rw [List.length_set]
  · intro hi
    rw [tried_test_eq, tried_clear_getD tried _ _ (word_index_lt number i hi)]
    simp

/-- C30 at a pool of 130 peers (three words): peer 129 is addressed by word 2,
differs from peer 1 in its (word, mask) pair, and is cleared by the reset. -/
theorem tried_bitmap_addressing_witness :
    129 / WORD_BITS < (130 + (WORD_BITS - 1)) / WORD_BITS
    ∧ (129 / WORD_BITS, 1 <<< (129 % WORD_BITS)) ≠ (1 / WORD_BITS, 1 <<< (1 % WORD_BITS))
    ∧ tried_test (tried_set [0, 0, 0] 129) 129 = true
    ∧ tried_test (tried_set [0, 0, 0] 129) 1 = tried_test [0, 0, 0] 1
    ∧ tried_test (tried_clear [5, 5, 7] ((130 + (WORD_BITS - 1)) / WORD_BITS)) 129 = false :=
  ⟨(tried_bitmap_addressing 130 129 1 [0, 0, 0]).1 (by decide),
   (tried_bitmap_addressing 130 129 1 [0, 0, 0]).2.1 (by decide),
   (tried_bitmap_addressing 130 129 1 [0, 0, 0]).2.2.2.2.2.1 (by decide),
   (tried_bitmap_addressing 130 129 1 [0, 0, 0]).2.2.2.2.2.2.2.1 (by decide),
   (tried_bitmap_addressing 130 129 1 [5, 5, 7]).2.2.2.2.2.2.2.2.1 (by decide)⟩

/-! ## Lemmas: the depth of the recursion -/

/-- The least-connections selection makes its recursive call only on a state
whose chain of backup pools is the tail of the chain it was entered with. -/
theorem lc_with_congr
    (rr : RrPeerData → PeerConnection → Int × RrPeerData × PeerConnection)
    (f g : State → Int × State) (now : Int) (st : State)
    (h : ∀ nxt more, st.rrp.next = nxt :: more → ∀ s : State, s.rrp.next = more → f s = g s) :
    ngx_http_upstream_get_least_conn_peer_with rr f now st
      = ngx_http_upstream_get_least_conn_peer_with rr g now st := by
  cases hnext : st.rrp.next with
  | nil => exact lc_with_nil_congr rr f g now st hnext
  | cons nxt more =>
    unfold ngx_http_upstream_get_least_conn_peer_with
    simp only [hnext]
    rw [h nxt more hnext _ rfl]

/-- Unrolling the recursion beyond the length of the chain changes nothing. -/
theorem sticky_depth_stable
    (rr : RrPeerData → PeerConnection → Int × RrPeerData × PeerConnection)
    (conf : StickySrvConf) (now : Int) :
    ∀ (d : Nat) (st : State), st.rrp.next.length ≤ d →
      sticky_depth rr conf now d st = ngx_http_get_sticky_peer rr conf now st := by
  intro d
  induction d with
  | zero =>
    intro st h
    unfold ngx_http_get_sticky_peer
    rw [Nat.le_zero.1 h]
  | succ d ih =>
    intro st h
    rw [get_sticky_peer_unfold]
    show ngx_http_get_sticky_peer_with rr _ conf now st = _
    apply sticky_with_congr
    intro s hs
    rw [least_conn_peer_eq]
    apply lc_with_congr
    intro nxt more hnext s1 hs1
    have hlen : s1.rrp.next.length = s.rrp.next.length - 1 := by
      rw [hs1, hnext]; simp
    have hle : s1.rrp.next.length ≤ d := by
      rw [hlen, hs]; omega
    rw [ih s1 hle, ← hlen]
    rfl

/-! ## Theorems: the depth of the recursion -/

/-- C28: the mutual recursion of `ngx_http_get_sticky_peer` and
`ngx_http_upstream_get_least_conn_peer` ends for every finite chain of pools.
The recursive call is made only on a state whose chain of backup pools has lost
its head (so none is made without a backup pool), and unrolling the recursion
to any depth from the length of the chain on gives the result of the
function. -/
theorem recursion_bounded_by_chain
    (rr : RrPeerData → PeerConnection → Int × RrPeerData × PeerConnection)
    (conf : StickySrvConf) (now : Int) (st : State) :
    (∀ d, st.rrp.next.length ≤ d →
      sticky_depth rr conf now d st = ngx_http_get_sticky_peer rr conf now st)
    ∧ (∀ d, st.rrp.next.length - 1 ≤ d →
      ngx_http_upstream_get_least_conn_peer_with rr (sticky_depth rr conf now d) now st
        = ngx_http_upstream_get_least_conn_peer rr conf now st)
    ∧ (∀ f g : State → Int × State,
        (∀ s : State, s.rrp.next.length + 1 = st.rrp.next.length → f s = g s) →
        ngx_http_upstream_get_least_conn_peer_with rr f now st
          = ngx_http_upstream_get_least_conn_peer_with rr g now st)
    ∧ (∀ lc lc1 : State → Int × State,
        (∀ s : State, s.rrp.next = st.rrp.next → lc s = lc1 s) →
        ngx_http_get_sticky_peer_with rr lc conf now st
          = ngx_http_get_sticky_peer_with rr lc1 conf now st) := by
  refine ⟨fun d h => sticky_depth_stable rr conf now d st h, ?_, ?_,
    fun lc lc1 h => sticky_with_congr rr lc lc1 conf now st h⟩
  · intro d h
    rw [least_conn_peer_eq]
    apply lc_with_congr
    intro nxt more hnext s hs
    have hlen : s.rrp.next.length = st.rrp.next.length - 1 := by
      rw [hs, hnext]; simp
    rw [sticky_depth_stable rr conf now d s (by omega), ← hlen]
    rfl
  · intro f g h
    apply lc_with_congr
    intro nxt more hnext s hs
    apply h
    rw [hs, hnext]; simp

/-- C28 at a primary pool with one backup pool: depth 1 is the function, and
so is depth 5. -/
theorem recursion_bounded_by_chain_witness :
    sticky_depth ex_rr ex_conf 100 1
        (ex_backup [ex_down 100, ex_down 101] [ex_peer 200 0 1, ex_peer 201 0 1] [0] (-1))
      = ngx_http_get_sticky_peer ex_rr ex_conf 100
        (ex_backup [ex_down 100, ex_down 101] [ex_peer 200 0 1, ex_peer 201 0 1] [0] (-1))
    ∧ sticky_depth ex_rr ex_conf 100 5
        (ex_backup [ex_down 100, ex_down 101] [ex_peer 200 0 1, ex_peer 201 0 1] [0] (-1))
      = ngx_http_get_sticky_peer ex_rr ex_conf 100
        (ex_backup [ex_down 100, ex_down 101] [ex_peer 200 0 1, ex_peer 201 0 1] [0] (-1)) :=
  ⟨(recursion_bounded_by_chain ex_rr ex_conf 100
      (ex_backup [ex_down 100, ex_down 101] [ex_peer 200 0 1, ex_peer 201 0 1] [0] (-1))).1 1
      (by decide),
   (recursion_bounded_by_chain ex_rr ex_conf 100
      (ex_backup [ex_down 100, ex_down 101] [ex_peer 200 0 1, ex_peer 201 0 1] [0] (-1))).1 5
      (by decide)⟩

/-! ## Theorems: the first scan -/

/-- C22: for every upstream group whose pool has at most one peer or is
flagged single, `ngx_http_init_upstream_sticky`, once the round-robin
initialisation has succeeded, returns OK and changes nothing: the configuration
(with its digest table) is as before and `us->peer.init` is the initialiser the
round-robin initialisation left, not the sticky one.  For any other pool the
sticky initialiser is installed. -/
theorem init_upstream_single_noop (fns : DigestFns) (env : UpstreamEnv) (conf : StickySrvConf)
    (hrr : env.rr_rc = NGX_OK) :
    (env.rr_peers.number ≤ 1 ∨ env.rr_peers.single = true →
      ngx_http_init_upstream_sticky fns env conf = (NGX_OK, env.init, conf))
    ∧ (¬ (env.rr_peers.number ≤ 1 ∨ env.rr_peers.single = true) →
      (ngx_http_init_upstream_sticky fns env conf).2.1 = PeerInit.sticky) := by
  have h0 : ¬ (NGX_OK ≠ env.rr_rc) := by simp [hrr]
  constructor
  · intro h
    unfold ngx_http_init_upstream_sticky
    rw [if_neg h0, if_pos h]
  · intro h
    unfold ngx_http_init_upstream_sticky
    rw [if_neg h0, if_neg h]
    split
    · rfl
    · split <;> rfl

/-- C22 at a pool of one peer in `hash=md5` mode: OK, the configuration and the
round-robin initialiser are left as they were; with two peers the sticky
initialiser is installed. -/
theorem init_upstream_single_noop_witness :
    ngx_http_init_upstream_sticky ex_fns
        { rr_rc := NGX_OK, rr_peers := { single := true, name := 7, peer := [ex_peer 100 0 1] },
          init := PeerInit.round_robin, palloc_ok := true }
        { ex_conf with hash := some HashFn.md5 }
      = (NGX_OK, PeerInit.round_robin, { ex_conf with hash := some HashFn.md5 })
    ∧ (ngx_http_init_upstream_sticky ex_fns
        { rr_rc := NGX_OK,
          rr_peers := { single := false, name := 7, peer := [ex_peer 100 0 1, ex_peer 101 0 1] },
          init := PeerInit.round_robin, palloc_ok := true }
        { ex_conf with hash := some HashFn.md5 }).2.1 = PeerInit.sticky :=
  ⟨(init_upstream_single_noop ex_fns
      { rr_rc := NGX_OK, rr_peers := { single := true, name := 7, peer := [ex_peer 100 0 1] },
        init := PeerInit.round_robin, palloc_ok := true }
      { ex_conf with hash := some HashFn.md5 } rfl).1 (by decide),
   (init_upstream_single_noop ex_fns
      { rr_rc := NGX_OK,
        rr_peers := { single := false, name := 7, peer := [ex_peer 100 0 1, ex_peer 101 0 1] },
        init := PeerInit.round_robin, palloc_ok := true }
      { ex_conf with hash := some HashFn.md5 } rfl).2 (by decide)⟩

/-! ## Lemmas: the defaults of the directive -/

/-- A string that compares equal to a pattern over the pattern's length and
has that length is the pattern. -/
theorem strncmp_len_eq (pat a : List Nat) (hpat : ∀ c ∈ pat, c ≠ 0)
    (h : 0 = ngx_strncmp a pat pat.length) (hl : pat.length = a.length) : a = pat := by
  have hp := (ngx_strncmp_zero_iff pat a hpat).1 h
  rw [List.isPrefixOf_iff_prefix] at hp
  exact (List.IsPrefix.eq_of_length hp hl).symm

/-- What one accepted argument leaves alone, from the `name=` test on: each
cookie attribute and flag changes only by an argument of its own form. -/
theorem sticky_set_arg_rest_frame (parse_time : List Nat → Int) (L L1 : StickySetLocals)
    (a : List Nat) (hh : ¬ HashArg a) (hm : ¬ HmacArg a) (ht : ¬ TextArg a)
    (h : sticky_set_arg_rest parse_time L a = some L1) :
    (¬ (str_name.isPrefixOf a = true) → L1.name = L.name)
    ∧ (¬ (str_domain.isPrefixOf a = true) → L1.domain = L.domain)
    ∧ (¬ (str_path.isPrefixOf a = true) → L1.path = L.path)
    ∧ (¬ (str_expires.isPrefixOf a = true) → L1.expires = L.expires)
    ∧ (a ≠ str_secure → L1.secure = L.secure)
    ∧ (a ≠ str_httponly → L1.httponly = L.httponly)
    ∧ (¬ (str_no_fallback.isPrefixOf a = true) → L1.no_fallback = L.no_fallback)
    ∧ L1.lb_alg = L.lb_alg := by
  have nh : ¬ (ngx_strstr a str_hash = some 0) := by
    rw [ngx_strstr_zero_iff a str_hash (by decide)]; exact hh
  have nm : ¬ (ngx_strstr a str_hmac = some 0) := by
    rw [ngx_strstr_zero_iff a str_hmac (by decide)]; exact hm
  have nt : ¬ (ngx_strstr a str_text = some 0) := by
    rw [ngx_strstr_zero_iff a str_text (by decide)]; exact ht
  unfold sticky_set_arg_rest at h
  simp only [nh, nm, nt, if_false, ngx_strstr_zero_iff a str_name (by decide),
    ngx_strstr_zero_iff a str_domain (by decide), ngx_strstr_zero_iff a str_path (by decide),
    ngx_strstr_zero_iff a str_expires (by decide)] at h
  have hnf : 0 = ngx_strncmp a str_no_fallback 11 → str_no_fallback.isPrefixOf a = true :=
    (ngx_strncmp_zero_iff str_no_fallback a (by decide)).1
  have hsec : 0 = ngx_strncmp a str_secure 6 ∧ 6 = a.length → a = str_secure := fun hc =>
    strncmp_len_eq str_secure a (by decide) hc.1 hc.2
  have hhttp : 0 = ngx_strncmp a str_httponly 8 ∧ 8 = a.length → a = str_httponly := fun hc =>
    strncmp_len_eq str_httponly a (by decide) hc.1 hc.2
  repeat' split at h
  all_goals first
    | (cases h
       refine ⟨?_, ?_, ?_, ?_, ?_, ?_, ?_, rfl⟩ <;> intro hx <;> first
         | rfl
         | exact absurd (by assumption) hx
         | exact absurd (hnf (by assumption)) hx
         | exact absurd (hsec (by assumption)) hx
         | exact absurd (hhttp (by assumption)) hx)
    | cases h

/-- The same for the whole round of the argument loop, with `lb_alg`. -/
theorem sticky_set_arg_frame (parse_time : List Nat → Int) (L L1 : StickySetLocals)
    (a : List Nat) (h : sticky_set_arg parse_time L a = some L1) :
    (¬ (str_name.isPrefixOf a = true) → L1.name = L.name)
    ∧ (¬ (str_domain.isPrefixOf a = true) → L1.domain = L.domain)
    ∧ (¬ (str_path.isPrefixOf a = true) → L1.path = L.path)
    ∧ (¬ (str_expires.isPrefixOf a = true) → L1.expires = L.expires)
    ∧ (a ≠ str_secure → L1.secure = L.secure)
    ∧ (a ≠ str_httponly → L1.httponly = L.httponly)
    ∧ (¬ (str_no_fallback.isPrefixOf a = true) → L1.no_fallback = L.no_fallback)
    ∧ (¬ (str_lb_alg.isPrefixOf a = true) → L1.lb_alg = L.lb_alg) := by
  by_cases hh : HashArg a
  · rw [sticky_set_arg_hash parse_time L a hh] at h
    repeat' split at h
    all_goals first
      | (cases h
         exact ⟨fun _ => rfl, fun _ => rfl, fun _ => rfl, fun _ => rfl, fun _ => rfl,
           fun _ => rfl, fun _ => rfl, fun _ => rfl⟩)
      | cases h
  by_cases hm : HmacArg a
  · rw [sticky_set_arg_hmac parse_time L a hm] at h
    repeat' split at h
    all_goals first
      | (cases h
         exact ⟨fun _ => rfl, fun _ => rfl, fun _ => rfl, fun _ => rfl, fun _ => rfl,
           fun _ => rfl, fun _ => rfl, fun _ => rfl⟩)
      | cases h
  by_cases ht : TextArg a
  · rw [sticky_set_arg_text parse_time L a ht] at h
    repeat' split at h
    all_goals first
      | (cases h
         exact ⟨fun _ => rfl, fun _ => rfl, fun _ => rfl, fun _ => rfl, fun _ => rfl,
           fun _ => rfl, fun _ => rfl, fun _ => rfl⟩)
      | cases h
  have key : sticky_set_arg_rest parse_time L a = some L1 →
      (¬ (str_name.isPrefixOf a = true) → L1.name = L.name)
      ∧ (¬ (str_domain.isPrefixOf a = true) → L1.domain = L.domain)
      ∧ (¬ (str_path.isPrefixOf a = true) → L1.path = L.path)
      ∧ (¬ (str_expires.isPrefixOf a = true) → L1.expires = L.expires)
      ∧ (a ≠ str_secure → L1.secure = L.secure)
      ∧ (a ≠ str_httponly → L1.httponly = L.httponly)
      ∧ (¬ (str_no_fallback.isPrefixOf a = true) → L1.no_fallback = L.no_fallback)
      ∧ (¬ (str_lb_alg.isPrefixOf a = true) → L1.lb_alg = L.lb_alg) := by
    intro hr
    obtain ⟨f1, f2, f3, f4, f5, f6, f7, f8⟩ :=
      sticky_set_arg_rest_frame parse_time L L1 a hh hm ht hr
    exact ⟨f1, f2, f3, f4, f5, f6, f7, fun _ => f8⟩
  unfold sticky_set_arg at h
  by_cases hlb0 : ngx_strstr a str_lb_alg = some 0
  · have hlb : str_lb_alg.isPrefixOf a = true :=
      (ngx_strstr_zero_iff a str_lb_alg (by decide)).1 hlb0
    rw [if_pos hlb0] at h
    split at h
    · cases h
    · split at h
      · cases h
        exact ⟨fun _ => rfl, fun _ => rfl, fun _ => rfl, fun _ => rfl, fun _ => rfl,
          fun _ => rfl, fun _ => rfl, fun hx => absurd hlb hx⟩
      · split at h
        · cases h
          exact ⟨fun _ => rfl, fun _ => rfl, fun _ => rfl, fun _ => rfl, fun _ => rfl,
            fun _ => rfl, fun _ => rfl, fun hx => absurd hlb hx⟩
        · exact key h
  · rw [if_neg hlb0] at h
    exact key h

/-- What the argument loop leaves alone when it ends without an error: each
cookie attribute, flag and the algorithm is as at the start unless an argument
of its own form was met. -/
theorem sticky_set_args_frame (parse_time : List Nat → Int) :
    ∀ (args : List (List Nat)) (L L1 : StickySetLocals),
      sticky_set_args parse_time L args = some L1 →
      ((∀ a ∈ args, ¬ (str_name.isPrefixOf a = true)) → L1.name = L.name)
      ∧ ((∀ a ∈ args, ¬ (str_domain.isPrefixOf a = true)) → L1.domain = L.domain)
      ∧ ((∀ a ∈ args, ¬ (str_path.isPrefixOf a = true)) → L1.path = L.path)
      ∧ ((∀ a ∈ args, ¬ (str_expires.isPrefixOf a = true)) → L1.expires = L.expires)
      ∧ ((∀ a ∈ args, a ≠ str_secure) → L1.secure = L.secure)
      ∧ ((∀ a ∈ args, a ≠ str_httponly) → L1.httponly = L.httponly)
      ∧ ((∀ a ∈ args, ¬ (str_no_fallback.isPrefixOf a = true)) →
          L1.no_fallback = L.no_fallback)
      ∧ ((∀ a ∈ args, ¬ (str_lb_alg.isPrefixOf a = true)) → L1.lb_alg = L.lb_alg) := by
  intro args
  induction args with
  | nil =>
    intro L L1 h
    simp only [sticky_set_args, Option.some.injEq] at h
    subst h
    exact ⟨fun _ => rfl, fun _ => rfl, fun _ => rfl, fun _ => rfl, fun _ => rfl,
      fun _ => rfl, fun _ => rfl, fun _ => rfl⟩
  | cons a rest ih =>
    intro L L2 h
    unfold sticky_set_args at h
    cases hstep : sticky_set_arg parse_time L a with
    | none => rw [hstep] at h; cases h
    | some L1 =>
      rw [hstep] at h
      simp only at h
      obtain ⟨i1, i2, i3, i4, i5, i6, i7, i8⟩ := ih L1 L2 h
      obtain ⟨f1, f2, f3, f4, f5, f6, f7, f8⟩ := sticky_set_arg_frame parse_time L L1 a hstep
      have hm : a ∈ a :: rest := List.mem_cons_self _ _
      have hr : ∀ b, b ∈ rest → b ∈ a :: rest := fun b hb => List.mem_cons_of_mem _ hb
      refine ⟨fun hx => ?_, fun hx => ?_, fun hx => ?_, fun hx => ?_, fun hx => ?_,
        fun hx => ?_, fun hx => ?_, fun hx => ?_⟩
      · rw [i1 (fun b hb => hx b (hr b hb)), f1 (hx a hm)]
      · rw [i2 (fun b hb => hx b (hr b hb)), f2 (hx a hm)]
      · rw [i3 (fun b hb => hx b (hr b hb)), f3 (hx a hm)]
      · rw [i4 (fun b hb => hx b (hr b hb)), f4 (hx a hm)]
      · rw [i5 (fun b hb => hx b (hr b hb)), f5 (hx a hm)]
      · rw [i6 (fun b hb => hx b (hr b hb)), f6 (hx a hm)]
      · rw [i7 (fun b hb => hx b (hr b hb)), f7 (hx a hm)]
      · rw [i8 (fun b hb => hx b (hr b hb)), f8 (hx a hm)]

/-- The cookie attributes, flags and algorithm a successful
`ngx_http_sticky_set` saves are those the argument loop ended with. -/
theorem sticky_set_some_fields (parse_time : List Nat → Int) (init_upstream_set : Bool)
    (args : List (List Nat)) (conf : StickySrvConf)
    (h : ngx_http_sticky_set parse_time init_upstream_set args = some conf) :
    ∃ L, sticky_set_args parse_time sticky_set_init args = some L
      ∧ conf.cookie_name = L.name ∧ conf.cookie_domain = L.domain ∧ conf.cookie_path = L.path
      ∧ conf.cookie_expires = L.expires ∧ conf.cookie_secure = L.secure
      ∧ conf.cookie_httponly = L.httponly ∧ conf.no_fallback = L.no_fallback
      ∧ conf.lb_alg = L.lb_alg ∧ conf.peers = none := by
  unfold ngx_http_sticky_set at h
  cases hfold : sticky_set_args parse_time sticky_set_init args with
  | none => rw [hfold] at h; cases h
  | some L =>
    rw [hfold] at h
    simp only at h
    by_cases h1 : L.hmac_key.length > 0
        ∧ (if HashPtr.unset = L.hash ∧ L.hmac = none ∧ L.text = none
            then HashPtr.fn HashFn.md5 else L.hash) ≠ HashPtr.unset
    · rw [if_pos h1] at h; cases h
    · rw [if_neg h1] at h
      by_cases h2 : 0 = L.hmac_key.length ∧ L.hmac ≠ none
      · rw [if_pos h2] at h; cases h
      · rw [if_neg h2] at h
        by_cases h3 : init_upstream_set = true
        · rw [if_pos h3] at h; cases h
        · rw [if_neg h3] at h
          cases h
          exact ⟨L, rfl, rfl, rfl, rfl, rfl, rfl, rfl, rfl, rfl, rfl⟩

/-! ## Theorems: the defaults of the directive -/

/-- C21: on every successful parse by `ngx_http_sticky_set`, each setting
none of whose arguments is present keeps its default: cookie name `route`,
cookie domain empty, cookie path `/`, expiry unset, `secure` and `httponly`
off, algorithm round-robin, `no_fallback` off; and the bare directive, in a
group where no other module has set `init_upstream`, parses to exactly these
values, with `hash=md5` as the peer-identity mode. -/
theorem sticky_set_defaults (parse_time : List Nat → Int) (init_upstream_set : Bool)
    (args : List (List Nat)) :
    (∀ conf, ngx_http_sticky_set parse_time init_upstream_set args = some conf →
      ((∀ a ∈ args, ¬ (str_name.isPrefixOf a = true)) →
          conf.cookie_name = [114, 111, 117, 116, 101])
      ∧ ((∀ a ∈ args, ¬ (str_domain.isPrefixOf a = true)) → conf.cookie_domain = [])
      ∧ ((∀ a ∈ args, ¬ (str_path.isPrefixOf a = true)) → conf.cookie_path = [47])
      ∧ ((∀ a ∈ args, ¬ (str_expires.isPrefixOf a = true)) →
          conf.cookie_expires = NGX_CONF_UNSET)
      ∧ ((∀ a ∈ args, a ≠ str_secure) → conf.cookie_secure = 0)
      ∧ ((∀ a ∈ args, a ≠ str_httponly) → conf.cookie_httponly = 0)
      ∧ ((∀ a ∈ args, ¬ (str_lb_alg.isPrefixOf a = true)) → conf.lb_alg = NGX_LB_ALG_RR)
      ∧ ((∀ a ∈ args, ¬ (str_no_fallback.isPrefixOf a = true)) → conf.no_fallback = 0))
    ∧ ngx_http_sticky_set parse_time false []
        = some { cookie_name := [114, 111, 117, 116, 101], cookie_domain := [],
                 cookie_path := [47], cookie_expires := NGX_CONF_UNSET, cookie_secure := 0,
                 cookie_httponly := 0, hmac_key := [], hash := some HashFn.md5, hmac := none,
                 text := none, no_fallback := 0, peers := none, lb_alg := NGX_LB_ALG_RR } := by
  constructor
  · intro conf h
    obtain ⟨L, hL, k1, k2, k3, k4, k5, k6, k7, k8, _⟩ :=
      sticky_set_some_fields parse_time init_upstream_set args conf h
    obtain ⟨i1, i2, i3, i4, i5, i6, i7, i8⟩ :=
      sticky_set_args_frame parse_time args sticky_set_init L hL
    refine ⟨fun hx => ?_, fun hx => ?_, fun hx => ?_, fun hx => ?_, fun hx => ?_,
      fun hx => ?_, fun hx => ?_, fun hx => ?_⟩
    · rw [k1, i1 hx]; rfl
    · rw [k2, i2 hx]; rfl
    · rw [k3, i3 hx]; rfl
    · rw [k4, i4 hx]; rfl
    · rw [k5, i5 hx]; rfl
    · rw [k6, i6 hx]; rfl
    · rw [k8, i8 hx]; rfl
    · rw [k7, i7 hx]; rfl
  · rfl

/-- C21 at the directive `sticky hash=index`: the parse succeeds, and every
cookie attribute, flag and the algorithm have their defaults. -/
theorem sticky_set_defaults_witness :
    ngx_http_sticky_set ex_parse_time false [str_hash ++ str_index]
      = some { ex_conf with lb_alg := NGX_LB_ALG_RR }
    ∧ ({ ex_conf with lb_alg := NGX_LB_ALG_RR } : StickySrvConf).cookie_name
        = [114, 111, 117, 116, 101]
    ∧ ({ ex_conf with lb_alg := NGX_LB_ALG_RR } : StickySrvConf).cookie_expires
        = NGX_CONF_UNSET
    ∧ ({ ex_conf with lb_alg := NGX_LB_ALG_RR } : StickySrvConf).lb_alg = NGX_LB_ALG_RR
    ∧ ({ ex_conf with lb_alg := NGX_LB_ALG_RR } : StickySrvConf).no_fallback = 0 :=
  ⟨by decide,
   ((sticky_set_defaults ex_parse_time false [str_hash ++ str_index]).1
      { ex_conf with lb_alg := NGX_LB_ALG_RR } (by decide)).1 (by decide),
   ((sticky_set_defaults ex_parse_time false [str_hash ++ str_index]).1
      { ex_conf with lb_alg := NGX_LB_ALG_RR } (by decide)).2.2.2.1 (by decide),
   ((sticky_set_defaults ex_parse_time false [str_hash ++ str_index]).1
      { ex_conf with lb_alg := NGX_LB_ALG_RR } (by decide)).2.2.2.2.2.2.1 (by decide),
   ((sticky_set_defaults ex_parse_time false [str_hash ++ str_index]).1
      { ex_conf with lb_alg := NGX_LB_ALG_RR } (by decide)).2.2.2.2.2.2.2 (by decide)⟩

/-! ## Lemmas: the no_fallback flag of the request -/

theorem to_int_flag (n : Nat) (h : n ≤ 1) : to_int (n : Int) = (n : Int) := by
  unfold to_int
  omega

theorem route_cookie_flag (conf : StickySrvConf) (st : State) (i : Nat) :
    (route_cookie conf st i).no_fallback = st.no_fallback := by
  unfold route_cookie set_cookie
  split
  · rfl
  · split <;> rfl

theorem sticky_cookie_loop_flag (conf : StickySrvConf) (st : State) :
    ∀ (l : List Peer) (i : Nat),
      (sticky_cookie_loop conf st l i).no_fallback = st.no_fallback := by
  intro l
  induction l with
  | nil => intro i; rfl
  | cons x rest ih =>
    intro i
    unfold sticky_cookie_loop
    split
    · exact route_cookie_flag conf st i
    · exact ih (i + 1)

/-- The eligibility rule leaves the flag alone and hands on the peer it was
given the index of. -/
theorem sticky_eligible_flag (now : Int) (st : State) (sp : Nat) (peer : Peer) (n m : Nat)
    (st1 : State) (pr : Option (Nat × Peer)) (sel : Int) (n1 m1 : Nat)
    (h : sticky_eligible now st sp peer n m = Validated.go st1 pr sel n1 m1) :
    st1.no_fallback = st.no_fallback ∧ ∃ peer1, pr = some (sp, peer1) := by
  unfold sticky_eligible at h
  split at h
  · cases h; exact ⟨rfl, _, rfl⟩
  · split at h
    · cases h; exact ⟨rfl, _, rfl⟩
    · cases h; exact ⟨rfl, _, rfl⟩

/-- The validation of the sticky candidate and the flag: an early return is
Busy and leaves the configured value (a down candidate) or 1 (with
`no_fallback` configured); otherwise the flag is as before or 1 (with
`no_fallback` configured), and a peer is handed on only for a candidate. -/
theorem sticky_validate_flag (conf : StickySrvConf) (now : Int) (st : State) :
    (∀ rc st1, sticky_validate conf now st = Validated.ret rc st1 →
      rc = NGX_BUSY
      ∧ (st1.no_fallback = to_int conf.no_fallback
          ∨ (conf.no_fallback ≠ 0 ∧ st1.no_fallback = 1)))
    ∧ (∀ st1 pr sel n m, sticky_validate conf now st = Validated.go st1 pr sel n m →
      (st1.no_fallback = st.no_fallback ∨ (conf.no_fallback ≠ 0 ∧ st1.no_fallback = 1))
      ∧ (∀ x, pr = some x → x.1 = st.selected_peer.toNat ∧ ∃ q, StickyCandidate st q)) := by
  unfold sticky_validate
  simp only
  split
  · rename_i hrange
    split
    · rename_i hbit
      split
      · exact ⟨fun rc st1 h => (by cases h), fun st1 pr sel n m h =>
          (by cases h; exact ⟨Or.inl rfl, fun x hx => (by cases hx)⟩)⟩
      · rename_i peer hpeer
        have hcand : ∃ q, StickyCandidate st q :=
          ⟨peer, hrange.1, hrange.2.1, hrange.2.2, (tried_test_false_iff _ _).2 hbit, hpeer⟩
        have helig : ∀ (s : State) (p1 : Peer) (st1 : State) (pr : Option (Nat × Peer))
            (sel : Int) (n m : Nat),
            sticky_eligible now s st.selected_peer.toNat p1
              (st.selected_peer.toNat / WORD_BITS) (1 <<< (st.selected_peer.toNat % WORD_BITS))
              = Validated.go st1 pr sel n m →
            st1.no_fallback = s.no_fallback
            ∧ (∀ x, pr = some x → x.1 = st.selected_peer.toNat ∧ ∃ q, StickyCandidate st q) := by
          intro s p1 st1 pr sel n m h
          obtain ⟨e1, p2, e2⟩ := sticky_eligible_flag _ _ _ _ _ _ _ _ _ _ _ h
          refine ⟨e1, fun x hx => ?_⟩
          rw [e2] at hx
          cases hx
          exact ⟨rfl, hcand⟩
        by_cases hd : peer.down = true
        · rw [if_pos hd]
          exact ⟨fun rc st1 h => (by cases h; exact ⟨rfl, Or.inl rfl⟩),
            fun st1 pr sel n m h => (by cases h)⟩
        · rw [if_neg hd]
          by_cases hnf : conf.no_fallback ≠ 0
          · rw [if_pos hnf]
            by_cases hst : now - peer.accessed > peer.fail_timeout
            · simp only [hst, if_true]
              split
              · exact ⟨fun rc st1 h => (by cases h; exact ⟨rfl, Or.inr ⟨hnf, rfl⟩⟩),
                  fun st1 pr sel n m h => (by cases h)⟩
              · refine ⟨fun rc st1 h => absurd h (sticky_eligible_not_ret _ _ _ _ _ _ _ _),
                  fun st1 pr sel n m h => ?_⟩
                have t := helig _ _ _ _ _ _ _ h
                exact ⟨Or.inr ⟨hnf, t.1⟩, t.2⟩
            · simp only [hst, if_false]
              split
              · exact ⟨fun rc st1 h => (by cases h; exact ⟨rfl, Or.inr ⟨hnf, rfl⟩⟩),
                  fun st1 pr sel n m h => (by cases h)⟩
              · refine ⟨fun rc st1 h => absurd h (sticky_eligible_not_ret _ _ _ _ _ _ _ _),
                  fun st1 pr sel n m h => ?_⟩
                have t := helig _ _ _ _ _ _ _ h
                exact ⟨Or.inr ⟨hnf, t.1⟩, t.2⟩
          · rw [if_neg hnf]
            refine ⟨fun rc st1 h => absurd h (sticky_eligible_not_ret _ _ _ _ _ _ _ _),
              fun st1 pr sel n m h => ?_⟩
            have t := helig _ _ _ _ _ _ _ h
            exact ⟨Or.inl t.1, t.2⟩
    · exact ⟨fun rc st1 h => (by cases h), fun st1 pr sel n m h =>
        (by cases h; exact ⟨Or.inl rfl, fun x hx => (by cases hx)⟩)⟩
  · exact ⟨fun rc st1 h => (by cases h), fun st1 pr sel n m h =>
      (by cases h; exact ⟨Or.inl rfl, fun x hx => (by cases hx)⟩)⟩

theorem keepsFlag_busy (conf : StickySrvConf) : KeepsFlag conf (fun st => (NGX_BUSY, st)) :=
  fun _ h => ⟨h, fun hn => hn⟩

/-- The least-connections selection writes the flag only through the sticky
selection it calls after a switch. -/
theorem lc_with_flag
    (rr : RrPeerData → PeerConnection → Int × RrPeerData × PeerConnection)
    (sticky : State → Int × State) (now : Int) (s : State) :
    (ngx_http_upstream_get_least_conn_peer_with rr sticky now s).2.no_fallback = s.no_fallback
    ∨ ∃ s1 : State, s1.no_fallback = s.no_fallback
        ∧ (ngx_http_upstream_get_least_conn_peer_with rr sticky now s).2.no_fallback
            = (sticky s1).2.no_fallback := by
  by_cases hs : s.rrp.peers.single = true
  · left
    unfold ngx_http_upstream_get_least_conn_peer_with
    simp only [hs, if_true]
  · have hs1 : s.rrp.peers.single = false := by simpa using hs
    rcases hscan : lc_scan now s.rrp.tried s.rrp.peers.peer 0 none false with ⟨o, many⟩
    cases o with
    | none =>
      cases hnext : s.rrp.next with
      | nil =>
        left
        rw [lc_with_none_no_backup rr sticky now s many hs1 hnext hscan]
      | cons nxt more =>
        right
        refine ⟨{ s with
          rrp := { s.rrp with
            peers := nxt
            next := more
            tried := tried_clear s.rrp.tried ((nxt.number + (WORD_BITS - 1)) / WORD_BITS) },
          pc := { s.pc with cached := 0, connection := none } }, rfl, ?_⟩
        unfold ngx_http_upstream_get_least_conn_peer_with
        simp only [hs1, Bool.false_eq_true, if_false, hscan, hnext]
        split <;> rfl
    | some pb =>
      left
      obtain ⟨p0, best0⟩ := pb
      obtain ⟨p, w, _, _, _, _, _, _, _, _, _, _, _, _, f13, _⟩ :=
        lc_found_frame rr sticky now s p0 best0 many hs1 hscan
      exact f13

theorem keepsFlag_lc
    (rr : RrPeerData → PeerConnection → Int × RrPeerData × PeerConnection)
    (sticky : State → Int × State) (conf : StickySrvConf) (now : Int)
    (hst : KeepsFlag conf sticky) :
    KeepsFlag conf (ngx_http_upstream_get_least_conn_peer_with rr sticky now) := by
  intro s hinv
  rcases lc_with_flag rr sticky now s with h | ⟨s1, h1, h2⟩
  · unfold FlagInv
    rw [h]
    exact ⟨hinv, fun hn => hn⟩
  · have hinv1 : FlagInv conf s1 := by
      unfold FlagInv; rw [h1]; exact hinv
    obtain ⟨k1, k2⟩ := hst s1 hinv1
    unfold FlagInv at k1 ⊢
    rw [h2]
    exact ⟨k1, fun hn => k2 (by rw [h1]; exact hn)⟩

/-- The fallback branch writes the flag only through the least-connections
selection; with a non-zero flag it is Busy and calls nothing. -/
theorem sticky_fallback_flag
    (rr : RrPeerData → PeerConnection → Int × RrPeerData × PeerConnection)
    (lc : State → Int × State) (conf : StickySrvConf) (s : State) :
    (s.no_fallback ≠ 0 → sticky_fallback rr lc conf s = (NGX_BUSY, s))
    ∧ ((sticky_fallback rr lc conf s).2.no_fallback = s.no_fallback
        ∨ (sticky_fallback rr lc conf s).2.no_fallback
            = (lc { s with lb_alg := NGX_LB_ALG_LC }).2.no_fallback) := by
  constructor
  · intro hn
    unfold sticky_fallback
    rw [if_pos hn]
  · unfold sticky_fallback
    split
    · exact Or.inl rfl
    · split
      · exact Or.inl rfl
      · rename_i ret st2 hsel
        have key : st2.no_fallback = s.no_fallback
            ∨ st2.no_fallback = (lc { s with lb_alg := NGX_LB_ALG_LC }).2.no_fallback := by
          unfold fallback_select at hsel
          split at hsel
          · cases hsel
            exact Or.inl rfl
          · split at hsel
            · rw [Option.some.injEq] at hsel
              right
              rw [hsel]
            · cases hsel
        split
        · exact key
        · show (sticky_cookie_loop conf st2 st2.rrp.peers.peer 0).no_fallback = _ ∨
            (sticky_cookie_loop conf st2 st2.rrp.peers.peer 0).no_fallback = _
          rw [sticky_cookie_loop_flag]
          exact key

theorem keepsFlag_sticky
    (rr : RrPeerData → PeerConnection → Int × RrPeerData × PeerConnection)
    (lc : State → Int × State) (conf : StickySrvConf) (now : Int)
    (hconf : conf.no_fallback ≤ 1) (hlc : KeepsFlag conf lc) :
    KeepsFlag conf (ngx_http_get_sticky_peer_with rr lc conf now) := by
  intro s hinv
  obtain ⟨hret, hgo⟩ := sticky_validate_flag conf now s
  have hti : to_int (conf.no_fallback : Int) = (conf.no_fallback : Int) :=
    to_int_flag conf.no_fallback hconf
  have hfb : ∀ st1 : State,
      (st1.no_fallback = s.no_fallback ∨ (conf.no_fallback ≠ 0 ∧ st1.no_fallback = 1)) →
      FlagInv conf (sticky_fallback rr lc conf st1).2
      ∧ (s.no_fallback ≠ 0 → (sticky_fallback rr lc conf st1).2.no_fallback ≠ 0) := by
    intro st1 h1
    have hinv1 : FlagInv conf st1 := by
      unfold FlagInv
      rcases h1 with e | ⟨e, _⟩
      · rw [e]; exact hinv
      · exact fun _ => e
    have hmono : s.no_fallback ≠ 0 → st1.no_fallback ≠ 0 := by
      intro hn
      rcases h1 with e | ⟨_, e⟩
      · rw [e]; exact hn
      · rw [e]; decide
    obtain ⟨f1, f2⟩ := sticky_fallback_flag rr lc conf st1
    rcases f2 with e | e
    · unfold FlagInv at hinv1 ⊢
      rw [e]
      exact ⟨hinv1, hmono⟩
    · obtain ⟨k1, k2⟩ := hlc { st1 with lb_alg := NGX_LB_ALG_LC } hinv1
      unfold FlagInv at k1 ⊢
      rw [e]
      exact ⟨k1, fun hn => k2 (hmono hn)⟩
  unfold ngx_http_get_sticky_peer_with
  cases hv : sticky_validate conf now s with
  | ret rc st1 =>
    obtain ⟨_, g⟩ := hret rc st1 hv
    simp only
    unfold FlagInv
    rcases g with e | ⟨e1, e2⟩
    · rw [e, hti]
      refine ⟨fun h => ?_, fun hn => ?_⟩
      · intro h0; rw [h0] at h; exact h rfl
      · have := hinv hn
        intro h0
        apply this
        exact_mod_cast h0
    · rw [e2]
      exact ⟨fun _ => e1, fun _ => by decide⟩
  | go st1 pr sel n m =>
    obtain ⟨g1, _⟩ := hgo st1 pr sel n m hv
    cases pr with
    | none => exact hfb st1 g1
    | some x =>
      obtain ⟨sp, peer⟩ := x
      simp only
      split
      · show FlagInv conf { sticky_accept st1 sp peer n m with selected_peer := -1 }
          ∧ (s.no_fallback ≠ 0 → st1.no_fallback ≠ 0)
        unfold FlagInv
        show (st1.no_fallback ≠ 0 → conf.no_fallback ≠ 0)
          ∧ (s.no_fallback ≠ 0 → st1.no_fallback ≠ 0)
        rcases g1 with e | ⟨e1, e2⟩
        · rw [e]; exact ⟨hinv, fun hn => hn⟩
        · rw [e2]; exact ⟨fun _ => e1, fun _ => by decide⟩
      · exact hfb st1 g1

theorem keepsFlag_depth
    (rr : RrPeerData → PeerConnection → Int × RrPeerData × PeerConnection)
    (conf : StickySrvConf) (now : Int) (hconf : conf.no_fallback ≤ 1) :
    ∀ d, KeepsFlag conf (sticky_depth rr conf now d) := by
  intro d
  induction d with
  | zero =>
    exact keepsFlag_sticky rr _ conf now hconf (keepsFlag_lc rr _ conf now (keepsFlag_busy conf))
  | succ d ih =>
    exact keepsFlag_sticky rr _ conf now hconf (keepsFlag_lc rr _ conf now ih)

/-- With the flag non-zero the sticky selection calls neither algorithm: it is
Busy, or it accepts the candidate. -/
theorem sticky_with_flagged
    (rr rr1 : RrPeerData → PeerConnection → Int × RrPeerData × PeerConnection)
    (lc lc1 : State → Int × State) (conf : StickySrvConf) (now : Int) (st : State)
    (hn : st.no_fallback ≠ 0) :
    ngx_http_get_sticky_peer_with rr lc conf now st
      = ngx_http_get_sticky_peer_with rr1 lc1 conf now st
    ∧ ((ngx_http_get_sticky_peer_with rr lc conf now st).1 = NGX_BUSY
      ∨ ((ngx_http_get_sticky_peer_with rr lc conf now st).1 = NGX_OK
          ∧ (ngx_http_get_sticky_peer_with rr lc conf now st).2.rrp.current
              = some st.selected_peer.toNat
          ∧ ∃ q, StickyCandidate st q)) := by
  obtain ⟨hret, hgo⟩ := sticky_validate_flag conf now st
  unfold ngx_http_get_sticky_peer_with
  cases hv : sticky_validate conf now st with
  | ret rc st1 =>
    obtain ⟨g, _⟩ := hret rc st1 hv
    exact ⟨rfl, Or.inl g⟩
  | go st1 pr sel n m =>
    obtain ⟨g1, g2⟩ := hgo st1 pr sel n m hv
    have hn1 : st1.no_fallback ≠ 0 := by
      rcases g1 with e | ⟨_, e⟩
      · rw [e]; exact hn
      · rw [e]; decide
    have e1 := (sticky_fallback_flag rr lc conf st1).1 hn1
    have e2 := (sticky_fallback_flag rr1 lc1 conf st1).1 hn1
    cases pr with
    | none =>
      simp only
      rw [e1, e2]
      exact ⟨rfl, Or.inl rfl⟩
    | some x =>
      obtain ⟨sp, peer⟩ := x
      obtain ⟨hsp, hcand⟩ := g2 (sp, peer) rfl
      simp only
      split
      · refine ⟨rfl, Or.inr ⟨rfl, ?_, hcand⟩⟩
        show some sp = _
        rw [show sp = st.selected_peer.toNat from hsp]
      · rw [e1, e2]
        exact ⟨rfl, Or.inl rfl⟩

theorem sticky_calls_append
    (rr : RrPeerData → PeerConnection → Int × RrPeerData × PeerConnection)
    (conf : StickySrvConf) :
    ∀ (a b : List (Int × (RrPeerData → RrPeerData))) (st : State),
      sticky_calls rr conf (a ++ b) st = sticky_calls rr conf b (sticky_calls rr conf a st) := by
  intro a
  induction a with
  | nil => intro b st; rfl
  | cons c rest ih =>
    intro b st
    simp only [List.cons_append, sticky_calls]
    exact ih b _

/-- Along a sequence of calls the flag stays tied to the configuration, and a
non-zero flag stays non-zero. -/
theorem sticky_calls_flag
    (rr : RrPeerData → PeerConnection → Int × RrPeerData × PeerConnection)
    (conf : StickySrvConf) (hconf : conf.no_fallback ≤ 1) :
    ∀ (calls : List (Int × (RrPeerData → RrPeerData))) (st : State), FlagInv conf st →
      FlagInv conf (sticky_calls rr conf calls st)
      ∧ (st.no_fallback ≠ 0 → (sticky_calls rr conf calls st).no_fallback ≠ 0) := by
  intro calls
  induction calls with
  | nil => intro st h; exact ⟨h, fun hn => hn⟩
  | cons c rest ih =>
    intro st h
    have h1 : FlagInv conf { st with rrp := c.2 st.rrp } := h
    obtain ⟨k1, k2⟩ := keepsFlag_depth rr conf c.1 hconf _ { st with rrp := c.2 st.rrp } h1
    obtain ⟨j1, j2⟩ := ih (ngx_http_get_sticky_peer rr conf c.1 { st with rrp := c.2 st.rrp }).2 k1
    exact ⟨j1, fun hn => j2 (k2 hn)⟩

/-! ## Theorems: the no_fallback flag of the request -/

/-- C29: along every sequence of `ngx_http_get_sticky_peer` calls on one
request, started with the flag at 0 as `ngx_http_init_sticky_peer` leaves it
(the configured value being 0 or 1, as the directive stores it): the request's
`no_fallback` flag is non-zero only if `no_fallback` is configured; once
non-zero it is non-zero after any further calls; and with the flag non-zero a
call returns Busy or accepts the sticky candidate, and is the same whatever
the round-robin and least-connections functions are (it calls neither). -/
theorem no_fallback_flag_monotone
    (rr : RrPeerData → PeerConnection → Int × RrPeerData × PeerConnection)
    (conf : StickySrvConf) (calls calls2 : List (Int × (RrPeerData → RrPeerData))) (st : State)
    (hconf : conf.no_fallback ≤ 1) (hinit : st.no_fallback = 0) :
    ((sticky_calls rr conf calls st).no_fallback ≠ 0 → conf.no_fallback ≠ 0)
    ∧ ((sticky_calls rr conf calls st).no_fallback ≠ 0 →
        (sticky_calls rr conf (calls ++ calls2) st).no_fallback ≠ 0)
    ∧ ((sticky_calls rr conf calls st).no_fallback ≠ 0 → ∀ (now : Int) (rrp1 : RrPeerData),
        (∀ rr1 lc1,
          ngx_http_get_sticky_peer rr conf now { sticky_calls rr conf calls st with rrp := rrp1 }
            = ngx_http_get_sticky_peer_with rr1 lc1 conf now
                { sticky_calls rr conf calls st with rrp := rrp1 })
        ∧ ((ngx_http_get_sticky_peer rr conf now
              { sticky_calls rr conf calls st with rrp := rrp1 }).1 = NGX_BUSY
          ∨ ((ngx_http_get_sticky_peer rr conf now
                { sticky_calls rr conf calls st with rrp := rrp1 }).1 = NGX_OK
              ∧ (ngx_http_get_sticky_peer rr conf now
                  { sticky_calls rr conf calls st with rrp := rrp1 }).2.rrp.current
                  = some (sticky_calls rr conf calls st).selected_peer.toNat
              ∧ ∃ q, StickyCandidate { sticky_calls rr conf calls st with rrp := rrp1 } q))) := by
  have h0 : FlagInv conf st := fun h => absurd hinit h
  obtain ⟨k1, _⟩ := sticky_calls_flag rr conf hconf calls st h0
  refine ⟨k1, fun hn => ?_, fun hn now rrp1 => ?_⟩
  · rw [sticky_calls_append]
    exact (sticky_calls_flag rr conf hconf calls2 _ k1).2 hn
  · have hn1 : ({ sticky_calls rr conf calls st with rrp := rrp1 } : State).no_fallback ≠ 0 := hn
    rw [get_sticky_peer_unfold]
    exact ⟨fun rr1 lc1 => (sticky_with_flagged rr rr1 _ lc1 conf now _ hn1).1,
      (sticky_with_flagged rr rr _ (fun s => (NGX_BUSY, s)) conf now _ hn1).2⟩

/-- C29 with `no_fallback` configured: the cookie names peer 0, which failed
five seconds before the first call; that call sets the flag, and it is still
set after a second call twenty seconds later, which accepts the candidate. -/
theorem no_fallback_flag_monotone_witness :
    (sticky_calls ex_rr ex_conf_nf [(100, fun r => r)]
        (ex_sticky [ex_failed 100 95, ex_peer 101 0 1])).no_fallback = 1
    ∧ ((sticky_calls ex_rr ex_conf_nf [(100, fun r => r)]
        (ex_sticky [ex_failed 100 95, ex_peer 101 0 1])).no_fallback ≠ 0 →
        ex_conf_nf.no_fallback ≠ 0)
    ∧ ((sticky_calls ex_rr ex_conf_nf [(100, fun r => r)]
        (ex_sticky [ex_failed 100 95, ex_peer 101 0 1])).no_fallback ≠ 0 →
        (sticky_calls ex_rr ex_conf_nf ([(100, fun r => r)] ++ [(120, fun r => r)])
          (ex_sticky [ex_failed 100 95, ex_peer 101 0 1])).no_fallback ≠ 0) :=
  ⟨by decide,
   (no_fallback_flag_monotone ex_rr ex_conf_nf [(100, fun r => r)] [(120, fun r => r)]
      (ex_sticky [ex_failed 100 95, ex_peer 101 0 1]) (by decide) rfl).1,
   (no_fallback_flag_monotone ex_rr ex_conf_nf [(100, fun r => r)] [(120, fun r => r)]
      (ex_sticky [ex_failed 100 95, ex_peer 101 0 1]) (by decide) rfl).2.1⟩

/-! ## Lemmas: the weights in the tie-break -/

theorem to_ngx_int_idem (v : Int) : to_ngx_int (to_ngx_int v) = to_ngx_int v :=
  to_ngx_int_of_range _ (to_ngx_int_range v)

theorem sum_effective_weight_cons (x : Peer) (l : List Peer) :
    sum_effective_weight (x :: l) = x.effective_weight + sum_effective_weight l := by
  unfold sum_effective_weight
  rw [List.map_cons, List.sum_cons]

theorem sum_effective_weight_nonneg :
    ∀ (l : List Peer), (∀ q ∈ l, 0 ≤ q.effective_weight) → 0 ≤ sum_effective_weight l := by
  intro l
  induction l with
  | nil => intro _; exact le_refl _
  | cons x rest ih =>
    intro h
    rw [sum_effective_weight_cons]
    have h1 := h x (List.mem_cons_self _ _)
    have h2 := ih (fun q hq => h q (List.mem_cons_of_mem _ hq))
    omega

theorem effective_weight_le_sum :
    ∀ (l : List Peer), (∀ q ∈ l, 0 ≤ q.effective_weight) →
      ∀ q ∈ l, q.effective_weight ≤ sum_effective_weight l := by
  intro l
  induction l with
  | nil => intro _ q hq; cases hq
  | cons x rest ih =>
    intro h q hq
    rw [sum_effective_weight_cons]
    have h1 := h x (List.mem_cons_self _ _)
    have h2 := sum_effective_weight_nonneg rest (fun q hq => h q (List.mem_cons_of_mem _ hq))
    rcases List.mem_cons.1 hq with rfl | hq
    · omega
    · have := ih (fun q hq => h q (List.mem_cons_of_mem _ hq)) q hq
      omega

theorem sum_effective_weight_append (a b : List Peer) :
    sum_effective_weight (a ++ b) = sum_effective_weight a + sum_effective_weight b := by
  unfold sum_effective_weight
  rw [List.map_append, List.sum_append]

theorem sum_effective_weight_drop_le (l : List Peer) (n : Nat)
    (h : ∀ q ∈ l, 0 ≤ q.effective_weight) :
    sum_effective_weight (l.drop n) ≤ sum_effective_weight l := by
  have h1 := sum_effective_weight_append (l.take n) (l.drop n)
  rw [List.take_append_drop] at h1
  have h2 := sum_effective_weight_nonneg (l.take n) (fun q hq => h q (List.mem_of_mem_take hq))
  omega

/-- What `WeightsInRange` gives for a peer of the pool. -/
theorem weightsInRange_peer (L : List Peer) (h : WeightsInRange L) (q : Peer) (hq : q ∈ L) :
    0 ≤ q.effective_weight ∧ q.effective_weight ≤ sum_effective_weight L
    ∧ sum_effective_weight L ≤ NGX_MAX_INT_T_VALUE
    ∧ InIntRange (q.current_weight - sum_effective_weight L)
    ∧ InIntRange (q.current_weight + sum_effective_weight L)
    ∧ InIntRange q.current_weight
    ∧ InIntRange (q.current_weight + q.effective_weight) := by
  have h1 := h.1 q hq
  have h2 := effective_weight_le_sum L h.1 q hq
  obtain ⟨h3, h4⟩ := h.2 q hq
  unfold InIntRange NGX_MAX_INT_T_VALUE at *
  refine ⟨h1, h2, by omega, h3, h4, by omega, by omega⟩

/-- The tie-break scan adds to `total` what it adds to the `current_weight` of
the peers it walks, modulo `2 ^ 64`, whatever the weights. -/
theorem lc_tie_sum_mod (now : Int) (tried : List Nat) :
    ∀ (l : List Peer) (i p : Nat) (best : Peer) (total : Int),
      (sum_current_weight (lc_tie now tried l i p best total).peers + total) % INT_MOD
        = (sum_current_weight l + (lc_tie now tried l i p best total).total) % INT_MOD := by
  unfold INT_MOD
  intro l
  induction l with
  | nil =>
    intro i p best total
    simp [lc_tie, sum_current_weight]
  | cons x rest ih =>
    intro i p best total
    by_cases hp : tie_part now tried i best x = true
    · rw [lc_tie_cons_take now tried x rest i p best total hp]
      by_cases hgt : (tie_written x).current_weight
          > (if i = p then tie_written x else best).current_weight
      · simp only [hgt, if_true]
        have := ih (i + 1) i (tie_written x) (to_ngx_int (total + x.effective_weight))
        simp only [sum_current_weight, List.map_cons, List.sum_cons,
          tie_written_current_weight] at this ⊢
        unfold tie_value
        unfold to_ngx_int at this ⊢
        omega
      · simp only [hgt, if_false]
        have := ih (i + 1) p (if i = p then tie_written x else best)
          (to_ngx_int (total + x.effective_weight))
        simp only [sum_current_weight, List.map_cons, List.sum_cons,
          tie_written_current_weight] at this ⊢
        unfold tie_value
        unfold to_ngx_int at this ⊢
        omega
    · have hp' : tie_part now tried i best x = false := by simpa using hp
      rw [lc_tie_cons_skip now tried x rest i p best total hp']
      have := ih (i + 1) p best total
      simp only [sum_current_weight, List.map_cons, List.sum_cons] at this ⊢
      omega

/-- The tie-break scan over peers in range (no negative `effective_weight`,
sums `current_weight + effective_weight` and the running `total` inside the
range of `ngx_int_t`): it adds to `total` what it adds to the `current_weight`
of the peers it walks, and `total` grows by at most the `effective_weight` of
the peers walked. -/
theorem lc_tie_sum (now : Int) (tried : List Nat) :
    ∀ (l : List Peer) (i p : Nat) (best : Peer) (total : Int),
      (∀ q ∈ l, 0 ≤ q.effective_weight) →
      (∀ q ∈ l, InIntRange (q.current_weight + q.effective_weight)) →
      0 ≤ total → total + sum_effective_weight l ≤ NGX_MAX_INT_T_VALUE →
      sum_current_weight (lc_tie now tried l i p best total).peers + total
        = sum_current_weight l + (lc_tie now tried l i p best total).total
      ∧ total ≤ (lc_tie now tried l i p best total).total
      ∧ (lc_tie now tried l i p best total).total ≤ total + sum_effective_weight l := by
  intro l
  induction l with
  | nil =>
    intro i p best total _ _ _ _
    simp [lc_tie, sum_current_weight, sum_effective_weight]
  | cons x rest ih =>
    intro i p best total hnn hinc h0 hmax
    have hx0 := hnn x (List.mem_cons_self _ _)
    have hxr := hinc x (List.mem_cons_self _ _)
    have hnn1 : ∀ q ∈ rest, 0 ≤ q.effective_weight :=
      fun q hq => hnn q (List.mem_cons_of_mem _ hq)
    have hinc1 : ∀ q ∈ rest, InIntRange (q.current_weight + q.effective_weight) :=
      fun q hq => hinc q (List.mem_cons_of_mem _ hq)
    have hs0 := sum_effective_weight_nonneg rest hnn1
    rw [sum_effective_weight_cons] at hmax ⊢
    by_cases hp : tie_part now tried i best x = true
    · have ht : to_ngx_int (total + x.effective_weight) = total + x.effective_weight := by
        apply to_ngx_int_of_range
        unfold InIntRange NGX_MAX_INT_T_VALUE at *
        omega
      have hv : (tie_written x).current_weight = x.current_weight + x.effective_weight := by
        rw [tie_written_current_weight]
        exact to_ngx_int_of_range _ hxr
      rw [lc_tie_cons_take now tried x rest i p best total hp, ht]
      by_cases hgt : (tie_written x).current_weight
          > (if i = p then tie_written x else best).current_weight
      · simp only [hgt, if_true]
        have := ih (i + 1) i (tie_written x) (total + x.effective_weight) hnn1 hinc1
          (by omega) (by omega)
        simp only [sum_current_weight, List.map_cons, List.sum_cons, hv] at this ⊢
        omega
      · simp only [hgt, if_false]
        have := ih (i + 1) p (if i = p then tie_written x else best)
          (total + x.effective_weight) hnn1 hinc1 (by omega) (by omega)
        simp only [sum_current_weight, List.map_cons, List.sum_cons, hv] at this ⊢
        omega
    · have hp' : tie_part now tried i best x = false := by simpa using hp
      rw [lc_tie_cons_skip now tried x rest i p best total hp']
      have := ih (i + 1) p best total hnn1 hinc1 h0 (by omega)
      simp only [sum_current_weight, List.map_cons, List.sum_cons] at this ⊢
      omega

/-- The final `best` of the tie-break scan is the record the scan left at its
index, unless the scan kept the `best` it was started with. -/
theorem lc_tie_best_at (now : Int) (tried : List Nat) :
    ∀ (l : List Peer) (i p : Nat) (best : Peer) (total : Int), p < i →
      ((lc_tie now tried l i p best total).p = p
        ∧ (lc_tie now tried l i p best total).best = best)
      ∨ (i ≤ (lc_tie now tried l i p best total).p
        ∧ (lc_tie now tried l i p best total).peers[(lc_tie now tried l i p best total).p - i]?
            = some (lc_tie now tried l i p best total).best) := by
  intro l
  induction l with
  | nil => intro i p best total _; exact Or.inl ⟨rfl, rfl⟩
  | cons x rest ih =>
    intro i p best total hpi
    have hne : ¬ i = p := by omega
    by_cases hp : tie_part now tried i best x = true
    · rw [lc_tie_cons_take now tried x rest i p best total hp]
      simp only [hne, if_false]
      by_cases hgt : (tie_written x).current_weight > best.current_weight
      · simp only [hgt, if_true]
        right
        rcases ih (i + 1) i (tie_written x) (to_ngx_int (total + x.effective_weight)) (by omega) with
          ⟨e1, e2⟩ | ⟨e1, e2⟩
        · refine ⟨by show i ≤ _; rw [e1], ?_⟩
          show (tie_written x :: _)[_ - i]? = some _
          rw [e1, e2]
          simp
        · refine ⟨by show i ≤ _; omega, ?_⟩
          show (tie_written x :: _)[_ - i]? = some _
          rw [show (lc_tie now tried rest (i + 1) i (tie_written x)
              (to_ngx_int (total + x.effective_weight))).p - i
            = ((lc_tie now tried rest (i + 1) i (tie_written x)
              (to_ngx_int (total + x.effective_weight))).p - (i + 1)) + 1 by omega]
          simpa using e2
      · simp only [hgt, if_false]
        rcases ih (i + 1) p best (to_ngx_int (total + x.effective_weight)) (by omega) with
          ⟨e1, e2⟩ | ⟨e1, e2⟩
        · exact Or.inl ⟨e1, e2⟩
        · right
          refine ⟨by show i ≤ _; omega, ?_⟩
          show (tie_written x :: _)[_ - i]? = some _
          rw [show (lc_tie now tried rest (i + 1) p best (to_ngx_int (total + x.effective_weight))).p - i
            = ((lc_tie now tried rest (i + 1) p best (to_ngx_int (total + x.effective_weight))).p - (i + 1))
              + 1 by omega]
          simpa using e2
    · have hp' : tie_part now tried i best x = false := by simpa using hp
      rw [lc_tie_cons_skip now tried x rest i p best total hp']
      rcases ih (i + 1) p best total (by omega) with ⟨e1, e2⟩ | ⟨e1, e2⟩
      · exact Or.inl ⟨e1, e2⟩
      · right
        refine ⟨by show i ≤ (lc_tie now tried rest (i + 1) p best total).p; omega, ?_⟩
        show (x :: _)[_ - i]? = some _
        rw [show (lc_tie now tried rest (i + 1) p best total).p - i
          = ((lc_tie now tried rest (i + 1) p best total).p - (i + 1)) + 1 by omega]
        simpa using e2

theorem tie_total_congr (now : Int) (tried : List Nat) (b b1 : Peer) :
    ∀ (l : List Peer) (i : Nat), (∀ q ∈ l, (RatioEq b q ↔ RatioEq b1 q)) →
      tie_total now tried b l i = tie_total now tried b1 l i := by
  intro l
  induction l with
  | nil => intro i _; rfl
  | cons x rest ih =>
    intro i h
    have hx := h x (List.mem_cons_self _ _)
    simp only [tie_total, hx]
    rw [ih (i + 1) (fun q hq => h q (List.mem_cons_of_mem _ hq))]

/-- The tie-break scan from a position behind `best`, with positive weights and
products in range: the peers that pass the filter and have the ratio of `best`
are written, the others are left as they were, and `total` grows by the entry
`effective_weight` of the peers written, as a 64-bit sum. -/
theorem lc_tie_written (now : Int) (tried : List Nat) :
    ∀ (l : List Peer) (i p : Nat) (best : Peer) (total : Int),
      p < i → NoOverflow (best :: l) → to_ngx_int total = total →
      (∀ k q, l[k]? = some q →
        (lc_tie now tried l i p best total).peers[k]?
          = some (if lc_skip now tried (i + k) q = false ∧ RatioEq best q
              then tie_written q else q))
      ∧ (lc_tie now tried l i p best total).total
          = to_ngx_int (total + tie_total now tried best l i) := by
  intro l
  induction l with
  | nil =>
    intro i p best total _ _ ht
    refine ⟨fun k q hq => (by simp at hq), ?_⟩
    simp [lc_tie, tie_total, ht]
  | cons x rest ih =>
    intro i p best total hpi hwf ht
    have hbm : best ∈ best :: x :: rest := by simp
    have hxm : x ∈ best :: x :: rest := by simp
    have hwb := hwf.1 best hbm
    have hwx := hwf.1 x hxm
    have hpart := tie_part_iff now tried i best x hwb hwx (hwf.2 x hxm best hbm)
      (hwf.2 best hbm x hxm)
    have hwf_rest : NoOverflow (best :: rest) := by
      refine ⟨fun q hq => hwf.1 q ?_, fun a ha b hb => hwf.2 a ?_ b ?_⟩ <;>
        (simp only [List.mem_cons] at *; tauto)
    by_cases hp : tie_part now tried i best x = true
    · obtain ⟨hsx, hrx⟩ := hpart.1 hp
      rw [lc_tie_cons_take now tried x rest i p best total hp]
      have hne : ¬ i = p := by omega
      simp only [hne, if_false]
      have hwf_x : NoOverflow (tie_written x :: rest) := by
        refine ⟨?_, ?_⟩
        · intro q hq
          rcases List.mem_cons.1 hq with rfl | hq
          · rw [tie_written_weight]; exact hwx
          · exact hwf.1 q (by simp [hq])
        · intro a ha b hb
          rcases List.mem_cons.1 ha with rfl | ha <;> rcases List.mem_cons.1 hb with rfl | hb
          · rw [tie_written_conns, tie_written_weight]; exact hwf.2 x hxm x hxm
          · rw [tie_written_conns]; exact hwf.2 x hxm b (by simp [hb])
          · rw [tie_written_weight]; exact hwf.2 a (by simp [ha]) x hxm
          · exact hwf.2 a (by simp [ha]) b (by simp [hb])
      have hconv : ∀ q, q ∈ rest → (RatioEq best q ↔ RatioEq (tie_written x) q) := by
        intro q hq
        have hwq := hwf.1 q (by simp [hq])
        have hxq : RatioEq x q ↔ RatioEq (tie_written x) q := by
          unfold RatioEq; rw [tie_written_conns, tie_written_weight]
        rw [← hxq]
        exact ⟨fun h => ratioEq_trans hwx hwb hwq (ratioEq_symm hrx) h,
          fun h => ratioEq_trans hwb hwx hwq hrx h⟩
      have hhead : (if lc_skip now tried (i + 0) x = false ∧ RatioEq best x
          then tie_written x else x) = tie_written x := by
        rw [if_pos ⟨by simpa using hsx, hrx⟩]
      have htot : tie_total now tried best (x :: rest) i
          = x.effective_weight + tie_total now tried best rest (i + 1) := by
        simp only [tie_total]
        rw [if_pos ⟨hsx, hrx⟩]
      by_cases hgt : (tie_written x).current_weight > best.current_weight
      · simp only [hgt, if_true]
        obtain ⟨e1, e2⟩ := ih (i + 1) i (tie_written x) (to_ngx_int (total + x.effective_weight))
          (by omega) hwf_x (to_ngx_int_idem _)
        refine ⟨fun k q hq => ?_, ?_⟩
        · cases k with
          | zero =>
            simp at hq; subst hq
            show (tie_written x :: _)[0]? = _
            rw [hhead]; simp
          | succ j =>
            simp at hq
            have hc := hconv q (mem_of_getElem?_some hq)
            show (tie_written x :: _)[j + 1]? = _
            rw [List.getElem?_cons_succ, e1 j q hq, show i + 1 + j = i + (j + 1) by omega]
            simp only [hc]
        · show (lc_tie now tried rest (i + 1) i (tie_written x)
            (to_ngx_int (total + x.effective_weight))).total = _
          rw [e2, htot, ← tie_total_congr now tried best (tie_written x) rest (i + 1) hconv,
            to_ngx_int_add_left]
          congr 1
          omega
      · simp only [hgt, if_false]
        obtain ⟨e1, e2⟩ := ih (i + 1) p best (to_ngx_int (total + x.effective_weight))
          (by omega) hwf_rest (to_ngx_int_idem _)
        refine ⟨fun k q hq => ?_, ?_⟩
        · cases k with
          | zero =>
            simp at hq; subst hq
            show (tie_written x :: _)[0]? = _
            rw [hhead]; simp
          | succ j =>
            simp at hq
            show (tie_written x :: _)[j + 1]? = _
            rw [List.getElem?_cons_succ, e1 j q hq, show i + 1 + j = i + (j + 1) by omega]
        · show (lc_tie now tried rest (i + 1) p best (to_ngx_int (total + x.effective_weight))).total = _
          rw [e2, htot, to_ngx_int_add_left]
          congr 1
          omega
    · have hp' : tie_part now tried i best x = false := by simpa using hp
      rw [lc_tie_cons_skip now tried x rest i p best total hp']
      have hnot : ¬ (lc_skip now tried i x = false ∧ RatioEq best x) := fun h => hp (hpart.2 h)
      obtain ⟨e1, e2⟩ := ih (i + 1) p best total (by omega) hwf_rest ht
      refine ⟨fun k q hq => ?_, ?_⟩
      · cases k with
        | zero =>
          simp at hq; subst hq
          show (x :: _)[0]? = _
          rw [if_neg (by simpa using hnot)]; simp
        | succ j =>
          simp at hq
          show (x :: _)[j + 1]? = _
          rw [List.getElem?_cons_succ, e1 j q hq, show i + 1 + j = i + (j + 1) by omega]
      · show (lc_tie now tried rest (i + 1) p best total).total = _
        rw [e2]
        simp only [tie_total]
        rw [if_neg hnot]
        congr 1
        omega

theorem ratioEq_refl (a : Peer) : RatioEq a a := rfl

theorem sum_current_weight_append (a b : List Peer) :
    sum_current_weight (a ++ b) = sum_current_weight a + sum_current_weight b := by
  unfold sum_current_weight
  rw [List.map_append, List.sum_append]

/-- The tie-break, whatever the weights: the final `best` is the record left
at its index, and the `current_weight` of the pool has grown by `total`,
modulo `2 ^ 64`. -/
theorem lc_break_tie_weights (now : Int) (tried : List Nat) (E : List Peer) (p0 : Nat)
    (best0 : Peer) (many : Bool) (hE : E[p0]? = some best0)
    (hskip : lc_skip now tried p0 best0 = false) :
    (lc_break_tie now tried E p0 best0 many).peers[(lc_break_tie now tried E p0 best0 many).p]?
      = some (lc_break_tie now tried E p0 best0 many).best
    ∧ sum_current_weight (lc_break_tie now tried E p0 best0 many).peers % INT_MOD
      = (sum_current_weight E + (lc_break_tie now tried E p0 best0 many).total) % INT_MOD := by
  cases many with
  | false =>
    refine ⟨hE, ?_⟩
    show sum_current_weight E % INT_MOD = (sum_current_weight E + 0) % INT_MOD
    rw [Int.add_zero]
  | true =>
    have hlt : p0 < E.length := getElem?_lt_length hE
    have hget : E[p0] = best0 := by
      rw [List.getElem?_eq_getElem hlt] at hE
      exact Option.some.inj hE
    have hdrop : E.drop p0 = best0 :: E.drop (p0 + 1) := by
      rw [List.drop_eq_getElem_cons hlt, hget]
    have htl : (List.take p0 E).length = p0 := by
      rw [List.length_take]; omega
    have hsum := lc_tie_sum_mod now tried (E.drop p0) p0 p0 best0 0
    have hpe : (lc_break_tie now tried E p0 best0 true).peers
        = List.take p0 E ++ (lc_tie now tried (E.drop p0) p0 p0 best0 0).peers := rfl
    have hpp : (lc_break_tie now tried E p0 best0 true).p
        = (lc_tie now tried (E.drop p0) p0 p0 best0 0).p := rfl
    have hpb : (lc_break_tie now tried E p0 best0 true).best
        = (lc_tie now tried (E.drop p0) p0 p0 best0 0).best := rfl
    have hpt : (lc_break_tie now tried E p0 best0 true).total
        = (lc_tie now tried (E.drop p0) p0 p0 best0 0).total := rfl
    have hat : p0 ≤ (lc_tie now tried (E.drop p0) p0 p0 best0 0).p
        ∧ (lc_tie now tried (E.drop p0) p0 p0 best0 0).peers[
            (lc_tie now tried (E.drop p0) p0 p0 best0 0).p - p0]?
          = some (lc_tie now tried (E.drop p0) p0 p0 best0 0).best := by
      rw [hdrop, lc_tie_cons_take now tried best0 _ p0 p0 best0 0
        (tie_part_self now tried p0 best0 hskip)]
      simp only [if_true, gt_iff_lt, lt_irrefl, if_false]
      rcases lc_tie_best_at now tried (E.drop (p0 + 1)) (p0 + 1) p0 (tie_written best0)
          (to_ngx_int (0 + best0.effective_weight)) (by omega) with ⟨e1, e2⟩ | ⟨e1, e2⟩
      · refine ⟨by show p0 ≤ (lc_tie now tried (E.drop (p0 + 1)) (p0 + 1) p0
            (tie_written best0) (to_ngx_int (0 + best0.effective_weight))).p; omega, ?_⟩
        show (tie_written best0 :: _)[_ - p0]? = some _
        rw [e1, e2]
        simp
      · refine ⟨by show p0 ≤ (lc_tie now tried (E.drop (p0 + 1)) (p0 + 1) p0
            (tie_written best0) (to_ngx_int (0 + best0.effective_weight))).p; omega, ?_⟩
        show (tie_written best0 :: _)[_ - p0]? = some _
        rw [show (lc_tie now tried (E.drop (p0 + 1)) (p0 + 1) p0 (tie_written best0)
              (to_ngx_int (0 + best0.effective_weight))).p - p0
            = ((lc_tie now tried (E.drop (p0 + 1)) (p0 + 1) p0 (tie_written best0)
              (to_ngx_int (0 + best0.effective_weight))).p - (p0 + 1)) + 1 by omega]
        simpa using e2
    rw [hpe, hpp, hpb, hpt]
    constructor
    · rw [List.getElem?_append_right (by rw [htl]; exact hat.1), htl]
      exact hat.2
    · rw [sum_current_weight_append]
      have hE2 : sum_current_weight E
          = sum_current_weight (List.take p0 E) + sum_current_weight (List.drop p0 E) := by
        rw [← sum_current_weight_append, List.take_append_drop]
      unfold INT_MOD at hsum ⊢
      omega

/-- The tie-break over a pool in range: the `current_weight` of the pool has
grown by `total`, which lies between 0 and the sum of `effective_weight`. -/
theorem lc_break_tie_sum (now : Int) (tried : List Nat) (E : List Peer) (p0 : Nat)
    (best0 : Peer) (many : Bool) (hE : E[p0]? = some best0) (hr : WeightsInRange E) :
    sum_current_weight (lc_break_tie now tried E p0 best0 many).peers
      = sum_current_weight E + (lc_break_tie now tried E p0 best0 many).total
    ∧ 0 ≤ (lc_break_tie now tried E p0 best0 many).total
    ∧ (lc_break_tie now tried E p0 best0 many).total ≤ sum_effective_weight E := by
  have hS := sum_effective_weight_nonneg E hr.1
  cases many with
  | false =>
    refine ⟨?_, le_refl _, hS⟩
    show sum_current_weight E = sum_current_weight E + 0
    omega
  | true =>
    have hmax := (weightsInRange_peer E hr best0 (mem_of_getElem?_some hE)).2.2.1
    have hdl := sum_effective_weight_drop_le E p0 hr.1
    obtain ⟨s1, s2, s3⟩ := lc_tie_sum now tried (E.drop p0) p0 p0 best0 0
      (fun q hq => hr.1 q (List.mem_of_mem_drop hq))
      (fun q hq => (weightsInRange_peer E hr q (List.mem_of_mem_drop hq)).2.2.2.2.2.2)
      (le_refl _) (by omega)
    have hpe : (lc_break_tie now tried E p0 best0 true).peers
        = List.take p0 E ++ (lc_tie now tried (E.drop p0) p0 p0 best0 0).peers := rfl
    have hpt : (lc_break_tie now tried E p0 best0 true).total
        = (lc_tie now tried (E.drop p0) p0 p0 best0 0).total := rfl
    rw [hpe, hpt, sum_current_weight_append]
    have hE2 : sum_current_weight E
        = sum_current_weight (List.take p0 E) + sum_current_weight (List.drop p0 E) := by
      rw [← sum_current_weight_append, List.take_append_drop]
    refine ⟨by omega, by omega, by omega⟩

theorem tie_total_bounds (now : Int) (tried : List Nat) (b : Peer) :
    ∀ (l : List Peer) (i : Nat), (∀ q ∈ l, 0 ≤ q.effective_weight) →
      0 ≤ tie_total now tried b l i ∧ tie_total now tried b l i ≤ sum_effective_weight l := by
  intro l
  induction l with
  | nil => intro i _; exact ⟨le_refl _, le_refl _⟩
  | cons x rest ih =>
    intro i h
    have h1 := h x (List.mem_cons_self _ _)
    obtain ⟨h2, h3⟩ := ih (i + 1) (fun q hq => h q (List.mem_cons_of_mem _ hq))
    rw [sum_effective_weight_cons]
    simp only [tie_total]
    split <;> constructor <;> omega

/-- Peers that do not take part contribute nothing to the sum of the tied
`effective_weight`. -/
theorem tie_total_skip (now : Int) (tried : List Nat) (b : Peer) :
    ∀ (pre l : List Peer) (i : Nat),
      (∀ k q, pre[k]? = some q → ¬ (lc_skip now tried (i + k) q = false ∧ RatioEq b q)) →
      tie_total now tried b (pre ++ l) i = tie_total now tried b l (i + pre.length) := by
  intro pre
  induction pre with
  | nil => intro l i _; rfl
  | cons x rest ih =>
    intro l i h
    have hx := h 0 x (by simp)
    have hih := ih l (i + 1) (fun k q hq => by
      have := h (k + 1) q (by simpa using hq)
      rw [show i + (k + 1) = i + 1 + k by omega] at this
      exact this)
    show tie_total now tried b (x :: (rest ++ l)) i = _
    simp only [tie_total, List.length_cons]
    rw [if_neg (by simpa using hx), hih]
    rw [show i + 1 + rest.length = i + (rest.length + 1) by omega]
    omega

/-- The tie-break with positive weights and products in range: with the tie
flag set, the peers from `p0` on that pass the filter and have the ratio of
the `best` of the first scan are written and `total` is the 64-bit sum of their
entry `effective_weight`; without it nothing is written and `total` is 0. -/
theorem lc_break_tie_written (now : Int) (tried : List Nat) (E : List Peer) (p0 : Nat)
    (best0 : Peer) (many : Bool) (hE : E[p0]? = some best0)
    (hskip : lc_skip now tried p0 best0 = false) (hwf : NoOverflow E) :
    (∀ k q, E[k]? = some q →
      (lc_break_tie now tried E p0 best0 many).peers[k]?
        = some (if many = true ∧ p0 ≤ k ∧ lc_skip now tried k q = false ∧ RatioEq best0 q
            then tie_written q else q))
    ∧ (lc_break_tie now tried E p0 best0 many).total
      = (if many = true then to_ngx_int (tie_total now tried best0 (E.drop p0) p0) else 0) := by
  cases many with
  | false =>
    refine ⟨fun k q hq => ?_, rfl⟩
    rw [if_neg (fun h => Bool.false_ne_true h.1)]
    exact hq
  | true =>
    have hlt : p0 < E.length := getElem?_lt_length hE
    have hget : E[p0] = best0 := by
      rw [List.getElem?_eq_getElem hlt] at hE
      exact Option.some.inj hE
    have hdrop : E.drop p0 = best0 :: E.drop (p0 + 1) := by
      rw [List.drop_eq_getElem_cons hlt, hget]
    have htl : (List.take p0 E).length = p0 := by
      rw [List.length_take]; omega
    have hbm : best0 ∈ E := mem_of_getElem?_some hE
    have hrest : ∀ q ∈ E.drop (p0 + 1), q ∈ E := fun q hq => List.mem_of_mem_drop hq
    have hwb := hwf.1 best0 hbm
    have hwf1 : NoOverflow (tie_written best0 :: E.drop (p0 + 1)) := by
      refine ⟨?_, ?_⟩
      · intro q hq
        rcases List.mem_cons.1 hq with rfl | hq
        · rw [tie_written_weight]; exact hwb
        · exact hwf.1 q (hrest q hq)
      · intro a ha b hb
        rcases List.mem_cons.1 ha with rfl | ha <;> rcases List.mem_cons.1 hb with rfl | hb
        · rw [tie_written_conns, tie_written_weight]; exact hwf.2 best0 hbm best0 hbm
        · rw [tie_written_conns]; exact hwf.2 best0 hbm b (hrest b hb)
        · rw [tie_written_weight]; exact hwf.2 a (hrest a ha) best0 hbm
        · exact hwf.2 a (hrest a ha) b (hrest b hb)
    have hconv : ∀ q, RatioEq (tie_written best0) q ↔ RatioEq best0 q := by
      intro q; unfold RatioEq; rw [tie_written_conns, tie_written_weight]
    obtain ⟨e1, e2⟩ := lc_tie_written now tried (E.drop (p0 + 1)) (p0 + 1) p0 (tie_written best0)
      (to_ngx_int (0 + best0.effective_weight)) (by omega) hwf1 (to_ngx_int_idem _)
    have hr : lc_tie now tried (E.drop p0) p0 p0 best0 0
        = { lc_tie now tried (E.drop (p0 + 1)) (p0 + 1) p0 (tie_written best0)
              (to_ngx_int (0 + best0.effective_weight)) with
            peers := tie_written best0 :: (lc_tie now tried (E.drop (p0 + 1)) (p0 + 1) p0
              (tie_written best0) (to_ngx_int (0 + best0.effective_weight))).peers } := by
      rw [hdrop, lc_tie_cons_take now tried best0 _ p0 p0 best0 0
        (tie_part_self now tried p0 best0 hskip)]
      simp only [if_true, gt_iff_lt, lt_irrefl, if_false]
    have hpe : (lc_break_tie now tried E p0 best0 true).peers
        = List.take p0 E ++ (lc_tie now tried (E.drop p0) p0 p0 best0 0).peers := rfl
    have hpt : (lc_break_tie now tried E p0 best0 true).total
        = (lc_tie now tried (E.drop p0) p0 p0 best0 0).total := rfl
    rw [hpe, hpt, hr]
    constructor
    · intro k q hq
      by_cases hk : k < p0
      · rw [List.getElem?_append_left (by rw [htl]; exact hk), List.getElem?_take_of_lt hk,
          if_neg (fun h => absurd h.2.1 (by omega))]
        exact hq
      · have hk1 : p0 ≤ k := Nat.le_of_not_lt hk
        rw [List.getElem?_append_right (by rw [htl]; exact hk1), htl]
        rcases Nat.eq_or_lt_of_le hk1 with rfl | hlt1
        · rw [hE] at hq
          cases hq
          rw [Nat.sub_self, if_pos ⟨rfl, le_refl _, hskip, ratioEq_refl _⟩]
          simp
        · have hq1 : (E.drop (p0 + 1))[k - (p0 + 1)]? = some q := by
            rw [List.getElem?_drop, show p0 + 1 + (k - (p0 + 1)) = k by omega]; exact hq
          have := e1 (k - (p0 + 1)) q hq1
          rw [show p0 + 1 + (k - (p0 + 1)) = k by omega] at this
          rw [show k - p0 = (k - (p0 + 1)) + 1 by omega]
          show (tie_written best0 :: _)[(k - (p0 + 1)) + 1]? = _
          rw [List.getElem?_cons_succ, this]
          simp only [hconv q, hk1, true_and]
    · show (lc_tie now tried (E.drop (p0 + 1)) (p0 + 1) p0 (tie_written best0)
        (to_ngx_int (0 + best0.effective_weight))).total = _
      rw [e2, if_pos rfl, hdrop]
      simp only [tie_total]
      rw [if_pos ⟨hskip, ratioEq_refl _⟩,
        tie_total_congr now tried (tie_written best0) best0 _ (p0 + 1) (fun q _ => hconv q),
        to_ngx_int_add_left]
      congr 1
      omega

theorem tie_written_effective_weight (q : Peer) :
    (tie_written q).effective_weight
      = (if q.effective_weight < q.weight then q.effective_weight + 1 else q.effective_weight) := by
  unfold tie_written
  split <;> rfl

theorem lc_commit_weights (now total : Int) (b : Peer) :
    (lc_commit now total b).current_weight = to_ngx_int (b.current_weight - total)
    ∧ (lc_commit now total b).effective_weight = b.effective_weight
    ∧ (lc_commit now total b).weight = b.weight := by
  unfold lc_commit
  simp only
  split <;> exact ⟨rfl, rfl, rfl⟩

/-- The record `best` after the tie-break over a pool in range: its
`current_weight` less `total` lies in the range of `ngx_int_t`. -/
theorem lc_break_tie_commit_range (now : Int) (tried : List Nat) (E : List Peer) (p0 : Nat)
    (best0 : Peer) (many : Bool) (hE : E[p0]? = some best0)
    (hskip : lc_skip now tried p0 best0 = false) (hr : WeightsInRange E) :
    InIntRange ((lc_break_tie now tried E p0 best0 many).best.current_weight
      - (lc_break_tie now tried E p0 best0 many).total) := by
  obtain ⟨_, t0, t1⟩ := lc_break_tie_sum now tried E p0 best0 many hE hr
  obtain ⟨_, _, w, hw, _, hb⟩ := lc_break_tie_frame now tried E p0 best0 many hE hskip
  obtain ⟨r1, r2, r3, r4, r5, r6, r7⟩ := weightsInRange_peer E hr w (mem_of_getElem?_some hw)
  rcases hb with hb | hb
  · rw [hb]
    unfold InIntRange NGX_MAX_INT_T_VALUE at *
    omega
  · rw [hb, tie_written_current_weight]
    unfold tie_value
    rw [to_ngx_int_of_range _ r7]
    unfold InIntRange NGX_MAX_INT_T_VALUE at *
    omega

/-- The weights after the success exit of the least-connections selection,
with positive weights and products in range: with the tie flag set (another
eligible peer has the ratio of `best`), each eligible peer tied with `best`
has gained 1 in `effective_weight` when that was below `weight`, and, on a pool
in range, its entry `effective_weight` in `current_weight`; the winner has lost
`total`, the sum of those entry `effective_weight`; nothing else has changed. -/
theorem lc_found_weights
    (rr : RrPeerData → PeerConnection → Int × RrPeerData × PeerConnection)
    (sticky : State → Int × State) (now : Int) (st : State) (p0 : Nat) (best0 : Peer)
    (many : Bool) (hs : st.rrp.peers.single = false)
    (hscan : lc_scan now st.rrp.tried st.rrp.peers.peer 0 none false = (some (p0, best0), many))
    (hwf : NoOverflow st.rrp.peers.peer) :
    (many = true ↔ ∃ i q, i ≠ p0 ∧ st.rrp.peers.peer[i]? = some q
        ∧ Eligible now st.rrp.tried i q ∧ RatioEq best0 q)
    ∧ ∃ p, (ngx_http_upstream_get_least_conn_peer_with rr sticky now st).2.rrp.current = some p
      ∧ ∀ k q, st.rrp.peers.peer[k]? = some q →
          ∃ q1, (ngx_http_upstream_get_least_conn_peer_with rr sticky now st).2.rrp.peers.peer[k]?
              = some q1
            ∧ (WeightsInRange st.rrp.peers.peer →
                q1.current_weight = q.current_weight
                  + (if many = true ∧ Eligible now st.rrp.tried k q ∧ RatioEq best0 q
                      then q.effective_weight else 0)
                  - (if k = p then
                      (if many = true then tie_total now st.rrp.tried best0 st.rrp.peers.peer 0
                        else 0)
                      else 0))
            ∧ q1.effective_weight
                = (if (many = true ∧ Eligible now st.rrp.tried k q ∧ RatioEq best0 q)
                      ∧ q.effective_weight < q.weight
                    then q.effective_weight + 1 else q.effective_weight)
            ∧ q1.weight = q.weight := by
  obtain ⟨hE, hskip⟩ := lc_scan_found now st.rrp.tried st.rrp.peers.peer p0 best0 many hscan
  rw [lc_with_found rr sticky now st p0 best0 many hs hscan]
  obtain ⟨b1, _⟩ := lc_break_tie_weights now st.rrp.tried st.rrp.peers.peer p0 best0 many hE hskip
  have hinv := lc_scan_inv_start now st.rrp.tried st.rrp.peers.peer hwf
  rw [hscan] at hinv
  obtain ⟨_, _, h3, h4⟩ := hinv
  have hge : ∀ i q, st.rrp.peers.peer[i]? = some q → lc_skip now st.rrp.tried i q = false →
      RatioEq best0 q → p0 ≤ i := by
    intro i q hq hsq hr
    by_contra hlt
    have := (h3 i q hq hsq).2 (by omega)
    unfold RatioEq at hr
    omega
  obtain ⟨w1, w2⟩ :=
    lc_break_tie_written now st.rrp.tried st.rrp.peers.peer p0 best0 many hE hskip hwf
  have hcr := lc_break_tie_commit_range now st.rrp.tried st.rrp.peers.peer p0 best0 many hE hskip
  have hcond : ∀ k q, st.rrp.peers.peer[k]? = some q →
      ((many = true ∧ p0 ≤ k ∧ lc_skip now st.rrp.tried k q = false ∧ RatioEq best0 q)
        ↔ (many = true ∧ Eligible now st.rrp.tried k q ∧ RatioEq best0 q)) := by
    intro k q hq
    rw [← lc_skip_false_iff]
    exact ⟨fun h => ⟨h.1, h.2.2.1, h.2.2.2⟩, fun h => ⟨h.1, hge k q hq h.2.1 h.2.2, h.2.1, h.2.2⟩⟩
  have htot : tie_total now st.rrp.tried best0 st.rrp.peers.peer 0
      = tie_total now st.rrp.tried best0 (st.rrp.peers.peer.drop p0) p0 := by
    have hlt : p0 < st.rrp.peers.peer.length := getElem?_lt_length hE
    have := tie_total_skip now st.rrp.tried best0 (st.rrp.peers.peer.take p0)
      (st.rrp.peers.peer.drop p0) 0 (fun k q hq hc => by
        have hk : k < p0 := by
          have := getElem?_lt_length hq
          rw [List.length_take] at this
          omega
        rw [List.getElem?_take_of_lt hk] at hq
        rw [Nat.zero_add] at hc
        have := hge k q hq hc.1 hc.2
        omega)
    rw [List.take_append_drop, List.length_take, Nat.zero_add,
      Nat.min_eq_left (Nat.le_of_lt hlt)] at this
    exact this
  generalize lc_break_tie now st.rrp.tried st.rrp.peers.peer p0 best0 many = t at b1 w1 w2 hcr
  have hrec : ∀ (c : Prop) [Decidable c] (q : Peer),
      (if c then tie_written q else q).current_weight
        = (if c then tie_value q else q.current_weight)
      ∧ (if c then tie_written q else q).effective_weight
        = (if c ∧ q.effective_weight < q.weight then q.effective_weight + 1
            else q.effective_weight)
      ∧ (if c then tie_written q else q).weight = q.weight := by
    intro c _ q
    by_cases hc : c
    · rw [if_pos hc, if_pos hc, tie_written_current_weight, tie_written_effective_weight,
        tie_written_weight]
      refine ⟨rfl, ?_, rfl⟩
      by_cases hlt : q.effective_weight < q.weight
      · rw [if_pos hlt, if_pos ⟨hc, hlt⟩]
      · rw [if_neg hlt, if_neg (fun h => hlt h.2)]
    · rw [if_neg hc, if_neg hc, if_neg (fun h => hc h.1)]
      exact ⟨rfl, rfl, rfl⟩
  have hbase : ∀ (c : Prop) [Decidable c] (q : Peer), q ∈ st.rrp.peers.peer →
      WeightsInRange st.rrp.peers.peer →
      (if c then tie_value q else q.current_weight)
        = q.current_weight + (if c then q.effective_weight else 0) := by
    intro c _ q hq hr
    by_cases hc : c
    · rw [if_pos hc, if_pos hc]
      exact to_ngx_int_of_range _ (weightsInRange_peer _ hr q hq).2.2.2.2.2.2
    · rw [if_neg hc, if_neg hc]
      omega
  have htotal : WeightsInRange st.rrp.peers.peer →
      t.total = (if many = true then tie_total now st.rrp.tried best0 st.rrp.peers.peer 0
        else 0) := by
    intro hr
    rw [w2]
    by_cases hm : many = true
    · rw [if_pos hm, if_pos hm, ← htot]
      obtain ⟨tb1, tb2⟩ := tie_total_bounds now st.rrp.tried best0 st.rrp.peers.peer 0 hr.1
      have hmax := (weightsInRange_peer _ hr best0 (mem_of_getElem?_some hE)).2.2.1
      apply to_ngx_int_of_range
      unfold InIntRange NGX_MAX_INT_T_VALUE at *
      omega
    · rw [if_neg hm, if_neg hm]
  obtain ⟨c1, c2, c3⟩ := lc_commit_weights now t.total t.best
  have hpl : t.p < t.peers.length := getElem?_lt_length b1
  refine ⟨?_, t.p, rfl, ?_⟩
  · rw [h4]
    constructor
    · rintro ⟨i, q, hi, hq, hsq, hr⟩
      exact ⟨i, q, by omega, hq, (lc_skip_false_iff _ _ i q).1 hsq, hr⟩
    · rintro ⟨i, q, hi, hq, he, hr⟩
      have hsq := (lc_skip_false_iff _ _ i q).2 he
      have := hge i q hq hsq hr
      exact ⟨i, q, by omega, hq, hsq, hr⟩
  · intro k q hq
    have hqm := mem_of_getElem?_some hq
    have hwk : t.peers[k]? = some (if many = true ∧ Eligible now st.rrp.tried k q
        ∧ RatioEq best0 q then tie_written q else q) := by
      have := w1 k q hq
      simp only [hcond k q hq] at this
      exact this
    obtain ⟨r1, r2, r3⟩ := hrec (many = true ∧ Eligible now st.rrp.tried k q
      ∧ RatioEq best0 q) q
    show ∃ q1, (t.peers.set t.p (lc_commit now t.total t.best))[k]? = some q1 ∧ _
    by_cases hk : k = t.p
    · subst hk
      have hbest : t.best = (if many = true ∧ Eligible now st.rrp.tried t.p q
          ∧ RatioEq best0 q then tie_written q else q) := by
        rw [b1] at hwk
        exact Option.some.inj hwk
      refine ⟨lc_commit now t.total t.best, List.getElem?_set_self hpl, ?_, ?_, ?_⟩
      · intro hr
        rw [c1, to_ngx_int_of_range _ (hcr hr), hbest, r1, hbase _ q hqm hr, if_pos rfl,
          htotal hr]
      · rw [c2, hbest, r2]
      · rw [c3, hbest, r3]
    · rw [List.getElem?_set_ne (fun h => hk h.symm), hwk]
      refine ⟨_, rfl, ?_, r2, r3⟩
      intro hr
      rw [r1, hbase _ q hqm hr, if_neg hk]
      omega

/-! ## Lemmas: the weights of all pools across a selection -/

theorem chainRel_refl (R : List (Int × Int × Int) → List (Int × Int × Int) → Prop)
    (hR : ∀ A, R A A) (a : RrPeerData) : ChainRel R a a := by
  refine ⟨0, by omega, fun j A B h1 h2 => ?_⟩
  rw [Nat.zero_add, h2] at h1
  cases h1
  exact hR A

theorem chainRel_congr_left (R : List (Int × Int × Int) → List (Int × Int × Int) → Prop)
    (a a1 b : RrPeerData) (h : wpools a = wpools a1) (hc : ChainRel R a1 b) :
    ChainRel R a b := by
  unfold ChainRel at hc ⊢
  rw [h]
  exact hc

theorem chainRel_congr_right (R : List (Int × Int × Int) → List (Int × Int × Int) → Prop)
    (a b b1 : RrPeerData) (h : wpools b = wpools b1) (hc : ChainRel R a b1) :
    ChainRel R a b := by
  unfold ChainRel at hc ⊢
  rw [h]
  exact hc

/-- After a switch the pools are the tail of the pools before. -/
theorem chainRel_tail (R : List (Int × Int × Int) → List (Int × Int × Int) → Prop)
    (a a1 b : RrPeerData) (h : wpools a1 = (wpools a).tail) (hc : ChainRel R a1 b) :
    ChainRel R a b := by
  obtain ⟨d, h1, h2⟩ := hc
  have hcons : wpools a = (a.peers.peer.map wt) :: wpools a1 := by
    rw [h]; rfl
  refine ⟨d + 1, by rw [hcons, List.length_cons, h1]; omega, fun j A B hA hB => ?_⟩
  apply h2 j A B _ hB
  rw [hcons, show d + 1 + j = (d + j) + 1 by omega, List.getElem?_cons_succ] at hA
  exact hA

/-- A change of the active pool alone. -/
theorem chainRel_head (R : List (Int × Int × Int) → List (Int × Int × Int) → Prop)
    (hR : ∀ A, R A A) (a b : RrPeerData) (hn : b.next = a.next)
    (h : R (a.peers.peer.map wt) (b.peers.peer.map wt)) : ChainRel R a b := by
  refine ⟨0, by unfold wpools; rw [hn]; simp, fun j A B hA hB => ?_⟩
  rw [Nat.zero_add] at hA
  unfold wpools at hA hB
  rw [hn] at hB
  cases j with
  | zero =>
    simp only [List.getElem?_cons_zero, Option.some.injEq] at hA hB
    rw [← hA, ← hB]
    exact h
  | succ j =>
    rw [List.getElem?_cons_succ] at hA hB
    rw [hA] at hB
    cases hB
    exact hR A

theorem map_wt_set (l : List Peer) (i : Nat) (v q : Peer) (hq : l[i]? = some q)
    (hv : wt v = wt q) : (l.set i v).map wt = l.map wt := by
  apply List.ext_getElem?
  intro k
  rw [List.getElem?_map, List.getElem?_map]
  by_cases hk : i = k
  · subst hk
    rw [List.getElem?_set_self (getElem?_lt_length hq), hq]
    simp [hv]
  · rw [List.getElem?_set_ne hk]

/-- The least-connections selection keeps the weights of all pools in a
reflexive relation when the selections it calls do and its success exit does
on the active pool. -/
theorem keepsWeights_lc (R : List (Int × Int × Int) → List (Int × Int × Int) → Prop)
    (hR : ∀ A, R A A)
    (rr : RrPeerData → PeerConnection → Int × RrPeerData × PeerConnection)
    (sticky : State → Int × State) (now : Int)
    (hrr : RrKeepsWeights R rr) (hst : KeepsWeights R sticky)
    (hfind : ∀ (s : State) (p0 : Nat) (best0 : Peer) (many : Bool),
      s.rrp.peers.single = false →
      lc_scan now s.rrp.tried s.rrp.peers.peer 0 none false = (some (p0, best0), many) →
      R (s.rrp.peers.peer.map wt)
        ((ngx_http_upstream_get_least_conn_peer_with rr sticky now s).2.rrp.peers.peer.map wt)) :
    KeepsWeights R (ngx_http_upstream_get_least_conn_peer_with rr sticky now) := by
  intro s
  by_cases hs : s.rrp.peers.single = true
  · have he : ngx_http_upstream_get_least_conn_peer_with rr sticky now s
        = ((rr s.rrp s.pc).1, { s with rrp := (rr s.rrp s.pc).2.1, pc := (rr s.rrp s.pc).2.2 }) := by
      unfold ngx_http_upstream_get_least_conn_peer_with
      simp only [hs, if_true]
    rw [he]
    exact hrr s.rrp s.pc
  · have hs' : s.rrp.peers.single = false := by simpa using hs
    rcases hscan : lc_scan now s.rrp.tried s.rrp.peers.peer 0 none false with ⟨o, many⟩
    cases o with
    | none =>
      cases hnext : s.rrp.next with
      | nil =>
        rw [lc_with_none_no_backup rr sticky now s many hs' hnext hscan]
        exact chainRel_refl R hR s.rrp
      | cons nxt more =>
        obtain ⟨h1, _⟩ := lc_with_switch rr sticky now s many nxt more hs' hnext hscan
        rw [h1]
        apply chainRel_tail R s.rrp _ _ _ (hst _)
        show wpools _ = (wpools s.rrp).tail
        unfold wpools
        rw [hnext]
        rfl
    | some pb =>
      obtain ⟨p0, best0⟩ := pb
      have hf := hfind s p0 best0 many hs' hscan
      obtain ⟨p, w, _, _, f3, _⟩ := lc_found_frame rr sticky now s p0 best0 many hs' hscan
      exact chainRel_head R hR _ _ f3 hf

theorem wpools_write_peer (st : State) (sp : Nat) (v q : Peer)
    (hq : st.rrp.peers.peer[sp]? = some q) (hv : wt v = wt q) :
    wpools (write_peer st sp v).rrp = wpools st.rrp := by
  show (st.rrp.peers.peer.set sp v).map wt :: _ = _
  rw [map_wt_set _ _ _ _ hq hv]
  rfl

/-- The eligibility rule keeps the weights of all pools, and the peer it hands
on has the weights of the peer stored at its index. -/
theorem sticky_eligible_wpools (now : Int) (st : State) (sp : Nat) (peer : Peer) (n m : Nat)
    (st1 : State) (pr : Option (Nat × Peer)) (sel : Int) (n1 m1 : Nat)
    (h : sticky_eligible now st sp peer n m = Validated.go st1 pr sel n1 m1)
    (hx : ∃ x, st.rrp.peers.peer[sp]? = some x ∧ wt x = wt peer) :
    wpools st1.rrp = wpools st.rrp
    ∧ ∀ sp1 peer1, pr = some (sp1, peer1) →
        ∃ x, st1.rrp.peers.peer[sp1]? = some x ∧ wt x = wt peer1 := by
  obtain ⟨x, hx1, hx2⟩ := hx
  unfold sticky_eligible at h
  split at h
  · cases h
    refine ⟨rfl, fun sp1 peer1 e => ?_⟩
    cases e
    exact ⟨x, hx1, hx2⟩
  · split at h
    · cases h
      refine ⟨wpools_write_peer st sp _ x hx1 (by rw [hx2]; rfl), fun sp1 peer1 e => ?_⟩
      cases e
      refine ⟨_, ?_, rfl⟩
      show (st.rrp.peers.peer.set sp _)[sp]? = _
      rw [List.getElem?_set_self (getElem?_lt_length hx1)]
    · cases h
      refine ⟨rfl, fun sp1 peer1 e => ?_⟩
      cases e
      exact ⟨x, hx1, hx2⟩

/-- The validation of the sticky candidate keeps the weights of all pools. -/
theorem sticky_validate_wpools (conf : StickySrvConf) (now : Int) (st : State) :
    (∀ rc st1, sticky_validate conf now st = Validated.ret rc st1 →
      wpools st1.rrp = wpools st.rrp)
    ∧ (∀ st1 pr sel n m, sticky_validate conf now st = Validated.go st1 pr sel n m →
      wpools st1.rrp = wpools st.rrp
      ∧ ∀ sp1 peer1, pr = some (sp1, peer1) →
          ∃ x, st1.rrp.peers.peer[sp1]? = some x ∧ wt x = wt peer1) := by
  unfold sticky_validate
  simp only
  split
  · split
    · split
      · exact ⟨fun rc st1 h => (by cases h), fun st1 pr sel n m h =>
          (by cases h; exact ⟨rfl, fun sp1 peer1 e => (by cases e)⟩)⟩
      · rename_i peer hpeer
        by_cases hd : peer.down = true
        · rw [if_pos hd]
          exact ⟨fun rc st1 h => (by cases h; rfl), fun st1 pr sel n m h => (by cases h)⟩
        · rw [if_neg hd]
          by_cases hnf : conf.no_fallback ≠ 0
          · rw [if_pos hnf]
            have hw : wpools (write_peer { st with no_fallback := 1 } st.selected_peer.toNat
                { peer with fails := 0 }).rrp = wpools st.rrp :=
              wpools_write_peer { st with no_fallback := 1 } _ _ peer hpeer rfl
            by_cases hst : now - peer.accessed > peer.fail_timeout
            · simp only [hst, if_true]
              split
              · exact ⟨fun rc st1 h => (by cases h; exact hw),
                  fun st1 pr sel n m h => (by cases h)⟩
              · refine ⟨fun rc st1 h => absurd h (sticky_eligible_not_ret _ _ _ _ _ _ _ _),
                  fun st1 pr sel n m h => ?_⟩
                have t := sticky_eligible_wpools _ _ _ _ _ _ _ _ _ _ _ h
                  ⟨_, (by
                    show (st.rrp.peers.peer.set _ _)[_]? = _
                    rw [List.getElem?_set_self (getElem?_lt_length hpeer)]), rfl⟩
                exact ⟨t.1.trans hw, t.2⟩
            · simp only [hst, if_false]
              split
              · exact ⟨fun rc st1 h => (by cases h; rfl),
                  fun st1 pr sel n m h => (by cases h)⟩
              · refine ⟨fun rc st1 h => absurd h (sticky_eligible_not_ret _ _ _ _ _ _ _ _),
                  fun st1 pr sel n m h => ?_⟩
                have t := sticky_eligible_wpools _ _ _ _ _ _ _ _ _ _ _ h ⟨peer, hpeer, rfl⟩
                exact t
          · rw [if_neg hnf]
            refine ⟨fun rc st1 h => absurd h (sticky_eligible_not_ret _ _ _ _ _ _ _ _),
              fun st1 pr sel n m h => ?_⟩
            have t := sticky_eligible_wpools _ _ _ _ _ _ _ _ _ _ _ h ⟨peer, hpeer, rfl⟩
            exact t
    · exact ⟨fun rc st1 h => (by cases h), fun st1 pr sel n m h =>
        (by cases h; exact ⟨rfl, fun sp1 peer1 e => (by cases e)⟩)⟩
  · exact ⟨fun rc st1 h => (by cases h), fun st1 pr sel n m h =>
      (by cases h; exact ⟨rfl, fun sp1 peer1 e => (by cases e)⟩)⟩

theorem keepsWeights_busy (R : List (Int × Int × Int) → List (Int × Int × Int) → Prop)
    (hR : ∀ A, R A A) : KeepsWeights R (fun st => (NGX_BUSY, st)) :=
  fun s => chainRel_refl R hR s.rrp

/-- The fallback branch changes weights only through the algorithm it calls. -/
theorem keepsWeights_fallback (R : List (Int × Int × Int) → List (Int × Int × Int) → Prop)
    (hR : ∀ A, R A A)
    (rr : RrPeerData → PeerConnection → Int × RrPeerData × PeerConnection)
    (lc : State → Int × State) (conf : StickySrvConf)
    (hrr : RrKeepsWeights R rr) (hlc : KeepsWeights R lc) :
    KeepsWeights R (sticky_fallback rr lc conf) := by
  intro s
  unfold sticky_fallback
  split
  · exact chainRel_refl R hR s.rrp
  · split
    · exact chainRel_refl R hR s.rrp
    · rename_i ret st2 hsel
      have key : ChainRel R s.rrp st2.rrp := by
        unfold fallback_select at hsel
        split at hsel
        · cases hsel
          exact hrr s.rrp s.pc
        · split at hsel
          · have h1 := hlc { s with lb_alg := NGX_LB_ALG_LC }
            rw [Option.some.injEq] at hsel
            rw [hsel] at h1
            exact h1
          · cases hsel
      split
      · exact key
      · show ChainRel R s.rrp (sticky_cookie_loop conf st2 st2.rrp.peers.peer 0).rrp
        rw [sticky_cookie_loop_rrp]
        exact key

/-- The sticky selection changes weights only through the fallback algorithm
it calls: the validation and the acceptance of the candidate write `fails`,
`conns` and the bitmap. -/
theorem keepsWeights_sticky (R : List (Int × Int × Int) → List (Int × Int × Int) → Prop)
    (hR : ∀ A, R A A)
    (rr : RrPeerData → PeerConnection → Int × RrPeerData × PeerConnection)
    (lc : State → Int × State) (conf : StickySrvConf) (now : Int)
    (hrr : RrKeepsWeights R rr) (hlc : KeepsWeights R lc) :
    KeepsWeights R (ngx_http_get_sticky_peer_with rr lc conf now) := by
  intro s
  obtain ⟨hret, hgo⟩ := sticky_validate_wpools conf now s
  have hfb : ∀ st1 : State, wpools st1.rrp = wpools s.rrp →
      ChainRel R s.rrp (sticky_fallback rr lc conf st1).2.rrp :=
    fun st1 g => chainRel_congr_left R _ _ _ g.symm (keepsWeights_fallback R hR rr lc conf hrr hlc st1)
  unfold ngx_http_get_sticky_peer_with
  cases hv : sticky_validate conf now s with
  | ret rc st1 =>
    simp only
    exact chainRel_congr_right R _ _ _ (hret rc st1 hv) (chainRel_refl R hR s.rrp)
  | go st1 pr sel n m =>
    obtain ⟨g1, g2⟩ := hgo st1 pr sel n m hv
    cases pr with
    | none => exact hfb st1 g1
    | some x =>
      obtain ⟨sp, peer⟩ := x
      simp only
      split
      · obtain ⟨x, hx1, hx2⟩ := g2 sp peer rfl
        apply chainRel_congr_right R _ _ s.rrp _ (chainRel_refl R hR s.rrp)
        rw [← g1]
        show (st1.rrp.peers.peer.set sp _).map wt :: _ = _
        rw [map_wt_set _ _ _ x hx1 (by rw [hx2]; rfl)]
        rfl
      · exact hfb st1 g1

/-- Every instance of the unrolled recursion keeps the weights of all pools in
a reflexive relation that the success exit of the least-connections selection
and the round-robin selection respect. -/
theorem keepsWeights_depth (R : List (Int × Int × Int) → List (Int × Int × Int) → Prop)
    (hR : ∀ A, R A A)
    (rr : RrPeerData → PeerConnection → Int × RrPeerData × PeerConnection)
    (conf : StickySrvConf) (now : Int) (hrr : RrKeepsWeights R rr)
    (hfind : ∀ (sticky : State → Int × State) (s : State) (p0 : Nat) (best0 : Peer)
      (many : Bool), s.rrp.peers.single = false →
      lc_scan now s.rrp.tried s.rrp.peers.peer 0 none false = (some (p0, best0), many) →
      R (s.rrp.peers.peer.map wt)
        ((ngx_http_upstream_get_least_conn_peer_with rr sticky now s).2.rrp.peers.peer.map wt)) :
    ∀ d, KeepsWeights R (sticky_depth rr conf now d) := by
  intro d
  induction d with
  | zero =>
    exact keepsWeights_sticky R hR rr _ conf now hrr
      (keepsWeights_lc R hR rr _ now hrr (keepsWeights_busy R hR) (hfind _))
  | succ d ih =>
    exact keepsWeights_sticky R hR rr _ conf now hrr
      (keepsWeights_lc R hR rr _ now hrr ih (hfind _))

theorem ewRel_refl (A : List (Int × Int × Int)) : EwRel A A := by
  refine ⟨rfl, fun k x y hx hy => ?_⟩
  rw [hx] at hy
  cases hy
  exact ⟨rfl, Or.inl rfl⟩

/-- The success exit of the least-connections selection leaves every `weight`
and raises an `effective_weight` by at most 1, from below `weight`. -/
theorem lc_found_ewRel
    (rr : RrPeerData → PeerConnection → Int × RrPeerData × PeerConnection) (now : Int)
    (sticky : State → Int × State) (s : State) (p0 : Nat) (best0 : Peer) (many : Bool)
    (hs : s.rrp.peers.single = false)
    (hscan : lc_scan now s.rrp.tried s.rrp.peers.peer 0 none false = (some (p0, best0), many)) :
    EwRel (s.rrp.peers.peer.map wt)
      ((ngx_http_upstream_get_least_conn_peer_with rr sticky now s).2.rrp.peers.peer.map wt) := by
  rw [lc_with_found rr sticky now s p0 best0 many hs hscan]
  obtain ⟨hE, hskip⟩ := lc_scan_found now s.rrp.tried s.rrp.peers.peer p0 best0 many hscan
  obtain ⟨e1, e2, _⟩ :=
    lc_break_tie_frame now s.rrp.tried s.rrp.peers.peer p0 best0 many hE hskip
  obtain ⟨b1, _⟩ := lc_break_tie_weights now s.rrp.tried s.rrp.peers.peer p0 best0 many hE hskip
  generalize lc_break_tie now s.rrp.tried s.rrp.peers.peer p0 best0 many = t at e1 e2 b1
  show EwRel _ ((t.peers.set t.p (lc_commit now t.total t.best)).map wt)
  refine ⟨by simp [e1], fun k x y hx hy => ?_⟩
  rw [List.getElem?_map] at hx hy
  cases hq : s.rrp.peers.peer[k]? with
  | none => rw [hq] at hx; cases hx
  | some q =>
    rw [hq] at hx
    simp only [Option.map_some'] at hx
    cases hx
    have hmid : ∃ q2, t.peers[k]? = some q2 ∧ q2.weight = q.weight
        ∧ (q2.effective_weight = q.effective_weight
          ∨ (q2.effective_weight = q.effective_weight + 1 ∧ q.effective_weight < q.weight)) := by
      rcases e2 k q hq with h | ⟨h, _⟩
      · exact ⟨q, h, rfl, Or.inl rfl⟩
      · refine ⟨_, h, (tie_written_kept q).2.1, ?_⟩
        rw [tie_written_effective_weight]
        by_cases hlt : q.effective_weight < q.weight
        · rw [if_pos hlt]; exact Or.inr ⟨rfl, hlt⟩
        · rw [if_neg hlt]; exact Or.inl rfl
    obtain ⟨q2, hq2, m1, m2⟩ := hmid
    obtain ⟨c1, c2, c3⟩ := lc_commit_weights now t.total t.best
    by_cases hk : t.p = k
    · subst hk
      rw [List.getElem?_set_self (getElem?_lt_length hq2)] at hy
      simp only [Option.map_some'] at hy
      cases hy
      rw [hq2] at b1
      cases b1
      show (lc_commit now t.total t.best).weight = q.weight
        ∧ ((lc_commit now t.total t.best).effective_weight = q.effective_weight
          ∨ ((lc_commit now t.total t.best).effective_weight = q.effective_weight + 1
            ∧ q.effective_weight < q.weight))
      rw [c2, c3]
      exact ⟨m1, m2⟩
    · rw [List.getElem?_set_ne hk, hq2] at hy
      simp only [Option.map_some'] at hy
      cases hy
      exact ⟨m1, m2⟩

/-- The bound `effective_weight <= weight` passes along the relation. -/
theorem weightsBounded_of_chain (a b : RrPeerData) (hc : ChainRel EwRel a b)
    (ha : WeightsBounded a) : WeightsBounded b := by
  obtain ⟨d, h1, h2⟩ := hc
  intro B hB w hw
  obtain ⟨j, hj⟩ := List.getElem?_of_mem hB
  have hlt : d + j < (wpools a).length := by
    have := getElem?_lt_length hj
    omega
  obtain ⟨A, hA⟩ : ∃ A, (wpools a)[d + j]? = some A :=
    ⟨_, List.getElem?_eq_getElem hlt⟩
  obtain ⟨hlen, hrel⟩ := h2 j A B hA hj
  obtain ⟨k, hk⟩ := List.getElem?_of_mem hw
  have hkl : k < A.length := by
    have := getElem?_lt_length hk
    omega
  have hx : A[k]? = some (A.get ⟨k, hkl⟩) := List.getElem?_eq_getElem hkl
  obtain ⟨r1, r2⟩ := hrel k _ w hx hk
  have hbx := ha A (List.getElem?_mem hA) _ (List.getElem?_mem hx)
  rcases r2 with r | ⟨r, r3⟩
  · rw [r1, r]; exact hbx
  · rw [r1, r]; omega

/-- The fallback branch leaves the round-robin data of the algorithm it calls,
or the data it was entered with. -/
theorem sticky_fallback_rrp_via
    (rr : RrPeerData → PeerConnection → Int × RrPeerData × PeerConnection)
    (lc : State → Int × State) (conf : StickySrvConf) (s : State) :
    (sticky_fallback rr lc conf s).2.rrp = s.rrp
    ∨ (sticky_fallback rr lc conf s).2.rrp = (lc { s with lb_alg := NGX_LB_ALG_LC }).2.rrp
    ∨ (sticky_fallback rr lc conf s).2.rrp = (rr s.rrp s.pc).2.1 := by
  unfold sticky_fallback
  split
  · exact Or.inl rfl
  · split
    · exact Or.inl rfl
    · rename_i ret st2 hsel
      have key : st2.rrp = (lc { s with lb_alg := NGX_LB_ALG_LC }).2.rrp
          ∨ st2.rrp = (rr s.rrp s.pc).2.1 := by
        unfold fallback_select at hsel
        split at hsel
        · cases hsel
          exact Or.inr rfl
        · split at hsel
          · rw [Option.some.injEq] at hsel
            left
            rw [hsel]
          · cases hsel
      split
      · exact Or.inr key
      · show (sticky_cookie_loop conf st2 st2.rrp.peers.peer 0).rrp = _ ∨
          (sticky_cookie_loop conf st2 st2.rrp.peers.peer 0).rrp = _ ∨
          (sticky_cookie_loop conf st2 st2.rrp.peers.peer 0).rrp = _
        rw [sticky_cookie_loop_rrp]
        exact Or.inr key

/-- The sticky selection writes no weight itself: the weights it leaves are
those it was entered with, or those left by the fallback algorithm run on a
state with the weights it was entered with. -/
theorem sticky_with_weights_via
    (rr : RrPeerData → PeerConnection → Int × RrPeerData × PeerConnection)
    (lc : State → Int × State) (conf : StickySrvConf) (now : Int) (s : State) :
    wpools (ngx_http_get_sticky_peer_with rr lc conf now s).2.rrp = wpools s.rrp
    ∨ (∃ s1 : State, wpools s1.rrp = wpools s.rrp
        ∧ (ngx_http_get_sticky_peer_with rr lc conf now s).2.rrp = (lc s1).2.rrp)
    ∨ (∃ s1 : State, wpools s1.rrp = wpools s.rrp
        ∧ (ngx_http_get_sticky_peer_with rr lc conf now s).2.rrp = (rr s1.rrp s1.pc).2.1) := by
  obtain ⟨hret, hgo⟩ := sticky_validate_wpools conf now s
  have hfb : ∀ st1 : State, wpools st1.rrp = wpools s.rrp →
      (wpools (sticky_fallback rr lc conf st1).2.rrp = wpools s.rrp
      ∨ (∃ s1 : State, wpools s1.rrp = wpools s.rrp
          ∧ (sticky_fallback rr lc conf st1).2.rrp = (lc s1).2.rrp)
      ∨ (∃ s1 : State, wpools s1.rrp = wpools s.rrp
          ∧ (sticky_fallback rr lc conf st1).2.rrp = (rr s1.rrp s1.pc).2.1)) := by
    intro st1 g
    rcases sticky_fallback_rrp_via rr lc conf st1 with e | e | e
    · left; rw [e]; exact g
    · exact Or.inr (Or.inl ⟨{ st1 with lb_alg := NGX_LB_ALG_LC }, g, e⟩)
    · exact Or.inr (Or.inr ⟨st1, g, e⟩)
  unfold ngx_http_get_sticky_peer_with
  cases hv : sticky_validate conf now s with
  | ret rc st1 =>
    simp only
    exact Or.inl (hret rc st1 hv)
  | go st1 pr sel n m =>
    obtain ⟨g1, g2⟩ := hgo st1 pr sel n m hv
    cases pr with
    | none => exact hfb st1 g1
    | some x =>
      obtain ⟨sp, peer⟩ := x
      simp only
      split
      · obtain ⟨x, hx1, hx2⟩ := g2 sp peer rfl
        left
        rw [← g1]
        show (st1.rrp.peers.peer.set sp _).map wt :: _ = _
        rw [map_wt_set _ _ _ x hx1 (by rw [hx2]; rfl)]
        rfl
      · exact hfb st1 g1

/-! ## Theorems: the weights across a selection -/

/-- The selection at large weights: two peers of weight `2 ^ 62` after two
selections.  The pool has positive weights and products inside the machine
word, but is not in range: the 64-bit sum at line 602 for peer 1 wraps to
`-2 ^ 63`, peer 0 is returned, and the sum of `current_weight` goes from 0 to
`-2 ^ 64`. -/
theorem least_conn_large_weights :
    NoOverflow ex_heavy.rrp.peers.peer
    ∧ ¬ IncrementInRange ex_heavy.rrp.peers.peer
    ∧ ¬ WeightsInRange ex_heavy.rrp.peers.peer
    ∧ (ngx_http_upstream_get_least_conn_peer ex_rr ex_conf 100 ex_heavy).1 = NGX_OK
    ∧ (ngx_http_upstream_get_least_conn_peer ex_rr ex_conf 100 ex_heavy).2.rrp.current = some 0
    ∧ (ngx_http_upstream_get_least_conn_peer ex_rr ex_conf 100 ex_heavy).2.rrp.peers.peer.map
        (fun q => q.current_weight) = [-9223372036854775808, -9223372036854775808]
    ∧ sum_current_weight ex_heavy.rrp.peers.peer = 0
    ∧ sum_current_weight
        (ngx_http_upstream_get_least_conn_peer ex_rr ex_conf 100 ex_heavy).2.rrp.peers.peer
        = -18446744073709551616 := by
  decide

/-- C24: the bound `effective_weight <= weight`.  Across every call of
`ngx_http_get_sticky_peer` and of `ngx_http_upstream_get_least_conn_peer`, in
every pool that is still in the chain when the call returns, no `weight`
changes, no `effective_weight` decreases, and an `effective_weight` is raised
by at most 1 and only from below `weight`; so if every peer has
`effective_weight <= weight` before the call, every peer has it after.  The
external round-robin selection is taken to do the same.  The sticky selection
writes no weight itself: it leaves the weights it found or those its fallback
algorithm leaves.  In a successful least-connections selection from the
active pool, with positive weights and products inside the machine word, the
peers whose `effective_weight` is raised are exactly the eligible peers with
the ratio of `best0` when the tie flag is set, that is the peers that take part
in the tie-break, whose `effective_weight` is below `weight`. -/
theorem effective_weight_bounded
    (rr : RrPeerData → PeerConnection → Int × RrPeerData × PeerConnection)
    (conf : StickySrvConf) (now : Int) (st : State) (hrr : RrKeepsWeights EwRel rr) :
    ChainRel EwRel st.rrp (ngx_http_get_sticky_peer rr conf now st).2.rrp
    ∧ ChainRel EwRel st.rrp (ngx_http_upstream_get_least_conn_peer rr conf now st).2.rrp
    ∧ (WeightsBounded st.rrp →
        WeightsBounded (ngx_http_get_sticky_peer rr conf now st).2.rrp
        ∧ WeightsBounded (ngx_http_upstream_get_least_conn_peer rr conf now st).2.rrp)
    ∧ (wpools (ngx_http_get_sticky_peer rr conf now st).2.rrp = wpools st.rrp
        ∨ (∃ s1 : State, wpools s1.rrp = wpools st.rrp
            ∧ (ngx_http_get_sticky_peer rr conf now st).2.rrp
                = (ngx_http_upstream_get_least_conn_peer rr conf now s1).2.rrp)
        ∨ (∃ s1 : State, wpools s1.rrp = wpools st.rrp
            ∧ (ngx_http_get_sticky_peer rr conf now st).2.rrp = (rr s1.rrp s1.pc).2.1))
    ∧ (st.rrp.peers.single = false → ¬ SwitchesToBackup now st →
        (ngx_http_upstream_get_least_conn_peer rr conf now st).1 = NGX_OK →
        NoOverflow st.rrp.peers.peer →
        ∃ p0 best0 many,
          lc_scan now st.rrp.tried st.rrp.peers.peer 0 none false = (some (p0, best0), many)
          ∧ ∀ k q, st.rrp.peers.peer[k]? = some q →
              ∃ q1, (ngx_http_upstream_get_least_conn_peer rr conf now st).2.rrp.peers.peer[k]?
                  = some q1
                ∧ q1.weight = q.weight
                ∧ q1.effective_weight
                    = (if (many = true ∧ Eligible now st.rrp.tried k q ∧ RatioEq best0 q)
                          ∧ q.effective_weight < q.weight
                        then q.effective_weight + 1 else q.effective_weight)) := by
  have hst : ChainRel EwRel st.rrp (ngx_http_get_sticky_peer rr conf now st).2.rrp :=
    keepsWeights_depth EwRel ewRel_refl rr conf now hrr
      (fun sticky s p0 best0 many h1 h2 => lc_found_ewRel rr now sticky s p0 best0 many h1 h2) _ st
  have hlc : ChainRel EwRel st.rrp
      (ngx_http_upstream_get_least_conn_peer rr conf now st).2.rrp :=
    keepsWeights_lc EwRel ewRel_refl rr _ now hrr
      (keepsWeights_depth EwRel ewRel_refl rr conf now hrr
        (fun sticky s p0 best0 many h1 h2 => lc_found_ewRel rr now sticky s p0 best0 many h1 h2) _)
      (fun s p0 best0 many h1 h2 => lc_found_ewRel rr now _ s p0 best0 many h1 h2) st
  refine ⟨hst, hlc, fun hb => ⟨weightsBounded_of_chain _ _ hst hb,
    weightsBounded_of_chain _ _ hlc hb⟩, ?_, fun hs hsw hok hwf => ?_⟩
  · rw [get_sticky_peer_unfold]
    exact sticky_with_weights_via rr _ conf now st
  · obtain ⟨p0, best0, many, hscan⟩ := lc_ok_scan rr _ now st hs hsw hok
    obtain ⟨_, p, _, w3⟩ := lc_found_weights rr
      (sticky_depth rr conf now (st.rrp.next.length - 1)) now st p0 best0 many hs hscan hwf
    refine ⟨p0, best0, many, hscan, fun k q hq => ?_⟩
    obtain ⟨q1, r1, _, r3, r4⟩ := w3 k q hq
    exact ⟨q1, r1, r4, r3⟩

theorem effective_weight_bounded_witness :
    RrKeepsWeights EwRel ex_rr
    ∧ WeightsBounded ex_tie.rrp
    ∧ ex_tie.rrp.peers.single = false
    ∧ ¬ SwitchesToBackup 100 ex_tie
    ∧ (ngx_http_upstream_get_least_conn_peer ex_rr ex_conf 100 ex_tie).1 = NGX_OK
    ∧ NoOverflow ex_tie.rrp.peers.peer
    ∧ ChainRel EwRel ex_tie.rrp (ngx_http_get_sticky_peer ex_rr ex_conf 100 ex_tie).2.rrp
    ∧ ChainRel EwRel ex_tie.rrp
        (ngx_http_upstream_get_least_conn_peer ex_rr ex_conf 100 ex_tie).2.rrp
    ∧ (WeightsBounded (ngx_http_get_sticky_peer ex_rr ex_conf 100 ex_tie).2.rrp
        ∧ WeightsBounded (ngx_http_upstream_get_least_conn_peer ex_rr ex_conf 100 ex_tie).2.rrp)
    ∧ (∃ p0 best0 many,
          lc_scan 100 ex_tie.rrp.tried ex_tie.rrp.peers.peer 0 none false
            = (some (p0, best0), many)
          ∧ ∀ k q, ex_tie.rrp.peers.peer[k]? = some q →
              ∃ q1, (ngx_http_upstream_get_least_conn_peer ex_rr ex_conf 100
                      ex_tie).2.rrp.peers.peer[k]? = some q1
                ∧ q1.weight = q.weight
                ∧ q1.effective_weight
                    = (if (many = true ∧ Eligible 100 ex_tie.rrp.tried k q ∧ RatioEq best0 q)
                          ∧ q.effective_weight < q.weight
                        then q.effective_weight + 1 else q.effective_weight)) :=
  ⟨fun rrp _ => chainRel_refl EwRel ewRel_refl rrp,
   (by unfold WeightsBounded; decide), rfl, fun h => h.2 rfl, by decide, by decide,
   (effective_weight_bounded ex_rr ex_conf 100 ex_tie
      (fun rrp _ => chainRel_refl EwRel ewRel_refl rrp)).1,
   (effective_weight_bounded ex_rr ex_conf 100 ex_tie
      (fun rrp _ => chainRel_refl EwRel ewRel_refl rrp)).2.1,
   (effective_weight_bounded ex_rr ex_conf 100 ex_tie
      (fun rrp _ => chainRel_refl EwRel ewRel_refl rrp)).2.2.1 (by unfold WeightsBounded; decide),
   (effective_weight_bounded ex_rr ex_conf 100 ex_tie
      (fun rrp _ => chainRel_refl EwRel ewRel_refl rrp)).2.2.2.2 rfl (fun h => h.2 rfl)
        (by decide) (by decide)⟩

/-! ## Lemmas: the pool locks -/

theorem lock_run_append (a : List Ev) :
    ∀ (held : Option Nat) (b : List Ev),
      lock_run held (a ++ b) = (lock_run held a).bind (fun h => lock_run h b) := by
  induction a with
  | nil => intro held b; rfl
  | cons e rest ih =>
    intro held b
    cases e with
    | wlock k =>
      simp only [List.cons_append, lock_run]
      split
      · exact ih _ b
      · rfl
    | unlock k =>
      simp only [List.cons_append, lock_run]
      split
      · exact ih _ b
      · rfl
    | write k f =>
      simp only [List.cons_append, lock_run]
      exact ih _ b
    | call =>
      simp only [List.cons_append, lock_run]
      split
      · exact ih _ b
      · rfl
    | rr k =>
      simp only [List.cons_append, lock_run]
      split
      · exact ih _ b
      · rfl

theorem lock_run_writes (ws : List Ev) (h : ∀ e ∈ ws, e.isWrite = true) :
    ∀ held, lock_run held ws = some held := by
  induction ws with
  | nil => intro held; rfl
  | cons e rest ih =>
    intro held
    have he := h e (List.mem_cons_self _ _)
    have hr : ∀ x ∈ rest, x.isWrite = true := fun x hx => h x (List.mem_cons_of_mem _ hx)
    cases e with
    | write k f => simp only [lock_run]; exact ih hr held
    | wlock k => cases he
    | unlock k => cases he
    | call => cases he
    | rr k => cases he

/-- A trace that keeps the discipline takes and releases each lock equally
often, up to the lock held at its ends. -/
theorem lock_run_count (k : Nat) (es : List Ev) :
    ∀ (held held1 : Option Nat), lock_run held es = some held1 →
      count_wlock k es + (if held = some k then 1 else 0)
        = count_unlock k es + (if held1 = some k then 1 else 0) := by
  unfold count_wlock count_unlock
  induction es with
  | nil =>
    intro held held1 h
    cases h
    rfl
  | cons e rest ih =>
    intro held held1 h
    cases e with
    | wlock j =>
      simp only [lock_run] at h
      split at h
      · rename_i hn
        have t := ih _ _ h
        subst hn
        rw [List.count_cons, List.count_cons]
        by_cases hj : j = k
        · subst hj
          simp at t ⊢
          omega
        · have h1 : ¬ (some j = some k) := fun e => hj (Option.some.inj e)
          simp [hj, h1] at t ⊢
          omega
      · cases h
    | unlock j =>
      simp only [lock_run] at h
      split at h
      · rename_i hn
        have t := ih _ _ h
        subst hn
        rw [List.count_cons, List.count_cons]
        by_cases hj : j = k
        · subst hj
          simp at t ⊢
          omega
        · have h1 : ¬ (some j = some k) := fun e => hj (Option.some.inj e)
          simp [hj, h1] at t ⊢
          omega
      · cases h
    | write j f =>
      simp only [lock_run] at h
      have t := ih _ _ h
      rw [List.count_cons, List.count_cons]
      simp at t ⊢
      omega
    | call =>
      simp only [lock_run] at h
      split at h
      · have t := ih _ _ h
        rw [List.count_cons, List.count_cons]
        simp at t ⊢
        omega
      · cases h
    | rr j =>
      simp only [lock_run] at h
      split at h
      · have t := ih _ _ h
        rw [List.count_cons, List.count_cons]
        simp at t ⊢
        omega
      · cases h

theorem mem_of_mem_ite {c : Prop} [Decidable c] {a b : List Ev} {e : Ev}
    (h : e ∈ (if c then a else b)) : e ∈ a ∨ e ∈ b := by
  split at h
  · exact Or.inl h
  · exact Or.inr h

theorem lc_tie_events_writes (now : Int) (tried : List Nat) (k : Nat) :
    ∀ (l : List Peer) (i p : Nat) (best : Peer),
      ∀ e ∈ lc_tie_events now tried k l i p best, e.isWrite = true := by
  intro l
  induction l with
  | nil => intro i p best e he; cases he
  | cons x rest ih =>
    intro i p best e he
    unfold lc_tie_events at he
    rcases mem_of_mem_ite he with he | he
    · exact ih _ _ _ e he
    · rcases mem_of_mem_ite he with he | he
      · exact ih _ _ _ e he
      · rcases mem_of_mem_ite he with he | he
        · exact ih _ _ _ e he
        · rcases mem_of_mem_ite he with he | he
          · exact ih _ _ _ e he
          · simp only [List.mem_cons, List.mem_append] at he
            rcases he with he | he | he
            · rw [he]; rfl
            · rcases mem_of_mem_ite he with he | he
              · simp only [List.mem_singleton] at he
                rw [he]; rfl
              · cases he
            · rcases mem_of_mem_ite he with he | he
              · exact ih _ _ _ e he
              · exact ih _ _ _ e he

theorem sticky_eligible_events_writes (now : Int) (k : Nat) (peer : Peer) :
    ∀ e ∈ sticky_eligible_events now k peer, e.isWrite = true := by
  intro e he
  unfold sticky_eligible_events at he
  rcases mem_of_mem_ite he with he | he
  · cases he
  · rcases mem_of_mem_ite he with he | he
    · simp only [List.mem_singleton] at he
      rw [he]; rfl
    · simp only [List.mem_singleton] at he
      rw [he]; rfl

theorem sticky_validate_events_writes (conf : StickySrvConf) (now : Int) (k : Nat)
    (st : State) : ∀ e ∈ sticky_validate_events conf now k st, e.isWrite = true := by
  intro e he
  unfold sticky_validate_events at he
  simp only at he
  rcases mem_of_mem_ite he with he | he
  · rcases mem_of_mem_ite he with he | he
    · cases hp : st.rrp.peers.peer[st.selected_peer.toNat]? with
      | none => rw [hp] at he; cases he
      | some peer =>
        rw [hp] at he
        simp only at he
        rcases mem_of_mem_ite he with he | he
        · cases he
        · rcases mem_of_mem_ite he with he | he
          · rw [List.mem_append] at he
            rcases he with he | he
            · rcases mem_of_mem_ite he with he | he
              · simp only [List.mem_singleton] at he
                rw [he]; rfl
              · cases he
            · rcases mem_of_mem_ite he with he | he
              · cases he
              · exact sticky_eligible_events_writes _ _ _ e he
          · exact sticky_eligible_events_writes _ _ _ e he
    · cases he
  · cases he

/-- A section of stores between taking and releasing a lock. -/
theorem lock_run_section (k : Nat) (ws rest : List Ev) (h : ∀ e ∈ ws, e.isWrite = true) :
    lock_run none (Ev.wlock k :: (ws ++ Ev.unlock k :: rest)) = lock_run none rest := by
  show (if (none : Option Nat) = none then lock_run (some k) (ws ++ Ev.unlock k :: rest)
    else none) = _
  rw [if_pos rfl, lock_run_append, lock_run_writes ws h]
  show (if some k = some k then lock_run none rest else none) = _
  rw [if_pos rfl]

theorem lock_run_call (rest : List Ev) :
    lock_run none (Ev.call :: rest) = lock_run none rest := by
  show (if (none : Option Nat) = none then lock_run none rest else none) = _
  rw [if_pos rfl]

theorem lock_run_backup_shape (k : Nat) (ws sev tl : List Ev)
    (hws : ∀ e ∈ ws, e.isWrite = true) (hsev : lock_run none sev = some none)
    (htl : lock_run none tl = some none) :
    lock_run none (Ev.wlock k :: (ws ++ [Ev.unlock k, Ev.call] ++ sev ++ tl)) = some none := by
  have e : ws ++ [Ev.unlock k, Ev.call] ++ sev ++ tl
      = ws ++ Ev.unlock k :: (Ev.call :: (sev ++ tl)) := by simp
  rw [e, lock_run_section k ws _ hws, lock_run_call, lock_run_append, hsev]
  exact htl

theorem lock_run_found_shape (k : Nat) (a b : List Ev) (w1 w2 w3 : Ev)
    (ha : ∀ e ∈ a, e.isWrite = true) (hb : ∀ e ∈ b, e.isWrite = true)
    (h1 : w1.isWrite = true) (h2 : w2.isWrite = true) (h3 : w3.isWrite = true) :
    lock_run none (Ev.wlock k :: (a ++ [w1] ++ b ++ [w2, w3, Ev.unlock k])) = some none := by
  have e : a ++ [w1] ++ b ++ [w2, w3, Ev.unlock k]
      = (a ++ [w1] ++ b ++ [w2, w3]) ++ Ev.unlock k :: [] := by simp
  rw [e, lock_run_section k _ _ (fun x hx => by
    simp only [List.mem_append, List.mem_cons, List.mem_singleton, List.not_mem_nil,
      or_false] at hx
    rcases hx with ((hx | hx) | hx) | hx | hx
    · exact ha x hx
    · rw [hx]; exact h1
    · exact hb x hx
    · rw [hx]; exact h2
    · rw [hx]; exact h3)]
  rfl

/-- The least-connections selection keeps the lock discipline when the sticky
selection it calls does. -/
theorem lock_run_lc (sticky : State → Int × State) (sticky_events : State → List Ev)
    (now : Int) (k : Nat)
    (hst : ∀ s, lock_run none (sticky_events s) = some none) (st : State) :
    lock_run none (ngx_http_upstream_get_least_conn_peer_events sticky sticky_events now k st)
      = some none := by
  unfold ngx_http_upstream_get_least_conn_peer_events
  split
  · show (if (none : Option Nat) = none then lock_run none [] else none) = _
    rw [if_pos rfl]
    rfl
  · simp only
    split
    · split
      · apply lock_run_backup_shape
        · intro e he
          rw [List.eq_of_mem_replicate he]
          rfl
        · exact hst _
        · split
          · rfl
          · exact lock_run_section k [] [] (fun _ h => by cases h)
      · exact lock_run_section k [] [] (fun _ h => by cases h)
    · apply lock_run_found_shape
      · intro e he
        rcases mem_of_mem_ite he with he | he
        · exact lc_tie_events_writes _ _ _ _ _ _ _ e he
        · cases he
      · intro e he
        rcases mem_of_mem_ite he with he | he
        · simp only [List.mem_singleton] at he
          rw [he]; rfl
        · cases he
      · rfl
      · rfl
      · rfl

/-- The sticky selection keeps the lock discipline when the least-connections
selection it falls back to does. -/
theorem lock_run_sticky (lc_events : State → List Ev) (conf : StickySrvConf) (now : Int)
    (k : Nat) (hlc : ∀ s, lock_run none (lc_events s) = some none) (st : State) :
    lock_run none (ngx_http_get_sticky_peer_events lc_events conf now k st) = some none := by
  have hfb : ∀ s, lock_run none (sticky_fallback_events lc_events conf k s) = some none := by
    intro s
    unfold sticky_fallback_events
    split
    · rfl
    · split
      · show (if (none : Option Nat) = none then lock_run none [] else none) = _
        rw [if_pos rfl]
        rfl
      · split
        · exact hlc _
        · rfl
  unfold ngx_http_get_sticky_peer_events
  rw [lock_run_append, lock_run_writes _ (sticky_validate_events_writes conf now k st)]
  show lock_run none _ = some none
  split
  · rfl
  · split
    · rfl
    · exact hfb _
  · exact hfb _

theorem lock_run_depth
    (rr : RrPeerData → PeerConnection → Int × RrPeerData × PeerConnection)
    (conf : StickySrvConf) (now : Int) :
    ∀ (d k : Nat) (st : State), lock_run none (sticky_events_depth rr conf now d k st)
      = some none := by
  intro d
  induction d with
  | zero =>
    intro k st
    exact lock_run_sticky _ conf now k
      (lock_run_lc (fun st => (NGX_BUSY, st)) (fun _ => []) now k (fun _ => rfl)) st
  | succ d ih =>
    intro k st
    exact lock_run_sticky _ conf now k (lock_run_lc _ _ now k (ih (k + 1))) st

/-! ## Theorems: the pool locks -/

/-- C26 (the code at the failing input): least connections is the fallback,
the pool has two healthy peers and the cookie names peer 0.
`ngx_http_get_sticky_peer` returns OK with peer 0; its trace is the store to
`conns` of peer 0 (line 367) and the store to the bitmap (line 368) and holds
no call of `ngx_http_upstream_rr_peers_wlock`, so both stores are made with no
lock held.  With a candidate that failed long ago the store `fails = 0` (line
338) is made the same way.  On the same pool without a cookie
`ngx_http_upstream_get_least_conn_peer` makes its stores between taking and
releasing the lock of the pool. -/
theorem sticky_writes_without_lock :
    sticky_trace ex_rr ex_conf 100 (ex_sticky [ex_peer 100 0 1, ex_peer 101 0 1])
      = [Ev.write 0 Field.conns, Ev.write 0 Field.tried]
    ∧ writes_locked none
        (sticky_trace ex_rr ex_conf 100 (ex_sticky [ex_peer 100 0 1, ex_peer 101 0 1])) = false
    ∧ (ngx_http_get_sticky_peer ex_rr ex_conf 100
        (ex_sticky [ex_peer 100 0 1, ex_peer 101 0 1])).1 = NGX_OK
    ∧ (ngx_http_get_sticky_peer ex_rr ex_conf 100
        (ex_sticky [ex_peer 100 0 1, ex_peer 101 0 1])).2.rrp.peers.peer
        = [{ ex_peer 100 0 1 with conns := 1 }, ex_peer 101 0 1]
    ∧ (ngx_http_get_sticky_peer ex_rr ex_conf 100
        (ex_sticky [ex_peer 100 0 1, ex_peer 101 0 1])).2.rrp.tried = [1]
    ∧ sticky_trace ex_rr ex_conf 100 (ex_sticky [ex_failed 100 5, ex_peer 101 0 1])
      = [Ev.write 0 Field.fails, Ev.write 0 Field.conns, Ev.write 0 Field.tried]
    ∧ least_conn_trace ex_rr ex_conf 100 (ex_state [ex_peer 100 0 1, ex_peer 101 0 1])
      = [Ev.wlock 0, Ev.write 0 Field.current_weight, Ev.write 0 Field.current_weight,
         Ev.write 0 Field.current_weight, Ev.write 0 Field.checked, Ev.write 0 Field.conns,
         Ev.write 0 Field.tried, Ev.unlock 0]
    ∧ writes_locked none
        (least_conn_trace ex_rr ex_conf 100 (ex_state [ex_peer 100 0 1, ex_peer 101 0 1]))
        = true := by
  decide

/-- C27: lock balance.  The trace of every call of
`ngx_http_upstream_get_least_conn_peer`, with the traces of the selections it
calls after a switch to the backup pool, keeps the lock discipline and ends
with no lock held: a lock is taken only while none is held, released only
while it is the one held, and none is held at the call of
`ngx_http_get_sticky_peer` or of the round-robin selection; so every pool lock
is released as often as it is taken.  On a pool that is not single the call
does take the lock of the active pool, first thing. -/
theorem least_conn_lock_balance
    (rr : RrPeerData → PeerConnection → Int × RrPeerData × PeerConnection)
    (conf : StickySrvConf) (now : Int) (st : State) :
    lock_run none (least_conn_trace rr conf now st) = some none
    ∧ (∀ k, count_wlock k (least_conn_trace rr conf now st)
        = count_unlock k (least_conn_trace rr conf now st))
    ∧ (st.rrp.peers.single = false → ∃ es, least_conn_trace rr conf now st = Ev.wlock 0 :: es) := by
  have h : lock_run none (least_conn_trace rr conf now st) = some none :=
    lock_run_lc _ _ now 0 (lock_run_depth rr conf now _ 1) st
  refine ⟨h, fun k => ?_, fun hs => ?_⟩
  · have t := lock_run_count k _ none none h
    simpa using t
  · unfold least_conn_trace ngx_http_upstream_get_least_conn_peer_events
    rw [if_neg (by rw [hs]; decide)]
    exact ⟨_, rfl⟩

theorem least_conn_lock_balance_witness :
    (ex_backup [ex_down 100, ex_down 101] [ex_down 200, ex_peer 201 0 1] [0] 0).rrp.peers.single
      = false
    ∧ least_conn_trace ex_rr ex_conf 100
        (ex_backup [ex_down 100, ex_down 101] [ex_down 200, ex_peer 201 0 1] [0] 0)
      = [Ev.wlock 0, Ev.write 1 Field.tried, Ev.unlock 0, Ev.call, Ev.wlock 0, Ev.unlock 0]
    ∧ lock_run none (least_conn_trace ex_rr ex_conf 100
        (ex_backup [ex_down 100, ex_down 101] [ex_down 200, ex_peer 201 0 1] [0] 0)) = some none
    ∧ (∀ k, count_wlock k (least_conn_trace ex_rr ex_conf 100
          (ex_backup [ex_down 100, ex_down 101] [ex_down 200, ex_peer 201 0 1] [0] 0))
        = count_unlock k (least_conn_trace ex_rr ex_conf 100
          (ex_backup [ex_down 100, ex_down 101] [ex_down 200, ex_peer 201 0 1] [0] 0)))
    ∧ (∃ es, least_conn_trace ex_rr ex_conf 100
          (ex_backup [ex_down 100, ex_down 101] [ex_down 200, ex_peer 201 0 1] [0] 0)
        = Ev.wlock 0 :: es) :=
  ⟨rfl, by decide,
   (least_conn_lock_balance ex_rr ex_conf 100
      (ex_backup [ex_down 100, ex_down 101] [ex_down 200, ex_peer 201 0 1] [0] 0)).1,
   (least_conn_lock_balance ex_rr ex_conf 100
      (ex_backup [ex_down 100, ex_down 101] [ex_down 200, ex_peer 201 0 1] [0] 0)).2.1,
   (least_conn_lock_balance ex_rr ex_conf 100
      (ex_backup [ex_down 100, ex_down 101] [ex_down 200, ex_peer 201 0 1] [0] 0)).2.2 rfl⟩

end Sticky
